import Mathlib

/-!
# gotty: a verification development for `Format`

The program under study is the single Go file `gotty.go`: a byte-size
formatter built on `float64` arithmetic, `math.Log`, `math.Log10`, `math.Pow`,
`math.Floor`, `math.Round`, `math.Min` and `strconv.FormatFloat`.

The embedding is shallow.  A `float64` is its IEEE-754 binary64 bit pattern
(sign, biased exponent, fraction); the four arithmetic operations are the
exact result rounded to nearest, ties to even; the functions of package `math`
follow the portable Go implementations operation by operation (no fused
multiply-add), and `strconv.FormatFloat(x, 'f', -1, 64)` is the shortest
decimal that reads back as `x`, written in fixed notation.
-/

namespace Gotty

/-! ## numbers

Exact values are rationals, bit patterns are natural numbers and keys are
integers. The structures of `ℚ`, `ℤ` and `ℕ` that the arithmetic of this
development uses are fixed here as the ones of the algebraic and order
hierarchy. -/

/-- The ring structure of `ℚ`, from `Rat.commRing`. -/
instance ratRing : Ring ℚ := CommRing.toRing

/-- The non-unital commutative ring structure of `ℚ`, from `Rat.commRing`. -/
instance ratNonUnitalCommRing : NonUnitalCommRing ℚ := CommRing.toNonUnitalCommRing

/-- The non-unital ring structure of `ℚ`, from `ratRing`. -/
instance ratNonUnitalRing : NonUnitalRing ℚ := Ring.toNonUnitalRing

/-- In `ℚ`, `a ≤ b` gives a `c` with `b = a + c`: `ℚ` is an additive group. -/
instance ratExistsAddOfLE : ExistsAddOfLE ℚ := AddGroup.existsAddOfLE ℚ

/-- In `ℚ`, `0 ≤ 1`, from the ordered semiring structure. -/
instance ratZeroLEOneClass : ZeroLEOneClass ℚ := OrderedSemiring.zeroLEOneClass

/-- The ring structure of `ℤ`, from its commutative ring structure. -/
instance intRing : Ring ℤ := CommRing.toRing

/-- The non-unital commutative ring structure of `ℤ`. -/
instance intNonUnitalCommRing : NonUnitalCommRing ℤ := CommRing.toNonUnitalCommRing

/-- The non-unital ring structure of `ℤ`, from `intRing`. -/
instance intNonUnitalRing : NonUnitalRing ℤ := Ring.toNonUnitalRing

/-- In `ℤ`, `a ≤ b` gives a `c` with `b = a + c`: `ℤ` is an additive group. -/
instance intExistsAddOfLE : ExistsAddOfLE ℤ := AddGroup.existsAddOfLE ℤ

/-- In `ℤ`, `0 ≤ 1`, from the ordered semiring structure. -/
instance intZeroLEOneClass : ZeroLEOneClass ℤ := OrderedSemiring.zeroLEOneClass

/-- In `ℕ`, `a ≤ b` gives a `c` with `b = a + c`. -/
instance natExistsAddOfLE : ExistsAddOfLE ℕ := CanonicallyOrderedAddCommMonoid.existsAddOfLE ℕ

/-- In `ℕ`, `0 ≤ 1`, from the ordered semiring structure. -/
instance natZeroLEOneClass : ZeroLEOneClass ℕ := OrderedSemiring.zeroLEOneClass

/-! ## float64 -/

/-- The Go type `float64`: an IEEE-754 binary64 bit pattern. -/
structure F64 where
  sign : Bool
  expo : Fin 2048
  frac : Fin 4503599627370496
deriving DecidableEq

namespace F64

/-- Two to the 52, the weight of the hidden bit. -/
def hidden : Nat := 4503599627370496

/-- Build a float from its three fields, each reduced to its width. -/
def mk3 (s : Bool) (e f : Nat) : F64 :=
  ⟨s, ⟨e % 2048, Nat.mod_lt _ (by decide)⟩, ⟨f % 4503599627370496, Nat.mod_lt _ (by decide)⟩⟩

/-- Signed zero. -/
def zero (s : Bool) : F64 := mk3 s 0 0

/-- Signed infinity, `math.Inf`. -/
def inf (s : Bool) : F64 := mk3 s 2047 0

/-- The quiet not-a-number that `math.NaN()` returns. -/
def nan : F64 := mk3 false 2047 2251799813685249

/-- Go `math.IsNaN`. -/
def IsNaN (x : F64) : Bool := x.expo.val == 2047 && x.frac.val != 0

/-- Go `math.IsInf(x, sign)`: `sign > 0` asks for `+Inf`, `sign < 0` for `-Inf`,
`sign == 0` for either. -/
def IsInf (x : F64) (sgn : Int) : Bool :=
  x.expo.val == 2047 && x.frac.val == 0 &&
    ((decide (0 ≤ sgn) && !x.sign) || (decide (sgn ≤ 0) && x.sign))

/-- Neither an infinity nor a NaN. -/
def finite (x : F64) : Bool := x.expo.val != 2047

/-- Integer significand of a finite float (hidden bit included for normals). -/
def mant (x : F64) : Nat := if x.expo.val = 0 then x.frac.val else hidden + x.frac.val

/-- Binary exponent of a finite float: its magnitude is `mant * 2 ^ exp2`. -/
def exp2 (x : F64) : Int := if x.expo.val = 0 then -1074 else (x.expo.val : Int) - 1075

/-- The key that orders non-NaN floats: the magnitude bits, negated for
negative floats (both zeros have key 0). -/
def key (x : F64) : Int :=
  if x.sign then -((x.expo.val * hidden + x.frac.val : Nat) : Int)
  else ((x.expo.val * hidden + x.frac.val : Nat) : Int)

/-- Go `a < b` on float64. -/
def lt (a b : F64) : Bool := !a.IsNaN && !b.IsNaN && decide (a.key < b.key)

/-- Go `a == b` on float64. -/
def eq (a b : F64) : Bool := !a.IsNaN && !b.IsNaN && decide (a.key = b.key)

/-- Go `a >= b` on float64. -/
def ge (a b : F64) : Bool := !a.IsNaN && !b.IsNaN && decide (b.key ≤ a.key)

/-- Go unary minus: flips the sign bit. -/
def neg (x : F64) : F64 := ⟨!x.sign, x.expo, x.frac⟩

/-- The magnitude bits of a float: biased exponent and fraction as one number. -/
def mkey (x : F64) : Nat := x.expo.val * hidden + x.frac.val

/-- The magnitude of a finite float as a rational number. -/
def mag (x : F64) : ℚ := (x.mant : ℚ) * 2 ^ x.exp2

/-- The value of a finite float as a rational number. -/
def val (x : F64) : ℚ := if x.sign then -x.mag else x.mag

/-- Fit a magnitude `m * 2 ^ e` that rounding produced (`m ≤ 2 ^ 53`,
`e ≥ -1074`) into the format: carry out of the significand, overflow to
infinity, subnormal or normal encoding. -/
def pack (s : Bool) (m : Nat) (e : Int) : F64 :=
  if m = 2 * hidden then
    (if e + 1 > 971 then inf s else mk3 s (e + 1 + 1075).toNat 0)
  else if e > 971 then inf s
  else if m < hidden then mk3 s 0 m
  else mk3 s (e + 1075).toNat (m - hidden)

/-- Bit length of `n`, by halving; the first argument bounds the number of steps. -/
def bitLenAux : Nat → Nat → Nat
  | 0, _ => 0
  | fuel + 1, n => if n = 0 then 0 else bitLenAux fuel (n / 2) + 1

/-- One step of the bisection for the position of the top bit of `n`: `S` is a
lower bound of that position, and `k` is added to it when `n` has a bit at
position `S + k` or above. -/
def bitLenStep (n k S : Nat) : Nat :=
  Nat.add S (Nat.mul k (Nat.sub 1 (Nat.sub 1 (Nat.shiftRight n (Nat.add S k)))))

/-- Bit length of `n < 2 ^ 8192`, by bisection on the position of the top bit:
thirteen steps, then one more for the lowest bit. -/
def bitLenBis (n : Nat) : Nat :=
  Nat.add
    (bitLenStep n 1 (bitLenStep n 2 (bitLenStep n 4 (bitLenStep n 8 (bitLenStep n 16
      (bitLenStep n 32 (bitLenStep n 64 (bitLenStep n 128 (bitLenStep n 256
        (bitLenStep n 512 (bitLenStep n 1024 (bitLenStep n 2048
          (bitLenStep n 4096 0)))))))))))))
    (Nat.sub 1 (Nat.sub 1 n))

/-- Bit length of `n`: the least `k` with `n < 2 ^ k`. -/
@[irreducible] def bitLen (n : Nat) : Nat :=
  if n < 2 ^ 8192 then bitLenBis n else bitLenAux n n

/-- Floor of the base-2 logarithm of the positive rational `n / d`: one less
than the bit length of the quotient when `d ≤ n`, and minus the bit length of
`(d - 1) / n` (the least `m` with `d ≤ n * 2 ^ m`) otherwise. -/
def ilog2 (n d : Nat) : Int :=
  cond (Nat.ble d n) (Int.ofNat (Nat.sub (bitLen (Nat.div n d)) 1))
    (Int.negSucc (Nat.sub (bitLen (Nat.div (Nat.sub d 1) n)) 1))

/-- The binary exponent at which `n / d` is rounded: 53 significant bits, never
below the subnormal exponent. -/
def roundExp (n d : Nat) : Int := max (ilog2 n d - 52) (-1074)

/-- The quotient `num / den` rounded to the nearest integer, ties to even. -/
def rne (num den : Nat) : Nat :=
  if den < 2 * (num % den) || (decide (2 * (num % den) = den) && decide (num / den % 2 = 1))
  then num / den + 1 else num / den

/-- The integer significand of `n / d` at the exponent `roundExp n d`: the
quotient `n / d / 2 ^ e` rounded to the nearest integer, ties to even. -/
def roundSig (n d : Nat) : Nat :=
  rne (n * 2 ^ (-roundExp n d).toNat) (d * 2 ^ (roundExp n d).toNat)

/-- Round the non-negative rational `n / d` (`d > 0`) to the nearest float,
ties to even, and give it the sign `s`. -/
def round (s : Bool) (n d : Nat) : F64 :=
  if n = 0 then zero s else pack s (roundSig n d) (roundExp n d)

/-- Round `n / d * 2 ^ e` to the nearest float with sign `s`. -/
def roundScaled (s : Bool) (n d : Nat) (e : Int) : F64 :=
  round s (n * 2 ^ e.toNat) (d * 2 ^ (-e).toNat)

/-- A decimal constant `n / d` of the source text, converted to float64. -/
def ofDec (n d : Nat) : F64 := round false n d

/-- Go `float64(i)` for an integer `i`. -/
def ofInt (i : Int) : F64 := round (decide (i < 0)) i.natAbs 1

/-- Go `a * b`. -/
def mul (a b : F64) : F64 :=
  if a.IsNaN || b.IsNaN then nan
  else if !a.finite then (if b.mant = 0 && b.finite then nan else inf (xor a.sign b.sign))
  else if !b.finite then (if a.mant = 0 then nan else inf (xor a.sign b.sign))
  else roundScaled (xor a.sign b.sign) (a.mant * b.mant) 1 (a.exp2 + b.exp2)

/-- Go `a / b`. -/
def div (a b : F64) : F64 :=
  if a.IsNaN || b.IsNaN then nan
  else if !a.finite then (if !b.finite then nan else inf (xor a.sign b.sign))
  else if !b.finite then zero (xor a.sign b.sign)
  else if b.mant = 0 then (if a.mant = 0 then nan else inf (xor a.sign b.sign))
  else roundScaled (xor a.sign b.sign) a.mant b.mant (a.exp2 - b.exp2)

/-- The signed integer `(-1)^sign * mant * 2 ^ (exp2 - e)` of a finite float:
its value counted in units of `2 ^ e`, for `e ≤ exp2`. -/
def ulps (x : F64) (e : Int) : Int :=
  let u : Int := ((x.mant * 2 ^ (x.exp2 - e).toNat : Nat) : Int)
  if x.sign then -u else u

/-- Go `a + b`. -/
def add (a b : F64) : F64 :=
  if a.IsNaN || b.IsNaN then nan
  else if !a.finite then
    (if !b.finite && a.sign != b.sign then nan else inf a.sign)
  else if !b.finite then inf b.sign
  else
    let e : Int := min a.exp2 b.exp2
    let t : Int := a.ulps e + b.ulps e
    if t = 0 then zero (a.sign && b.sign)
    else roundScaled (decide (t < 0)) t.natAbs 1 e

/-- Go `a - b`. -/
def sub (a b : F64) : F64 := add a (neg b)

/-- The float `r` is the rounding of the exact rational value `v`: the relation
between the result of an arithmetic operation and its exact result. -/
def Rounds (r : F64) (v : ℚ) : Prop :=
  ∃ (s : Bool) (n d : Nat), 0 < d ∧ r = round s n d ∧ v = (if s then -((n : ℚ) / d) else (n : ℚ) / d)

/-- The 64-bit pattern of a float, Go `math.Float64bits`. -/
def bits (x : F64) : Nat :=
  (if x.sign then 9223372036854775808 else 0) + x.expo.val * hidden + x.frac.val

/-- The float with a given 64-bit pattern, Go `math.Float64frombits`. -/
def ofBits (b : Nat) : F64 :=
  mk3 (decide (b / 9223372036854775808 % 2 = 1)) (b / hidden) b

/-- Go `math.Floor`: the greatest integer value not above `x`; zeros,
infinities and NaN are returned unchanged. -/
def Floor (x : F64) : F64 :=
  if x.mant = 0 || !x.finite then x
  else if 0 ≤ x.exp2 then x
  else
    let k := (-x.exp2).toNat
    let ip := x.mant / 2 ^ k
    if x.sign then round true (if x.mant % 2 ^ k = 0 then ip else ip + 1) 1
    else round false ip 1

/-- Go `math.Round`, the bit-level implementation: nearest integer, halves away
from zero. -/
def Round (x : F64) : F64 :=
  let e := x.expo.val
  if e < 1023 then
    (if e = 1022 then mk3 x.sign 1023 0 else mk3 x.sign 0 0)
  else if e < 1023 + 52 then
    let b := x.bits + 2251799813685248 / 2 ^ (e - 1023)
    ofBits (b - b % 2 ^ (52 - (e - 1023)))
  else x

/-- Go `math.Min`. -/
def Min (x y : F64) : F64 :=
  if x.IsInf (-1) || y.IsInf (-1) then inf true
  else if x.IsNaN || y.IsNaN then nan
  else if x.eq (zero false) && x.eq y then (if x.sign then x else y)
  else if x.lt y then x
  else y

/-- Go `math.Frexp`: `x = frac * 2 ^ exp` with `frac` in `[1/2, 1)`; zeros,
infinities and NaN come back with exponent 0. -/
def Frexp (x : F64) : F64 × Int :=
  if x.mant = 0 || !x.finite then (x, 0)
  else (roundScaled x.sign x.mant 1 (-(bitLen x.mant : Int)), x.exp2 + (bitLen x.mant : Int))

/-- Go `math.Ldexp`: `frac * 2 ^ exp`, rounded once. -/
def Ldexp (fr : F64) (exp : Int) : F64 :=
  if fr.mant = 0 || !fr.finite then fr
  else roundScaled fr.sign fr.mant 1 (fr.exp2 + exp)

/-- Go conversion `int(x)` of a float: truncation toward zero.  The language
leaves the result open when the value does not fit (infinities, NaN, beyond
64 bits); those cases give `none`. -/
def toInt (x : F64) : Option Int :=
  if !x.finite then none
  else
    let a : Nat := x.mant * 2 ^ x.exp2.toNat / 2 ^ (-x.exp2).toNat
    if x.sign then (if a ≤ 9223372036854775808 then some (-(a : Int)) else none)
    else (if a < 9223372036854775808 then some (a : Int) else none)

/-! ### package math: constants and logarithms -/

/-- Go constant `math.Ln2`, as the exact decimal of the source text. -/
def Ln2num : Nat := 693147180559945309417232121458176568

/-- Go constant `math.Ln10` times ten to the 35. -/
def Ln10num : Nat := 230258509299404568401799145468436421

/-- Go constant `math.Sqrt2` times ten to the 62. -/
def Sqrt2num : Nat := 141421356237309504880168872420969807856967187537694807317667974

/-- Constant `Ln2Hi` of `log.go`. -/
def Ln2Hi : F64 := ofDec 693147180369123816490 (10 ^ 21)

/-- Constant `Ln2Lo` of `log.go`. -/
def Ln2Lo : F64 := ofDec 190821492927058770002 (10 ^ 30)

/-- Constant `L1` of `log.go`. -/
def L1 : F64 := ofDec 6666666666666735130 (10 ^ 19)

/-- Constant `L2` of `log.go`. -/
def L2 : F64 := ofDec 3999999999940941908 (10 ^ 19)

/-- Constant `L3` of `log.go`. -/
def L3 : F64 := ofDec 2857142874366239149 (10 ^ 19)

/-- Constant `L4` of `log.go`. -/
def L4 : F64 := ofDec 2222219843214978396 (10 ^ 19)

/-- Constant `L5` of `log.go`. -/
def L5 : F64 := ofDec 1818357216161805012 (10 ^ 19)

/-- Constant `L6` of `log.go`. -/
def L6 : F64 := ofDec 1531383769920937332 (10 ^ 19)

/-- Constant `L7` of `log.go`. -/
def L7 : F64 := ofDec 1479819860511658591 (10 ^ 19)

/-- The quotient `s := f / (2 + f)` of `log.go`. -/
def logS (f : F64) : F64 := div f (add (ofInt 2) f)

/-- The polynomial `R := t1 + t2` of `log.go`, with `s2 := s * s`,
`s4 := s2 * s2`, `t1 := s2 * (L1 + s4*(L3+s4*(L5+s4*L7)))` and
`t2 := s4 * (L2 + s4*(L4+s4*L6))`. -/
def logR (s : F64) : F64 :=
  let s2 := mul s s
  let s4 := mul s2 s2
  let t1 := mul s2 (add L1 (mul s4 (add L3 (mul s4 (add L5 (mul s4 L7))))))
  let t2 := mul s4 (add L2 (mul s4 (add L4 (mul s4 L6))))
  add t1 t2

/-- The term `hfsq := 0.5 * f * f` of `log.go`. -/
def logHfsq (f : F64) : F64 := mul (mul (ofDec 5 10) f) f

/-- The result `k*Ln2Hi - ((hfsq - (s*(hfsq+R) + k*Ln2Lo)) - f)` of `log.go`. -/
def logCore (k f : F64) : F64 :=
  sub (mul k Ln2Hi)
    (sub (sub (logHfsq f) (add (mul (logS f) (add (logHfsq f) (logR (logS f)))) (mul k Ln2Lo))) f)

/-- The constant `Sqrt2/2` of `log.go`, converted to float64. -/
def Sqrt2Half : F64 := ofDec Sqrt2num (2 * 10 ^ 62)

/-- Go `math.Log`, the portable implementation of `log.go`:
argument reduction `x = 2 ^ k * (1 + f)` with `sqrt 2 / 2 ≤ 1 + f < sqrt 2`
(`f1, ki := Frexp(x)`, doubled when `f1 < Sqrt2/2`), then
`log (1 + f) = f - (hfsq - s * (hfsq + R))` with `s = f / (2 + f)`. -/
def Log (x : F64) : F64 :=
  if x.IsNaN || x.IsInf 1 then x
  else if x.lt (zero false) then nan
  else if x.eq (zero false) then inf true
  else
    let fk := Frexp x
    let f1 := if fk.1.lt Sqrt2Half then mul fk.1 (ofInt 2) else fk.1
    let ki := if fk.1.lt Sqrt2Half then fk.2 - 1 else fk.2
    logCore (ofInt ki) (sub f1 (ofInt 1))

/-- The constant `1/Ln2` of `log10.go`, converted to float64. -/
def InvLn2 : F64 := ofDec (10 ^ 36) Ln2num

/-- The constant `Ln2/Ln10` of `log10.go`, converted to float64. -/
def Ln2OverLn10 : F64 := ofDec Ln2num (10 * Ln10num)

/-- Go `math.Log2`, the portable implementation of `log10.go`. -/
def Log2 (x : F64) : F64 :=
  let fe := Frexp x
  if fe.1.eq (ofDec 5 10) then ofInt (fe.2 - 1)
  else add (mul (Log fe.1) InvLn2) (ofInt fe.2)

/-- Go `math.Log10`, the portable implementation of `log10.go`:
`math.Log2(x) * (Ln2 / Ln10)`. -/
def Log10 (x : F64) : F64 :=
  mul (Log2 x) Ln2OverLn10

/-- The loop of `pow.go` that multiplies the answer `a1 * 2 ^ ae` by
`(x1 * 2 ^ xe) ^ i`, by repeated squaring; the first argument bounds the number
of iterations (`i` has at most 64 bits). -/
def powLoop : Nat → Nat → F64 → Int → F64 → Int → F64 × Int
  | 0, _, a1, ae, _, _ => (a1, ae)
  | fuel + 1, i, a1, ae, x1, xe =>
    if i = 0 then (a1, ae)
    else if xe < -4096 || 4096 < xe then (a1, ae + xe)
    else
      let a1n := if i % 2 = 1 then mul a1 x1 else a1
      let aen := if i % 2 = 1 then ae + xe else ae
      let x1s := mul x1 x1
      let xes := 2 * xe
      if x1s.lt (ofDec 5 10) then powLoop fuel (i / 2) a1n aen (add x1s x1s) (xes - 1)
      else powLoop fuel (i / 2) a1n aen x1s xes

/-- Go `math.Pow(x, float64(n))`, the portable implementation of `pow.go`, for
a finite non-zero `x` and an integer `n` below two to the 53 in magnitude: the
exponent then has no fractional part and the answer is built by repeated
squaring.  These are the calls the program makes (`x` is 10, 1000 or 1024). -/
def Pow (x : F64) (n : Int) : F64 :=
  if n = 0 || x.eq (ofInt 1) then ofInt 1
  else if n = 1 then x
  else
    let xf := Frexp x
    let r := powLoop 64 n.natAbs (ofInt 1) 0 xf.1 xf.2
    if n < 0 then Ldexp (div (ofInt 1) r.1) (-r.2) else Ldexp r.1 r.2

/-! ### intervals of floats

Bounds on the intermediate values of `math.Log` are computed on intervals whose
end points are floats: every operation is monotone in the exact result, so the
operation applied to the end points brackets the operation applied inside. -/

/-- A closed interval of floats, ordered by `key`. -/
structure Ivl where
  lo : F64
  hi : F64

/-- Both end points are finite. -/
def Ivl.fin (I : Ivl) : Bool := I.lo.finite && I.hi.finite

/-- Membership: the key lies between the keys of the end points. -/
def Ivl.mem (x : F64) (I : Ivl) : Prop := I.lo.key ≤ x.key ∧ x.key ≤ I.hi.key

/-- The interval of a single float. -/
def Ivl.pt (x : F64) : Ivl := ⟨x, x⟩

/-- The interval that records a failed computation. -/
def Ivl.bad : Ivl := ⟨nan, nan⟩

/-- The smaller of two floats in key order. -/
def kmin (a b : F64) : F64 := if a.key ≤ b.key then a else b

/-- The larger of two floats in key order. -/
def kmax (a b : F64) : F64 := if a.key ≤ b.key then b else a

/-- Interval sum. -/
def iadd (I J : Ivl) : Ivl := ⟨add I.lo J.lo, add I.hi J.hi⟩

/-- Interval difference. -/
def isub (I J : Ivl) : Ivl := ⟨sub I.lo J.hi, sub I.hi J.lo⟩

/-- Interval product: the extreme corner products, all of them finite. -/
def imul (I J : Ivl) : Ivl :=
  if (mul I.lo J.lo).finite && (mul I.lo J.hi).finite && (mul I.hi J.lo).finite
      && (mul I.hi J.hi).finite then
    ⟨kmin (kmin (mul I.lo J.lo) (mul I.lo J.hi)) (kmin (mul I.hi J.lo) (mul I.hi J.hi)),
     kmax (kmax (mul I.lo J.lo) (mul I.lo J.hi)) (kmax (mul I.hi J.lo) (mul I.hi J.hi))⟩
  else Ivl.bad

/-- Interval quotient, for a finite divisor interval above zero. -/
def idiv (I J : Ivl) : Ivl :=
  if I.fin && J.fin && decide (0 < J.lo.key) then
    ⟨kmin (div I.lo J.lo) (div I.lo J.hi), kmax (div I.hi J.lo) (div I.hi J.hi)⟩
  else Ivl.bad

/-- Interval version of `logS`. -/
def logSI (F : Ivl) : Ivl := idiv F (iadd (Ivl.pt (ofInt 2)) F)

/-- Interval version of `logR`. -/
def logRI (S : Ivl) : Ivl :=
  let s2 := imul S S
  let s4 := imul s2 s2
  let t1 := imul s2 (iadd (Ivl.pt L1) (imul s4 (iadd (Ivl.pt L3) (imul s4 (iadd (Ivl.pt L5)
    (imul s4 (Ivl.pt L7)))))))
  let t2 := imul s4 (iadd (Ivl.pt L2) (imul s4 (iadd (Ivl.pt L4) (imul s4 (Ivl.pt L6)))))
  iadd t1 t2

/-- Interval version of `logHfsq`. -/
def logHfsqI (F : Ivl) : Ivl := imul (imul (Ivl.pt (ofDec 5 10)) F) F

/-- Interval version of `logCore`. -/
def logCoreI (K F : Ivl) : Ivl :=
  isub (imul K (Ivl.pt Ln2Hi))
    (isub (isub (logHfsqI F)
      (iadd (imul (logSI F) (iadd (logHfsqI F) (logRI (logSI F)))) (imul K (Ivl.pt Ln2Lo)))) F)

/-- The range of `f` in `Log` when the fraction is not doubled
(`Sqrt2/2 ≤ f1 ≤ 1`). -/
def FA : Ivl := isub ⟨Sqrt2Half, ofInt 1⟩ (Ivl.pt (ofInt 1))

/-- The range of `f` in `Log` when the fraction is doubled
(`1/2 ≤ f1 ≤ Sqrt2/2` before doubling). -/
def FB : Ivl := isub (imul ⟨ofDec 5 10, Sqrt2Half⟩ (Ivl.pt (ofInt 2))) (Ivl.pt (ofInt 1))

/-- The range of `f` in `Log` when the fraction is doubled and above one half. -/
def FBpos : Ivl :=
  isub (imul ⟨mk3 false 1022 1, Sqrt2Half⟩ (Ivl.pt (ofInt 2))) (Ivl.pt (ofInt 1))

/-- The whole range of `f` in `Log`. -/
def FAB : Ivl := ⟨FA.lo, FB.hi⟩

/-- The range of `k` in `Log` for arguments at least one whose exponent is not zero. -/
def KPos : Ivl := ⟨ofInt 1, ofInt 1025⟩

/-- The float nearest to the natural logarithm of two. -/
def Ln2F : F64 := ofDec Ln2num (10 ^ 36)

/-! ### exact counterparts of the logarithm

The error of `math.Log` is tracked against the same expressions evaluated in
exact rational arithmetic, at the exact values of the float constants. -/

/-- The float `r` is finite and approximates the exact value `q`, which is
bounded by `B`, within `ε`: the form in which the error of a chain of float
operations is tracked. -/
def Near (r : F64) (q B ε : ℚ) : Prop := r.finite = true ∧ |q| ≤ B ∧ |r.val - q| ≤ ε

/-- The inner term `hfsq - (s*(hfsq+R) + k*Ln2Lo)` of `logCore`. -/
def logW (k f : F64) : F64 :=
  sub (logHfsq f) (add (mul (logS f) (add (logHfsq f) (logR (logS f)))) (mul k Ln2Lo))

/-- The polynomial `R` of `log.go` in exact arithmetic. -/
def logRQ (s : ℚ) : ℚ :=
  s * s * (L1.val + s * s * (s * s) * (L3.val + s * s * (s * s) * (L5.val + s * s * (s * s) * L7.val)))
    + s * s * (s * s) * (L2.val + s * s * (s * s) * (L4.val + s * s * (s * s) * L6.val))

/-- The inner term of `logCore` in exact arithmetic, for `f = x` and
`k * Ln2Lo = c`. -/
def logWQ (x c : ℚ) : ℚ :=
  x * x / 2 - (x / (2 + x) * (x * x / 2 + logRQ (x / (2 + x))) + c)

/-- The bound on the error of `logW` that the chain of operations gives: about
`5.2e-17`, a little less than half of `2 ^ -53`. -/
def logWEps : ℚ := 4044756905069 / 79228162514264337593543950336

/-- What `log.go` computes for `log (1 + x)` in exact arithmetic:
`x - (hfsq - s*(hfsq+R)) = 2*s + s*R` with `s = x / (2 + x)`. -/
def logGQ (x : ℚ) : ℚ :=
  2 * (x / (2 + x)) + x / (2 + x) * logRQ (x / (2 + x))

/-- The steps from `math.Log` of the fraction to the quotient
`math.Log10(x) / 3`, on intervals: `Log2 = Log(frac) * (1/Ln2) + exp` and
`Log10 = Log2 * (Ln2/Ln10)`. -/
def log10QuotI (L : Ivl) (E : Int) : Ivl :=
  idiv (imul (iadd (imul L (Ivl.pt InvLn2)) (Ivl.pt (ofInt E))) (Ivl.pt Ln2OverLn10))
    (Ivl.pt (ofInt 3))

/-- The steps from `math.Log2` to the quotient `math.Log10(x) / 3`, on
intervals. -/
def log2QuotI (K : Ivl) : Ivl := idiv (imul K (Ivl.pt Ln2OverLn10)) (Ivl.pt (ofInt 3))

end F64

/-! ## strconv.FormatFloat -/

/-- Decimal digits of `n`, most significant first, pushed in front of `acc`;
the first argument bounds the number of digits. -/
def decDigitsAux : Nat → Nat → List Char → List Char
  | 0, _, acc => acc
  | fuel + 1, n, acc =>
    if n < 10 then Nat.digitChar n :: acc
    else decDigitsAux fuel (n / 10) (Nat.digitChar (n % 10) :: acc)

/-- Decimal digits of `n` (a single `0` for zero). -/
def decDigits (n : Nat) : List Char := decDigitsAux (n + 1) n []

/-- The last `k` decimal digits of `r`, zero-padded on the left, pushed in
front of `acc`. -/
def padDigits : Nat → Nat → List Char → List Char
  | 0, _, acc => acc
  | k + 1, r, acc => padDigits k (r / 10) (Nat.digitChar (r % 10) :: acc)

/-- Drop the trailing zeros of a `k`-digit fraction `r`. -/
def stripZeros : Nat → Nat → Nat × Nat
  | 0, r => (0, r)
  | k + 1, r => if r % 10 = 0 then stripZeros k (r / 10) else (k + 1, r)

/-- The decimal `c / 10 ^ q` in fixed notation, as `%f` prints it with the
least precision that shows every digit. -/
def fmtFixed (c q : Nat) : List Char :=
  let fr := stripZeros q (c % 10 ^ q)
  decDigits (c / 10 ^ q) ++ (if fr.1 = 0 then [] else '.' :: padDigits fr.1 fr.2 [])

/-- The shortest-digits search of `strconv`: `d` is the exact value and
`lo`, `hi` the midpoints to the neighbouring floats, all on one integer scale.
Walking from the digit position `p` down, stop at the first position where `d`
rounded down or up to a multiple of `10 ^ p` still reads back as the same float
(`incl` says whether the midpoints themselves do); when both do, take the
nearer, ties to the even digit. -/
def shortestAux (lo d hi : Nat) (incl : Bool) : Nat → Nat
  | 0 => d
  | p + 1 =>
    let u := 10 ^ (p + 1)
    let down := d / u * u
    let up := down + u
    let okdown : Bool := decide (lo < down) || (incl && decide (lo = down))
    let okup : Bool := decide (up < hi) || (incl && decide (up = hi))
    if okdown && okup then
      (if u < 2 * (d % u) || (decide (2 * (d % u) = u) && decide (d / u % 2 = 1)) then up else down)
    else if okdown then down
    else if okup then up
    else shortestAux lo d hi incl p

/-- Go `strconv.FormatFloat(x, 'f', -1, 64)`, as a list of characters. -/
def fmtChars (x : F64) : List Char :=
  if x.IsNaN then "NaN".toList
  else if !x.finite then (if x.sign then "-Inf".toList else "+Inf".toList)
  else
    let m := x.mant
    let e2 : Int := x.exp2 - 2
    let a : Nat := if 0 ≤ e2 then 2 ^ e2.toNat else 5 ^ (-e2).toNat
    let q : Nat := (-e2).toNat
    let lo4 : Nat := if F64.hidden < m || x.exp2 = -1074 then 4 * m - 2 else 4 * m - 1
    let hi : Nat := (4 * m + 2) * a
    let c := shortestAux (lo4 * a) (4 * m * a) hi (decide (m % 2 = 0)) (F64.bitLen hi)
    (if x.sign then ['-'] else []) ++ fmtFixed c q

/-- Go `strconv.FormatFloat(x, 'f', -1, 64)`. -/
def FormatFloat (x : F64) : String := String.mk (fmtChars x)

/-! ## gotty.go -/

/-- The unit table `byteUnits`. -/
def byteUnits : List String := ["B", "kB", "MB", "GB", "TB", "PB", "EB", "ZB", "YB"]

/-- The unit table `bibyteUnits`. -/
def bibyteUnits : List String := ["B", "KiB", "MiB", "GiB", "TiB", "PiB", "EiB", "ZiB", "YiB"]

/-- The unit table `bitUnits`. -/
def bitUnits : List String := ["b", "kbit", "Mbit", "Gbit", "Tbit", "Pbit", "Ebit", "Zbit", "Ybit"]

/-- The unit table `bibitUnits`. -/
def bibitUnits : List String :=
  ["b", "kibit", "Mibit", "Gibit", "Tibit", "Pibit", "Eibit", "Zibit", "Yibit"]

/-- The struct `Options`; the default value is Go's zero value `Options{}`. -/
structure Options where
  Bits : Bool := false
  Binary : Bool := false
  Space : Bool := false
  Signed : Bool := false
  Locale : String := ""
  MinimumFractionDigits : Int := 0
  MaximumFractionDigits : Int := 0
deriving DecidableEq

/-- What a call of `Format` does: return `(s, nil)`, return `("", err)` with the
message of `err`, or stop in a run-time panic. -/
inductive Result where
  | ok (s : String)
  | error (msg : String)
  | panic
deriving DecidableEq

/-- The slice index expression `units[i]`: `none` stands for the run-time panic
of an index out of range. -/
def index (units : List String) (i : Int) : Option String :=
  if i < 0 then none else units.get? i.toNat

/-- The function `isFinite` of the source. -/
def isFinite (number : F64) : Bool := !number.IsInf 0 && !number.IsNaN

/-- The function `roundToPrecision` of the source. -/
def roundToPrecision (number : F64) (precision : Int) : F64 :=
  let scale := F64.Pow (F64.ofInt 10) precision
  F64.div (F64.Round (F64.mul number scale)) scale

/-- The function `formatNumber` of the source: locale and options are not used. -/
def formatNumber (number : F64) (_locale : String) (_options : List (String × Int)) : String :=
  FormatFloat number

/-- The map `localeOptions` that `Format` builds, as the list of its entries. -/
def localeOptionsOf (options : Options) : List (String × Int) :=
  (if options.MinimumFractionDigits ≠ 0
    then [("minimumFractionDigits", options.MinimumFractionDigits)] else []) ++
  (if options.MaximumFractionDigits ≠ 0
    then [("maximumFractionDigits", options.MaximumFractionDigits)] else [])

/-- The unit table that `Format` selects. -/
def unitsOf (options : Options) : List String :=
  if options.Bits then (if options.Binary then bibitUnits else bitUnits)
  else if options.Binary then bibyteUnits
  else byteUnits

/-- The exponent that `Format` computes for a magnitude `byteSize ≥ 1`, before
it is used as an index: `none` when the conversion to `int` is not defined. -/
def exponentOf (byteSize : F64) (options : Options) : Option Int :=
  if options.Binary then
    F64.toInt (F64.Min (F64.Floor (F64.div (F64.Log byteSize) (F64.Log (F64.ofInt 1024))))
      (F64.ofInt ((unitsOf options).length - 1)))
  else
    F64.toInt (F64.Min (F64.Floor (F64.div (F64.Log10 byteSize) (F64.ofInt 3)))
      (F64.ofInt ((unitsOf options).length - 1)))

/-- The fraction fields of the least floats for which `exponentOf` is at least
`j`, for `j` from 1 to 8: each of these floats lies a few units in the last
place below the float nearest to `base ^ j`. -/
def cutFracs (binary : Bool) : List Nat :=
  if binary then
    [4503599627370492, 4503599627370488, 4503599627370472, 4503599627370480,
     4503599627370472, 4503599627370448, 4503599627370488, 4503599627370464]
  else
    [4292493394837499, 4086334964629493, 3885008372629483, 3688400372629483,
     3496400372629473, 3308900372629464, 3125794903879437, 2946980969553294]

/-- The least float for which `exponentOf` is at least `j`, for `j` from 1 to 8;
its exponent field is that of `2 ^ (10 * j - 1)`. -/
def cut (binary : Bool) (j : Int) : F64 :=
  F64.mk3 false (1022 + 10 * j.toNat) ((cutFracs binary).getD (j.toNat - 1) 0)

/-- Whether a string starts with a decimal digit. -/
def startsWithDigit (s : String) : Bool :=
  match s.toList with
  | c :: _ => c.isDigit
  | [] => false

/-- The function `Format` of the source; `none` stands for the `nil` options. -/
def Format (byteSize : F64) (options : Option Options) : Result :=
  let options : Options := options.getD {}
  if !isFinite byteSize then
    Result.error ("expected a finite number, got float64: " ++ FormatFloat byteSize)
  else
    let units := unitsOf options
    let separator := if options.Space then " " else ""
    match index units 0 with
    | none => Result.panic
    | some unit0 =>
      if options.Signed && byteSize.eq (F64.ofInt 0) then
        Result.ok ("0" ++ separator ++ unit0)
      else
        let isNegative := byteSize.lt (F64.ofInt 0)
        let pfx := if isNegative then "-" else if options.Signed then "+" else ""
        let byteSize := if isNegative then byteSize.neg else byteSize
        let localeOptions := localeOptionsOf options
        if byteSize.lt (F64.ofInt 1) then
          Result.ok (pfx ++ formatNumber byteSize options.Locale localeOptions ++ separator ++ unit0)
        else
          match exponentOf byteSize options with
          | none => Result.panic
          | some exponent =>
            let scaled := F64.div byteSize
              (F64.Pow (F64.ofInt (if options.Binary then 1024 else 1000)) exponent)
            let rounded := if localeOptions.length = 0 then roundToPrecision scaled 3 else scaled
            let numberString := formatNumber rounded options.Locale localeOptions
            match index units exponent with
            | none => Result.panic
            | some unit => Result.ok (pfx ++ numberString ++ separator ++ unit)

end Gotty

namespace Gotty
namespace F64

theorem bitLenAux_zero (fuel : Nat) : bitLenAux fuel 0 = 0 := by
  cases fuel <;> simp [bitLenAux]

theorem bitLenAux_spec (fuel : Nat) : ∀ n : Nat, n ≤ fuel →
    n < 2 ^ bitLenAux fuel n ∧ (n ≠ 0 → 2 ^ (bitLenAux fuel n - 1) ≤ n) := by
  induction fuel with
  | zero =>
    intro n hn
    have : n = 0 := by omega
    subst this
    simp [bitLenAux]
  | succ fuel ih =>
    intro n hn
    by_cases h0 : n = 0
    · subst h0; simp [bitLenAux]
    · have hle : n / 2 ≤ fuel := by omega
      obtain ⟨h1, h2⟩ := ih (n / 2) hle
      simp only [bitLenAux, if_neg h0]
      constructor
      · rw [pow_succ]; omega
      · intro _
        by_cases h3 : n / 2 = 0
        · rw [h3, bitLenAux_zero]; simp; omega
        · have h4 := h2 h3
          have h5 : bitLenAux fuel (n / 2) ≠ 0 := by
            intro h6
            rw [h6] at h1
            simp at h1
            exact h3 h1
          have h6 : bitLenAux fuel (n / 2) + 1 - 1 = (bitLenAux fuel (n / 2) - 1) + 1 := by omega
          rw [h6, pow_succ]; omega

theorem bitLenStep_spec (n k S K : Nat) (hK : K = k + k) (h1 : n ≠ 0 → 2 ^ S ≤ n)
    (h2 : n < 2 ^ (S + K)) :
    (n ≠ 0 → 2 ^ bitLenStep n k S ≤ n) ∧ n < 2 ^ (bitLenStep n k S + k) := by
  have e : bitLenStep n k S = S + k * (1 - (1 - n / 2 ^ (S + k))) := by
    simp only [bitLenStep, Nat.add_eq, Nat.mul_eq, Nat.sub_eq, Nat.shiftRight_eq,
      Nat.shiftRight_eq_div_pow]
  have hP : 0 < 2 ^ (S + k) := Nat.two_pow_pos _
  by_cases hc : 2 ^ (S + k) ≤ n
  · have hq : 1 ≤ n / 2 ^ (S + k) := (Nat.one_le_div_iff hP).mpr hc
    have e1 : 1 - (1 - n / 2 ^ (S + k)) = 1 := by omega
    rw [e, e1, Nat.mul_one]
    refine ⟨fun _ => hc, ?_⟩
    rw [Nat.add_assoc, ← hK]
    exact h2
  · have hq : n / 2 ^ (S + k) = 0 := Nat.div_eq_of_lt (Nat.lt_of_not_le hc)
    rw [e, hq]
    simp only [Nat.sub_zero, Nat.sub_self, Nat.mul_zero, Nat.add_zero]
    exact ⟨h1, Nat.lt_of_not_le hc⟩

theorem bitLen_finish (n S : Nat) (h : (n ≠ 0 → 2 ^ S ≤ n) ∧ n < 2 ^ (S + 1)) :
    n < 2 ^ (Nat.add S (Nat.sub 1 (Nat.sub 1 n))) ∧
      (n ≠ 0 → 2 ^ (Nat.add S (Nat.sub 1 (Nat.sub 1 n)) - 1) ≤ n) := by
  simp only [Nat.add_eq, Nat.sub_eq]
  by_cases h0 : n = 0
  · subst h0
    exact ⟨Nat.two_pow_pos _, fun h => absurd rfl h⟩
  · have e : 1 - (1 - n) = 1 := by omega
    rw [e, Nat.add_sub_cancel]
    exact ⟨h.2, fun _ => h.1 h0⟩

theorem bitLenBis_spec (n : Nat) (h : n < 2 ^ 8192) :
    n < 2 ^ bitLenBis n ∧ (n ≠ 0 → 2 ^ (bitLenBis n - 1) ≤ n) := by
  have a : n ≠ 0 → 2 ^ 0 ≤ n := fun h0 => Nat.one_le_iff_ne_zero.mpr h0
  have b : n < 2 ^ (0 + 8192) := by rw [Nat.zero_add]; exact h
  have s12 := bitLenStep_spec n 4096 0 8192 rfl a b
  have s11 := bitLenStep_spec n 2048 _ 4096 rfl s12.1 s12.2
  have s10 := bitLenStep_spec n 1024 _ 2048 rfl s11.1 s11.2
  have s9 := bitLenStep_spec n 512 _ 1024 rfl s10.1 s10.2
  have s8 := bitLenStep_spec n 256 _ 512 rfl s9.1 s9.2
  have s7 := bitLenStep_spec n 128 _ 256 rfl s8.1 s8.2
  have s6 := bitLenStep_spec n 64 _ 128 rfl s7.1 s7.2
  have s5 := bitLenStep_spec n 32 _ 64 rfl s6.1 s6.2
  have s4 := bitLenStep_spec n 16 _ 32 rfl s5.1 s5.2
  have s3 := bitLenStep_spec n 8 _ 16 rfl s4.1 s4.2
  have s2 := bitLenStep_spec n 4 _ 8 rfl s3.1 s3.2
  have s1 := bitLenStep_spec n 2 _ 4 rfl s2.1 s2.2
  have s0 := bitLenStep_spec n 1 _ 2 rfl s1.1 s1.2
  unfold bitLenBis
  exact bitLen_finish n _ s0

theorem bitLen_lt (n : Nat) : n < 2 ^ bitLen n := by
  unfold bitLen
  split
  · next h => exact (bitLenBis_spec n h).1
  · exact (bitLenAux_spec n n le_rfl).1

theorem bitLen_le (n : Nat) (hn : n ≠ 0) : 2 ^ (bitLen n - 1) ≤ n := by
  unfold bitLen
  split
  · next h => exact (bitLenBis_spec n h).2 hn
  · exact (bitLenAux_spec n n le_rfl).2 hn

theorem bitLen_pos (n : Nat) (hn : n ≠ 0) : 1 ≤ bitLen n := by
  by_contra h
  have h0 : bitLen n = 0 := by omega
  have := bitLen_lt n
  rw [h0] at this
  simp at this
  exact hn this

end F64
end Gotty

namespace Gotty
namespace F64

theorem zpow_split (e : Int) : (2 : ℚ) ^ e = (2 : ℚ) ^ e.toNat / (2 : ℚ) ^ (-e).toNat := by
  rcases le_or_lt 0 e with h | h
  · have h1 : (-e).toNat = 0 := by omega
    rw [h1, pow_zero, div_one]
    conv_lhs => rw [← Int.toNat_of_nonneg h]
    exact zpow_natCast _ _
  · have h1 : e.toNat = 0 := by omega
    have h2 : e = -((-e).toNat : Int) := by omega
    rw [h1, pow_zero]
    conv_lhs => rw [h2]
    rw [zpow_neg, zpow_natCast, one_div]

theorem scaled_cast (n d : Nat) (e : Int) :
    ((n * 2 ^ e.toNat : Nat) : ℚ) / ((d * 2 ^ (-e).toNat : Nat) : ℚ) = (n : ℚ) / d * 2 ^ e := by
  rw [zpow_split e]
  push_cast
  have h1 : (2 : ℚ) ^ (-e).toNat ≠ 0 := by positivity
  by_cases hd : (d : ℚ) = 0
  · simp [hd]
  · field_simp

theorem rne_ge (num den : Nat) : num / den ≤ rne num den := by
  unfold rne; split <;> omega

theorem rne_le (num den : Nat) : rne num den ≤ num / den + 1 := by
  unfold rne; split <;> omega

theorem rne_lower (num den a : Nat) (hden : 0 < den) (h : a * den ≤ num) : a ≤ rne num den :=
  le_trans ((Nat.le_div_iff_mul_le hden).mpr h) (rne_ge num den)

theorem rne_upper (num den b : Nat) (hden : 0 < den) (h : num ≤ b * den) : rne num den ≤ b := by
  have hq : num / den ≤ b := by
    have := Nat.div_le_div_right (c := den) h
    rwa [Nat.mul_div_cancel _ hden] at this
  rcases Nat.lt_or_ge (num / den) b with h1 | h1
  · exact le_trans (rne_le num den) h1
  · have hqb : num / den = b := le_antisymm hq h1
    have hm := Nat.div_add_mod num den
    have hr : num % den = 0 := by
      rw [hqb] at hm
      have : den * b = b * den := Nat.mul_comm _ _
      omega
    unfold rne
    rw [hr]
    have h4 : ¬ (0 = den ∧ b % 2 = 1) := by omega
    simp [h4, hqb]

/-- Rounding to nearest even is monotone in the quotient. -/
theorem rne_mono (num den num2 den2 : Nat) (hden : 0 < den) (hden2 : 0 < den2)
    (h : num * den2 ≤ num2 * den) : rne num den ≤ rne num2 den2 := by
  have hm := Nat.div_add_mod num den
  have hm2 := Nat.div_add_mod num2 den2
  have hr := Nat.mod_lt num hden
  have hr2 := Nat.mod_lt num2 hden2
  set q := num / den with hq
  set r := num % den with hrr
  set q2 := num2 / den2 with hq2
  set r2 := num2 % den2 with hrr2
  have hqq : q ≤ q2 := by
    rw [hq2, Nat.le_div_iff_mul_le hden2]
    have h1 : q * den ≤ num := by rw [← hm]; nlinarith
    have h2 : q * den2 * den ≤ num2 * den := by nlinarith
    exact Nat.le_of_mul_le_mul_right h2 hden
  rcases Nat.lt_or_ge q q2 with h1 | h1
  · exact le_trans (rne_le num den) (le_trans h1 (rne_ge num2 den2))
  · have hqe : q = q2 := le_antisymm hqq h1
    -- remainders are ordered: r * den2 ≤ r2 * den
    have hrle : r * den2 ≤ r2 * den := by
      have e1 : num * den2 = den * q * den2 + r * den2 := by rw [← hm]; ring
      have e2 : num2 * den = den2 * q2 * den + r2 * den := by rw [← hm2]; ring
      rw [e1, e2, ← hqe] at h
      have : den * q * den2 = den2 * q * den := by ring
      omega
    unfold rne
    rw [← hq, ← hrr, ← hq2, ← hrr2, ← hqe]
    by_cases hup : (decide (den < 2 * r) || (decide (2 * r = den) && decide (q % 2 = 1))) = true
    · have hup2 : (decide (den2 < 2 * r2) || (decide (2 * r2 = den2) && decide (q % 2 = 1))) = true := by
        simp only [Bool.or_eq_true, Bool.and_eq_true, decide_eq_true_eq] at hup ⊢
        rcases hup with h5 | ⟨h5, h6⟩
        · left
          by_contra hc
          have : 2 * r2 ≤ den2 := by omega
          nlinarith
        · by_cases h7 : den2 < 2 * r2
          · left; exact h7
          · right
            refine ⟨?_, h6⟩
            have h8 : 2 * r2 ≤ den2 := by omega
            have h9 : den * den2 ≤ 2 * r2 * den := by nlinarith
            have h10 : den2 ≤ 2 * r2 := by
              have : den2 * den ≤ 2 * r2 * den := by nlinarith
              exact Nat.le_of_mul_le_mul_right this hden
            omega
      rw [if_pos hup, if_pos hup2]
    · rw [if_neg hup]
      split <;> omega

/-- The rounded quotient is within half a unit of the exact quotient. -/
theorem rne_near (num den : Nat) (hden : 0 < den) :
    2 * (rne num den * den) ≤ 2 * num + den ∧ 2 * num ≤ 2 * (rne num den * den) + den := by
  have hm := Nat.div_add_mod num den
  have hr := Nat.mod_lt num hden
  have e1 : num / den * den = den * (num / den) := Nat.mul_comm _ _
  unfold rne
  by_cases hup : (decide (den < 2 * (num % den)) ||
      (decide (2 * (num % den) = den) && decide (num / den % 2 = 1))) = true
  · rw [if_pos hup]
    simp only [Bool.or_eq_true, Bool.and_eq_true, decide_eq_true_eq] at hup
    have e2 : (num / den + 1) * den = den * (num / den) + den := by ring
    rw [e2]
    constructor <;> omega
  · rw [if_neg hup]
    simp only [Bool.or_eq_true, Bool.and_eq_true, decide_eq_true_eq, not_or, not_and] at hup
    rw [e1]
    constructor <;> omega

end F64
end Gotty

namespace Gotty
namespace F64

theorem two_zpow_pos (e : Int) : (0 : ℚ) < 2 ^ e := by positivity

theorem bitLen_cast_lt (n : Nat) : (n : ℚ) < 2 ^ (bitLen n : Int) := by
  rw [zpow_natCast]
  exact_mod_cast bitLen_lt n

theorem bitLen_cast_le (n : Nat) (hn : 0 < n) : (2 : ℚ) ^ ((bitLen n : Int) - 1) ≤ n := by
  have h1 := bitLen_pos n (by omega)
  have h2 : ((bitLen n : Int) - 1) = ((bitLen n - 1 : Nat) : Int) := by omega
  rw [h2, zpow_natCast]
  exact_mod_cast bitLen_le n (by omega)

theorem ilog2_eq (n d : Nat) :
    ilog2 n d = if d ≤ n then ((bitLen (n / d) - 1 : Nat) : Int)
      else Int.negSucc (bitLen ((d - 1) / n) - 1) := by
  unfold ilog2
  by_cases hc : d ≤ n
  · rw [if_pos hc, Nat.ble_eq_true_of_le hc]
    rfl
  · rw [if_neg hc, Bool.eq_false_iff.mpr (fun h => hc (Nat.le_of_ble_eq_true h))]
    rfl

/-- The integer logarithm brackets the quotient between two powers of two. -/
theorem ilog2_spec (n d : Nat) (hn : 0 < n) (hd : 0 < d) :
    (2 : ℚ) ^ ilog2 n d ≤ (n : ℚ) / d ∧ (n : ℚ) / d < 2 ^ (ilog2 n d + 1) := by
  have hn' : (0 : ℚ) < n := by exact_mod_cast hn
  have hd' : (0 : ℚ) < d := by exact_mod_cast hd
  rw [ilog2_eq]
  by_cases hc : d ≤ n
  · rw [if_pos hc]
    have hq : n / d ≠ 0 := Nat.pos_iff_ne_zero.mp (Nat.div_pos hc hd)
    have h1 := bitLen_lt (n / d)
    have h2 := bitLen_le (n / d) hq
    have hL := bitLen_pos (n / d) hq
    have e1 : ((bitLen (n / d) - 1 : Nat) : Int) + 1 = ((bitLen (n / d) : Nat) : Int) := by omega
    rw [e1, zpow_natCast, zpow_natCast]
    constructor
    · rw [le_div_iff₀ hd']
      have h3 : 2 ^ (bitLen (n / d) - 1) * d ≤ n :=
        le_trans (Nat.mul_le_mul_right d h2) (Nat.div_mul_le_self n d)
      exact_mod_cast h3
    · rw [div_lt_iff₀ hd']
      have h3 : n < 2 ^ bitLen (n / d) * d := by
        calc n < d * (n / d + 1) := Nat.lt_mul_div_succ n hd
          _ ≤ d * 2 ^ bitLen (n / d) := Nat.mul_le_mul_left d h1
          _ = 2 ^ bitLen (n / d) * d := Nat.mul_comm _ _
      exact_mod_cast h3
  · rw [if_neg hc]
    have hlt : n ≤ d - 1 := by omega
    have hq : (d - 1) / n ≠ 0 := Nat.pos_iff_ne_zero.mp (Nat.div_pos hlt hn)
    have h1 := bitLen_lt ((d - 1) / n)
    have h2 := bitLen_le ((d - 1) / n) hq
    have hL := bitLen_pos ((d - 1) / n) hq
    have e0 : Int.negSucc (bitLen ((d - 1) / n) - 1) = -((bitLen ((d - 1) / n) : Nat) : Int) := by
      rw [Int.negSucc_eq]
      omega
    have e1 : -((bitLen ((d - 1) / n) : Nat) : Int) + 1
        = -((bitLen ((d - 1) / n) - 1 : Nat) : Int) := by omega
    have p1 : (0 : ℚ) < 2 ^ bitLen ((d - 1) / n) := by positivity
    have p2 : (0 : ℚ) < 2 ^ (bitLen ((d - 1) / n) - 1) := by positivity
    rw [e0, e1, zpow_neg, zpow_neg, zpow_natCast, zpow_natCast, inv_eq_one_div, inv_eq_one_div]
    constructor
    · rw [div_le_div_iff₀ p1 hd', one_mul]
      have h3 : d ≤ n * 2 ^ bitLen ((d - 1) / n) := by
        have h4 : d - 1 < n * ((d - 1) / n + 1) := Nat.lt_mul_div_succ (d - 1) hn
        have h5 : n * ((d - 1) / n + 1) ≤ n * 2 ^ bitLen ((d - 1) / n) :=
          Nat.mul_le_mul_left n h1
        omega
      exact_mod_cast h3
    · rw [div_lt_div_iff₀ hd' p2, one_mul]
      have h3 : n * 2 ^ (bitLen ((d - 1) / n) - 1) < d := by
        have h4 : n * 2 ^ (bitLen ((d - 1) / n) - 1) ≤ n * ((d - 1) / n) :=
          Nat.mul_le_mul_left n h2
        have h5 : n * ((d - 1) / n) ≤ d - 1 := Nat.mul_div_le (d - 1) n
        omega
      exact_mod_cast h3

theorem ilog2_mono (n d n2 d2 : Nat) (hn : 0 < n) (hd : 0 < d) (hn2 : 0 < n2) (hd2 : 0 < d2)
    (h : (n : ℚ) / d ≤ (n2 : ℚ) / d2) : ilog2 n d ≤ ilog2 n2 d2 := by
  have h1 := (ilog2_spec n d hn hd).1
  have h2 := (ilog2_spec n2 d2 hn2 hd2).2
  have h3 : (2 : ℚ) ^ ilog2 n d < 2 ^ (ilog2 n2 d2 + 1) := lt_of_le_of_lt (le_trans h1 h) h2
  have h4 := (zpow_lt_zpow_iff_right₀ (by norm_num : (1 : ℚ) < 2)).mp h3
  omega

theorem roundExp_ge (n d : Nat) : -1074 ≤ roundExp n d := le_max_right _ _

theorem roundExp_mono (n d n2 d2 : Nat) (hn : 0 < n) (hd : 0 < d) (hn2 : 0 < n2) (hd2 : 0 < d2)
    (h : (n : ℚ) / d ≤ (n2 : ℚ) / d2) : roundExp n d ≤ roundExp n2 d2 := by
  have := ilog2_mono n d n2 d2 hn hd hn2 hd2 h
  unfold roundExp
  omega

/-- The scaled quotient that `roundSig` rounds to an integer. -/
theorem roundSig_quot (n d : Nat) :
    ((n * 2 ^ (-roundExp n d).toNat : Nat) : ℚ) / ((d * 2 ^ (roundExp n d).toNat : Nat) : ℚ)
      = (n : ℚ) / d * 2 ^ (-roundExp n d) := by
  have := scaled_cast n d (-roundExp n d)
  rw [neg_neg] at this
  exact this

theorem roundSig_den_pos (n d : Nat) (hd : 0 < d) : 0 < d * 2 ^ (roundExp n d).toNat := by
  positivity

theorem scaled_lt (n d : Nat) (hn : 0 < n) (hd : 0 < d) :
    (n : ℚ) / d * 2 ^ (-roundExp n d) < 2 ^ (53 : Nat) := by
  have h2 := (ilog2_spec n d hn hd).2
  have h3 : ilog2 n d + 1 ≤ roundExp n d + 53 := by unfold roundExp; omega
  have h4 : (2 : ℚ) ^ (ilog2 n d + 1) ≤ 2 ^ (roundExp n d + 53) :=
    zpow_le_zpow_right₀ (by norm_num) h3
  have h5 : (n : ℚ) / d < 2 ^ (roundExp n d + 53) := lt_of_lt_of_le h2 h4
  rw [zpow_add₀ (by norm_num : (2 : ℚ) ≠ 0)] at h5
  rw [zpow_neg, ← div_eq_mul_inv, div_lt_iff₀ (two_zpow_pos _)]
  have e : ((2 : ℚ) ^ (53 : Int)) = 2 ^ (53 : Nat) := by norm_cast
  rw [e] at h5
  linarith

theorem scaled_ge (n d : Nat) (hn : 0 < n) (hd : 0 < d) (he : -1074 < roundExp n d) :
    (2 : ℚ) ^ (52 : Nat) ≤ (n : ℚ) / d * 2 ^ (-roundExp n d) := by
  have h1 := (ilog2_spec n d hn hd).1
  have h3 : roundExp n d + 52 = ilog2 n d := by unfold roundExp at he ⊢; omega
  rw [← h3, zpow_add₀ (by norm_num : (2 : ℚ) ≠ 0)] at h1
  rw [zpow_neg, ← div_eq_mul_inv, le_div_iff₀ (two_zpow_pos _)]
  have e : ((2 : ℚ) ^ (52 : Int)) = 2 ^ (52 : Nat) := by norm_cast
  rw [e] at h1
  linarith

theorem quot_le_nat (num den b : Nat) (hden : 0 < den) (h : (num : ℚ) / den ≤ b) :
    num ≤ b * den := by
  have hden' : (0 : ℚ) < den := by exact_mod_cast hden
  rw [div_le_iff₀ hden'] at h
  exact_mod_cast h

theorem quot_ge_nat (num den a : Nat) (hden : 0 < den) (h : (a : ℚ) ≤ (num : ℚ) / den) :
    a * den ≤ num := by
  have hden' : (0 : ℚ) < den := by exact_mod_cast hden
  rw [le_div_iff₀ hden'] at h
  exact_mod_cast h

theorem roundSig_le (n d : Nat) (hn : 0 < n) (hd : 0 < d) : roundSig n d ≤ 2 * hidden := by
  unfold roundSig
  apply rne_upper _ _ _ (roundSig_den_pos n d hd)
  apply quot_le_nat _ _ _ (roundSig_den_pos n d hd)
  rw [roundSig_quot]
  have := scaled_lt n d hn hd
  have e : ((2 * hidden : Nat) : ℚ) = 2 ^ (53 : Nat) := by norm_num [hidden]
  rw [e]
  exact le_of_lt this

theorem roundSig_ge (n d : Nat) (hn : 0 < n) (hd : 0 < d) (he : -1074 < roundExp n d) :
    hidden ≤ roundSig n d := by
  unfold roundSig
  apply rne_lower _ _ _ (roundSig_den_pos n d hd)
  apply quot_ge_nat _ _ _ (roundSig_den_pos n d hd)
  rw [roundSig_quot]
  have := scaled_ge n d hn hd he
  have e : ((hidden : Nat) : ℚ) = 2 ^ (52 : Nat) := by norm_num [hidden]
  rw [e]
  exact this

end F64
end Gotty

namespace Gotty
namespace F64

theorem mk3_sign (s : Bool) (e f : Nat) : (mk3 s e f).sign = s := rfl

theorem mk3_expo (s : Bool) (e f : Nat) (h : e < 2048) : (mk3 s e f).expo.val = e := by
  simp [mk3, Nat.mod_eq_of_lt h]

theorem mk3_frac (s : Bool) (e f : Nat) (h : f < hidden) : (mk3 s e f).frac.val = f := by
  unfold hidden at h
  simp [mk3, Nat.mod_eq_of_lt h]

theorem mkey_mk3 (s : Bool) (e f : Nat) (he : e < 2048) (hf : f < hidden) :
    (mk3 s e f).mkey = e * hidden + f := by
  unfold mkey
  rw [mk3_expo s e f he, mk3_frac s e f hf]

theorem pack_sign (s : Bool) (m : Nat) (e : Int) : (pack s m e).sign = s := by
  unfold pack inf
  split
  · split <;> rfl
  · split
    · rfl
    · split <;> rfl

/-- The magnitude key of a packed float is linear in exponent and significand,
capped at the key of infinity. -/
theorem mkey_pack (s : Bool) (m : Nat) (e : Int) (h1 : m ≤ 2 * hidden) (h2 : -1074 ≤ e)
    (h3 : -1074 < e → hidden ≤ m) :
    ((pack s m e).mkey : Int) = min ((e + 1074) * hidden + m) (2047 * hidden) := by
  have hh : hidden = 4503599627370496 := rfl
  unfold pack
  by_cases c1 : m = 2 * hidden
  · rw [if_pos c1]
    by_cases c2 : e + 1 > 971
    · rw [if_pos c2]
      unfold inf
      rw [mkey_mk3 _ _ _ (by norm_num) (by norm_num [hidden])]
      rw [min_eq_right]
      · push_cast; ring
      · rw [c1]; push_cast; rw [hh]; push_cast; omega
    · rw [if_neg c2]
      have h5 : (e + 1 + 1075).toNat < 2048 := by omega
      rw [mkey_mk3 _ _ _ h5 (by norm_num [hidden])]
      rw [min_eq_left]
      · push_cast
        rw [Int.toNat_of_nonneg (by omega), c1]
        push_cast; ring
      · rw [c1]; push_cast; rw [hh]; push_cast; omega
  · rw [if_neg c1]
    have hm : m < 2 * hidden := lt_of_le_of_ne h1 c1
    by_cases c2 : e > 971
    · rw [if_pos c2]
      unfold inf
      rw [mkey_mk3 _ _ _ (by norm_num) (by norm_num [hidden])]
      rw [min_eq_right]
      · push_cast; ring
      · have := h3 (by omega)
        rw [hh] at this ⊢
        push_cast
        omega
    · rw [if_neg c2]
      by_cases c3 : m < hidden
      · rw [if_pos c3]
        have he : e = -1074 := by
          by_contra hc
          have := h3 (by omega)
          omega
        rw [mkey_mk3 _ _ _ (by norm_num) c3]
        rw [min_eq_left]
        · rw [he]; push_cast; ring
        · rw [he]; rw [hh] at c3 ⊢; push_cast; omega
      · rw [if_neg c3]
        have h5 : (e + 1075).toNat < 2048 := by omega
        have h6 : m - hidden < hidden := by omega
        rw [mkey_mk3 _ _ _ h5 h6]
        rw [min_eq_left]
        · push_cast
          rw [Int.toNat_of_nonneg (by omega), Nat.cast_sub (by omega)]
          ring
        · rw [hh] at hm ⊢; push_cast; omega

theorem mkey_zero (s : Bool) : (zero s).mkey = 0 := by
  unfold zero
  rw [mkey_mk3 _ _ _ (by norm_num) (by norm_num [hidden])]
  simp

/-- The magnitude key of a rounded positive quotient. -/
theorem mkey_round (s : Bool) (n d : Nat) (hn : 0 < n) (hd : 0 < d) :
    ((round s n d).mkey : Int)
      = min ((roundExp n d + 1074) * hidden + roundSig n d) (2047 * hidden) := by
  unfold round
  rw [if_neg (by omega)]
  exact mkey_pack s _ _ (roundSig_le n d hn hd) (roundExp_ge n d) (roundSig_ge n d hn hd)

theorem round_sign (s : Bool) (n d : Nat) : (round s n d).sign = s := by
  unfold round
  split
  · rfl
  · exact pack_sign s _ _

/-- Rounding is monotone: a larger quotient gives a larger (or equal) magnitude key. -/
theorem mkey_round_mono (s s2 : Bool) (n d n2 d2 : Nat) (hd : 0 < d) (hd2 : 0 < d2)
    (h : (n : ℚ) / d ≤ (n2 : ℚ) / d2) : (round s n d).mkey ≤ (round s2 n2 d2).mkey := by
  by_cases hn0 : n = 0
  · subst hn0
    have : round s 0 d = zero s := by simp [round]
    rw [this, mkey_zero]
    exact Nat.zero_le _
  have hn : 0 < n := Nat.pos_of_ne_zero hn0
  have hn2 : 0 < n2 := by
    rcases Nat.eq_zero_or_pos n2 with h0 | h0
    · subst h0
      have hp : (0 : ℚ) < (n : ℚ) / d := by positivity
      simp at h
      linarith
    · exact h0
  have hint : ((round s n d).mkey : Int) ≤ ((round s2 n2 d2).mkey : Int) := by
    rw [mkey_round s n d hn hd, mkey_round s2 n2 d2 hn2 hd2]
    apply min_le_min_right
    have he := roundExp_mono n d n2 d2 hn hd hn2 hd2 h
    have hh : hidden = 4503599627370496 := rfl
    rcases lt_or_eq_of_le he with h1 | h1
    · have hs := roundSig_le n d hn hd
      have hs2 := roundSig_ge n2 d2 hn2 hd2 (by have := roundExp_ge n d; omega)
      have h5 : (roundExp n d + 1074) * (hidden : Int) + (hidden : Int)
          ≤ (roundExp n2 d2 + 1074) * (hidden : Int) := by
        have : roundExp n d + 1074 + 1 ≤ roundExp n2 d2 + 1074 := by omega
        have h6 := Int.mul_le_mul_of_nonneg_right this (Int.ofNat_nonneg hidden)
        linarith
      have hs' : (roundSig n d : Int) ≤ 2 * (hidden : Int) := by exact_mod_cast hs
      have hs2' : (hidden : Int) ≤ (roundSig n2 d2 : Int) := by exact_mod_cast hs2
      linarith
    · rw [h1]
      have hmono : roundSig n d ≤ roundSig n2 d2 := by
        have p1 : 0 < d * 2 ^ (roundExp n2 d2).toNat := Nat.mul_pos hd (Nat.two_pow_pos _)
        have p2 : 0 < d2 * 2 ^ (roundExp n2 d2).toNat := Nat.mul_pos hd2 (Nat.two_pow_pos _)
        have q1 : (0 : ℚ) < ((d * 2 ^ (roundExp n2 d2).toNat : Nat) : ℚ) := by exact_mod_cast p1
        have q2 : (0 : ℚ) < ((d2 * 2 ^ (roundExp n2 d2).toNat : Nat) : ℚ) := by exact_mod_cast p2
        have hq1 := roundSig_quot n d
        have hq2 := roundSig_quot n2 d2
        rw [h1] at hq1
        have hle : ((n * 2 ^ (-roundExp n2 d2).toNat : Nat) : ℚ)
              / ((d * 2 ^ (roundExp n2 d2).toNat : Nat) : ℚ)
            ≤ ((n2 * 2 ^ (-roundExp n2 d2).toNat : Nat) : ℚ)
              / ((d2 * 2 ^ (roundExp n2 d2).toNat : Nat) : ℚ) := by
          rw [hq1, hq2]
          exact mul_le_mul_of_nonneg_right h (le_of_lt (two_zpow_pos _))
        rw [div_le_div_iff₀ q1 q2] at hle
        have hcross : n * 2 ^ (-roundExp n2 d2).toNat * (d2 * 2 ^ (roundExp n2 d2).toNat)
            ≤ n2 * 2 ^ (-roundExp n2 d2).toNat * (d * 2 ^ (roundExp n2 d2).toNat) := by
          exact_mod_cast hle
        have := rne_mono _ _ _ _ p1 p2 hcross
        unfold roundSig
        rw [h1]
        exact this
      have : (roundSig n d : Int) ≤ (roundSig n2 d2 : Int) := by exact_mod_cast hmono
      linarith
  exact_mod_cast hint

end F64
end Gotty

namespace Gotty
namespace F64

theorem finite_iff (x : F64) : x.finite = true ↔ x.expo.val ≠ 2047 := by
  simp [finite]

theorem expo_lt (x : F64) : x.expo.val < 2048 := x.expo.isLt

theorem frac_lt (x : F64) : x.frac.val < hidden := x.frac.isLt

theorem mant_lt (x : F64) : x.mant < 2 * hidden := by
  have := frac_lt x
  unfold mant
  split <;> omega

theorem exp2_ge (x : F64) : -1074 ≤ x.exp2 := by
  unfold exp2
  split <;> omega

theorem exp2_le (x : F64) (h : x.finite = true) : x.exp2 ≤ 971 := by
  rw [finite_iff] at h
  have := expo_lt x
  unfold exp2
  split <;> omega

theorem mant_ge (x : F64) (h : -1074 < x.exp2) : hidden ≤ x.mant := by
  unfold exp2 at h
  unfold mant
  split
  · next h0 => rw [if_pos h0] at h; omega
  · omega

/-- The magnitude key of any float, in terms of significand and exponent. -/
theorem mkey_eq (x : F64) : (x.mkey : Int) = (x.exp2 + 1074) * hidden + x.mant := by
  unfold mkey exp2 mant
  split
  · next h0 => rw [h0]; push_cast; ring
  · next h0 =>
    push_cast
    ring

theorem mkey_lt_of_finite (x : F64) (h : x.finite = true) : x.mkey < 2047 * hidden := by
  rw [finite_iff] at h
  have := expo_lt x
  have := frac_lt x
  unfold mkey
  have h1 : x.expo.val ≤ 2046 := by omega
  calc x.expo.val * hidden + x.frac.val < x.expo.val * hidden + hidden := by omega
    _ = (x.expo.val + 1) * hidden := by ring
    _ ≤ 2047 * hidden := Nat.mul_le_mul_right _ (by omega)

theorem finite_of_mkey_lt (x : F64) (h : x.mkey < 2047 * hidden) : x.finite = true := by
  rw [finite_iff]
  intro hc
  unfold mkey at h
  rw [hc] at h
  omega

theorem mag_nonneg (x : F64) : 0 ≤ x.mag := by
  unfold mag
  positivity

/-- A smaller magnitude key means a smaller magnitude. -/
theorem mag_lt_of_mkey_lt (x y : F64) (h : x.mkey < y.mkey) : x.mag < y.mag := by
  have hx := mkey_eq x
  have hy := mkey_eq y
  have h' : (x.mkey : Int) < (y.mkey : Int) := by exact_mod_cast h
  rw [hx, hy] at h'
  have mx := mant_lt x
  have my := mant_lt y
  have hh : (hidden : Int) = 4503599627370496 := rfl
  have mx' : (x.mant : Int) < 2 * hidden := by exact_mod_cast mx
  have my' : (y.mant : Int) < 2 * hidden := by exact_mod_cast my
  unfold mag
  rcases lt_trichotomy x.exp2 y.exp2 with he | he | he
  · -- smaller exponent
    have gy := mant_ge y (by have := exp2_ge x; omega)
    have h1 : (x.mant : ℚ) < 2 * (hidden : ℚ) := by exact_mod_cast mx
    have h2 : (hidden : ℚ) ≤ (y.mant : ℚ) := by exact_mod_cast gy
    have h3 : (2 : ℚ) ^ (x.exp2 + 1) ≤ 2 ^ y.exp2 :=
      zpow_le_zpow_right₀ (by norm_num) (by omega)
    rw [zpow_add₀ (by norm_num : (2 : ℚ) ≠ 0), zpow_one] at h3
    have p := two_zpow_pos x.exp2
    have hp : (0 : ℚ) < hidden := by norm_num [hidden]
    calc (x.mant : ℚ) * 2 ^ x.exp2 < 2 * hidden * 2 ^ x.exp2 := by gcongr
      _ = hidden * (2 ^ x.exp2 * 2) := by ring
      _ ≤ hidden * 2 ^ y.exp2 := by gcongr
      _ ≤ y.mant * 2 ^ y.exp2 := by gcongr
  · rw [he] at h' ⊢
    have : (x.mant : Int) < y.mant := by linarith
    have h1 : (x.mant : ℚ) < y.mant := by exact_mod_cast this
    have p := two_zpow_pos y.exp2
    gcongr
  · exfalso
    have gx := mant_ge x (by have := exp2_ge y; omega)
    have gx' : (hidden : Int) ≤ x.mant := by exact_mod_cast gx
    have h1 : (y.exp2 + 1074 + 1) * (hidden : Int) ≤ (x.exp2 + 1074) * (hidden : Int) :=
      Int.mul_le_mul_of_nonneg_right (by omega) (Int.ofNat_nonneg hidden)
    linarith

theorem mkey_inj (x y : F64) (h : x.mkey = y.mkey) : x.mant = y.mant ∧ x.exp2 = y.exp2 := by
  have fx := frac_lt x
  have fy := frac_lt y
  unfold mkey at h
  have hh : hidden = 4503599627370496 := rfl
  rw [hh] at h fx fy
  have h1 : x.expo.val = y.expo.val := by omega
  have h2 : x.frac.val = y.frac.val := by omega
  unfold mant exp2
  rw [h1, h2]
  simp

/-- The magnitude keys of floats are ordered as their magnitudes. -/
theorem mkey_le_iff (x y : F64) : x.mkey ≤ y.mkey ↔ x.mag ≤ y.mag := by
  constructor
  · intro h
    rcases Nat.lt_or_ge x.mkey y.mkey with h1 | h1
    · exact le_of_lt (mag_lt_of_mkey_lt x y h1)
    · have := mkey_inj x y (le_antisymm h h1)
      unfold mag
      rw [this.1, this.2]
  · intro h
    by_contra hc
    have := mag_lt_of_mkey_lt y x (by omega)
    linarith

theorem mkey_lt_iff (x y : F64) : x.mkey < y.mkey ↔ x.mag < y.mag := by
  rw [← not_le, ← not_le, mkey_le_iff]

theorem key_eq (x : F64) : x.key = if x.sign then -(x.mkey : Int) else (x.mkey : Int) := rfl

theorem val_eq (x : F64) : x.val = if x.sign then -x.mag else x.mag := rfl

/-- The keys of floats are ordered as their values. -/
theorem key_le_iff (x y : F64) : x.key ≤ y.key ↔ x.val ≤ y.val := by
  have hx := mag_nonneg x
  have hy := mag_nonneg y
  have e := mkey_le_iff x y
  have e2 := mkey_le_iff y x
  have z1 : (0 : Int) ≤ x.mkey := Int.ofNat_nonneg _
  have z2 : (0 : Int) ≤ y.mkey := Int.ofNat_nonneg _
  rw [key_eq, key_eq, val_eq, val_eq]
  cases x.sign <;> cases y.sign <;> simp only [Bool.false_eq_true, if_false, if_true]
  · rw [← e]; exact Int.ofNat_le
  · constructor
    · intro h
      have h0 : x.mkey = 0 := by omega
      have h1 : y.mkey = 0 := by omega
      have := (mkey_le_iff x y).mp (by omega)
      have := (mkey_le_iff y x).mp (by omega)
      have hz : (zero false).mag = 0 := by
        simp [mag, mant, zero, mk3]
      have hx0 : x.mag ≤ (zero false).mag := (mkey_le_iff x (zero false)).mp (by omega)
      have hy0 : y.mag ≤ (zero false).mag := (mkey_le_iff y (zero false)).mp (by omega)
      rw [hz] at hx0 hy0
      linarith
    · intro h
      have hx0 : x.mag = 0 := by linarith
      have hy0 : y.mag = 0 := by linarith
      have hz : (zero false).mag = 0 := by
        simp [mag, mant, zero, mk3]
      have h1 : x.mkey ≤ (zero false).mkey := (mkey_le_iff x (zero false)).mpr (by linarith)
      have h2 : y.mkey ≤ (zero false).mkey := (mkey_le_iff y (zero false)).mpr (by linarith)
      rw [mkey_zero] at h1 h2
      omega
  · constructor
    · intro _; linarith
    · intro _; omega
  · constructor
    · intro h
      have := e2.mp (by omega)
      linarith
    · intro h
      have := e2.mpr (by linarith)
      omega

theorem key_lt_iff (x y : F64) : x.key < y.key ↔ x.val < y.val := by
  rw [← not_le, ← not_le, key_le_iff]

end F64
end Gotty

namespace Gotty
namespace F64

theorem round_zero (s : Bool) (d : Nat) : round s 0 d = zero s := by simp [round]

theorem key_zero (s : Bool) : (zero s).key = 0 := by
  rw [key_eq, mkey_zero]
  cases (zero s).sign <;> simp

/-- Rounding is monotone in the signed exact value. -/
theorem key_round_mono (s s2 : Bool) (n d n2 d2 : Nat) (hd : 0 < d) (hd2 : 0 < d2)
    (h : (if s then -((n : ℚ) / d) else (n : ℚ) / d)
      ≤ (if s2 then -((n2 : ℚ) / d2) else (n2 : ℚ) / d2)) :
    (round s n d).key ≤ (round s2 n2 d2).key := by
  have p1 : (0 : ℚ) ≤ (n : ℚ) / d := by positivity
  have p2 : (0 : ℚ) ≤ (n2 : ℚ) / d2 := by positivity
  rw [key_eq, key_eq, round_sign, round_sign]
  cases s <;> cases s2 <;> simp only [Bool.false_eq_true, if_false, if_true] at h ⊢
  · exact Int.ofNat_le.mpr (mkey_round_mono _ _ n d n2 d2 hd hd2 h)
  · have h0 : (n : ℚ) / d = 0 := by linarith
    have h1 : (n2 : ℚ) / d2 = 0 := by linarith
    have hd' : (d : ℚ) ≠ 0 := by exact_mod_cast (by omega : d ≠ 0)
    have hd2' : (d2 : ℚ) ≠ 0 := by exact_mod_cast (by omega : d2 ≠ 0)
    have hn : n = 0 := by
      rcases div_eq_zero_iff.mp h0 with h3 | h3
      · exact_mod_cast h3
      · exact absurd h3 hd'
    have hn2 : n2 = 0 := by
      rcases div_eq_zero_iff.mp h1 with h3 | h3
      · exact_mod_cast h3
      · exact absurd h3 hd2'
    subst hn; subst hn2
    rw [round_zero, round_zero, mkey_zero, mkey_zero]
    simp
  · have z1 : (0 : Int) ≤ (round true n d).mkey := Int.ofNat_nonneg _
    have z2 : (0 : Int) ≤ (round false n2 d2).mkey := Int.ofNat_nonneg _
    omega
  · have := mkey_round_mono true true n2 d2 n d hd2 hd (by linarith)
    omega

/-- A quotient that is exactly a representable magnitude `m * 2 ^ e` is rounded
at that exponent to that significand. -/
theorem round_valid (n d m : Nat) (e : Int) (hn : 0 < n) (hd : 0 < d) (h1 : m < 2 * hidden)
    (h2 : -1074 ≤ e) (h3 : -1074 < e → hidden ≤ m) (h : (n : ℚ) / d = (m : ℚ) * 2 ^ e) :
    roundExp n d = e ∧ roundSig n d = m := by
  have hsp := ilog2_spec n d hn hd
  rw [h] at hsp
  have hm' : (m : ℚ) < 2 ^ (53 : Int) := by
    have : (m : ℚ) < ((2 * hidden : Nat) : ℚ) := by exact_mod_cast h1
    have e1 : ((2 * hidden : Nat) : ℚ) = 2 ^ (53 : Int) := by norm_num [hidden]
    rwa [e1] at this
  have pe := two_zpow_pos e
  have hup : (2 : ℚ) ^ ilog2 n d < 2 ^ (e + 53) := by
    rw [zpow_add₀ (by norm_num : (2 : ℚ) ≠ 0)]
    calc (2 : ℚ) ^ ilog2 n d ≤ m * 2 ^ e := hsp.1
      _ < 2 ^ (53 : Int) * 2 ^ e := by gcongr
      _ = 2 ^ e * 2 ^ (53 : Int) := by ring
  have hup' := (zpow_lt_zpow_iff_right₀ (by norm_num : (1 : ℚ) < 2)).mp hup
  have hexp : roundExp n d = e := by
    unfold roundExp
    rcases lt_or_ge (-1074) e with hc | hc
    · have hm2 : (2 : ℚ) ^ (52 : Int) ≤ m := by
        have : ((hidden : Nat) : ℚ) ≤ m := by exact_mod_cast h3 hc
        have e1 : ((hidden : Nat) : ℚ) = 2 ^ (52 : Int) := by norm_num [hidden]
        rwa [e1] at this
      have hlo : (2 : ℚ) ^ (e + 52) < 2 ^ (ilog2 n d + 1) := by
        rw [zpow_add₀ (by norm_num : (2 : ℚ) ≠ 0)]
        calc (2 : ℚ) ^ e * 2 ^ (52 : Int) ≤ 2 ^ e * m := by gcongr
          _ = m * 2 ^ e := by ring
          _ < 2 ^ (ilog2 n d + 1) := hsp.2
      have hlo' := (zpow_lt_zpow_iff_right₀ (by norm_num : (1 : ℚ) < 2)).mp hlo
      omega
    · omega
  refine ⟨hexp, ?_⟩
  have hq := roundSig_quot n d
  rw [hexp, h] at hq
  have hq2 : ((n * 2 ^ (-e).toNat : Nat) : ℚ) / ((d * 2 ^ e.toNat : Nat) : ℚ) = (m : ℚ) := by
    rw [hq, mul_assoc, ← zpow_add₀ (by norm_num : (2 : ℚ) ≠ 0)]
    simp
  have hden : 0 < d * 2 ^ e.toNat := Nat.mul_pos hd (Nat.two_pow_pos _)
  unfold roundSig
  rw [hexp]
  apply le_antisymm
  · exact rne_upper _ _ _ hden (quot_le_nat _ _ _ hden (le_of_eq hq2))
  · exact rne_lower _ _ _ hden (quot_ge_nat _ _ _ hden (le_of_eq hq2.symm))

/-- Rounding the exact magnitude of a finite float gives back its magnitude key. -/
theorem mkey_round_exact (x : F64) (hx : x.finite = true) (s : Bool) (n d : Nat) (hd : 0 < d)
    (h : (n : ℚ) / d = x.mag) : (round s n d).mkey = x.mkey := by
  have hd' : (d : ℚ) ≠ 0 := by exact_mod_cast (by omega : d ≠ 0)
  by_cases hn0 : n = 0
  · subst hn0
    rw [round_zero, mkey_zero]
    have h0 : x.mag = 0 := by rw [← h]; simp
    have hz : (zero false).mag = 0 := by simp [mag, mant, zero, mk3]
    have := (mkey_le_iff x (zero false)).mpr (by rw [h0, hz])
    rw [mkey_zero] at this
    omega
  · have hn : 0 < n := Nat.pos_of_ne_zero hn0
    have hv := round_valid n d x.mant x.exp2 hn hd (mant_lt x) (exp2_ge x) (mant_ge x) h
    have hk := mkey_round s n d hn hd
    rw [hv.1, hv.2, ← mkey_eq x] at hk
    have hlt := mkey_lt_of_finite x hx
    have hlt' : (x.mkey : Int) < 2047 * (hidden : Int) := by exact_mod_cast hlt
    rw [min_eq_left (le_of_lt hlt')] at hk
    exact_mod_cast hk

theorem key_round_exact (x : F64) (hx : x.finite = true) (n d : Nat) (hd : 0 < d)
    (h : (n : ℚ) / d = x.mag) : (round x.sign n d).key = x.key := by
  rw [key_eq, key_eq, round_sign, mkey_round_exact x hx _ n d hd h]

end F64
end Gotty

namespace Gotty
namespace F64

theorem ext_of_key (x y : F64) (hs : x.sign = y.sign) (hk : x.mkey = y.mkey) : x = y := by
  have fx := frac_lt x
  have fy := frac_lt y
  unfold mkey at hk
  have hh : hidden = 4503599627370496 := rfl
  rw [hh] at hk fx fy
  have h1 : x.expo.val = y.expo.val := by omega
  have h2 : x.frac.val = y.frac.val := by omega
  cases x; cases y
  simp only at hs h1 h2
  simp only [mk.injEq]
  exact ⟨hs, Fin.ext h1, Fin.ext h2⟩

theorem finite_not_nan (a : F64) (h : a.finite = true) : a.IsNaN = false := by
  rw [finite_iff] at h
  simp [IsNaN, h]

/-- Rounding the exact magnitude of a finite float gives back the float. -/
theorem round_exact (x : F64) (hx : x.finite = true) (n d : Nat) (hd : 0 < d)
    (h : (n : ℚ) / d = x.mag) : round x.sign n d = x :=
  ext_of_key _ _ (round_sign _ _ _) (mkey_round_exact x hx _ n d hd h)

theorem mag_eq_cast (x : F64) :
    x.mag = ((x.mant * 2 ^ x.exp2.toNat : Nat) : ℚ) / ((1 * 2 ^ (-x.exp2).toNat : Nat) : ℚ) := by
  rw [scaled_cast]
  simp [mag]

/-- A finite float is the rounding of its own value. -/
theorem Rounds.self (x : F64) (hx : x.finite = true) : Rounds x x.val := by
  refine ⟨x.sign, x.mant * 2 ^ x.exp2.toNat, 1 * 2 ^ (-x.exp2).toNat,
    Nat.mul_pos (by norm_num) (Nat.two_pow_pos _), ?_, ?_⟩
  · exact (round_exact x hx _ _ (Nat.mul_pos (by norm_num) (Nat.two_pow_pos _))
      (mag_eq_cast x).symm).symm
  · rw [val_eq, ← mag_eq_cast]

/-- Roundings are ordered as the exact values. -/
theorem Rounds.mono {r r2 : F64} {v v2 : ℚ} (h1 : Rounds r v) (h2 : Rounds r2 v2) (h : v ≤ v2) :
    r.key ≤ r2.key := by
  obtain ⟨s, n, d, hd, rfl, rfl⟩ := h1
  obtain ⟨s2, n2, d2, hd2, rfl, rfl⟩ := h2
  exact key_round_mono s s2 n d n2 d2 hd hd2 h

theorem Rounds.le_float {r g : F64} {v : ℚ} (h1 : Rounds r v) (hg : g.finite = true)
    (h : v ≤ g.val) : r.key ≤ g.key :=
  Rounds.mono h1 (Rounds.self g hg) h

theorem Rounds.float_le {r g : F64} {v : ℚ} (h1 : Rounds r v) (hg : g.finite = true)
    (h : g.val ≤ v) : g.key ≤ r.key :=
  Rounds.mono (Rounds.self g hg) h1 h

theorem round_not_nan (s : Bool) (n d : Nat) : (round s n d).IsNaN = false := by
  unfold round
  split
  · simp [IsNaN, zero, mk3]
  · unfold pack
    split
    · split
      · simp [IsNaN, inf, mk3]
      · simp [IsNaN, mk3]
    · split
      · simp [IsNaN, inf, mk3]
      · split
        · simp [IsNaN, mk3]
        · next h1 h2 h3 =>
          have : (roundExp n d + 1075).toNat % 2048 ≠ 2047 := by
            have := roundExp_ge n d
            omega
          simp [IsNaN, mk3, this]

theorem Rounds.not_nan {r : F64} {v : ℚ} (h : Rounds r v) : r.IsNaN = false := by
  obtain ⟨s, n, d, _, rfl, _⟩ := h
  exact round_not_nan s n d

theorem roundScaled_rounds (s : Bool) (n d : Nat) (e : Int) (hd : 0 < d) :
    Rounds (roundScaled s n d e) (if s then -((n : ℚ) / d * 2 ^ e) else (n : ℚ) / d * 2 ^ e) := by
  refine ⟨s, n * 2 ^ e.toNat, d * 2 ^ (-e).toNat, Nat.mul_pos hd (Nat.two_pow_pos _), rfl, ?_⟩
  rw [scaled_cast]

theorem val_mul_sign (a b : F64) :
    (if xor a.sign b.sign then -(a.mag * b.mag) else a.mag * b.mag) = a.val * b.val := by
  rw [val_eq, val_eq]
  cases a.sign <;> cases b.sign <;> simp

/-- The product of two finite floats is the rounding of the exact product. -/
theorem mul_rounds (a b : F64) (ha : a.finite = true) (hb : b.finite = true) :
    Rounds (mul a b) (a.val * b.val) := by
  have h := roundScaled_rounds (xor a.sign b.sign) (a.mant * b.mant) 1 (a.exp2 + b.exp2)
    (by norm_num)
  have e : ((a.mant * b.mant : Nat) : ℚ) / ((1 : Nat) : ℚ) * 2 ^ (a.exp2 + b.exp2)
      = a.mag * b.mag := by
    unfold mag
    rw [zpow_add₀ (by norm_num : (2 : ℚ) ≠ 0)]
    push_cast
    ring
  rw [e, val_mul_sign] at h
  unfold mul
  simp only [finite_not_nan a ha, finite_not_nan b hb, ha, hb, Bool.or_self, Bool.false_eq_true,
    if_false, Bool.not_true]
  exact h

theorem val_div_sign (a b : F64) :
    (if xor a.sign b.sign then -(a.mag / b.mag) else a.mag / b.mag) = a.val / b.val := by
  rw [val_eq, val_eq]
  cases a.sign <;> cases b.sign <;> simp [neg_div, div_neg]

/-- The quotient of two finite floats, the divisor not zero, is the rounding of
the exact quotient. -/
theorem div_rounds (a b : F64) (ha : a.finite = true) (hb : b.finite = true) (hb0 : b.mant ≠ 0) :
    Rounds (div a b) (a.val / b.val) := by
  have h := roundScaled_rounds (xor a.sign b.sign) a.mant b.mant (a.exp2 - b.exp2)
    (Nat.pos_of_ne_zero hb0)
  have e : ((a.mant : Nat) : ℚ) / ((b.mant : Nat) : ℚ) * 2 ^ (a.exp2 - b.exp2)
      = a.mag / b.mag := by
    unfold mag
    rw [zpow_sub₀ (by norm_num : (2 : ℚ) ≠ 0)]
    have : (b.mant : ℚ) ≠ 0 := by exact_mod_cast hb0
    field_simp
  rw [e, val_div_sign] at h
  unfold div
  simp only [finite_not_nan a ha, finite_not_nan b hb, ha, hb, Bool.or_self, Bool.false_eq_true,
    if_false, Bool.not_true, hb0]
  exact h

theorem ulps_cast (x : F64) (e : Int) (he : e ≤ x.exp2) :
    ((x.ulps e : Int) : ℚ) * 2 ^ e = x.val := by
  unfold ulps
  rw [val_eq]
  have h1 : (2 : ℚ) ^ (x.exp2 - e).toNat * 2 ^ e = 2 ^ x.exp2 := by
    rw [← zpow_natCast, ← zpow_add₀ (by norm_num : (2 : ℚ) ≠ 0), Int.toNat_of_nonneg (by omega)]
    congr 1
    ring
  cases x.sign <;> simp only [Bool.false_eq_true, if_false, if_true] <;> push_cast <;>
    unfold mag
  · rw [mul_assoc, h1]
  · rw [neg_mul, mul_assoc, h1]

/-- The sum of two finite floats is the rounding of the exact sum. -/
theorem add_rounds (a b : F64) (ha : a.finite = true) (hb : b.finite = true) :
    Rounds (add a b) (a.val + b.val) := by
  have ea := ulps_cast a (min a.exp2 b.exp2) (min_le_left _ _)
  have eb := ulps_cast b (min a.exp2 b.exp2) (min_le_right _ _)
  have hsum : a.val + b.val
      = ((a.ulps (min a.exp2 b.exp2) + b.ulps (min a.exp2 b.exp2) : Int) : ℚ)
        * 2 ^ (min a.exp2 b.exp2) := by
    push_cast
    rw [add_mul, ea, eb]
  unfold add
  simp only [finite_not_nan a ha, finite_not_nan b hb, ha, hb, Bool.or_self, Bool.false_eq_true,
    if_false, Bool.not_true]
  set t := a.ulps (min a.exp2 b.exp2) + b.ulps (min a.exp2 b.exp2) with ht
  by_cases h0 : t = 0
  · rw [if_pos h0]
    refine ⟨a.sign && b.sign, 0, 1, by norm_num, (round_zero _ _).symm, ?_⟩
    rw [hsum, h0]
    simp
  · rw [if_neg h0]
    have h := roundScaled_rounds (decide (t < 0)) t.natAbs 1 (min a.exp2 b.exp2) (by norm_num)
    have e : (if decide (t < 0) = true
          then -(((t.natAbs : Nat) : ℚ) / ((1 : Nat) : ℚ) * 2 ^ (min a.exp2 b.exp2))
          else ((t.natAbs : Nat) : ℚ) / ((1 : Nat) : ℚ) * 2 ^ (min a.exp2 b.exp2))
        = a.val + b.val := by
      rw [hsum]
      have hcast : ((t.natAbs : Nat) : ℚ) = |(t : ℚ)| := by
        rw [Nat.cast_natAbs]
        push_cast
        rfl
      rw [hcast]
      by_cases hneg : t < 0
      · have : (t : ℚ) < 0 := by exact_mod_cast hneg
        simp only [hneg, decide_True, if_true, Nat.cast_one, div_one, abs_of_neg this]
        ring
      · have : (0 : ℚ) ≤ (t : ℚ) := by exact_mod_cast (not_lt.mp hneg)
        simp only [hneg, decide_False, Bool.false_eq_true, if_false, Nat.cast_one, div_one,
          abs_of_nonneg this]
    rw [e] at h
    exact h

theorem neg_finite (x : F64) : (neg x).finite = x.finite := rfl

theorem neg_val (x : F64) : (neg x).val = -x.val := by
  rw [val_eq, val_eq]
  have : (neg x).mag = x.mag := rfl
  rw [this]
  have : (neg x).sign = !x.sign := rfl
  rw [this]
  cases x.sign <;> simp

/-- The difference of two finite floats is the rounding of the exact difference. -/
theorem sub_rounds (a b : F64) (ha : a.finite = true) (hb : b.finite = true) :
    Rounds (sub a b) (a.val - b.val) := by
  have := add_rounds a (neg b) ha (by rw [neg_finite]; exact hb)
  rw [neg_val] at this
  rw [sub_eq_add_neg]
  exact this

end F64
end Gotty

namespace Gotty
namespace F64

theorem mant_mk3 (s : Bool) (e f : Nat) (he : e < 2048) (hf : f < hidden) :
    (mk3 s e f).mant = if e = 0 then f else hidden + f := by
  unfold mant
  rw [mk3_expo s e f he, mk3_frac s e f hf]

theorem exp2_mk3 (s : Bool) (e f : Nat) (he : e < 2048) :
    (mk3 s e f).exp2 = if e = 0 then -1074 else (e : Int) - 1075 := by
  unfold exp2
  rw [mk3_expo s e f he]

theorem finite_mk3 (s : Bool) (e f : Nat) (he : e < 2047) : (mk3 s e f).finite = true := by
  rw [finite_iff, mk3_expo s e f (by omega)]
  omega

/-- The magnitude of a packed float that does not overflow. -/
theorem mag_pack (s : Bool) (m : Nat) (e : Int) (h1 : m ≤ 2 * hidden) (h2 : -1074 ≤ e)
    (h3 : -1074 < e → hidden ≤ m) (h4 : e ≤ 971) (h5 : m = 2 * hidden → e < 971) :
    (pack s m e).mag = (m : ℚ) * 2 ^ e ∧ (pack s m e).finite = true := by
  have hh : hidden = 4503599627370496 := rfl
  unfold pack
  by_cases c1 : m = 2 * hidden
  · have he := h5 c1
    rw [if_pos c1, if_neg (by omega)]
    have hlt : (e + 1 + 1075).toNat < 2047 := by omega
    refine ⟨?_, finite_mk3 _ _ _ hlt⟩
    unfold mag
    rw [mant_mk3 _ _ _ (by omega) (by norm_num [hidden]), exp2_mk3 _ _ _ (by omega)]
    rw [if_neg (by omega), if_neg (by omega), c1]
    have : (((e + 1 + 1075).toNat : Nat) : Int) - 1075 = e + 1 := by omega
    rw [this, zpow_add₀ (by norm_num : (2 : ℚ) ≠ 0)]
    push_cast
    ring
  · rw [if_neg c1, if_neg (by omega)]
    by_cases c3 : m < hidden
    · rw [if_pos c3]
      have he : e = -1074 := by
        by_contra hc
        have := h3 (by omega)
        omega
      refine ⟨?_, finite_mk3 _ _ _ (by norm_num)⟩
      unfold mag
      rw [mant_mk3 _ _ _ (by norm_num) c3, exp2_mk3 _ _ _ (by norm_num)]
      simp [he]
    · rw [if_neg c3]
      have hlt : (e + 1075).toNat < 2047 := by omega
      have hm : m - hidden < hidden := by omega
      refine ⟨?_, finite_mk3 _ _ _ hlt⟩
      unfold mag
      rw [mant_mk3 _ _ _ (by omega) hm, exp2_mk3 _ _ _ (by omega)]
      by_cases c4 : (e + 1075).toNat = 0
      · rw [if_pos c4, if_pos c4]
        have : e = -1075 ∨ e < -1075 := by omega
        omega
      · rw [if_neg c4, if_neg c4]
        have e1 : (((e + 1075).toNat : Nat) : Int) - 1075 = e := by omega
        have e2 : hidden + (m - hidden) = m := by omega
        rw [e1, e2]

/-- The sign-attached value of a rounding. -/
theorem val_round (s : Bool) (n d : Nat) :
    (round s n d).val = if s then -(round s n d).mag else (round s n d).mag := by
  rw [val_eq, round_sign]

/-- A quotient that is exactly a representable magnitude is rounded to itself. -/
theorem round_repr (s : Bool) (n d m : Nat) (e : Int) (hd : 0 < d) (h1 : m < 2 * hidden)
    (h2 : -1074 ≤ e) (h3 : -1074 < e → hidden ≤ m) (h4 : e ≤ 971)
    (h : (n : ℚ) / d = (m : ℚ) * 2 ^ e) :
    (round s n d).mag = (n : ℚ) / d ∧ (round s n d).finite = true := by
  by_cases hn0 : n = 0
  · subst hn0
    rw [round_zero]
    constructor
    · simp [mag, mant, zero, mk3]
    · exact finite_mk3 _ _ _ (by norm_num)
  · have hn : 0 < n := Nat.pos_of_ne_zero hn0
    have hv := round_valid n d m e hn hd h1 h2 h3 h
    unfold round
    rw [if_neg hn0, hv.1, hv.2, h]
    exact mag_pack s m e (le_of_lt h1) h2 h3 h4 (by omega)

/-- A rounding whose exact value is a representable number has that value. -/
theorem Rounds.exact {r : F64} {v : ℚ} (hr : Rounds r v) (m : Nat) (e : Int)
    (h1 : m < 2 * hidden) (h2 : -1074 ≤ e) (h3 : -1074 < e → hidden ≤ m) (h4 : e ≤ 971)
    (h : |v| = (m : ℚ) * 2 ^ e) : r.val = v ∧ r.finite = true := by
  obtain ⟨s, n, d, hd, rfl, rfl⟩ := hr
  have hq : (0 : ℚ) ≤ (n : ℚ) / d := by positivity
  have habs : (n : ℚ) / d = (m : ℚ) * 2 ^ e := by
    rw [← h]
    cases s <;> simp [abs_of_nonneg hq]
  have := round_repr s n d m e hd h1 h2 h3 h4 habs
  rw [val_round, this.1]
  exact ⟨rfl, this.2⟩

/-- The value of a finite float is representable (by its own significand and
exponent), so any rounding of it is exact. -/
theorem Rounds.exact_of_float {r g : F64} {v : ℚ} (hr : Rounds r v) (hg : g.finite = true)
    (h : v = g.val) : r.val = v ∧ r.finite = true := by
  apply hr.exact g.mant g.exp2 (mant_lt g) (exp2_ge g) (mant_ge g) (exp2_le g hg)
  rw [h, val_eq]
  have := mag_nonneg g
  cases g.sign <;> simp [abs_of_nonneg this] <;> rfl

/-- The magnitude of a rounding that stays finite. -/
theorem mag_round (s : Bool) (n d : Nat) (hn : 0 < n) (hd : 0 < d)
    (hfin : (round s n d).finite = true) :
    (round s n d).mag = (roundSig n d : ℚ) * 2 ^ roundExp n d := by
  have hk := mkey_round s n d hn hd
  have hlt := mkey_lt_of_finite _ hfin
  have hlt' : ((round s n d).mkey : Int) < 2047 * (hidden : Int) := by exact_mod_cast hlt
  have hL : (roundExp n d + 1074) * (hidden : Int) + roundSig n d < 2047 * (hidden : Int) := by
    by_contra hc
    rw [min_eq_right (by omega)] at hk
    omega
  have hs := roundSig_le n d hn hd
  have hg := roundSig_ge n d hn hd
  have he := roundExp_ge n d
  have hh : (hidden : Int) = 4503599627370496 := rfl
  have hs' : (roundSig n d : Int) ≤ 2 * hidden := by exact_mod_cast hs
  unfold round
  rw [if_neg (by omega)]
  refine (mag_pack s _ _ hs he hg ?_ ?_).1
  · by_contra hc
    have h6 : -1074 < roundExp n d := by omega
    have h7 : (hidden : Int) ≤ roundSig n d := by exact_mod_cast hg h6
    have : (972 + 1074) * (hidden : Int) ≤ (roundExp n d + 1074) * (hidden : Int) :=
      Int.mul_le_mul_of_nonneg_right (by omega) (Int.ofNat_nonneg hidden)
    linarith
  · intro hm
    by_contra hc
    have h8 : (roundSig n d : Int) = 2 * hidden := by exact_mod_cast hm
    have : (971 + 1074) * (hidden : Int) ≤ (roundExp n d + 1074) * (hidden : Int) :=
      Int.mul_le_mul_of_nonneg_right (by omega) (Int.ofNat_nonneg hidden)
    linarith

/-- A finite rounding is within half a unit in the last place of the exact quotient. -/
theorem round_near (s : Bool) (n d : Nat) (hn : 0 < n) (hd : 0 < d)
    (hfin : (round s n d).finite = true) :
    |(round s n d).mag - (n : ℚ) / d| ≤ 2 ^ (roundExp n d - 1) := by
  rw [mag_round s n d hn hd hfin]
  have hden : 0 < d * 2 ^ (roundExp n d).toNat := Nat.mul_pos hd (Nat.two_pow_pos _)
  have hnear := rne_near (n * 2 ^ (-roundExp n d).toNat) (d * 2 ^ (roundExp n d).toNat) hden
  have hq := roundSig_quot n d
  have hden' : (0 : ℚ) < ((d * 2 ^ (roundExp n d).toNat : Nat) : ℚ) := by exact_mod_cast hden
  set num := n * 2 ^ (-roundExp n d).toNat with hnum
  set den := d * 2 ^ (roundExp n d).toNat with hdn
  have hsig : roundSig n d = rne num den := rfl
  rw [hsig]
  set m := rne num den with hm
  have pe := two_zpow_pos (roundExp n d)
  -- n / d = (num / den) * 2 ^ e
  have hnd : (n : ℚ) / d = (num : ℚ) / den * 2 ^ roundExp n d := by
    rw [hq, mul_assoc, ← zpow_add₀ (by norm_num : (2 : ℚ) ≠ 0)]
    simp
  rw [hnd, ← sub_mul, abs_mul, abs_of_pos pe]
  have e1 : (2 : ℚ) ^ (roundExp n d - 1) = (1 / 2) * 2 ^ roundExp n d := by
    rw [zpow_sub₀ (by norm_num : (2 : ℚ) ≠ 0)]
    simp
    ring
  rw [e1]
  apply mul_le_mul_of_nonneg_right _ (le_of_lt pe)
  have c1 : (2 : ℚ) * (m * den) ≤ 2 * num + den := by exact_mod_cast hnear.1
  have c2 : (2 : ℚ) * num ≤ 2 * (m * den) + den := by exact_mod_cast hnear.2
  rw [abs_le]
  constructor
  · rw [le_sub_iff_add_le, ← sub_eq_neg_add, sub_le_iff_le_add, div_le_iff₀ hden']
    linarith
  · rw [sub_le_iff_le_add, ← sub_le_iff_le_add', le_div_iff₀ hden']
    linarith

/-- Relative error of a finite rounding in the normal range. -/
theorem round_rel (s : Bool) (n d : Nat) (hn : 0 < n) (hd : 0 < d)
    (hfin : (round s n d).finite = true) (hnorm : (2 : ℚ) ^ (-1022 : Int) ≤ (n : ℚ) / d) :
    |(round s n d).mag - (n : ℚ) / d| ≤ (n : ℚ) / d * 2 ^ (-53 : Int) := by
  have h1 := round_near s n d hn hd hfin
  have h2 : (2 : ℚ) ^ (roundExp n d + 52) ≤ (n : ℚ) / d := by
    rcases lt_or_ge (-1074) (roundExp n d) with hc | hc
    · have := (ilog2_spec n d hn hd).1
      have e : roundExp n d + 52 = ilog2 n d := by unfold roundExp at hc ⊢; omega
      rw [e]; exact this
    · have e : roundExp n d = -1074 := le_antisymm hc (roundExp_ge n d)
      rw [e]
      exact hnorm
  have e3 : (2 : ℚ) ^ (roundExp n d - 1) = 2 ^ (roundExp n d + 52) * 2 ^ (-53 : Int) := by
    rw [← zpow_add₀ (by norm_num : (2 : ℚ) ≠ 0), add_assoc]
    norm_num
    rfl
  rw [e3] at h1
  calc |(round s n d).mag - (n : ℚ) / d| ≤ 2 ^ (roundExp n d + 52) * 2 ^ (-53 : Int) := h1
    _ ≤ (n : ℚ) / d * 2 ^ (-53 : Int) := by gcongr

/-- Relative error of a finite rounding whose exact value is in the normal range. -/
theorem Rounds.rel {r : F64} {v : ℚ} (hr : Rounds r v) (hfin : r.finite = true)
    (hnorm : (2 : ℚ) ^ (-1022 : Int) ≤ |v|) : |r.val - v| ≤ |v| * 2 ^ (-53 : Int) := by
  obtain ⟨s, n, d, hd, rfl, rfl⟩ := hr
  have hq : (0 : ℚ) ≤ (n : ℚ) / d := by positivity
  have habs : |(if s then -((n : ℚ) / d) else (n : ℚ) / d)| = (n : ℚ) / d := by
    cases s <;> simp [abs_of_nonneg hq]
  rw [habs] at hnorm ⊢
  have hn : 0 < n := by
    rcases Nat.eq_zero_or_pos n with h0 | h0
    · subst h0
      have : (0 : ℚ) < 2 ^ (-1022 : Int) := two_zpow_pos _
      simp at hnorm
      linarith
    · exact h0
  have := round_rel s n d hn hd hfin hnorm
  rw [val_round]
  cases s <;> simp only [Bool.false_eq_true, if_false, if_true]
  · exact this
  · rw [← abs_neg]
    have e : -(-(round true n d).mag - -((n : ℚ) / d)) = (round true n d).mag - (n : ℚ) / d := by
      ring
    rw [e]
    exact this

end F64
end Gotty

namespace Gotty
namespace F64

theorem nan_not_finite : nan.finite = false := by decide

theorem inf_not_finite (s : Bool) : (inf s).finite = false := by
  cases s <;> decide

theorem nan_of_IsNaN_not_finite (a : F64) (h : a.IsNaN = true) : a.finite = false := by
  simp only [IsNaN, Bool.and_eq_true, beq_iff_eq] at h
  simp [finite, h.1]

theorem mul_finite_inv (a b : F64) (h : (mul a b).finite = true) :
    a.finite = true ∧ b.finite = true := by
  unfold mul at h
  by_cases hn : (a.IsNaN || b.IsNaN) = true
  · rw [if_pos hn, nan_not_finite] at h; exact absurd h (by simp)
  · rw [if_neg hn] at h
    by_cases ha : a.finite = true
    · by_cases hb : b.finite = true
      · exact ⟨ha, hb⟩
      · simp only [ha, hb, Bool.not_true, Bool.false_eq_true, if_false, Bool.not_false,
          if_true] at h
        split at h
        · rw [nan_not_finite] at h; exact absurd h (by simp)
        · rw [inf_not_finite] at h; exact absurd h (by simp)
    · simp only [ha, Bool.not_false, if_true] at h
      split at h
      · rw [nan_not_finite] at h; exact absurd h (by simp)
      · rw [inf_not_finite] at h; exact absurd h (by simp)

theorem add_finite_inv (a b : F64) (h : (add a b).finite = true) :
    a.finite = true ∧ b.finite = true := by
  unfold add at h
  by_cases hn : (a.IsNaN || b.IsNaN) = true
  · rw [if_pos hn, nan_not_finite] at h; exact absurd h (by simp)
  · rw [if_neg hn] at h
    by_cases ha : a.finite = true
    · by_cases hb : b.finite = true
      · exact ⟨ha, hb⟩
      · simp only [ha, hb, Bool.not_true, Bool.false_eq_true, if_false, Bool.not_false,
          if_true] at h
        rw [inf_not_finite] at h; exact absurd h (by simp)
    · simp only [ha, Bool.not_false, if_true] at h
      split at h
      · rw [nan_not_finite] at h; exact absurd h (by simp)
      · rw [inf_not_finite] at h; exact absurd h (by simp)

theorem sub_finite_inv (a b : F64) (h : (sub a b).finite = true) :
    a.finite = true ∧ b.finite = true := by
  have := add_finite_inv a (neg b) h
  rw [neg_finite] at this
  exact this

theorem mkey_eq_natAbs (x : F64) : (x.mkey : Int) = |x.key| := by
  rw [key_eq]
  have z : (0 : Int) ≤ x.mkey := Int.ofNat_nonneg _
  cases x.sign <;> simp [abs_of_nonneg z]

/-- A float whose key lies between the keys of two finite floats is finite. -/
theorem finite_of_mem (x : F64) (I : Ivl) (hI : I.fin = true) (hx : I.mem x) :
    x.finite = true := by
  simp only [Ivl.fin, Bool.and_eq_true] at hI
  have h1 := mkey_lt_of_finite _ hI.1
  have h2 := mkey_lt_of_finite _ hI.2
  have h1' : (I.lo.mkey : Int) < ((2047 * hidden : Nat) : Int) := by exact_mod_cast h1
  have h2' : (I.hi.mkey : Int) < ((2047 * hidden : Nat) : Int) := by exact_mod_cast h2
  rw [mkey_eq_natAbs] at h1' h2'
  apply finite_of_mkey_lt
  have : (x.mkey : Int) < ((2047 * hidden : Nat) : Int) := by
    rw [mkey_eq_natAbs]
    have a1 := abs_lt.mp h1'
    have a2 := abs_lt.mp h2'
    rw [abs_lt]
    unfold Ivl.mem at hx
    constructor <;> omega
  exact_mod_cast this

theorem mem_val (x : F64) (I : Ivl) (hx : I.mem x) : I.lo.val ≤ x.val ∧ x.val ≤ I.hi.val :=
  ⟨(key_le_iff _ _).mp hx.1, (key_le_iff _ _).mp hx.2⟩

theorem mem_pt (x : F64) : (Ivl.pt x).mem x := ⟨le_rfl, le_rfl⟩

theorem bad_not_fin : Ivl.bad.fin = false := by decide

theorem kmin_le_left (a b : F64) : (kmin a b).key ≤ a.key := by
  unfold kmin; split <;> omega

theorem kmin_le_right (a b : F64) : (kmin a b).key ≤ b.key := by
  unfold kmin; split <;> omega

theorem le_kmax_left (a b : F64) : a.key ≤ (kmax a b).key := by
  unfold kmax; split <;> omega

theorem le_kmax_right (a b : F64) : b.key ≤ (kmax a b).key := by
  unfold kmax; split <;> omega

theorem iadd_fin_inv (I J : Ivl) (h : (iadd I J).fin = true) : I.fin = true ∧ J.fin = true := by
  simp only [Ivl.fin, iadd, Bool.and_eq_true] at h ⊢
  have h1 := add_finite_inv _ _ h.1
  have h2 := add_finite_inv _ _ h.2
  exact ⟨⟨h1.1, h2.1⟩, ⟨h1.2, h2.2⟩⟩

theorem isub_fin_inv (I J : Ivl) (h : (isub I J).fin = true) : I.fin = true ∧ J.fin = true := by
  simp only [Ivl.fin, isub, Bool.and_eq_true] at h ⊢
  have h1 := sub_finite_inv _ _ h.1
  have h2 := sub_finite_inv _ _ h.2
  exact ⟨⟨h1.1, h2.1⟩, ⟨h2.2, h1.2⟩⟩

theorem imul_fin_inv (I J : Ivl) (h : (imul I J).fin = true) : I.fin = true ∧ J.fin = true := by
  unfold imul at h
  split at h
  · next hc =>
    simp only [Bool.and_eq_true] at hc
    have h1 := mul_finite_inv _ _ hc.1.1.1
    have h2 := mul_finite_inv _ _ hc.2
    simp only [Ivl.fin, Bool.and_eq_true]
    exact ⟨⟨h1.1, h2.1⟩, ⟨h1.2, h2.2⟩⟩
  · rw [bad_not_fin] at h; exact absurd h (by simp)

theorem idiv_fin_inv (I J : Ivl) (h : (idiv I J).fin = true) :
    I.fin = true ∧ J.fin = true ∧ 0 < J.lo.key := by
  unfold idiv at h
  split at h
  · next hc =>
    simp only [Bool.and_eq_true, decide_eq_true_eq] at hc
    exact ⟨hc.1.1, hc.1.2, hc.2⟩
  · rw [bad_not_fin] at h; exact absurd h (by simp)

/-- Soundness of the interval sum. -/
theorem iadd_sound (x y : F64) (I J : Ivl) (hI : I.fin = true) (hJ : J.fin = true)
    (hx : I.mem x) (hy : J.mem y) : (iadd I J).mem (add x y) := by
  have fx := finite_of_mem x I hI hx
  have fy := finite_of_mem y J hJ hy
  simp only [Ivl.fin, Bool.and_eq_true] at hI hJ
  have vx := mem_val x I hx
  have vy := mem_val y J hy
  constructor
  · exact (add_rounds _ _ hI.1 hJ.1).mono (add_rounds x y fx fy) (by linarith)
  · exact (add_rounds x y fx fy).mono (add_rounds _ _ hI.2 hJ.2) (by linarith)

/-- Soundness of the interval difference. -/
theorem isub_sound (x y : F64) (I J : Ivl) (hI : I.fin = true) (hJ : J.fin = true)
    (hx : I.mem x) (hy : J.mem y) : (isub I J).mem (sub x y) := by
  have fx := finite_of_mem x I hI hx
  have fy := finite_of_mem y J hJ hy
  simp only [Ivl.fin, Bool.and_eq_true] at hI hJ
  have vx := mem_val x I hx
  have vy := mem_val y J hy
  constructor
  · exact (sub_rounds _ _ hI.1 hJ.2).mono (sub_rounds x y fx fy) (by linarith)
  · exact (sub_rounds x y fx fy).mono (sub_rounds _ _ hI.2 hJ.1) (by linarith)

/-- A product over a box lies between two of the corner products. -/
theorem corner_mul (a b c d x y : ℚ) (hax : a ≤ x) (hxb : x ≤ b) (hcy : c ≤ y) (hyd : y ≤ d) :
    (a * c ≤ x * y ∨ a * d ≤ x * y ∨ b * c ≤ x * y ∨ b * d ≤ x * y) ∧
    (x * y ≤ a * c ∨ x * y ≤ a * d ∨ x * y ≤ b * c ∨ x * y ≤ b * d) := by
  rcases le_total 0 y with hy | hy
  · rcases le_total 0 a with ha | ha
    · rcases le_total 0 b with hb | hb
      · exact ⟨Or.inl (by nlinarith), Or.inr (Or.inr (Or.inr (by nlinarith)))⟩
      · exact ⟨Or.inl (by nlinarith), Or.inr (Or.inr (Or.inl (by nlinarith)))⟩
    · rcases le_total 0 b with hb | hb
      · exact ⟨Or.inr (Or.inl (by nlinarith)), Or.inr (Or.inr (Or.inr (by nlinarith)))⟩
      · exact ⟨Or.inr (Or.inl (by nlinarith)), Or.inr (Or.inr (Or.inl (by nlinarith)))⟩
  · rcases le_total 0 a with ha | ha
    · rcases le_total 0 b with hb | hb
      · exact ⟨Or.inr (Or.inr (Or.inl (by nlinarith))), Or.inr (Or.inl (by nlinarith))⟩
      · exact ⟨Or.inr (Or.inr (Or.inl (by nlinarith))), Or.inr (Or.inl (by nlinarith))⟩
    · rcases le_total 0 b with hb | hb
      · exact ⟨Or.inr (Or.inr (Or.inl (by nlinarith))), Or.inl (by nlinarith)⟩
      · exact ⟨Or.inr (Or.inr (Or.inr (by nlinarith))), Or.inl (by nlinarith)⟩

/-- Soundness of the interval product. -/
theorem imul_sound (x y : F64) (I J : Ivl) (hfin : (imul I J).fin = true)
    (hx : I.mem x) (hy : J.mem y) : (imul I J).mem (mul x y) := by
  obtain ⟨hI, hJ⟩ := imul_fin_inv I J hfin
  have fx := finite_of_mem x I hI hx
  have fy := finite_of_mem y J hJ hy
  have vx := mem_val x I hx
  have vy := mem_val y J hy
  simp only [Ivl.fin, Bool.and_eq_true] at hI hJ
  have r := mul_rounds x y fx fy
  have r1 := mul_rounds _ _ hI.1 hJ.1
  have r2 := mul_rounds _ _ hI.1 hJ.2
  have r3 := mul_rounds _ _ hI.2 hJ.1
  have r4 := mul_rounds _ _ hI.2 hJ.2
  obtain ⟨hlo, hhi⟩ := corner_mul _ _ _ _ _ _ vx.1 vx.2 vy.1 vy.2
  unfold imul at hfin ⊢
  split at hfin
  · next hc =>
    rw [if_pos hc]
    constructor
    · simp only
      rcases hlo with h | h | h | h
      · exact le_trans (le_trans (kmin_le_left _ _) (kmin_le_left _ _)) (r1.mono r h)
      · exact le_trans (le_trans (kmin_le_left _ _) (kmin_le_right _ _)) (r2.mono r h)
      · exact le_trans (le_trans (kmin_le_right _ _) (kmin_le_left _ _)) (r3.mono r h)
      · exact le_trans (le_trans (kmin_le_right _ _) (kmin_le_right _ _)) (r4.mono r h)
    · simp only
      rcases hhi with h | h | h | h
      · exact le_trans (r.mono r1 h) (le_trans (le_kmax_left _ _) (le_kmax_left _ _))
      · exact le_trans (r.mono r2 h) (le_trans (le_kmax_right _ _) (le_kmax_left _ _))
      · exact le_trans (r.mono r3 h) (le_trans (le_kmax_left _ _) (le_kmax_right _ _))
      · exact le_trans (r.mono r4 h) (le_trans (le_kmax_right _ _) (le_kmax_right _ _))
  · rw [bad_not_fin] at hfin; exact absurd hfin (by simp)

end F64
end Gotty

namespace Gotty
namespace F64

theorem val_zero (s : Bool) : (zero s).val = 0 := by
  cases s <;> simp [val, mag, mant, zero, mk3]

theorem val_pos_of_key_pos (x : F64) (h : 0 < x.key) : 0 < x.val := by
  have := (key_lt_iff (zero false) x).mp (by rw [key_zero]; exact h)
  rwa [val_zero] at this

theorem val_nonneg_of_key_nonneg (x : F64) (h : 0 ≤ x.key) : 0 ≤ x.val := by
  have := (key_le_iff (zero false) x).mp (by rw [key_zero]; exact h)
  rwa [val_zero] at this

theorem key_nonneg_of_val_nonneg (x : F64) (h : 0 ≤ x.val) : 0 ≤ x.key := by
  have := (key_le_iff (zero false) x).mpr (by rw [val_zero]; exact h)
  rwa [key_zero] at this

theorem mant_ne_zero_of_val_ne (x : F64) (h : x.val ≠ 0) : x.mant ≠ 0 := by
  intro hc
  apply h
  rw [val_eq]
  unfold mag
  rw [hc]
  simp

/-- A quotient over a box with positive divisors lies between corner quotients. -/
theorem corner_div (a b c d x y : ℚ) (hax : a ≤ x) (hxb : x ≤ b) (hc : 0 < c) (hcy : c ≤ y)
    (hyd : y ≤ d) :
    (a / c ≤ x / y ∨ a / d ≤ x / y) ∧ (x / y ≤ b / c ∨ x / y ≤ b / d) := by
  have hy : 0 < y := lt_of_lt_of_le hc hcy
  have hd : 0 < d := lt_of_lt_of_le hy hyd
  rcases le_total 0 x with hx | hx
  · constructor
    · right
      rw [div_le_div_iff₀ hd hy]
      nlinarith
    · left
      rw [div_le_div_iff₀ hy hc]
      nlinarith
  · constructor
    · left
      rw [div_le_div_iff₀ hc hy]
      nlinarith
    · right
      rw [div_le_div_iff₀ hy hd]
      nlinarith

/-- Soundness of the interval quotient. -/
theorem idiv_sound (x y : F64) (I J : Ivl) (hfin : (idiv I J).fin = true)
    (hx : I.mem x) (hy : J.mem y) : (idiv I J).mem (div x y) := by
  obtain ⟨hI, hJ, hpos⟩ := idiv_fin_inv I J hfin
  have fx := finite_of_mem x I hI hx
  have fy := finite_of_mem y J hJ hy
  have vx := mem_val x I hx
  have vy := mem_val y J hy
  have hc := val_pos_of_key_pos _ hpos
  have hyp : 0 < y.val := lt_of_lt_of_le hc vy.1
  have hdp : 0 < J.hi.val := lt_of_lt_of_le hyp vy.2
  have hcond : (I.fin && J.fin && decide (0 < J.lo.key)) = true := by
    simp [hI, hJ, hpos]
  simp only [Ivl.fin, Bool.and_eq_true] at hI hJ
  have r := div_rounds x y fx fy (mant_ne_zero_of_val_ne y (ne_of_gt hyp))
  have r1 := div_rounds I.lo J.lo hI.1 hJ.1 (mant_ne_zero_of_val_ne _ (ne_of_gt hc))
  have r2 := div_rounds I.lo J.hi hI.1 hJ.2 (mant_ne_zero_of_val_ne _ (ne_of_gt hdp))
  have r3 := div_rounds I.hi J.lo hI.2 hJ.1 (mant_ne_zero_of_val_ne _ (ne_of_gt hc))
  have r4 := div_rounds I.hi J.hi hI.2 hJ.2 (mant_ne_zero_of_val_ne _ (ne_of_gt hdp))
  obtain ⟨hlo, hhi⟩ := corner_div _ _ _ _ _ _ vx.1 vx.2 hc vy.1 vy.2
  unfold idiv
  rw [if_pos hcond]
  constructor
  · simp only
    rcases hlo with h | h
    · exact le_trans (kmin_le_left _ _) (r1.mono r h)
    · exact le_trans (kmin_le_right _ _) (r2.mono r h)
  · simp only
    rcases hhi with h | h
    · exact le_trans (r.mono r3 h) (le_kmax_left _ _)
    · exact le_trans (r.mono r4 h) (le_kmax_right _ _)

theorem iadd_sound2 (x y : F64) (I J : Ivl) (hfin : (iadd I J).fin = true)
    (hx : I.mem x) (hy : J.mem y) : (iadd I J).mem (add x y) :=
  iadd_sound x y I J (iadd_fin_inv I J hfin).1 (iadd_fin_inv I J hfin).2 hx hy

theorem isub_sound2 (x y : F64) (I J : Ivl) (hfin : (isub I J).fin = true)
    (hx : I.mem x) (hy : J.mem y) : (isub I J).mem (sub x y) :=
  isub_sound x y I J (isub_fin_inv I J hfin).1 (isub_fin_inv I J hfin).2 hx hy

/-- Soundness of the interval version of `logS`. -/
theorem logSI_sound (f : F64) (F : Ivl) (hfin : (logSI F).fin = true) (hf : F.mem f) :
    (logSI F).mem (logS f) := by
  unfold logSI at hfin ⊢
  unfold logS
  obtain ⟨_, h2, _⟩ := idiv_fin_inv _ _ hfin
  exact idiv_sound _ _ _ _ hfin hf (iadd_sound2 _ _ _ _ h2 (mem_pt _) hf)

/-- Soundness of the interval version of `logHfsq`. -/
theorem logHfsqI_sound (f : F64) (F : Ivl) (hfin : (logHfsqI F).fin = true) (hf : F.mem f) :
    (logHfsqI F).mem (logHfsq f) := by
  unfold logHfsqI at hfin ⊢
  unfold logHfsq
  obtain ⟨h1, _⟩ := imul_fin_inv _ _ hfin
  exact imul_sound _ _ _ _ hfin (imul_sound _ _ _ _ h1 (mem_pt _) hf) hf

/-- Soundness of the interval version of `logR`. -/
theorem logRI_sound (s : F64) (S : Ivl) (hfin : (logRI S).fin = true) (hs : S.mem s) :
    (logRI S).mem (logR s) := by
  unfold logRI at hfin ⊢
  unfold logR
  simp only at hfin ⊢
  obtain ⟨a1, a2⟩ := iadd_fin_inv _ _ hfin
  -- t1
  obtain ⟨b1, b2⟩ := imul_fin_inv _ _ a1
  obtain ⟨_, b4⟩ := iadd_fin_inv _ _ b2
  obtain ⟨b5, b6⟩ := imul_fin_inv _ _ b4
  obtain ⟨_, b8⟩ := iadd_fin_inv _ _ b6
  obtain ⟨_, b10⟩ := imul_fin_inv _ _ b8
  obtain ⟨_, b12⟩ := iadd_fin_inv _ _ b10
  -- t2
  obtain ⟨_, c2⟩ := imul_fin_inv _ _ a2
  obtain ⟨_, c4⟩ := iadd_fin_inv _ _ c2
  obtain ⟨_, c6⟩ := imul_fin_inv _ _ c4
  obtain ⟨_, c8⟩ := iadd_fin_inv _ _ c6
  have m2 := imul_sound s s S S b1 hs hs
  have m4 := imul_sound _ _ _ _ b5 m2 m2
  have t1 := imul_sound _ _ _ _ a1 m2
    (iadd_sound2 _ _ _ _ b2 (mem_pt L1) (imul_sound _ _ _ _ b4 m4
      (iadd_sound2 _ _ _ _ b6 (mem_pt L3) (imul_sound _ _ _ _ b8 m4
        (iadd_sound2 _ _ _ _ b10 (mem_pt L5) (imul_sound _ _ _ _ b12 m4 (mem_pt L7)))))))
  have t2 := imul_sound _ _ _ _ a2 m4
    (iadd_sound2 _ _ _ _ c2 (mem_pt L2) (imul_sound _ _ _ _ c4 m4
      (iadd_sound2 _ _ _ _ c6 (mem_pt L4) (imul_sound _ _ _ _ c8 m4 (mem_pt L6)))))
  exact iadd_sound2 _ _ _ _ hfin t1 t2

/-- Soundness of the interval version of `logCore`. -/
theorem logCoreI_sound (k f : F64) (K F : Ivl) (hfin : (logCoreI K F).fin = true)
    (hk : K.mem k) (hf : F.mem f) : (logCoreI K F).mem (logCore k f) := by
  unfold logCoreI at hfin ⊢
  unfold logCore
  obtain ⟨a1, a2⟩ := isub_fin_inv _ _ hfin
  obtain ⟨b1, _⟩ := isub_fin_inv _ _ a2
  obtain ⟨c1, c2⟩ := isub_fin_inv _ _ b1
  obtain ⟨d1, d2⟩ := iadd_fin_inv _ _ c2
  obtain ⟨e1, e2⟩ := imul_fin_inv _ _ d1
  obtain ⟨_, g2⟩ := iadd_fin_inv _ _ e2
  have mh := logHfsqI_sound f F c1 hf
  have ms := logSI_sound f F e1 hf
  have mr := logRI_sound _ _ g2 ms
  exact isub_sound2 _ _ _ _ hfin (imul_sound _ _ _ _ a1 hk (mem_pt _))
    (isub_sound2 _ _ _ _ a2
      (isub_sound2 _ _ _ _ b1 mh
        (iadd_sound2 _ _ _ _ c2
          (imul_sound _ _ _ _ d1 ms (iadd_sound2 _ _ _ _ e2 mh mr))
          (imul_sound _ _ _ _ d2 hk (mem_pt _))))
      hf)

end F64
end Gotty

namespace Gotty
namespace F64

theorem lt_iff (a b : F64) (ha : a.IsNaN = false) (hb : b.IsNaN = false) :
    a.lt b = true ↔ a.key < b.key := by
  simp [lt, ha, hb]

theorem eq_iff (a b : F64) (ha : a.IsNaN = false) (hb : b.IsNaN = false) :
    a.eq b = true ↔ a.key = b.key := by
  simp [eq, ha, hb]

theorem ofInt_rounds (i : Int) : Rounds (ofInt i) (i : ℚ) := by
  refine ⟨decide (i < 0), i.natAbs, 1, by norm_num, rfl, ?_⟩
  have hcast : ((i.natAbs : Nat) : ℚ) = |(i : ℚ)| := by
    rw [Nat.cast_natAbs]
    push_cast
    rfl
  rw [hcast]
  by_cases hneg : i < 0
  · have : (i : ℚ) < 0 := by exact_mod_cast hneg
    simp [hneg, abs_of_neg this]
  · have : (0 : ℚ) ≤ (i : ℚ) := by exact_mod_cast (not_lt.mp hneg)
    simp [hneg, abs_of_nonneg this]

theorem ofInt_mono (i j : Int) (h : i ≤ j) : (ofInt i).key ≤ (ofInt j).key :=
  (ofInt_rounds i).mono (ofInt_rounds j) (by exact_mod_cast h)

theorem ofInt_mem (i lo hi : Int) (h1 : lo ≤ i) (h2 : i ≤ hi) :
    (Ivl.mk (ofInt lo) (ofInt hi)).mem (ofInt i) :=
  ⟨ofInt_mono lo i h1, ofInt_mono i hi h2⟩

theorem mant_eq_zero_iff (x : F64) : x.mant = 0 ↔ x.mkey = 0 := by
  have hh : hidden = 4503599627370496 := rfl
  unfold mant mkey
  constructor
  · intro h
    split at h
    · next h0 => rw [h0, h]; simp
    · omega
  · intro h
    have h1 : x.frac.val = 0 := by omega
    have h2 : x.expo.val = 0 := by
      rw [hh] at h
      omega
    rw [if_pos h2, h1]

theorem mant_pos_of_key_pos (x : F64) (h : 0 < x.key) : 0 < x.mant := by
  rcases Nat.eq_zero_or_pos x.mant with h0 | h0
  · have := (mant_eq_zero_iff x).mp h0
    rw [key_eq, this] at h
    cases x.sign <;> simp at h
  · exact h0

theorem sign_of_key_pos (x : F64) (h : 0 < x.key) : x.sign = false := by
  rw [key_eq] at h
  have z : (0 : Int) ≤ x.mkey := Int.ofNat_nonneg _
  cases hs : x.sign
  · rfl
  · rw [hs] at h
    simp at h
    omega

theorem val_eq_mag_of_key_pos (x : F64) (h : 0 < x.key) : x.val = x.mag := by
  rw [val_eq, sign_of_key_pos x h]
  simp

/-- The fraction and exponent that `Frexp` returns for a finite non-zero float. -/
theorem Frexp_spec (x : F64) (hx : x.finite = true) (h0 : x.mant ≠ 0) :
    (Frexp x).1.finite = true ∧ (Frexp x).1.sign = x.sign ∧
    (1 / 2 : ℚ) ≤ (Frexp x).1.mag ∧ (Frexp x).1.mag < 1 ∧
    x.mag = (Frexp x).1.mag * 2 ^ (Frexp x).2 := by
  have hcond : (x.mant = 0 || !x.finite) = false := by simp [h0, hx]
  have hF : Frexp x = (roundScaled x.sign x.mant 1 (-(bitLen x.mant : Int)),
      x.exp2 + (bitLen x.mant : Int)) := by
    unfold Frexp
    simp [h0, hx]
  rw [hF]
  simp only
  have hlt := bitLen_lt x.mant
  have hle := bitLen_le x.mant h0
  have hpos := bitLen_pos x.mant h0
  have hm := mant_lt x
  have hh : hidden = 4503599627370496 := rfl
  set bl := bitLen x.mant with hbl
  have hbl53 : bl ≤ 53 := by
    by_contra hc
    have : 2 ^ 53 ≤ 2 ^ (bl - 1) := Nat.pow_le_pow_right (by norm_num) (by omega)
    rw [hh] at hm
    omega
  -- the exact fraction
  have hv : ((x.mant : ℚ)) * 2 ^ (-(bl : Int)) = ((x.mant * 2 ^ (53 - bl) : Nat) : ℚ) * 2 ^ (-53 : Int) := by
    push_cast
    rw [mul_assoc]
    congr 1
    rw [← zpow_natCast, ← zpow_add₀ (by norm_num : (2 : ℚ) ≠ 0)]
    congr 1
    omega
  have hm1 : x.mant * 2 ^ (53 - bl) < 2 * hidden := by
    calc x.mant * 2 ^ (53 - bl) < 2 ^ bl * 2 ^ (53 - bl) :=
          Nat.mul_lt_mul_of_pos_right hlt (Nat.two_pow_pos _)
      _ = 2 ^ 53 := by rw [← pow_add]; congr 1; omega
      _ = 2 * hidden := by rw [hh]; norm_num
  have hm2 : hidden ≤ x.mant * 2 ^ (53 - bl) := by
    calc hidden = 2 ^ (bl - 1) * 2 ^ (53 - bl) := by
          rw [← pow_add, hh]
          have : bl - 1 + (53 - bl) = 52 := by omega
          rw [this]; norm_num
      _ ≤ x.mant * 2 ^ (53 - bl) := Nat.mul_le_mul_right _ hle
  have hr := roundScaled_rounds x.sign x.mant 1 (-(bl : Int)) (by norm_num)
  have habs : |(if x.sign = true then -(((x.mant : Nat) : ℚ) / ((1 : Nat) : ℚ) * 2 ^ (-(bl : Int)))
      else ((x.mant : Nat) : ℚ) / ((1 : Nat) : ℚ) * 2 ^ (-(bl : Int)))|
      = ((x.mant * 2 ^ (53 - bl) : Nat) : ℚ) * 2 ^ (-53 : Int) := by
    have p : (0 : ℚ) ≤ ((x.mant : Nat) : ℚ) / ((1 : Nat) : ℚ) * 2 ^ (-(bl : Int)) := by positivity
    rw [← hv]
    cases x.sign <;> simp [abs_of_nonneg p]
  have hex := hr.exact _ (-53) hm1 (by norm_num) (fun _ => hm2) (by norm_num) habs
  have hsign : (roundScaled x.sign x.mant 1 (-(bl : Int))).sign = x.sign := round_sign _ _ _
  have hmag : (roundScaled x.sign x.mant 1 (-(bl : Int))).mag = (x.mant : ℚ) * 2 ^ (-(bl : Int)) := by
    have h1 := hex.1
    rw [val_eq, hsign] at h1
    have e1 : ((x.mant : Nat) : ℚ) / ((1 : Nat) : ℚ) = (x.mant : ℚ) := by
      rw [Nat.cast_one, div_one]
    rw [e1] at h1
    cases hs : x.sign
    · rw [hs] at h1
      simpa using h1
    · rw [hs] at h1
      simp only [if_true] at h1
      exact neg_injective h1
  refine ⟨hex.2, hsign, ?_, ?_, ?_⟩
  · rw [hmag, zpow_neg, ← div_eq_mul_inv, le_div_iff₀ (two_zpow_pos _), zpow_natCast]
    have : ((2 ^ (bl - 1) : Nat) : ℚ) ≤ x.mant := by exact_mod_cast hle
    have e : (2 : ℚ) ^ bl = 2 * 2 ^ (bl - 1) := by
      rw [← pow_succ']
      congr 1
      omega
    rw [e]
    push_cast at this
    linarith
  · rw [hmag, zpow_neg, ← div_eq_mul_inv, div_lt_iff₀ (two_zpow_pos _), zpow_natCast]
    have : ((x.mant : Nat) : ℚ) < ((2 ^ bl : Nat) : ℚ) := by exact_mod_cast hlt
    push_cast at this
    linarith
  · rw [hmag]
    unfold mag
    rw [mul_assoc, ← zpow_add₀ (by norm_num : (2 : ℚ) ≠ 0)]
    congr 2
    ring

end F64
end Gotty

namespace Gotty
namespace F64

/-- The value of a normal float given by its fields. -/
theorem val_mk3_normal (e f : Nat) (he : 0 < e) (he2 : e < 2047) (hf : f < hidden) :
    (mk3 false e f).val = ((hidden + f : Nat) : ℚ) * 2 ^ ((e : Int) - 1075) := by
  rw [val_eq, mk3_sign]
  simp only [Bool.false_eq_true, if_false]
  unfold mag
  rw [mant_mk3 _ _ _ (by omega) hf, exp2_mk3 _ _ _ (by omega), if_neg (by omega), if_neg (by omega)]

theorem ofInt_zero : ofInt 0 = zero false := by decide!

theorem ofInt_one : ofInt 1 = mk3 false 1023 0 := by decide!

theorem val_ofInt_one : (ofInt 1).val = 1 := by
  rw [ofInt_one, val_mk3_normal _ _ (by norm_num) (by norm_num) (by norm_num [hidden])]
  norm_num [hidden]

theorem half_eq : ofDec 5 10 = mk3 false 1022 0 := by decide!

theorem val_half : (ofDec 5 10).val = 1 / 2 := by
  rw [half_eq, val_mk3_normal _ _ (by norm_num) (by norm_num) (by norm_num [hidden])]
  norm_num [hidden]

theorem finite_ofInt_one : (ofInt 1).finite = true := by decide!

theorem finite_half : (ofDec 5 10).finite = true := by decide!

theorem key_half_pos : 0 < (ofDec 5 10).key := by decide!

theorem nan_of_not_finite_pos (x : F64) (h : x.finite = true) : x.IsInf 1 = false := by
  rw [finite_iff] at h
  simp [IsInf, h]

/-- The main branch of `Log` for a finite positive argument. -/
theorem Log_pos (x : F64) (hx : x.finite = true) (hpos : 0 < x.key) :
    Log x = logCore (ofInt (if (Frexp x).1.lt Sqrt2Half then (Frexp x).2 - 1 else (Frexp x).2))
      (sub (if (Frexp x).1.lt Sqrt2Half then mul (Frexp x).1 (ofInt 2) else (Frexp x).1)
        (ofInt 1)) := by
  have hn := finite_not_nan x hx
  have hz : (zero false).IsNaN = false := by decide
  have h1 : x.lt (zero false) = false := by
    rw [Bool.eq_false_iff, Ne, lt_iff x _ hn hz, key_zero]
    omega
  have h2 : x.eq (zero false) = false := by
    rw [Bool.eq_false_iff, Ne, eq_iff x _ hn hz, key_zero]
    omega
  unfold Log
  simp only [hn, nan_of_not_finite_pos x hx, Bool.or_self, Bool.false_eq_true, if_false, h1, h2]

/-- What `Frexp` gives for a finite positive float: a fraction between one half
and one, and an exponent. -/
theorem Frexp_pos (x : F64) (hx : x.finite = true) (hpos : 0 < x.key) :
    (Frexp x).1.finite = true ∧ (ofDec 5 10).key ≤ (Frexp x).1.key ∧
    (Frexp x).1.key < (ofInt 1).key ∧ x.val = (Frexp x).1.val * 2 ^ (Frexp x).2 := by
  have hm := mant_pos_of_key_pos x hpos
  obtain ⟨h1, h2, h3, h4, h5⟩ := Frexp_spec x hx (by omega)
  have hs := sign_of_key_pos x hpos
  rw [hs] at h2
  have hv : (Frexp x).1.val = (Frexp x).1.mag := by rw [val_eq, h2]; simp
  refine ⟨h1, ?_, ?_, ?_⟩
  · rw [key_le_iff, val_half, hv]; exact h3
  · rw [key_lt_iff, val_ofInt_one, hv]; exact h4
  · rw [val_eq_mag_of_key_pos x hpos, hv]; exact h5

theorem FA_fin : FA.fin = true := by decide!

theorem FB_fin : FB.fin = true := by decide!

theorem Sqrt2Half_finite : Sqrt2Half.finite = true := by decide!

theorem FAB_facts : FAB.lo = FA.lo ∧ FA.hi.key ≤ FAB.hi.key ∧ FAB.lo.key ≤ FB.lo.key
    ∧ FAB.hi = FB.hi := by decide!

/-- The reduced argument `f` of `Log` lies in `FA` when the fraction is not
doubled and in `FB` when it is. -/
theorem log_f_mem (fr : F64) (hfin : fr.finite = true) (h1 : (ofDec 5 10).key ≤ fr.key)
    (h2 : fr.key ≤ (ofInt 1).key) :
    (fr.lt Sqrt2Half = false → FA.mem (sub fr (ofInt 1))) ∧
    (fr.lt Sqrt2Half = true → FB.mem (sub (mul fr (ofInt 2)) (ofInt 1))) := by
  have hn := finite_not_nan fr hfin
  have hsn := finite_not_nan _ Sqrt2Half_finite
  constructor
  · intro h
    have hk : Sqrt2Half.key ≤ fr.key := by
      have := (lt_iff fr Sqrt2Half hn hsn).not.mp (by rw [h]; simp)
      omega
    exact isub_sound2 _ _ _ _ FA_fin ⟨hk, h2⟩ (mem_pt _)
  · intro h
    have hk : fr.key ≤ Sqrt2Half.key := le_of_lt ((lt_iff fr Sqrt2Half hn hsn).mp h)
    have hf := FB_fin
    unfold FB at hf ⊢
    obtain ⟨a1, _⟩ := isub_fin_inv _ _ hf
    exact isub_sound2 _ _ _ _ hf (imul_sound _ _ _ _ a1 ⟨h1, hk⟩ (mem_pt _)) (mem_pt _)

theorem mem_FAB_of_FA (f : F64) (h : FA.mem f) : FAB.mem f := by
  obtain ⟨e1, e2, _, _⟩ := FAB_facts
  exact ⟨by rw [e1]; exact h.1, le_trans h.2 e2⟩

theorem mem_FAB_of_FB (f : F64) (h : FB.mem f) : FAB.mem f := by
  obtain ⟨_, _, e3, e4⟩ := FAB_facts
  exact ⟨le_trans e3 h.1, by rw [e4]; exact h.2⟩

theorem logCoreI_KPos : (logCoreI KPos FAB).fin = true ∧ 0 < (logCoreI KPos FAB).lo.key := by
  decide!

/-- `Log` is positive and finite when the exponent `k` of the reduction is positive. -/
theorem logCore_pos (k : Int) (f : F64) (hk1 : 1 ≤ k) (hk2 : k ≤ 1025) (hf : FAB.mem f) :
    (logCore (ofInt k) f).finite = true ∧ 0 < (logCore (ofInt k) f).key := by
  have h := logCoreI_sound (ofInt k) f KPos FAB logCoreI_KPos.1 (ofInt_mem k 1 1025 hk1 hk2) hf
  exact ⟨finite_of_mem _ _ logCoreI_KPos.1 h, lt_of_lt_of_le logCoreI_KPos.2 h.1⟩

end F64
end Gotty

namespace Gotty
namespace F64

theorem zero_finite (s : Bool) : (zero s).finite = true := by cases s <;> decide

theorem Rounds.val_le {r g : F64} {v : ℚ} (h1 : Rounds r v) (hg : g.finite = true)
    (h : v ≤ g.val) : r.val ≤ g.val :=
  (key_le_iff _ _).mp (h1.le_float hg h)

theorem Rounds.le_val {r g : F64} {v : ℚ} (h1 : Rounds r v) (hg : g.finite = true)
    (h : g.val ≤ v) : g.val ≤ r.val :=
  (key_le_iff _ _).mp (h1.float_le hg h)

theorem Rounds.val_nonneg {r : F64} {v : ℚ} (h1 : Rounds r v) (h : 0 ≤ v) : 0 ≤ r.val := by
  have := h1.le_val (zero_finite false) (by rw [val_zero]; exact h)
  rwa [val_zero] at this

theorem Rounds.val_nonpos {r : F64} {v : ℚ} (h1 : Rounds r v) (h : v ≤ 0) : r.val ≤ 0 := by
  have := h1.val_le (zero_finite false) (by rw [val_zero]; exact h)
  rwa [val_zero] at this

/-- Every intermediate value of `logCore` is finite, and `s`, `hfsq`, `R` lie
in their intervals, when the interval evaluation stays finite. -/
theorem logCore_trace (k f : F64) (K F : Ivl) (hfin : (logCoreI K F).fin = true)
    (hk : K.mem k) (hf : F.mem f) :
    f.finite = true ∧ k.finite = true ∧
    ((logSI F).mem (logS f) ∧ (logS f).finite = true) ∧
    ((logHfsqI F).mem (logHfsq f) ∧ (logHfsq f).finite = true ∧
      (mul (ofDec 5 10) f).finite = true) ∧
    ((logRI (logSI F)).mem (logR (logS f)) ∧ (logR (logS f)).finite = true) ∧
    (add (logHfsq f) (logR (logS f))).finite = true ∧
    (mul (logS f) (add (logHfsq f) (logR (logS f)))).finite = true ∧
    (mul k Ln2Lo).finite = true ∧
    (add (mul (logS f) (add (logHfsq f) (logR (logS f)))) (mul k Ln2Lo)).finite = true ∧
    (sub (logHfsq f) (add (mul (logS f) (add (logHfsq f) (logR (logS f))))
      (mul k Ln2Lo))).finite = true ∧
    (sub (sub (logHfsq f) (add (mul (logS f) (add (logHfsq f) (logR (logS f))))
      (mul k Ln2Lo))) f).finite = true ∧
    (mul k Ln2Hi).finite = true := by
  unfold logCoreI at hfin
  obtain ⟨a1, a2⟩ := isub_fin_inv _ _ hfin
  obtain ⟨b1, b2⟩ := isub_fin_inv _ _ a2
  obtain ⟨c1, c2⟩ := isub_fin_inv _ _ b1
  obtain ⟨d1, d2⟩ := iadd_fin_inv _ _ c2
  obtain ⟨e1, e2⟩ := imul_fin_inv _ _ d1
  obtain ⟨_, g2⟩ := iadd_fin_inv _ _ e2
  obtain ⟨k1, _⟩ := imul_fin_inv _ _ a1
  have mh := logHfsqI_sound f F c1 hf
  have ms := logSI_sound f F e1 hf
  have mr := logRI_sound _ _ g2 ms
  have mw := iadd_sound2 _ _ _ _ e2 mh mr
  have mc := imul_sound _ _ _ _ d1 ms mw
  have mq := imul_sound _ _ _ _ d2 hk (mem_pt Ln2Lo)
  have mb := iadd_sound2 _ _ _ _ c2 mc mq
  have ma := isub_sound2 _ _ _ _ b1 mh mb
  have mi := isub_sound2 _ _ _ _ a2 ma hf
  have mp := imul_sound _ _ _ _ a1 hk (mem_pt Ln2Hi)
  have hh0 : (mul (ofDec 5 10) f).finite = true := by
    have c1' := c1
    unfold logHfsqI at c1'
    obtain ⟨h1, _⟩ := imul_fin_inv _ _ c1'
    exact finite_of_mem _ _ h1 (imul_sound _ _ _ _ h1 (mem_pt _) hf)
  exact ⟨finite_of_mem _ _ b2 hf, finite_of_mem _ _ k1 hk,
    ⟨ms, finite_of_mem _ _ e1 ms⟩, ⟨mh, finite_of_mem _ _ c1 mh, hh0⟩,
    ⟨mr, finite_of_mem _ _ g2 mr⟩, finite_of_mem _ _ e2 mw, finite_of_mem _ _ d1 mc,
    finite_of_mem _ _ d2 mq, finite_of_mem _ _ c2 mb, finite_of_mem _ _ b1 ma,
    finite_of_mem _ _ a2 mi, finite_of_mem _ _ a1 mp⟩

theorem logCoreI_zero_FB : (logCoreI (Ivl.pt (ofInt 0)) FB).fin = true
    ∧ 0 ≤ (logSI FB).lo.key ∧ 0 ≤ (logHfsqI FB).lo.key ∧ 0 ≤ (logRI (logSI FB)).lo.key
    ∧ 0 ≤ FB.lo.key ∧ FB.hi.key ≤ (ofInt 1).key := by decide!

/-- `Log` of an argument in `[1, sqrt 2)`, where `k = 0`: the result is finite
and not negative. -/
theorem logCore_zero_nonneg (f : F64) (hf : FB.mem f) :
    (logCore (ofInt 0) f).finite = true ∧ 0 ≤ (logCore (ofInt 0) f).key := by
  obtain ⟨hfin, hs0, hh0, hr0, hf0, hf1⟩ := logCoreI_zero_FB
  have hsound := logCoreI_sound (ofInt 0) f _ FB hfin (mem_pt _) hf
  obtain ⟨ff, fk, ⟨ms, fs⟩, ⟨mh, fh, fh0⟩, ⟨mr, fr⟩, fw, fc, fq, fb, fa, fi, fp⟩ :=
    logCore_trace (ofInt 0) f _ FB hfin (mem_pt _) hf
  refine ⟨finite_of_mem _ _ hfin hsound, ?_⟩
  -- values
  have vf0 : 0 ≤ f.val := val_nonneg_of_key_nonneg f (le_trans hf0 hf.1)
  have vf1 : f.val ≤ 1 := by
    have := (key_le_iff _ _).mp (le_trans hf.2 hf1)
    rwa [val_ofInt_one] at this
  have vs : 0 ≤ (logS f).val := val_nonneg_of_key_nonneg _ (le_trans hs0 ms.1)
  have vh : 0 ≤ (logHfsq f).val := val_nonneg_of_key_nonneg _ (le_trans hh0 mh.1)
  have vr : 0 ≤ (logR (logS f)).val := val_nonneg_of_key_nonneg _ (le_trans hr0 mr.1)
  have vk : (ofInt 0).val = 0 := by rw [ofInt_zero, val_zero]
  have fhalf := finite_half
  have fLo : Ln2Lo.finite = true := (mul_finite_inv _ _ fq).2
  have fHi : Ln2Hi.finite = true := (mul_finite_inv _ _ fp).2
  -- hfsq ≤ f
  have rh0 := mul_rounds (ofDec 5 10) f fhalf ff
  rw [val_half] at rh0
  have vh0a : 0 ≤ (mul (ofDec 5 10) f).val := rh0.val_nonneg (by linarith)
  have vh0b : (mul (ofDec 5 10) f).val ≤ f.val := rh0.val_le ff (by linarith)
  have rh : Rounds (logHfsq f) ((mul (ofDec 5 10) f).val * f.val) := mul_rounds _ _ fh0 ff
  have vhf : (logHfsq f).val ≤ f.val := rh.val_le ff (by nlinarith)
  -- the correction term is not negative
  have vw : 0 ≤ (add (logHfsq f) (logR (logS f))).val :=
    (add_rounds _ _ fh fr).val_nonneg (by linarith)
  have vc : 0 ≤ (mul (logS f) (add (logHfsq f) (logR (logS f)))).val :=
    (mul_rounds _ _ fs fw).val_nonneg (mul_nonneg vs vw)
  have vq : 0 ≤ (mul (ofInt 0) Ln2Lo).val :=
    (mul_rounds _ _ fk fLo).val_nonneg (by rw [vk]; simp)
  have vb : 0 ≤ (add (mul (logS f) (add (logHfsq f) (logR (logS f))))
      (mul (ofInt 0) Ln2Lo)).val :=
    (add_rounds _ _ fc fq).val_nonneg (by linarith)
  have va : (sub (logHfsq f) (add (mul (logS f) (add (logHfsq f) (logR (logS f))))
      (mul (ofInt 0) Ln2Lo))).val ≤ (logHfsq f).val :=
    (sub_rounds _ _ fh fb).val_le fh (by linarith)
  have vi : (sub (sub (logHfsq f) (add (mul (logS f) (add (logHfsq f) (logR (logS f))))
      (mul (ofInt 0) Ln2Lo))) f).val ≤ 0 :=
    (sub_rounds _ _ fa ff).val_nonpos (by linarith)
  have vp : 0 ≤ (mul (ofInt 0) Ln2Hi).val :=
    (mul_rounds _ _ fk fHi).val_nonneg (by rw [vk]; simp)
  unfold logCore
  exact key_nonneg_of_val_nonneg _ ((sub_rounds _ _ fp fi).val_nonneg (by linarith))

end F64
end Gotty

namespace Gotty
namespace F64

theorem key_one_pos : 0 < (ofInt 1).key := by decide!

theorem mag_lt_of_finite (x : F64) (hx : x.finite = true) : x.mag < 2 ^ (1024 : Int) := by
  have hm := mant_lt x
  have he := exp2_le x hx
  have h1 : (x.mant : ℚ) < 2 ^ (53 : Int) := by
    have : (x.mant : ℚ) < ((2 * hidden : Nat) : ℚ) := by exact_mod_cast hm
    have e1 : ((2 * hidden : Nat) : ℚ) = 2 ^ (53 : Int) := by norm_num [hidden]
    rwa [e1] at this
  have h2 : (2 : ℚ) ^ x.exp2 ≤ 2 ^ (971 : Int) := zpow_le_zpow_right₀ (by norm_num) he
  have p := two_zpow_pos x.exp2
  unfold mag
  calc (x.mant : ℚ) * 2 ^ x.exp2 < 2 ^ (53 : Int) * 2 ^ x.exp2 := by gcongr
    _ ≤ 2 ^ (53 : Int) * 2 ^ (971 : Int) := by gcongr
    _ = 2 ^ (1024 : Int) := by rw [← zpow_add₀ (by norm_num : (2 : ℚ) ≠ 0)]; norm_num

/-- The exponent that `Frexp` gives for a finite float that is at least one. -/
theorem Frexp_exp_ge_one (x : F64) (hx : x.finite = true) (h1 : (ofInt 1).key ≤ x.key) :
    1 ≤ (Frexp x).2 ∧ (Frexp x).2 ≤ 1024 := by
  have hpos : 0 < x.key := lt_of_lt_of_le key_one_pos h1
  obtain ⟨ffin, fh, fo, fv⟩ := Frexp_pos x hx hpos
  have vx : 1 ≤ x.val := by
    have := (key_le_iff _ _).mp h1
    rwa [val_ofInt_one] at this
  have vfr1 : (Frexp x).1.val < 1 := by
    have := (key_lt_iff _ _).mp fo
    rwa [val_ofInt_one] at this
  have vfr0 : 1 / 2 ≤ (Frexp x).1.val := by
    have := (key_le_iff _ _).mp fh
    rwa [val_half] at this
  have vxm : x.val < 2 ^ (1024 : Int) := by
    rw [val_eq_mag_of_key_pos x hpos]
    exact mag_lt_of_finite x hx
  constructor
  · by_contra hc
    have he : (Frexp x).2 ≤ 0 := by omega
    have : (2 : ℚ) ^ (Frexp x).2 ≤ 2 ^ (0 : Int) := zpow_le_zpow_right₀ (by norm_num) he
    rw [zpow_zero] at this
    have p := two_zpow_pos (Frexp x).2
    nlinarith
  · by_contra hc
    have he : (1025 : Int) ≤ (Frexp x).2 := by omega
    have : (2 : ℚ) ^ (1025 : Int) ≤ 2 ^ (Frexp x).2 := zpow_le_zpow_right₀ (by norm_num) he
    have e : (2 : ℚ) ^ (1025 : Int) = 2 * 2 ^ (1024 : Int) := by
      rw [show (1025 : Int) = 1 + 1024 by norm_num, zpow_add₀ (by norm_num : (2 : ℚ) ≠ 0)]
      norm_num
    have p := two_zpow_pos (1024 : Int)
    nlinarith

/-- `math.Log` of a finite float that is at least one is finite and not negative. -/
theorem Log_ge_one (x : F64) (hx : x.finite = true) (h1 : (ofInt 1).key ≤ x.key) :
    (Log x).finite = true ∧ 0 ≤ (Log x).key := by
  have hpos : 0 < x.key := lt_of_lt_of_le key_one_pos h1
  obtain ⟨ffin, fh, fo, _⟩ := Frexp_pos x hx hpos
  obtain ⟨e1, e2⟩ := Frexp_exp_ge_one x hx h1
  obtain ⟨mA, mB⟩ := log_f_mem (Frexp x).1 ffin fh (le_of_lt fo)
  rw [Log_pos x hx hpos]
  cases hs : (Frexp x).1.lt Sqrt2Half
  · simp only [Bool.false_eq_true, if_false]
    have := logCore_pos (Frexp x).2 _ e1 (by omega) (mem_FAB_of_FA _ (mA hs))
    exact ⟨this.1, le_of_lt this.2⟩
  · simp only [if_true]
    rcases eq_or_lt_of_le e1 with h | h
    · rw [← h]
      exact logCore_zero_nonneg _ (mB hs)
    · have := logCore_pos ((Frexp x).2 - 1) _ (by omega) (by omega) (mem_FAB_of_FB _ (mB hs))
      exact ⟨this.1, le_of_lt this.2⟩

end F64
end Gotty

namespace Gotty
namespace F64

theorem Rounds.rel_le {r : F64} {v : ℚ} (hr : Rounds r v) (hfin : r.finite = true)
    (h0 : 0 ≤ v) (hnorm : (2 : ℚ) ^ (-1022 : Int) ≤ v) :
    r.val ≤ v * (1 + 2 ^ (-53 : Int)) ∧ v * (1 - 2 ^ (-53 : Int)) ≤ r.val := by
  have := hr.rel hfin (by rw [abs_of_nonneg h0]; exact hnorm)
  rw [abs_of_nonneg h0, abs_le] at this
  constructor <;> linarith [this.1, this.2]

theorem tiny_le (e : Int) (he : -1022 ≤ e) : (2 : ℚ) ^ (-1022 : Int) ≤ 2 ^ e :=
  zpow_le_zpow_right₀ (by norm_num) he

theorem Ln2Lo_eq : Ln2Lo = mk3 false 990 2878449324211318 := by decide!

theorem Ln2Hi_eq : Ln2Hi = mk3 false 1022 1739715139076096 := by decide!

theorem Ln2F_eq : Ln2F = mk3 false 1022 1739715140794863 := by decide!

theorem Ln2D_eq : sub Ln2F Ln2Hi = mk3 false 990 2878448427073536 := by decide!

theorem ofInt_neg_one : ofInt (-1) = neg (ofInt 1) := by decide!

theorem val_Ln2Lo : Ln2Lo.val = 7382048951581814 * 2 ^ (-85 : Int) := by
  rw [Ln2Lo_eq, val_mk3_normal _ _ (by norm_num) (by norm_num) (by norm_num [hidden])]
  norm_num [hidden]

theorem val_Ln2Hi : Ln2Hi.val = 6243314766446592 * 2 ^ (-53 : Int) := by
  rw [Ln2Hi_eq, val_mk3_normal _ _ (by norm_num) (by norm_num) (by norm_num [hidden])]
  norm_num [hidden]

theorem val_Ln2F : Ln2F.val = 6243314768165359 * 2 ^ (-53 : Int) := by
  rw [Ln2F_eq, val_mk3_normal _ _ (by norm_num) (by norm_num) (by norm_num [hidden])]
  norm_num [hidden]

theorem val_Ln2D : (sub Ln2F Ln2Hi).val = 7382048054444032 * 2 ^ (-85 : Int) := by
  rw [Ln2D_eq, val_mk3_normal _ _ (by norm_num) (by norm_num) (by norm_num [hidden])]
  norm_num [hidden]

theorem logCoreI_neg_FBpos : (logCoreI (Ivl.pt (ofInt (-1))) FBpos).fin = true
    ∧ (logCoreI (Ivl.pt (ofInt (-1))) FBpos).hi.key ≤ 0
    ∧ 0 ≤ (logSI FBpos).lo.key ∧ 0 ≤ (logHfsqI FBpos).lo.key ∧ 0 ≤ (logRI (logSI FBpos)).lo.key
    ∧ FBpos.lo = mk3 false 971 0 ∧ FBpos.hi.key ≤ (mk3 false 1021 3377699720527872).key
    ∧ (iadd (logHfsqI FBpos) (Ivl.pt Ln2Lo)).fin = true
    ∧ Ln2F.finite = true ∧ (sub Ln2F Ln2Hi).finite = true := by decide!

/-- `Log` of a fraction in `(1/2, sqrt 2 / 2)`, where `k = -1`: the result is
finite, not positive, and not below minus the float nearest to `ln 2`. -/
theorem logCore_neg_one (f : F64) (hf : FBpos.mem f) :
    (logCore (ofInt (-1)) f).finite = true ∧ (neg Ln2F).key ≤ (logCore (ofInt (-1)) f).key
      ∧ (logCore (ofInt (-1)) f).key ≤ 0 := by
  obtain ⟨hfin, hhi, hs0, hh0, hr0, hlo, hup, hadd, fLF, fD⟩ := logCoreI_neg_FBpos
  have hsound := logCoreI_sound (ofInt (-1)) f _ FBpos hfin (mem_pt _) hf
  obtain ⟨ff, fk, ⟨ms, fs⟩, ⟨mh, fh, fh0⟩, ⟨mr, fr⟩, fw, fc, fq, fb, fa, fi, fp⟩ :=
    logCore_trace (ofInt (-1)) f _ FBpos hfin (mem_pt _) hf
  refine ⟨finite_of_mem _ _ hfin hsound, ?_, le_trans hsound.2 hhi⟩
  have fLo : Ln2Lo.finite = true := (mul_finite_inv _ _ fq).2
  have fHi : Ln2Hi.finite = true := (mul_finite_inv _ _ fp).2
  -- the range of f
  have vlo : (mk3 false 971 0).val = 2 ^ (-52 : Int) := by
    rw [val_mk3_normal _ _ (by norm_num) (by norm_num) (by norm_num [hidden])]
    norm_num [hidden]
  have vup : (mk3 false 1021 3377699720527872).val = 7 / 16 := by
    rw [val_mk3_normal _ _ (by norm_num) (by norm_num) (by norm_num [hidden])]
    norm_num [hidden]
  have vf0 : 2 ^ (-52 : Int) ≤ f.val := by
    have := (key_le_iff _ _).mp hf.1
    rwa [hlo, vlo] at this
  have vf1 : f.val ≤ 7 / 16 := by
    have := (key_le_iff _ _).mp (le_trans hf.2 hup)
    rwa [vup] at this
  have vfpos : 0 < f.val := lt_of_lt_of_le (two_zpow_pos _) vf0
  have vs : 0 ≤ (logS f).val := val_nonneg_of_key_nonneg _ (le_trans hs0 ms.1)
  have vh : 0 ≤ (logHfsq f).val := val_nonneg_of_key_nonneg _ (le_trans hh0 mh.1)
  have vr : 0 ≤ (logR (logS f)).val := val_nonneg_of_key_nonneg _ (le_trans hr0 mr.1)
  have vk : (ofInt (-1)).val = -1 := by rw [ofInt_neg_one, neg_val, val_ofInt_one]
  -- hfsq is about f * f / 2
  have rh0 := mul_rounds (ofDec 5 10) f finite_half ff
  rw [val_half] at rh0
  have e53 : (2 : ℚ) ^ (-53 : Int) = 1 / 9007199254740992 := by norm_num
  have e52 : (2 : ℚ) ^ (-52 : Int) = 1 / 4503599627370496 := by norm_num
  have e85 : (2 : ℚ) ^ (-85 : Int) = 1 / 38685626227668133590597632 := by norm_num
  have e106 : (2 : ℚ) ^ (-106 : Int) = 1 / 81129638414606681695789005144064 := by norm_num
  have n0 : (2 : ℚ) ^ (-1022 : Int) ≤ 1 / 2 * f.val := by
    have := tiny_le (-53) (by norm_num)
    rw [e52] at vf0
    rw [e53] at this
    linarith
  obtain ⟨h0up, h0lo⟩ := rh0.rel_le fh0 (by linarith) n0
  rw [e53] at h0up h0lo
  rw [e52] at vf0
  have h0pos : 1 / 18014398509481984 ≤ (mul (ofDec 5 10) f).val := by linarith
  have rh : Rounds (logHfsq f) ((mul (ofDec 5 10) f).val * f.val) := mul_rounds _ _ fh0 ff
  have pprod : 1 / 81129638414606681695789005144064 ≤ (mul (ofDec 5 10) f).val * f.val := by
    have := mul_le_mul h0pos vf0 (by norm_num) (by linarith)
    norm_num at this ⊢
    linarith
  have n1 : (2 : ℚ) ^ (-1022 : Int) ≤ (mul (ofDec 5 10) f).val * f.val := by
    have := tiny_le (-106) (by norm_num)
    rw [e106] at this
    exact le_trans this pprod
  obtain ⟨hup2, _⟩ := rh.rel_le fh (by linarith) n1
  rw [e53] at hup2
  have p1 : (mul (ofDec 5 10) f).val * f.val ≤ 1 / 2 * f.val * (1 + 1 / 9007199254740992) * f.val :=
    mul_le_mul_of_nonneg_right h0up (le_of_lt vfpos)
  have p2 : f.val * f.val ≤ 7 / 16 * f.val := mul_le_mul_of_nonneg_right vf1 (le_of_lt vfpos)
  -- the correction term
  have vw : 0 ≤ (add (logHfsq f) (logR (logS f))).val :=
    (add_rounds _ _ fh fr).val_nonneg (by linarith)
  have vc : 0 ≤ (mul (logS f) (add (logHfsq f) (logR (logS f)))).val :=
    (mul_rounds _ _ fs fw).val_nonneg (mul_nonneg vs vw)
  have rq := mul_rounds (ofInt (-1)) Ln2Lo fk fLo
  rw [vk] at rq
  have vq : (neg Ln2Lo).val ≤ (mul (ofInt (-1)) Ln2Lo).val :=
    rq.le_val (by rw [neg_finite]; exact fLo) (by rw [neg_val]; linarith)
  rw [neg_val] at vq
  have vb : -Ln2Lo.val ≤ (add (mul (logS f) (add (logHfsq f) (logR (logS f))))
      (mul (ofInt (-1)) Ln2Lo)).val := by
    have := (add_rounds _ _ fc fq).le_val (g := neg Ln2Lo) (by rw [neg_finite]; exact fLo)
      (by rw [neg_val]; linarith)
    rwa [neg_val] at this
  -- A is at most the rounding of hfsq + Ln2Lo
  have ra' := add_rounds (logHfsq f) Ln2Lo fh fLo
  have fa' : (add (logHfsq f) Ln2Lo).finite = true :=
    finite_of_mem _ _ hadd (iadd_sound2 _ _ _ _ hadd mh (mem_pt Ln2Lo))
  have vLo := val_Ln2Lo
  rw [e85] at vLo
  have n2 : (2 : ℚ) ^ (-1022 : Int) ≤ (logHfsq f).val + Ln2Lo.val := by
    have := tiny_le (-85) (by norm_num)
    rw [e85] at this
    rw [vLo]
    linarith
  obtain ⟨aup, _⟩ := ra'.rel_le fa' (by rw [vLo]; linarith) n2
  rw [e53] at aup
  have va : (sub (logHfsq f) (add (mul (logS f) (add (logHfsq f) (logR (logS f))))
      (mul (ofInt (-1)) Ln2Lo))).val ≤ (add (logHfsq f) Ln2Lo).val :=
    (key_le_iff _ _).mp ((sub_rounds _ _ fh fb).mono ra' (by linarith))
  -- the inner term is at most Ln2F - Ln2Hi
  have vD := val_Ln2D
  rw [e85] at vD
  have vi : (sub (sub (logHfsq f) (add (mul (logS f) (add (logHfsq f) (logR (logS f))))
      (mul (ofInt (-1)) Ln2Lo))) f).val ≤ (sub Ln2F Ln2Hi).val := by
    apply (sub_rounds _ _ fa ff).val_le fD
    rw [vD]
    rw [vLo] at aup
    linarith
  -- the result
  have rp := mul_rounds (ofInt (-1)) Ln2Hi fk fHi
  rw [vk] at rp
  have vp : -Ln2Hi.val ≤ (mul (ofInt (-1)) Ln2Hi).val := by
    have := rp.le_val (g := neg Ln2Hi) (by rw [neg_finite]; exact fHi) (by rw [neg_val]; linarith)
    rwa [neg_val] at this
  have vHi := val_Ln2Hi
  have vF := val_Ln2F
  rw [e53] at vHi vF
  unfold logCore
  apply (sub_rounds _ _ fp fi).float_le (by rw [neg_finite]; exact fLF)
  rw [neg_val, vF]
  rw [vD] at vi
  rw [vHi] at vp
  linarith

end F64
end Gotty

namespace Gotty
namespace F64

/-- `Frexp` leaves a float between one half and one unchanged, with exponent 0. -/
theorem Frexp_frac (fr : F64) (hfin : fr.finite = true) (h1 : (ofDec 5 10).key ≤ fr.key)
    (h2 : fr.key < (ofInt 1).key) : Frexp fr = (fr, 0) := by
  have hpos : 0 < fr.key := lt_of_lt_of_le key_half_pos h1
  have hm := mant_pos_of_key_pos fr hpos
  obtain ⟨f1, f2, f3, f4, f5⟩ := Frexp_spec fr hfin (by omega)
  have hv := val_eq_mag_of_key_pos fr hpos
  have v1 : 1 / 2 ≤ fr.mag := by
    have := (key_le_iff _ _).mp h1
    rwa [val_half, hv] at this
  have v2 : fr.mag < 1 := by
    have := (key_lt_iff _ _).mp h2
    rwa [val_ofInt_one, hv] at this
  have hex : (Frexp fr).2 = 0 := by
    rcases lt_trichotomy (Frexp fr).2 0 with hc | hc | hc
    · exfalso
      have : (2 : ℚ) ^ (Frexp fr).2 ≤ 2 ^ (-1 : Int) := zpow_le_zpow_right₀ (by norm_num) (by omega)
      have e : (2 : ℚ) ^ (-1 : Int) = 1 / 2 := by norm_num
      rw [e] at this
      have p := two_zpow_pos (Frexp fr).2
      nlinarith
    · exact hc
    · exfalso
      have : (2 : ℚ) ^ (1 : Int) ≤ 2 ^ (Frexp fr).2 := zpow_le_zpow_right₀ (by norm_num) (by omega)
      rw [zpow_one] at this
      nlinarith
  rw [hex, zpow_zero, mul_one] at f5
  have hk : (Frexp fr).1.mkey = fr.mkey :=
    le_antisymm ((mkey_le_iff _ _).mpr (le_of_eq f5.symm)) ((mkey_le_iff _ _).mpr (le_of_eq f5))
  have := ext_of_key _ _ f2 hk
  exact Prod.ext this hex

theorem frac_consts : (logCoreI (Ivl.pt (ofInt 0)) FA).fin = true
    ∧ (neg Ln2F).key ≤ (logCoreI (Ivl.pt (ofInt 0)) FA).lo.key
    ∧ (logCoreI (Ivl.pt (ofInt 0)) FA).hi.key ≤ 0
    ∧ (mk3 false 1022 1).key = (ofDec 5 10).key + 1
    ∧ FBpos.fin = true := by decide!

/-- `math.Log` of a float strictly between one half and one is finite, not
positive, and not below minus the float nearest to `ln 2`. -/
theorem Log_frac (fr : F64) (hfin : fr.finite = true) (h1 : (ofDec 5 10).key < fr.key)
    (h2 : fr.key < (ofInt 1).key) :
    (Log fr).finite = true ∧ (neg Ln2F).key ≤ (Log fr).key ∧ (Log fr).key ≤ 0 := by
  obtain ⟨c1, c2, c3, c4, c5⟩ := frac_consts
  have hpos : 0 < fr.key := lt_trans key_half_pos h1
  have hF := Frexp_frac fr hfin (le_of_lt h1) h2
  rw [Log_pos fr hfin hpos, hF]
  simp only
  have hn := finite_not_nan fr hfin
  have hsn := finite_not_nan _ Sqrt2Half_finite
  cases hs : fr.lt Sqrt2Half
  · simp only [Bool.false_eq_true, if_false]
    have mA := (log_f_mem fr hfin (le_of_lt h1) (le_of_lt h2)).1 hs
    have h := logCoreI_sound (ofInt 0) _ _ FA c1 (mem_pt _) mA
    exact ⟨finite_of_mem _ _ c1 h, le_trans c2 h.1, le_trans h.2 c3⟩
  · simp only [if_true]
    have hk : fr.key ≤ Sqrt2Half.key := le_of_lt ((lt_iff fr Sqrt2Half hn hsn).mp hs)
    have hf := c5
    unfold FBpos at hf
    obtain ⟨a1, _⟩ := isub_fin_inv _ _ hf
    have mB : FBpos.mem (sub (mul fr (ofInt 2)) (ofInt 1)) := by
      unfold FBpos
      exact isub_sound2 _ _ _ _ hf
        (imul_sound _ _ _ _ a1 ⟨by rw [c4]; omega, hk⟩ (mem_pt _)) (mem_pt _)
    have e : (0 : Int) - 1 = -1 := by norm_num
    rw [e]
    exact logCore_neg_one _ mB

theorem log2_consts :
    (imul ⟨neg Ln2F, zero false⟩ (Ivl.pt InvLn2)).fin = true
    ∧ (iadd (imul ⟨neg Ln2F, zero false⟩ (Ivl.pt InvLn2)) ⟨ofInt 1, ofInt 1024⟩).fin = true
    ∧ 0 ≤ (iadd (imul ⟨neg Ln2F, zero false⟩ (Ivl.pt InvLn2)) ⟨ofInt 1, ofInt 1024⟩).lo.key
    ∧ (iadd (imul ⟨neg Ln2F, zero false⟩ (Ivl.pt InvLn2)) ⟨ofInt 1, ofInt 1024⟩).hi.key
        ≤ (ofInt 1024).key
    ∧ (ofInt 1024).finite = true ∧ (ofInt 0).key = 0
    ∧ (imul ⟨ofInt 0, ofInt 1024⟩ (Ivl.pt Ln2OverLn10)).fin = true
    ∧ 0 ≤ (imul ⟨ofInt 0, ofInt 1024⟩ (Ivl.pt Ln2OverLn10)).lo.key := by decide!

/-- `math.Log2` of a finite float that is at least one lies between 0 and 1024. -/
theorem Log2_ge_one (x : F64) (hx : x.finite = true) (h1 : (ofInt 1).key ≤ x.key) :
    (Ivl.mk (ofInt 0) (ofInt 1024)).mem (Log2 x) := by
  obtain ⟨c1, c2, c3, c4, c5, c6, _, _⟩ := log2_consts
  have hpos : 0 < x.key := lt_of_lt_of_le key_one_pos h1
  obtain ⟨ffin, fh, fo, _⟩ := Frexp_pos x hx hpos
  obtain ⟨e1, e2⟩ := Frexp_exp_ge_one x hx h1
  unfold Log2
  simp only
  have hn := finite_not_nan _ ffin
  have hhn := finite_not_nan _ finite_half
  cases hs : (Frexp x).1.eq (ofDec 5 10)
  · simp only [Bool.false_eq_true, if_false]
    have hne : (Frexp x).1.key ≠ (ofDec 5 10).key := by
      intro hc
      have := (eq_iff _ _ hn hhn).mpr hc
      rw [hs] at this
      exact absurd this (by simp)
    have hL := Log_frac (Frexp x).1 ffin (lt_of_le_of_ne fh (Ne.symm hne)) fo
    have mL : (Ivl.mk (neg Ln2F) (zero false)).mem (Log (Frexp x).1) :=
      ⟨hL.2.1, by rw [key_zero]; exact hL.2.2⟩
    have mM := imul_sound _ _ _ _ c1 mL (mem_pt InvLn2)
    have mS := iadd_sound2 _ _ _ _ c2 mM (ofInt_mem (Frexp x).2 1 1024 e1 e2)
    exact ⟨by rw [c6]; exact le_trans c3 mS.1, le_trans mS.2 c4⟩
  · simp only [if_true]
    exact ofInt_mem _ 0 1024 (by omega) (by omega)

/-- `math.Log10` of a finite float that is at least one is finite and not negative. -/
theorem Log10_ge_one (x : F64) (hx : x.finite = true) (h1 : (ofInt 1).key ≤ x.key) :
    (Log10 x).finite = true ∧ 0 ≤ (Log10 x).key := by
  obtain ⟨_, _, _, _, _, _, c7, c8⟩ := log2_consts
  have m := imul_sound _ _ _ _ c7 (Log2_ge_one x hx h1) (mem_pt Ln2OverLn10)
  unfold Log10
  exact ⟨finite_of_mem _ _ c7 m, le_trans c8 m.1⟩

end F64
end Gotty

namespace Gotty
namespace F64

/-- A natural number below two to the 53 is a float: rounding it is exact. -/
theorem round_nat_exact (s : Bool) (n : Nat) (hn : n < 2 * hidden) :
    (round s n 1).mag = (n : ℚ) ∧ (round s n 1).finite = true := by
  have hh : hidden = 4503599627370496 := rfl
  by_cases h0 : n = 0
  · subst h0
    rw [round_zero]
    exact ⟨by simp [mag, mant, zero, mk3], zero_finite s⟩
  have hlt := bitLen_lt n
  have hle := bitLen_le n h0
  have hpos := bitLen_pos n h0
  set bl := bitLen n with hbl
  have hbl53 : bl ≤ 53 := by
    by_contra hc
    have : 2 ^ 53 ≤ 2 ^ (bl - 1) := Nat.pow_le_pow_right (by norm_num) (by omega)
    rw [hh] at hn
    omega
  have hm1 : n * 2 ^ (53 - bl) < 2 * hidden := by
    calc n * 2 ^ (53 - bl) < 2 ^ bl * 2 ^ (53 - bl) :=
          Nat.mul_lt_mul_of_pos_right hlt (Nat.two_pow_pos _)
      _ = 2 ^ 53 := by rw [← pow_add]; congr 1; omega
      _ = 2 * hidden := by rw [hh]; norm_num
  have hm2 : hidden ≤ n * 2 ^ (53 - bl) := by
    calc hidden = 2 ^ (bl - 1) * 2 ^ (53 - bl) := by
          rw [← pow_add, hh]
          have : bl - 1 + (53 - bl) = 52 := by omega
          rw [this]; norm_num
      _ ≤ n * 2 ^ (53 - bl) := Nat.mul_le_mul_right _ hle
  have hv : ((n : Nat) : ℚ) / ((1 : Nat) : ℚ)
      = ((n * 2 ^ (53 - bl) : Nat) : ℚ) * 2 ^ ((bl : Int) - 53) := by
    push_cast
    rw [div_one, mul_assoc, ← zpow_natCast, ← zpow_add₀ (by norm_num : (2 : ℚ) ≠ 0)]
    have : (((53 - bl : Nat) : Int)) + ((bl : Int) - 53) = 0 := by omega
    rw [this, zpow_zero, mul_one]
  have := round_repr s n 1 _ ((bl : Int) - 53) (by norm_num) hm1 (by omega) (fun _ => hm2)
    (by omega) hv
  rw [Nat.cast_one, div_one] at this
  exact this

/-- The integer part that `toInt` computes is the floor of the magnitude. -/
theorem trunc_eq_floor (y : F64) :
    y.mant * 2 ^ y.exp2.toNat / 2 ^ (-y.exp2).toNat = ⌊y.mag⌋₊ := by
  have h := mag_eq_cast y
  rw [one_mul] at h
  rw [h]
  exact (Nat.floor_div_eq_div _ _).symm

theorem toInt_nonneg (y : F64) (hy : y.finite = true) (hs : y.sign = false)
    (hm : y.mag < 9223372036854775808) : toInt y = some (⌊y.mag⌋₊ : Int) := by
  have hfl : ⌊y.mag⌋₊ < 9223372036854775808 := by
    rw [Nat.floor_lt (mag_nonneg y)]
    exact_mod_cast hm
  unfold toInt
  simp only [hy, Bool.not_true, Bool.false_eq_true, if_false, hs]
  rw [trunc_eq_floor, if_pos hfl]

theorem toInt_zero_key (y : F64) (h : y.key = 0) : toInt y = some 0 := by
  have hk : y.mkey = 0 := by
    have := mkey_eq_natAbs y
    rw [h] at this
    simpa using this
  have hm := (mant_eq_zero_iff y).mpr hk
  have hf : y.finite = true := finite_of_mkey_lt y (by rw [hk]; norm_num [hidden])
  unfold toInt
  simp only [hf, Bool.not_true, Bool.false_eq_true, if_false, hm, Nat.zero_mul, Nat.zero_div]
  cases y.sign <;> simp

theorem sign_false_of_key_pos' (y : F64) (h0 : 0 ≤ y.key) (hm : y.mant ≠ 0) : y.sign = false := by
  have hk : y.mkey ≠ 0 := fun hc => hm ((mant_eq_zero_iff y).mpr hc)
  rw [key_eq] at h0
  cases hs : y.sign
  · rfl
  · rw [hs] at h0
    simp at h0
    omega

theorem val_of_nonneg_key (y : F64) (h0 : 0 ≤ y.key) : y.val = y.mag := by
  by_cases hm : y.mant = 0
  · rw [val_eq]
    unfold mag
    rw [hm]
    cases y.sign <;> simp
  · rw [val_eq, sign_false_of_key_pos' y h0 hm]
    simp

/-- `math.Floor` of a float that is not negative: not negative again, and for a
finite argument the floor of its value. -/
theorem Floor_nonneg (d : F64) (hn : d.IsNaN = false) (h0 : 0 ≤ d.key) :
    (Floor d).IsNaN = false ∧ 0 ≤ (Floor d).key ∧
    (d.finite = true → (Floor d).finite = true ∧ (Floor d).val = ((⌊d.val⌋ : Int) : ℚ)) := by
  have hv := val_of_nonneg_key d h0
  have hmn := mag_nonneg d
  unfold Floor
  by_cases c1 : (decide (d.mant = 0) || !d.finite) = true
  · rw [if_pos c1]
    refine ⟨hn, h0, fun hf => ⟨hf, ?_⟩⟩
    simp only [hf, Bool.not_true, Bool.or_false, decide_eq_true_eq] at c1
    rw [hv]
    unfold mag
    rw [c1]
    simp
  · rw [if_neg c1]
    simp only [Bool.or_eq_true, decide_eq_true_eq, Bool.not_eq_true', not_or] at c1
    obtain ⟨hm, hf⟩ := c1
    have hf' : d.finite = true := by simpa using hf
    by_cases c2 : 0 ≤ d.exp2
    · rw [if_pos c2]
      refine ⟨hn, h0, fun _ => ⟨hf', ?_⟩⟩
      rw [hv]
      unfold mag
      have e : (2 : ℚ) ^ d.exp2 = ((2 ^ d.exp2.toNat : Nat) : ℚ) := by
        push_cast
        rw [← zpow_natCast, Int.toNat_of_nonneg c2]
      rw [e]
      have e2 : (d.mant : ℚ) * ((2 ^ d.exp2.toNat : Nat) : ℚ)
          = (((d.mant * 2 ^ d.exp2.toNat : Nat) : Int) : ℚ) := by push_cast; ring
      rw [e2, Int.floor_intCast]
    · rw [if_neg c2]
      have hs := sign_false_of_key_pos' d h0 hm
      simp only [hs, Bool.false_eq_true, if_false]
      have hip : d.mant / 2 ^ (-d.exp2).toNat < 2 * hidden :=
        lt_of_le_of_lt (Nat.div_le_self _ _) (mant_lt d)
      have hex := round_nat_exact false (d.mant / 2 ^ (-d.exp2).toNat) hip
      refine ⟨round_not_nan _ _ _, ?_, fun _ => ⟨hex.2, ?_⟩⟩
      · rw [key_eq, round_sign]
        simp
      · rw [val_round]
        simp only [Bool.false_eq_true, if_false]
        rw [hex.1, hv]
        have ht := trunc_eq_floor d
        have e0 : d.exp2.toNat = 0 := by omega
        rw [e0, pow_zero, mul_one] at ht
        rw [ht]
        have : ((⌊d.mag⌋₊ : Nat) : Int) = ⌊d.mag⌋ := Int.natCast_floor_eq_floor hmn
        rw [← this]
        push_cast
        rfl

end F64
end Gotty

namespace Gotty
namespace F64

theorem eight_facts : (ofInt 8).IsNaN = false ∧ (ofInt 8).IsInf (-1) = false
    ∧ (ofInt 8).key = 4620693217682128896 ∧ toInt (ofInt 8) = some 8
    ∧ ofInt 8 = mk3 false 1026 0 := by decide!

theorem val_eight : (ofInt 8).val = 8 := by
  rw [eight_facts.2.2.2.2, val_mk3_normal _ _ (by norm_num) (by norm_num) (by norm_num [hidden])]
  norm_num [hidden]

theorem not_neg_inf_of_key_nonneg (r : F64) (h0 : 0 ≤ r.key) : r.IsInf (-1) = false := by
  cases hs : r.sign
  · simp [IsInf, hs]
  · have hk : r.mkey = 0 := by
      rw [key_eq, hs] at h0
      simp at h0
      omega
    have he : r.expo.val = 0 := by
      unfold mkey at hk
      have hh : hidden = 4503599627370496 := rfl
      rw [hh] at hk
      omega
    simp [IsInf, he]

/-- `math.Min(r, 8)` for a float `r` that is not negative. -/
theorem Min_eight (r : F64) (hn : r.IsNaN = false) (h0 : 0 ≤ r.key) :
    Min r (ofInt 8) = if r.key < (ofInt 8).key then r else ofInt 8 := by
  obtain ⟨n8, i8, k8, _, _⟩ := eight_facts
  have hz : (zero false).IsNaN = false := by decide
  unfold Min
  rw [not_neg_inf_of_key_nonneg r h0, i8]
  simp only [Bool.or_self, Bool.false_eq_true, if_false, hn, n8]
  have hcond : (r.eq (zero false) && r.eq (ofInt 8)) = false := by
    rw [Bool.and_eq_false_iff]
    by_cases hk : r.key = 0
    · right
      rw [Bool.eq_false_iff, Ne, eq_iff r _ hn n8, hk, k8]
      norm_num
    · left
      rw [Bool.eq_false_iff, Ne, eq_iff r _ hn hz, key_zero]
      exact hk
  rw [hcond]
  simp only [Bool.false_eq_true, if_false]
  by_cases hlt : r.key < (ofInt 8).key
  · rw [if_pos hlt, if_pos ((lt_iff r _ hn n8).mpr hlt)]
  · rw [if_neg hlt]
    have : r.lt (ofInt 8) = false := by
      rw [Bool.eq_false_iff, Ne, lt_iff r _ hn n8]
      exact hlt
    rw [this]
    simp

/-- The exponent computed from a quotient `d` that is not negative: an integer
between 0 and 8, the floor of `d` capped at 8. -/
theorem exponent_spec (d : F64) (hn : d.IsNaN = false) (h0 : 0 ≤ d.key) :
    ∃ e : Int, toInt (Min (Floor d) (ofInt 8)) = some e ∧ 0 ≤ e ∧ e ≤ 8 ∧
      (d.finite = true → e = min ⌊d.val⌋ 8) := by
  obtain ⟨n8, i8, k8, t8, _⟩ := eight_facts
  obtain ⟨fn, f0, fv⟩ := Floor_nonneg d hn h0
  rw [Min_eight _ fn f0]
  have hd0 : 0 ≤ d.val := val_nonneg_of_key_nonneg d h0
  by_cases hlt : (Floor d).key < (ofInt 8).key
  · rw [if_pos hlt]
    have hvlt : (Floor d).val < 8 := by
      have := (key_lt_iff _ _).mp hlt
      rwa [val_eight] at this
    have hfin : (Floor d).finite = true := by
      apply finite_of_mkey_lt
      have := mkey_eq_natAbs (Floor d)
      rw [abs_of_nonneg f0] at this
      have h2 : ((Floor d).mkey : Int) < 4620693217682128896 := by rw [this, ← k8]; exact hlt
      have hh : hidden = 4503599627370496 := rfl
      rw [hh]
      omega
    have hvm := val_of_nonneg_key _ f0
    rw [hvm] at hvlt
    have hm0 := mag_nonneg (Floor d)
    have hfl : ⌊(Floor d).mag⌋₊ < 8 := by
      rw [Nat.floor_lt hm0]
      exact_mod_cast hvlt
    by_cases hk0 : (Floor d).key = 0
    · refine ⟨0, toInt_zero_key _ hk0, le_rfl, by norm_num, fun hf => ?_⟩
      have h1 := (fv hf).2
      have hz : (Floor d).val = 0 := by
        have a1 := (key_le_iff (Floor d) (zero false)).mp (by rw [key_zero, hk0])
        have a2 := (key_le_iff (zero false) (Floor d)).mp (by rw [key_zero, hk0])
        rw [val_zero] at a1 a2
        linarith
      rw [hz] at h1
      have : ⌊d.val⌋ = 0 := by exact_mod_cast h1.symm
      rw [this]
      norm_num
    · have hs : (Floor d).sign = false := by
        apply sign_false_of_key_pos' _ f0
        intro hc
        have := (mant_eq_zero_iff _).mp hc
        rw [key_eq, this] at hk0
        cases (Floor d).sign <;> simp at hk0
      refine ⟨(⌊(Floor d).mag⌋₊ : Int), toInt_nonneg _ hfin hs (by linarith), by positivity,
        by omega, fun hf => ?_⟩
      have h1 := (fv hf).2
      rw [hvm] at h1
      have e1 : ((⌊(Floor d).mag⌋₊ : Nat) : Int) = ⌊(Floor d).mag⌋ :=
        Int.natCast_floor_eq_floor hm0
      rw [e1, h1, Int.floor_intCast]
      have : ⌊d.val⌋ < 8 := by
        have : ((⌊d.val⌋ : Int) : ℚ) < 8 := by rw [← h1]; exact hvlt
        exact_mod_cast this
      omega
  · rw [if_neg hlt]
    refine ⟨8, t8, by norm_num, le_rfl, fun hf => ?_⟩
    have h1 := (fv hf).2
    have hge : (8 : ℚ) ≤ (Floor d).val := by
      have := (key_le_iff _ _).mp (not_lt.mp hlt)
      rwa [val_eight] at this
    rw [h1] at hge
    have : (8 : Int) ≤ ⌊d.val⌋ := by exact_mod_cast hge
    omega

end F64
end Gotty

namespace Gotty
open F64

theorem isFinite_eq (x : F64) : isFinite x = x.finite := by
  unfold isFinite F64.IsInf F64.IsNaN F64.finite
  by_cases h : x.expo.val = 2047
  · by_cases h2 : x.frac.val = 0
    · cases x.sign <;> simp [h, h2]
    · simp [h, h2]
  · have h3 : (x.expo.val == 2047) = false := by simpa using h
    have h4 : (x.expo.val != 2047) = true := by simpa using h
    rw [h3, h4]
    simp

/-- A float is not finite exactly when it is `+Inf`, `-Inf` or a NaN. -/
theorem not_finite_iff (x : F64) :
    x.finite = false ↔ (x.IsInf 1 = true ∨ x.IsInf (-1) = true ∨ x.IsNaN = true) := by
  unfold F64.IsInf F64.IsNaN F64.finite
  by_cases h : x.expo.val = 2047
  · by_cases h2 : x.frac.val = 0
    · cases x.sign <;> simp [h, h2]
    · simp [h, h2]
  · have h3 : (x.expo.val == 2047) = false := by simpa using h
    have h4 : (x.expo.val != 2047) = true := by simpa using h
    rw [h3, h4]
    simp

theorem unitsOf_length (o : Options) : ((unitsOf o).length : Int) - 1 = 8 := by
  unfold unitsOf
  cases o.Bits <;> cases o.Binary <;> simp [bibitUnits, bitUnits, bibyteUnits, byteUnits]

theorem index_zero (o : Options) :
    index (unitsOf o) 0 = some (if o.Bits then "b" else "B") := by
  unfold unitsOf index
  cases o.Bits <;> cases o.Binary <;> simp [bibitUnits, bitUnits, bibyteUnits, byteUnits]

/-- The index expression `units[e]` does not panic for `0 ≤ e ≤ 8` and yields a
label of the selected table. -/
theorem index_range (o : Options) (e : Int) (h0 : 0 ≤ e) (h8 : e ≤ 8) :
    ∃ u, index (unitsOf o) e = some u ∧ u ∈ unitsOf o := by
  have hlen : (unitsOf o).length = 9 := by
    unfold unitsOf
    cases o.Bits <;> cases o.Binary <;> simp [bibitUnits, bitUnits, bibyteUnits, byteUnits]
  have hlt : e.toNat < (unitsOf o).length := by omega
  refine ⟨(unitsOf o).get ⟨e.toNat, hlt⟩, ?_, List.get_mem _ _ _⟩
  unfold index
  rw [if_neg (by omega)]
  exact List.get?_eq_get hlt

theorem log1024_facts : (Log (ofInt 1024)).finite = true ∧ 0 < (Log (ofInt 1024)).key
    ∧ (ofInt 3).finite = true ∧ 0 < (ofInt 3).key := by decide!

/-- A quotient of a float that is not negative by a positive float is not
negative and not a NaN. -/
theorem div_nonneg_key (a c : F64) (ha : a.finite = true) (h0 : 0 ≤ a.key)
    (hc : c.finite = true) (hcp : 0 < c.key) :
    (div a c).IsNaN = false ∧ 0 ≤ (div a c).key := by
  have vc := val_pos_of_key_pos c hcp
  have va := val_nonneg_of_key_nonneg a h0
  have r := div_rounds a c ha hc (mant_ne_zero_of_val_ne c (ne_of_gt vc))
  exact ⟨r.not_nan, key_nonneg_of_val_nonneg _ (r.val_nonneg (div_nonneg va (le_of_lt vc)))⟩

/-- The quotient from which the exponent is taken. -/
theorem exponentOf_eq (b : F64) (o : Options) :
    exponentOf b o = F64.toInt (F64.Min (F64.Floor
      (if o.Binary then F64.div (Log b) (Log (ofInt 1024)) else F64.div (Log10 b) (ofInt 3)))
      (ofInt 8)) := by
  unfold exponentOf
  rw [unitsOf_length]
  cases o.Binary <;> simp

/-- For a finite magnitude of at least one the exponent is defined and lies
between 0 and 8. -/
theorem exponentOf_range (b : F64) (o : Options) (hb : b.finite = true)
    (h1 : (ofInt 1).key ≤ b.key) :
    ∃ e : Int, exponentOf b o = some e ∧ 0 ≤ e ∧ e ≤ 8 := by
  obtain ⟨c1, c2, c3, c4⟩ := log1024_facts
  rw [exponentOf_eq]
  cases o.Binary
  · simp only [Bool.false_eq_true, if_false]
    obtain ⟨l1, l2⟩ := Log10_ge_one b hb h1
    obtain ⟨d1, d2⟩ := div_nonneg_key _ _ l1 l2 c3 c4
    obtain ⟨e, he, h0, h8, _⟩ := exponent_spec _ d1 d2
    exact ⟨e, he, h0, h8⟩
  · simp only [if_true]
    obtain ⟨l1, l2⟩ := Log_ge_one b hb h1
    obtain ⟨d1, d2⟩ := div_nonneg_key _ _ l1 l2 c1 c2
    obtain ⟨e, he, h0, h8, _⟩ := exponent_spec _ d1 d2
    exact ⟨e, he, h0, h8⟩

theorem ofInt_zero_nan : (ofInt 0).IsNaN = false ∧ (ofInt 1).IsNaN = false
    ∧ (ofInt 0).key = 0 := by decide!

theorem neg_key (x : F64) : (F64.neg x).key = -x.key := by
  rw [key_eq, key_eq]
  have h1 : (F64.neg x).mkey = x.mkey := rfl
  have h2 : (F64.neg x).sign = !x.sign := rfl
  rw [h1, h2]
  cases x.sign <;> simp

/-- The magnitude that `Format` works on after the sign is split off: finite
and not negative. -/
theorem abs_facts (x : F64) (hx : x.finite = true) :
    (if x.lt (ofInt 0) then x.neg else x).finite = true ∧
    0 ≤ (if x.lt (ofInt 0) then x.neg else x).key := by
  obtain ⟨z0, _, k0⟩ := ofInt_zero_nan
  have hn := finite_not_nan x hx
  cases h : x.lt (ofInt 0)
  · simp only [Bool.false_eq_true, if_false]
    refine ⟨hx, ?_⟩
    have := (lt_iff x _ hn z0).not.mp (by rw [h]; simp)
    omega
  · simp only [if_true]
    refine ⟨by rw [neg_finite]; exact hx, ?_⟩
    have := (lt_iff x _ hn z0).mp h
    rw [neg_key]
    omega

/-- The shape of the result of `Format` on a finite input. -/
theorem Format_finite (x : F64) (oo : Option Options) (hx : x.finite = true) :
    ∃ (num unit : String), unit ∈ unitsOf (oo.getD {}) ∧
      Format x oo = Result.ok
        ((if (oo.getD {}).Signed && x.eq (ofInt 0) then ""
          else if x.lt (ofInt 0) then "-" else if (oo.getD {}).Signed then "+" else "")
          ++ num ++ (if (oo.getD {}).Space then " " else "") ++ unit) := by
  obtain ⟨z0, z1, k0⟩ := ofInt_zero_nan
  set o := oo.getD {} with ho
  obtain ⟨bf, b0⟩ := abs_facts x hx
  have hu0 : (if o.Bits then "b" else "B") ∈ unitsOf o := by
    unfold unitsOf
    cases o.Bits <;> cases o.Binary <;> simp [bibitUnits, bitUnits, bibyteUnits, byteUnits]
  unfold Format
  simp only [← ho, isFinite_eq, hx, Bool.not_true, Bool.false_eq_true, if_false, index_zero]
  by_cases hz : (o.Signed && x.eq (ofInt 0)) = true
  · rw [if_pos hz, if_pos hz]
    exact ⟨"0", _, hu0, by simp⟩
  · rw [if_neg hz, if_neg hz]
    by_cases h1 : (if x.lt (ofInt 0) then x.neg else x).lt (ofInt 1) = true
    · rw [if_pos h1]
      exact ⟨_, _, hu0, rfl⟩
    · rw [if_neg h1]
      have hbn := finite_not_nan _ bf
      have hk : (ofInt 1).key ≤ (if x.lt (ofInt 0) then x.neg else x).key := by
        have := (lt_iff _ _ hbn z1).not.mp h1
        omega
      obtain ⟨e, he, e0, e8⟩ := exponentOf_range _ o bf hk
      obtain ⟨u, hu, hmem⟩ := index_range o e e0 e8
      rw [he]
      simp only [hu]
      exact ⟨_, u, hmem, rfl⟩

end Gotty

namespace Gotty
namespace F64

theorem val_of_sign_false (y : F64) (hs : y.sign = false) : y.val = y.mag := by
  rw [val_eq, hs]; simp

theorem mk3_val_of_mkey (E F : Nat) (hE : E < 2047) (hF : F < hidden) :
    (mk3 false E F).finite = true ∧ (mk3 false E F).sign = false ∧
    (mk3 false E F).mant = (if E = 0 then F else hidden + F) ∧
    (mk3 false E F).exp2 = (if E = 0 then -1074 else (E : Int) - 1075) :=
  ⟨finite_mk3 _ _ _ hE, mk3_sign _ _ _, mant_mk3 _ _ _ (by omega) hF, exp2_mk3 _ _ _ (by omega)⟩

theorem floor_add_half_small (v : ℚ) (h0 : 0 ≤ v) (h1 : v < 1 / 2) : ⌊v + 1 / 2⌋ = 0 := by
  rw [Int.floor_eq_iff]
  constructor <;> push_cast <;> linarith

theorem floor_add_half_one (v : ℚ) (h0 : 1 / 2 ≤ v) (h1 : v < 1) : ⌊v + 1 / 2⌋ = 1 := by
  rw [Int.floor_eq_iff]
  constructor <;> push_cast <;> linarith

theorem ofBits_small (b : Nat) (hb : b < 2047 * hidden) :
    ofBits b = mk3 false (b / hidden) (b % hidden) := by
  have hh : hidden = 4503599627370496 := rfl
  unfold ofBits
  have h1 : b / 9223372036854775808 = 0 := by
    apply Nat.div_eq_of_lt
    rw [hh] at hb
    omega
  have e1 : decide (b / 9223372036854775808 % 2 = 1) = false := by
    rw [h1]; simp
  rw [e1]
  unfold mk3
  simp only [mk.injEq, Fin.mk.injEq, true_and]
  rw [hh, Nat.mod_mod]

/-- The integer part arithmetic of `math.Round` on the bit pattern: adding half
a unit and clearing the `sh` low bits. -/
theorem round_bits_arith (e frac P Q : Nat) (hPQ : P * Q = hidden)
    (he : 1 ≤ e) :
    (e * hidden + frac + P / 2) - (e * hidden + frac + P / 2) % P
      = (e - 1) * hidden + (hidden + frac + P / 2) / P * P := by
  have hh : hidden = 4503599627370496 := rfl
  have e1 : e * hidden + frac + P / 2 = (hidden + frac + P / 2) + P * (Q * (e - 1)) := by
    have : e = (e - 1) + 1 := by omega
    calc e * hidden + frac + P / 2 = ((e - 1) + 1) * hidden + frac + P / 2 := by rw [← this]
      _ = (hidden + frac + P / 2) + (e - 1) * hidden := by ring
      _ = (hidden + frac + P / 2) + P * (Q * (e - 1)) := by rw [← hPQ]; ring
  rw [e1, Nat.add_mul_mod_self_left]
  have h2 := Nat.div_add_mod (hidden + frac + P / 2) P
  have h3 : P * (Q * (e - 1)) = (e - 1) * hidden := by rw [← hPQ]; ring
  rw [h3]
  have h4 : (hidden + frac + P / 2) / P * P = P * ((hidden + frac + P / 2) / P) := Nat.mul_comm _ _
  omega

theorem floor_nat_div (a P : Nat) (hP : 0 < P) : ⌊((a : ℚ) / P)⌋ = ((a / P : Nat) : Int) := by
  rw [Int.floor_eq_iff]
  have hPq : (0 : ℚ) < P := by exact_mod_cast hP
  have h := Nat.div_add_mod a P
  have h2 := Nat.mod_lt a hP
  constructor
  · rw [le_div_iff₀ hPq]
    have : (a / P) * P ≤ a := by rw [Nat.mul_comm]; omega
    exact_mod_cast this
  · rw [div_lt_iff₀ hPq]
    have : a < (a / P + 1) * P := by rw [Nat.add_mul, Nat.mul_comm]; omega
    exact_mod_cast this

/-- On a finite float of positive sign `math.Round` returns the floor of the
value plus one half. -/
theorem Round_spec (y : F64) (hy : y.finite = true) (hs : y.sign = false) :
    (Round y).finite = true ∧ (Round y).sign = false ∧
      (Round y).val = ((⌊y.val + 1 / 2⌋ : Int) : ℚ) := by
  have hh : hidden = 4503599627370496 := rfl
  have he : y.expo.val < 2047 := by
    have h1 := (finite_iff y).1 hy
    have h2 := y.expo.isLt
    omega
  have hf : y.frac.val < hidden := y.frac.isLt
  have hv : y.val = (y.mant : ℚ) * 2 ^ y.exp2 := by
    rw [val_of_sign_false y hs]; rfl
  have hm : y.mant = if y.expo.val = 0 then y.frac.val else hidden + y.frac.val := rfl
  have hx : y.exp2 = if y.expo.val = 0 then -1074 else (y.expo.val : Int) - 1075 := rfl
  unfold Round
  simp only [hs]
  by_cases h1 : y.expo.val < 1023
  · rw [if_pos h1]
    have hlt : y.val < 2 ^ ((y.expo.val : Int) - 1022) := by
      rw [hv, hm, hx]
      by_cases h0 : y.expo.val = 0
      · rw [if_pos h0, if_pos h0, h0]
        have : ((y.frac.val : Nat) : ℚ) < 4503599627370496 := by
          have := hf; rw [hh] at this; exact_mod_cast this
        have e2 : (2 : ℚ) ^ (((0 : Nat) : Int) - 1022) = 4503599627370496 * 2 ^ (-1074 : Int) := by
          rw [show (4503599627370496 : ℚ) = 2 ^ (52 : Int) by norm_num, ← zpow_add₀ (by norm_num)]
          norm_num
        rw [e2]
        exact mul_lt_mul_of_pos_right this (zpow_pos (by norm_num) _)
      · rw [if_neg h0, if_neg h0]
        have : ((hidden + y.frac.val : Nat) : ℚ) < 2 ^ (53 : Int) := by
          have : hidden + y.frac.val < 2 ^ 53 := by rw [hh] at hf ⊢; omega
          exact_mod_cast this
        have e2 : (2 : ℚ) ^ ((y.expo.val : Int) - 1022) = 2 ^ (53 : Int) * 2 ^ ((y.expo.val : Int) - 1075) := by
          rw [← zpow_add₀ (by norm_num)]
          congr 1; ring
        rw [e2]
        exact mul_lt_mul_of_pos_right this (zpow_pos (by norm_num) _)
    have hnn : 0 ≤ y.val := by
      rw [hv]; exact mul_nonneg (Nat.cast_nonneg _) (le_of_lt (zpow_pos (by norm_num) _))
    by_cases h2 : y.expo.val = 1022
    · rw [if_pos h2]
      refine ⟨finite_mk3 _ _ _ (by norm_num), mk3_sign _ _ _, ?_⟩
      rw [val_mk3_normal _ _ (by norm_num) (by norm_num) (by norm_num [hidden])]
      have hge : 1 / 2 ≤ y.val := by
        rw [hv, hm, hx, if_neg (by omega), if_neg (by omega), h2]
        have : (4503599627370496 : ℚ) ≤ ((hidden + y.frac.val : Nat) : ℚ) := by
          have : 4503599627370496 ≤ hidden + y.frac.val := by rw [hh]; omega
          exact_mod_cast this
        calc (1 / 2 : ℚ) = 4503599627370496 * 2 ^ (((1022 : Nat) : Int) - 1075) := by norm_num
          _ ≤ _ := mul_le_mul_of_nonneg_right this (le_of_lt (zpow_pos (by norm_num) _))
      rw [h2] at hlt
      have hlt1 : y.val < 1 := by
        have e3 : (2 : ℚ) ^ (((1022 : Nat) : Int) - 1022) = 1 := by norm_num
        rw [e3] at hlt; exact hlt
      rw [floor_add_half_one _ hge hlt1]
      norm_num [hidden]
    · rw [if_neg h2]
      refine ⟨finite_mk3 _ _ _ (by norm_num), mk3_sign _ _ _, ?_⟩
      have hlt1 : y.val < 1 / 2 := by
        refine lt_of_lt_of_le hlt ?_
        calc (2 : ℚ) ^ ((y.expo.val : Int) - 1022) ≤ 2 ^ (-1 : Int) :=
              zpow_le_zpow_right₀ (by norm_num) (by omega)
          _ = 1 / 2 := by norm_num
      rw [floor_add_half_small _ hnn hlt1]
      have : mk3 false 0 0 = zero false := rfl
      rw [this, val_zero]
      norm_num
  · rw [if_neg h1]
    have hpos : y.expo.val ≠ 0 := by omega
    rw [if_neg hpos] at hm hx
    by_cases h2 : y.expo.val < 1023 + 52
    · rw [if_pos h2]
      obtain ⟨t, ht⟩ : ∃ t, y.expo.val = 1023 + t := ⟨y.expo.val - 1023, by omega⟩
      have ht52 : t < 52 := by omega
      obtain ⟨sh, hsh⟩ : ∃ sh, 52 = t + (sh + 1) := ⟨51 - t, by omega⟩
      have e1 : y.expo.val - 1023 = t := by omega
      have e2 : 52 - t = sh + 1 := by omega
      rw [e1, e2]
      have hQP : 2 ^ (sh + 1) * 2 ^ t = hidden := by
        rw [← pow_add, hh, show sh + 1 + t = 52 by omega]; norm_num
      have hP2 : 2 ≤ 2 ^ (sh + 1) := by
        calc 2 = 2 ^ 1 := rfl
          _ ≤ 2 ^ (sh + 1) := Nat.pow_le_pow_right (by norm_num) (by omega)
      have hhalf : 2251799813685248 / 2 ^ t = 2 ^ (sh + 1) / 2 := by
        have a1 : (2251799813685248 : Nat) = 2 ^ 51 := by norm_num
        have a2 : 51 - t = sh := by omega
        rw [a1, Nat.pow_div (by omega) (by norm_num), pow_succ, Nat.mul_div_cancel _ (by norm_num), a2]
      have hb : y.bits = y.expo.val * hidden + y.frac.val := by
        unfold bits; rw [hs]; simp
      rw [hb, hhalf, round_bits_arith _ _ _ _ hQP (by omega)]
      generalize hP : 2 ^ (sh + 1) = P at *
      generalize hQ : 2 ^ t = Q at *
      set N := (hidden + y.frac.val + P / 2) / P with hN
      have hPpos : 0 < P := by omega
      have hNlo : Q ≤ N := by
        rw [hN, Nat.le_div_iff_mul_le hPpos, Nat.mul_comm, hQP]; omega
      have hNhi : N < 2 * Q + 1 := by
        rw [hN, Nat.div_lt_iff_lt_mul hPpos]
        have : (2 * Q + 1) * P = 2 * hidden + P := by rw [← hQP]; ring
        rw [this]
        have : P / 2 < P := Nat.div_lt_self hPpos (by norm_num)
        omega
      have hNP : N * P = hidden + (N - Q) * P := by
        rw [Nat.sub_mul, Nat.mul_comm Q P, hQP]
        have : hidden ≤ N * P := by rw [← hQP, Nat.mul_comm P Q]; exact Nat.mul_le_mul_right _ hNlo
        omega
      have hPq : (P : ℚ) = (2 : ℚ) ^ (sh + 1) := by
        rw [← hP]; push_cast; rfl
      have hPq0 : (0 : ℚ) < P := by exact_mod_cast hPpos
      have hz : (2 : ℚ) ^ ((y.expo.val : Int) - 1075) = 1 / P := by
        have a3 : (y.expo.val : Int) - 1075 = -((sh + 1 : Nat) : Int) := by omega
        rw [a3, zpow_neg, zpow_natCast, hPq, one_div]
      have hPeven : P = 2 * (P / 2) := by
        rw [← hP, pow_succ, Nat.mul_div_cancel _ (by norm_num)]; ring
      have hfloor : ⌊y.val + 1 / 2⌋ = ((N : Nat) : Int) := by
        have harg : y.val + 1 / 2 = ((hidden + y.frac.val + P / 2 : Nat) : ℚ) / P := by
          rw [hv, hm, hx, hz]
          have a4 : (P : ℚ) = 2 * ((P / 2 : Nat) : ℚ) := by exact_mod_cast hPeven
          have a5 : ((hidden + y.frac.val + P / 2 : Nat) : ℚ) =
              ((hidden + y.frac.val : Nat) : ℚ) + ((P / 2 : Nat) : ℚ) := by push_cast; ring
          rw [a5, add_div, mul_one_div]
          have a6 : ((P / 2 : Nat) : ℚ) / P = 1 / 2 := by
            rw [div_eq_iff (ne_of_gt hPq0)]
            linarith
          rw [a6]
        rw [harg, floor_nat_div _ _ hPpos]
      rw [hfloor]
      by_cases hc : N = 2 * Q
      · have hb2 : (y.expo.val - 1) * hidden + N * P = (y.expo.val + 1) * hidden := by
          rw [hc, Nat.mul_assoc, Nat.mul_comm Q P, hQP]
          have : y.expo.val = (y.expo.val - 1) + 1 := by omega
          nth_rewrite 2 [this]
          ring
        rw [hb2, ofBits_small _ (Nat.mul_lt_mul_of_pos_right (by omega) (by norm_num [hidden])),
          Nat.mul_div_cancel _ (by norm_num [hidden]), Nat.mul_mod_left]
        refine ⟨finite_mk3 _ _ _ (by omega), mk3_sign _ _ _, ?_⟩
        rw [val_mk3_normal _ _ (by omega) (by omega) (by norm_num [hidden])]
        have : (((y.expo.val + 1 : Nat) : Int) - 1075) = ((y.expo.val : Int) - 1075) + 1 := by
          push_cast; ring
        rw [this, zpow_add₀ (by norm_num), hz, hc]
        have : ((hidden + 0 : Nat) : ℚ) = (P : ℚ) * Q := by
          rw [Nat.add_zero]; exact_mod_cast hQP.symm
        rw [this]
        push_cast
        field_simp
        ring
      · have hlt : (N - Q) * P < hidden := by
          rw [← hQP, Nat.mul_comm P Q]
          exact Nat.mul_lt_mul_of_pos_right (by omega) hPpos
        have hb2 : (y.expo.val - 1) * hidden + N * P = (N - Q) * P + hidden * y.expo.val := by
          rw [hNP]
          have : y.expo.val = (y.expo.val - 1) + 1 := by omega
          nth_rewrite 2 [this]
          ring
        rw [hb2, ofBits_small _ (by
            have : hidden * y.expo.val ≤ hidden * 1074 := Nat.mul_le_mul_left _ (by omega)
            rw [hh] at this hlt ⊢; omega),
          Nat.add_mul_div_left _ _ (by norm_num [hidden]), Nat.add_mul_mod_self_left,
          Nat.div_eq_of_lt hlt, Nat.mod_eq_of_lt hlt, Nat.zero_add]
        refine ⟨finite_mk3 _ _ _ (by omega), mk3_sign _ _ _, ?_⟩
        rw [val_mk3_normal _ _ (by omega) (by omega) hlt, hz, ← hNP]
        push_cast
        field_simp
    · rw [if_neg h2]
      refine ⟨hy, hs, ?_⟩
      obtain ⟨k, hk⟩ : ∃ k : Nat, (y.expo.val : Int) - 1075 = k := ⟨y.expo.val - 1075, by omega⟩
      have hval : y.val = (((hidden + y.frac.val) * 2 ^ k : Nat) : ℚ) := by
        rw [hv, hm, hx, hk, zpow_natCast]; push_cast; ring
      rw [hval]
      have : ⌊(((hidden + y.frac.val) * 2 ^ k : Nat) : ℚ) + 1 / 2⌋ = (((hidden + y.frac.val) * 2 ^ k : Nat) : Int) := by
        rw [Int.floor_eq_iff]
        constructor <;> push_cast <;> linarith
      rw [this]
      push_cast; ring

end F64
end Gotty

namespace Gotty
open F64

theorem digitChar_isDigit (d : Nat) (h : d < 10) : (Nat.digitChar d).isDigit = true := by
  interval_cases d <;> decide

theorem decDigitsAux_head (fuel n : Nat) (acc : List Char)
    (h1 : 0 < fuel ∨ ∃ c cs, acc = c :: cs ∧ c.isDigit = true) :
    ∃ c cs, decDigitsAux fuel n acc = c :: cs ∧ c.isDigit = true := by
  induction fuel generalizing n acc with
  | zero =>
    rcases h1 with h | h
    · omega
    · simpa [decDigitsAux] using h
  | succ k ih =>
    unfold decDigitsAux
    by_cases hn : n < 10
    · rw [if_pos hn]
      exact ⟨_, _, rfl, digitChar_isDigit n hn⟩
    · rw [if_neg hn]
      exact ih _ _ (Or.inr ⟨_, _, rfl, digitChar_isDigit _ (Nat.mod_lt _ (by norm_num))⟩)

theorem decDigits_head (n : Nat) : ∃ c cs, decDigits n = c :: cs ∧ c.isDigit = true :=
  decDigitsAux_head _ _ _ (Or.inl (Nat.succ_pos n))

theorem fmtFixed_head (c q : Nat) : ∃ d ds, fmtFixed c q = d :: ds ∧ d.isDigit = true := by
  obtain ⟨d, ds, h1, h2⟩ := decDigits_head (c / 10 ^ q)
  unfold fmtFixed
  simp only
  rw [h1]
  exact ⟨d, _, rfl, h2⟩

/-- The text of a finite float of positive sign starts with a digit. -/
theorem fmtChars_head (x : F64) (hx : x.finite = true) (hs : x.sign = false) :
    ∃ d ds, fmtChars x = d :: ds ∧ d.isDigit = true := by
  unfold fmtChars
  rw [finite_not_nan x hx, hx, hs]
  simp only [Bool.false_eq_true, if_false, Bool.not_true, List.nil_append]
  exact fmtFixed_head _ _

end Gotty

namespace Gotty
namespace F64

/-- `Log` of a float at least one lies in the interval computed for a range of
exponents that contains the exponent of the float. -/
theorem Log_piece (x : F64) (hx : x.finite = true) (h1 : (ofInt 1).key ≤ x.key) (lo hi : Int)
    (hlo : lo + 1 ≤ (Frexp x).2) (hhi : (Frexp x).2 ≤ hi)
    (hfin : (logCoreI ⟨ofInt lo, ofInt hi⟩ FAB).fin = true) :
    (logCoreI ⟨ofInt lo, ofInt hi⟩ FAB).mem (Log x) := by
  have hpos : 0 < x.key := lt_of_lt_of_le key_one_pos h1
  obtain ⟨ffin, fh, fo, _⟩ := Frexp_pos x hx hpos
  obtain ⟨mA, mB⟩ := log_f_mem (Frexp x).1 ffin fh (le_of_lt fo)
  rw [Log_pos x hx hpos]
  cases hs : (Frexp x).1.lt Sqrt2Half
  · simp only [Bool.false_eq_true, if_false]
    exact logCoreI_sound _ _ _ _ hfin (ofInt_mem _ lo hi (by omega) hhi) (mem_FAB_of_FA _ (mA hs))
  · simp only [if_true]
    exact logCoreI_sound _ _ _ _ hfin (ofInt_mem _ lo hi (by omega) (by omega))
      (mem_FAB_of_FB _ (mB hs))

/-- `Log2` of a float at least one is not below its exponent minus one, when the
interval computation confirms it. -/
theorem Log2_piece (x : F64) (hx : x.finite = true) (h1 : (ofInt 1).key ≤ x.key) (lo : Int)
    (hlo : lo + 1 ≤ (Frexp x).2)
    (hfin : (iadd (imul ⟨neg Ln2F, zero false⟩ (Ivl.pt InvLn2)) ⟨ofInt (lo + 1), ofInt 1024⟩).fin
      = true)
    (hlow : (ofInt lo).key ≤
      (iadd (imul ⟨neg Ln2F, zero false⟩ (Ivl.pt InvLn2)) ⟨ofInt (lo + 1), ofInt 1024⟩).lo.key) :
    (ofInt lo).key ≤ (Log2 x).key := by
  obtain ⟨c1, _, _, _, _, _, _, _⟩ := log2_consts
  have hpos : 0 < x.key := lt_of_lt_of_le key_one_pos h1
  obtain ⟨ffin, fh, fo, _⟩ := Frexp_pos x hx hpos
  obtain ⟨e1, e2⟩ := Frexp_exp_ge_one x hx h1
  unfold Log2
  simp only
  have hn := finite_not_nan _ ffin
  have hhn := finite_not_nan _ finite_half
  cases hs : (Frexp x).1.eq (ofDec 5 10)
  · simp only [Bool.false_eq_true, if_false]
    have hne : (Frexp x).1.key ≠ (ofDec 5 10).key := by
      intro hc
      have := (eq_iff _ _ hn hhn).mpr hc
      rw [hs] at this
      exact absurd this (by simp)
    have hL := Log_frac (Frexp x).1 ffin (lt_of_le_of_ne fh (Ne.symm hne)) fo
    have mL : (Ivl.mk (neg Ln2F) (zero false)).mem (Log (Frexp x).1) :=
      ⟨hL.2.1, by rw [key_zero]; exact hL.2.2⟩
    have mM := imul_sound _ _ _ _ c1 mL (mem_pt InvLn2)
    have mS := iadd_sound2 _ _ _ _ hfin mM (ofInt_mem (Frexp x).2 (lo + 1) 1024 hlo e2)
    exact le_trans hlow mS.1
  · simp only [if_true]
    exact ofInt_mono _ _ (by omega)

theorem big_consts :
    (logCoreI ⟨ofInt 100, ofInt 1025⟩ FAB).fin = true
    ∧ (idiv (logCoreI ⟨ofInt 100, ofInt 1025⟩ FAB) (Ivl.pt (Log (ofInt 1024)))).fin = true
    ∧ (ofInt 8).key ≤
        (idiv (logCoreI ⟨ofInt 100, ofInt 1025⟩ FAB) (Ivl.pt (Log (ofInt 1024)))).lo.key
    ∧ (iadd (imul ⟨neg Ln2F, zero false⟩ (Ivl.pt InvLn2)) ⟨ofInt (100 + 1), ofInt 1024⟩).fin = true
    ∧ (ofInt 100).key ≤
        (iadd (imul ⟨neg Ln2F, zero false⟩ (Ivl.pt InvLn2)) ⟨ofInt (100 + 1), ofInt 1024⟩).lo.key
    ∧ (idiv (imul ⟨ofInt 100, ofInt 1024⟩ (Ivl.pt Ln2OverLn10)) (Ivl.pt (ofInt 3))).fin = true
    ∧ (ofInt 8).key ≤
        (idiv (imul ⟨ofInt 100, ofInt 1024⟩ (Ivl.pt Ln2OverLn10)) (Ivl.pt (ofInt 3))).lo.key
    ∧ (mk3 false 1123 0).key = 5057542381537067008
    ∧ (ofInt 1).key ≤ (mk3 false 1123 0).key := by decide!

theorem val_big : (mk3 false 1123 0).val = 2 ^ (100 : Int) := by
  rw [val_mk3_normal _ _ (by norm_num) (by norm_num) (by norm_num [hidden])]
  norm_num [hidden]

/-- The exponent that `Frexp` gives for a float that is at least two to the 100. -/
theorem Frexp_exp_big (x : F64) (hx : x.finite = true) (h1 : (mk3 false 1123 0).key ≤ x.key) :
    101 ≤ (Frexp x).2 := by
  have hb := big_consts.2.2.2.2.2.2.2
  have hpos : 0 < x.key := lt_of_lt_of_le key_one_pos (le_trans hb.2 h1)
  obtain ⟨ffin, fh, fo, fv⟩ := Frexp_pos x hx hpos
  have vx : (2 : ℚ) ^ (100 : Int) ≤ x.val := by
    have := (key_le_iff _ _).mp h1
    rwa [val_big] at this
  have vfr1 : (Frexp x).1.val < 1 := by
    have := (key_lt_iff _ _).mp fo
    rwa [val_ofInt_one] at this
  by_contra hc
  have he : (Frexp x).2 ≤ 100 := by omega
  have : (2 : ℚ) ^ (Frexp x).2 ≤ 2 ^ (100 : Int) := zpow_le_zpow_right₀ (by norm_num) he
  have p := two_zpow_pos (Frexp x).2
  nlinarith

end F64

open F64

/-- Magnitudes from two to the 100 on get the last unit. -/
theorem exponentOf_big (b : F64) (o : Options) (hb : b.finite = true)
    (h1 : (mk3 false 1123 0).key ≤ b.key) : exponentOf b o = some 8 := by
  obtain ⟨b1, b2, b3, b4, b5, b6, b7, _, b9⟩ := big_consts
  obtain ⟨c1, c2, c3, c4⟩ := log1024_facts
  have h1' : (ofInt 1).key ≤ b.key := le_trans b9 h1
  have hex := Frexp_exp_big b hb h1
  obtain ⟨_, ex2⟩ := Frexp_exp_ge_one b hb h1'
  have key : ∀ d : F64, d.finite = true → (ofInt 8).key ≤ d.key →
      F64.toInt (F64.Min (F64.Floor d) (ofInt 8)) = some 8 := by
    intro d dfin d8
    have d0 : 0 ≤ d.key := le_trans (by decide!) d8
    obtain ⟨e, he, e0, e8, hv⟩ := exponent_spec d (finite_not_nan d dfin) d0
    have hval : (8 : ℚ) ≤ d.val := by
      have := (key_le_iff _ _).mp d8
      rwa [val_eight] at this
    have : (8 : Int) ≤ ⌊d.val⌋ := Int.le_floor.mpr (by exact_mod_cast hval)
    have := hv dfin
    rw [he]
    congr 1
    omega
  rw [exponentOf_eq]
  cases o.Binary
  · simp only [Bool.false_eq_true, if_false]
    have l2lo := Log2_piece b hb h1' 100 (by omega) b4 b5
    have l2 := Log2_ge_one b hb h1'
    have m1 : (Ivl.mk (ofInt 100) (ofInt 1024)).mem (Log2 b) := ⟨l2lo, l2.2⟩
    obtain ⟨f1, _⟩ := idiv_fin_inv _ _ b6
    have m2 := imul_sound _ _ _ _ f1 m1 (mem_pt Ln2OverLn10)
    have m3 := idiv_sound _ _ _ _ b6 m2 (mem_pt (ofInt 3))
    exact key _ (finite_of_mem _ _ b6 m3) (le_trans b7 m3.1)
  · simp only [if_true]
    have m1 := Log_piece b hb h1' 100 1025 (by omega) (by omega) b1
    have m3 := idiv_sound _ _ _ _ b2 m1 (mem_pt (Log (ofInt 1024)))
    exact key _ (finite_of_mem _ _ b2 m3) (le_trans b3 m3.1)

end Gotty

namespace Gotty
namespace F64

theorem Rounds.sign_of_pos {r : F64} {v : ℚ} (h : Rounds r v) (hv : 0 < v) : r.sign = false := by
  obtain ⟨s, n, d, hd, rfl, rfl⟩ := h
  rw [round_sign]
  cases s
  · rfl
  · exfalso
    simp only [if_true] at hv
    have : (0 : ℚ) ≤ (n : ℚ) / d := div_nonneg (Nat.cast_nonneg _) (Nat.cast_nonneg _)
    linarith

/-- A float whose exact value lies between zero and a finite float is finite. -/
theorem Rounds.finite_of_le {r g : F64} {v : ℚ} (h : Rounds r v) (hg : g.finite = true)
    (h0 : 0 ≤ v) (h1 : v ≤ g.val) : r.finite = true ∧ 0 ≤ r.key ∧ r.key ≤ g.key := by
  have k1 := h.le_float hg h1
  have k0 := h.float_le (zero_finite false) (by rw [val_zero]; exact h0)
  rw [key_zero] at k0
  have hI : (Ivl.mk (zero false) g).fin = true := by
    unfold Ivl.fin
    rw [zero_finite, hg]; rfl
  exact ⟨finite_of_mem r _ hI ⟨by rw [key_zero]; exact k0, k1⟩, k0, k1⟩

theorem sign_false_of_val_pos (x : F64) (h : 0 < x.val) : x.sign = false := by
  cases hs : x.sign
  · rfl
  · exfalso
    rw [val_eq, hs] at h
    simp only [if_true] at h
    have := mag_nonneg x
    linarith

theorem roundScaled_sign (s : Bool) (n d : Nat) (e : Int) : (roundScaled s n d e).sign = s := by
  unfold roundScaled
  exact round_sign _ _ _

theorem mul_sign (a b : F64) (ha : a.finite = true) (hb : b.finite = true) :
    (mul a b).sign = xor a.sign b.sign := by
  unfold mul
  simp only [finite_not_nan a ha, finite_not_nan b hb, ha, hb, Bool.or_self, Bool.false_eq_true,
    if_false, Bool.not_true]
  exact roundScaled_sign _ _ _ _

theorem div_sign (a b : F64) (ha : a.finite = true) (hb : b.finite = true) (hb0 : b.mant ≠ 0) :
    (div a b).sign = xor a.sign b.sign := by
  unfold div
  simp only [finite_not_nan a ha, finite_not_nan b hb, ha, hb, Bool.or_self, Bool.false_eq_true,
    if_false, Bool.not_true, hb0]
  exact roundScaled_sign _ _ _ _

theorem pow_consts :
    Pow (ofInt 10) 3 = ofInt 1000 ∧ (ofInt 1000).finite = true ∧ (ofInt 1000).val = 1000
    ∧ (mk3 false 1968 0).finite = true ∧ (mk3 false 1978 0).finite = true
    ∧ (mk3 false 1102 0).key ≤ (Pow (ofInt 1000) 8).key
    ∧ (mk3 false 1102 0).key ≤ (Pow (ofInt 1024) 8).key
    ∧ (mk3 false 1102 0).finite = true ∧ (ofInt 1000).sign = false := by
  refine ⟨by decide!, by decide!, ?_, by decide!, by decide!, by decide!, by decide!, by decide!,
    by decide!⟩
  have e : ofInt 1000 = mk3 false 1032 4292493394837504 := by decide!
  rw [e, val_mk3_normal _ _ (by norm_num) (by norm_num) (by norm_num [hidden])]
  norm_num [hidden]

/-- The powers of the base that `Format` divides by are finite and at least one. -/
theorem pow_base_facts (bin : Bool) (e : Int) (h0 : 0 ≤ e) (h8 : e ≤ 8) :
    (Pow (ofInt (if bin then 1024 else 1000)) e).finite = true ∧
    (ofInt 1).key ≤ (Pow (ofInt (if bin then 1024 else 1000)) e).key := by
  cases bin
  · simp only [Bool.false_eq_true, if_false]
    interval_cases e <;> decide!
  · simp only [if_true]
    interval_cases e <;> decide!

theorem val_pow2 (E : Nat) (h0 : 0 < E) (h1 : E < 2047) :
    (mk3 false E 0).val = 2 ^ ((E : Int) - 1023) := by
  rw [val_mk3_normal _ _ h0 h1 (by norm_num [hidden])]
  have : ((hidden + 0 : Nat) : ℚ) = 2 ^ (52 : Int) := by norm_num [hidden]
  rw [this, ← zpow_add₀ (by norm_num)]
  congr 1; ring

end F64

open F64

/-- The number that `Format` prints for a magnitude of at least one is finite
and carries no sign, rounded or not. -/
theorem printed_finite (b : F64) (o : Options) (hb : b.finite = true)
    (h1 : (ofInt 1).key ≤ b.key) (e : Int) (he : exponentOf b o = some e) :
    (F64.div b (Pow (ofInt (if o.Binary then 1024 else 1000)) e)).finite = true ∧
    (F64.div b (Pow (ofInt (if o.Binary then 1024 else 1000)) e)).sign = false ∧
    (roundToPrecision (F64.div b (Pow (ofInt (if o.Binary then 1024 else 1000)) e)) 3).finite
      = true ∧
    (roundToPrecision (F64.div b (Pow (ofInt (if o.Binary then 1024 else 1000)) e)) 3).sign
      = false := by
  obtain ⟨p1, p2, p3, p4, p5, p6, p7, p8, p9⟩ := pow_consts
  obtain ⟨e', he', e0, e8⟩ := exponentOf_range b o hb h1
  have hee : e' = e := by rw [he] at he'; exact (Option.some.inj he').symm
  subst hee
  obtain ⟨Pf, Pk⟩ := pow_base_facts o.Binary e' e0 e8
  set P := Pow (ofInt (if o.Binary then 1024 else 1000)) e' with hP
  have hpos : 0 < b.key := lt_of_lt_of_le key_one_pos h1
  have vb1 : 1 ≤ b.val := by
    have := (key_le_iff _ _).mp h1
    rwa [val_ofInt_one] at this
  have vP1 : 1 ≤ P.val := by
    have := (key_le_iff _ _).mp Pk
    rwa [val_ofInt_one] at this
  have hPm : P.mant ≠ 0 := mant_ne_zero_of_val_ne P (by linarith)
  have rs := div_rounds b P hb Pf hPm
  have vpos : 0 < b.val / P.val := div_pos (by linarith) (by linarith)
  have vle : b.val / P.val ≤ b.val := div_le_self (by linarith) vP1
  obtain ⟨sf, s0, _⟩ := rs.finite_of_le hb (le_of_lt vpos) vle
  have ss := rs.sign_of_pos vpos
  refine ⟨sf, ss, ?_⟩
  -- the scaled value is at most two to the 945
  have v945 : b.val / P.val ≤ (mk3 false 1968 0).val := by
    rw [val_pow2 _ (by norm_num) (by norm_num)]
    by_cases hbig : (mk3 false 1123 0).key ≤ b.key
    · have h8 := exponentOf_big b o hb hbig
      rw [he] at h8
      have e8' : e' = 8 := Option.some.inj h8
      have hP79 : (2 : ℚ) ^ (79 : Int) ≤ P.val := by
        have k : (mk3 false 1102 0).key ≤ P.key := by
          rw [hP, e8']
          cases o.Binary
          · exact p6
          · exact p7
        have := (key_le_iff _ _).mp k
        rwa [val_pow2 _ (by norm_num) (by norm_num)] at this
      have hbm : b.val < 2 ^ (1024 : Int) := by
        rw [val_eq_mag_of_key_pos b hpos]
        exact mag_lt_of_finite b hb
      rw [div_le_iff₀ (by linarith)]
      have e : (2 : ℚ) ^ (1024 : Int) = 2 ^ (((1968 : Nat) : Int) - 1023) * 2 ^ (79 : Int) := by
        rw [← zpow_add₀ (by norm_num)]; norm_num
      have pp : (0 : ℚ) < 2 ^ (((1968 : Nat) : Int) - 1023) := zpow_pos (by norm_num) _
      nlinarith
    · have hlt : b.val < 2 ^ (100 : Int) := by
        have := (key_lt_iff _ _).mp (not_le.mp hbig)
        rwa [val_big] at this
      have : (2 : ℚ) ^ (100 : Int) ≤ 2 ^ (((1968 : Nat) : Int) - 1023) :=
        zpow_le_zpow_right₀ (by norm_num) (by norm_num)
      linarith
  have sv : (F64.div b P).val ≤ (mk3 false 1968 0).val := rs.val_le p4 v945
  have sv0 : 0 ≤ (F64.div b P).val := val_nonneg_of_key_nonneg _ s0
  have hS0 : (ofInt 1000).mant ≠ 0 := mant_ne_zero_of_val_ne _ (by rw [p3]; norm_num)
  unfold roundToPrecision
  simp only
  rw [p1]
  have rm := mul_rounds (F64.div b P) (ofInt 1000) sf p2
  have mle : (F64.div b P).val * (ofInt 1000).val ≤ (mk3 false 1978 0).val := by
    rw [p3, val_pow2 _ (by norm_num) (by norm_num)]
    rw [val_pow2 _ (by norm_num) (by norm_num)] at sv
    have e : (2 : ℚ) ^ (((1978 : Nat) : Int) - 1023) = 2 ^ (((1968 : Nat) : Int) - 1023) * 1024 := by
      rw [show (1024 : ℚ) = 2 ^ (10 : Int) by norm_num, ← zpow_add₀ (by norm_num)]; norm_num
    rw [e]
    nlinarith
  obtain ⟨mf, m0, _⟩ := rm.finite_of_le p5 (mul_nonneg sv0 (by rw [p3]; norm_num)) mle
  have ms : (F64.mul (F64.div b P) (ofInt 1000)).sign = false := by
    rw [mul_sign _ _ sf p2, ss, p9]; rfl
  obtain ⟨Rf, Rs, Rv⟩ := Round_spec _ mf ms
  have Rv0 : 0 ≤ (Round (F64.mul (F64.div b P) (ofInt 1000))).val := by
    rw [Rv]
    have : (0 : Int) ≤ ⌊(F64.mul (F64.div b P) (ofInt 1000)).val + 1 / 2⌋ :=
      Int.floor_nonneg.mpr (by
        have := val_nonneg_of_key_nonneg _ m0
        linarith)
    exact_mod_cast this
  have rr := div_rounds _ (ofInt 1000) Rf p2 hS0
  obtain ⟨rf, _, _⟩ := rr.finite_of_le Rf (div_nonneg Rv0 (by rw [p3]; norm_num))
    (by rw [p3]; exact div_le_self Rv0 (by norm_num))
  refine ⟨rf, ?_⟩
  rw [div_sign _ _ Rf p2 hS0, Rs, p9]; rfl

end Gotty

namespace Gotty
open F64

theorem startsWithDigit_FormatFloat (y : F64) (hy : y.finite = true) (hs : y.sign = false)
    (rest : String) : startsWithDigit (FormatFloat y ++ rest) = true := by
  obtain ⟨d, ds, h1, h2⟩ := fmtChars_head y hy hs
  unfold startsWithDigit FormatFloat
  rw [h1]
  have : (String.mk (d :: ds) ++ rest).toList = d :: (ds ++ rest.toList) := rfl
  rw [this]
  exact h2

theorem with_signed_self (o : Options) : { o with Signed := o.Signed } = o := by
  cases o; rfl

theorem neg_neg_lt (x : F64) (hx : x.finite = true) (h : x.lt (ofInt 0) = true) :
    (F64.neg x).lt (ofInt 0) = false ∧ (F64.neg x).eq (ofInt 0) = false ∧ 0 < (F64.neg x).key := by
  obtain ⟨z0, _, k0⟩ := ofInt_zero_nan
  have hn := finite_not_nan x hx
  have hnn : (F64.neg x).IsNaN = false := finite_not_nan _ (by rw [neg_finite]; exact hx)
  have hk := (lt_iff x _ hn z0).mp h
  rw [k0] at hk
  have hk2 := neg_key x
  refine ⟨?_, ?_, by omega⟩
  · rw [Bool.eq_false_iff, Ne, lt_iff _ _ hnn z0, k0]; omega
  · rw [Bool.eq_false_iff, Ne, eq_iff _ _ hnn z0, k0]; omega

/-- The text that `Format` prints after the sign for a finite positive
magnitude `b`: it starts with a digit and is the same for every input of that
magnitude and for both values of `Signed`. -/
theorem Format_magnitude (b : F64) (o : Options) (hb : b.finite = true) (hpos : 0 < b.key) :
    ∃ body : String, startsWithDigit body = true ∧
      ∀ (x : F64) (s : Bool), x.finite = true → x.eq (ofInt 0) = false →
        (if x.lt (ofInt 0) then F64.neg x else x) = b →
        Format x (some { o with Signed := s }) =
          Result.ok ((if x.lt (ofInt 0) then "-" else if s then "+" else "") ++ body) := by
  obtain ⟨z0, z1, k0⟩ := ofInt_zero_nan
  have hbn := finite_not_nan b hb
  have bs : b.sign = false := sign_of_key_pos b hpos
  by_cases h1 : b.lt (ofInt 1) = true
  · refine ⟨FormatFloat b ++ ((if o.Space then " " else "") ++ (if o.Bits then "b" else "B")),
      startsWithDigit_FormatFloat b hb bs _, ?_⟩
    intro x s hx hnz hxb
    unfold Format
    simp only [Option.getD_some, isFinite_eq, hx, Bool.not_true, Bool.false_eq_true, if_false,
      index_zero, hnz, Bool.and_false, hxb, h1, if_true, formatNumber, String.append_assoc]
  · have hk : (ofInt 1).key ≤ b.key := by
      have := (lt_iff _ _ hbn z1).not.mp h1
      omega
    obtain ⟨e, he, e0, e8⟩ := exponentOf_range b o hb hk
    obtain ⟨u, hu, _⟩ := index_range o e e0 e8
    obtain ⟨sf, ss, rf, rs⟩ := printed_finite b o hb hk e he
    have hu' : ∀ s : Bool, index (unitsOf { o with Signed := s }) e = some u := fun _ => hu
    have he' : ∀ s : Bool, exponentOf b { o with Signed := s } = some e := fun _ => he
    refine ⟨FormatFloat (if (localeOptionsOf o).length = 0
        then roundToPrecision (F64.div b (Pow (ofInt (if o.Binary then 1024 else 1000)) e)) 3
        else F64.div b (Pow (ofInt (if o.Binary then 1024 else 1000)) e))
        ++ ((if o.Space then " " else "") ++ u), ?_, ?_⟩
    · by_cases hl : (localeOptionsOf o).length = 0
      · rw [if_pos hl]
        exact startsWithDigit_FormatFloat _ rf rs _
      · rw [if_neg hl]
        exact startsWithDigit_FormatFloat _ sf ss _
    · intro x s hx hnz hxb
      have hl : localeOptionsOf { o with Signed := s } = localeOptionsOf o := rfl
      unfold Format
      simp only [Option.getD_some, isFinite_eq, hx, Bool.not_true, Bool.false_eq_true, if_false,
        index_zero, hnz, Bool.and_false, hxb, h1, formatNumber, String.append_assoc, he', hu', hl]

end Gotty

namespace Gotty

open F64

/-- The result of `Format` in the special case of a zero with `Signed`. -/
theorem Format_zero_case (x : F64) (o : Options) (hx : x.finite = true)
    (hz : (o.Signed && x.eq (ofInt 0)) = true) :
    Format x (some o) = Result.ok
      ("0" ++ (if o.Space then " " else "") ++ (if o.Bits then "b" else "B")) := by
  unfold Format
  simp only [Option.getD_some, isFinite_eq, hx, Bool.not_true, Bool.false_eq_true, if_false,
    index_zero, hz, if_true]

/-- The result of `Format` for a magnitude below one. -/
theorem Format_small_case (x : F64) (o : Options) (hx : x.finite = true)
    (hz : (o.Signed && x.eq (ofInt 0)) = false)
    (h1 : (if x.lt (ofInt 0) then F64.neg x else x).lt (ofInt 1) = true) :
    Format x (some o) = Result.ok
      ((if x.lt (ofInt 0) then "-" else if o.Signed then "+" else "")
        ++ FormatFloat (if x.lt (ofInt 0) then F64.neg x else x)
        ++ (if o.Space then " " else "") ++ (if o.Bits then "b" else "B")) := by
  unfold Format
  simp only [Option.getD_some, isFinite_eq, hx, Bool.not_true, Bool.false_eq_true, if_false,
    index_zero, hz, h1, if_true, formatNumber]

/-- The result of `Format` for a magnitude of at least one: the exponent lies
between 0 and 8, the unit is the label at that index, and the number is the
magnitude divided by the power of the base, rounded to three decimals when no
fraction-digit option is set. -/
theorem Format_scaled_case (x : F64) (o : Options) (hx : x.finite = true)
    (hz : (o.Signed && x.eq (ofInt 0)) = false)
    (h1 : (if x.lt (ofInt 0) then F64.neg x else x).lt (ofInt 1) = false) :
    ∃ (e : Int) (u : String),
      exponentOf (if x.lt (ofInt 0) then F64.neg x else x) o = some e ∧ 0 ≤ e ∧ e ≤ 8 ∧
      index (unitsOf o) e = some u ∧ u ∈ unitsOf o ∧
      Format x (some o) = Result.ok
        ((if x.lt (ofInt 0) then "-" else if o.Signed then "+" else "")
          ++ FormatFloat
            (if (localeOptionsOf o).length = 0 then
              roundToPrecision (F64.div (if x.lt (ofInt 0) then F64.neg x else x)
                (Pow (ofInt (if o.Binary then 1024 else 1000)) e)) 3
             else F64.div (if x.lt (ofInt 0) then F64.neg x else x)
                (Pow (ofInt (if o.Binary then 1024 else 1000)) e))
          ++ (if o.Space then " " else "") ++ u) := by
  obtain ⟨z0, z1, k0⟩ := ofInt_zero_nan
  obtain ⟨bf, b0⟩ := abs_facts x hx
  have hbn := finite_not_nan _ bf
  have hk : (ofInt 1).key ≤ (if x.lt (ofInt 0) then F64.neg x else x).key := by
    have := (lt_iff _ _ hbn z1).not.mp (by rw [h1]; simp)
    omega
  obtain ⟨e, he, e0, e8⟩ := exponentOf_range _ o bf hk
  obtain ⟨u, hu, hmem⟩ := index_range o e e0 e8
  refine ⟨e, u, he, e0, e8, hu, hmem, ?_⟩
  unfold Format
  simp only [Option.getD_some, isFinite_eq, hx, Bool.not_true, Bool.false_eq_true, if_false,
    index_zero, hz, h1, formatNumber, he, hu]

/-- The magnitude is at least one exactly when the comparison with one fails. -/
theorem abs_ge_one_iff (x : F64) (hx : x.finite = true) :
    (if x.lt (ofInt 0) then F64.neg x else x).lt (ofInt 1) = false ↔
      (ofInt 1).key ≤ (if x.lt (ofInt 0) then F64.neg x else x).key := by
  obtain ⟨z0, z1, k0⟩ := ofInt_zero_nan
  obtain ⟨bf, b0⟩ := abs_facts x hx
  have hbn := finite_not_nan _ bf
  constructor
  · intro h1
    have := (lt_iff _ _ hbn z1).not.mp (by rw [h1]; simp)
    omega
  · intro h
    rw [Bool.eq_false_iff, Ne, lt_iff _ _ hbn z1]
    omega

theorem Format_getD (x : F64) (oo : Option Options) : Format x oo = Format x (some (oo.getD {})) :=
  rfl

theorem neg_neg_eq (x : F64) : F64.neg (F64.neg x) = x := by
  cases x
  simp [F64.neg]

/-- A float whose magnitude is not below one is not zero. -/
theorem not_zero_of_abs_ge_one (x : F64) (hx : x.finite = true)
    (h1 : (if x.lt (ofInt 0) then F64.neg x else x).lt (ofInt 1) = false) :
    x.eq (ofInt 0) = false := by
  obtain ⟨z0, z1, k0⟩ := ofInt_zero_nan
  have hn := finite_not_nan x hx
  have hk := (abs_ge_one_iff x hx).mp h1
  have k1 := key_one_pos
  rw [Bool.eq_false_iff, Ne, eq_iff x _ hn z0, k0]
  intro hc
  have hlt : x.lt (ofInt 0) = false := by
    rw [Bool.eq_false_iff, Ne, lt_iff x _ hn z0, k0]; omega
  rw [hlt] at hk
  simp only [Bool.false_eq_true, if_false] at hk
  omega

theorem localeOptions_ne (o : Options)
    (h : o.MinimumFractionDigits ≠ 0 ∨ o.MaximumFractionDigits ≠ 0) :
    ¬ (localeOptionsOf o).length = 0 := by
  unfold localeOptionsOf
  by_cases ha : o.MinimumFractionDigits = 0
  · have hb : o.MaximumFractionDigits ≠ 0 := by tauto
    simp [ha, hb]
  · simp [ha]

theorem exponentOf_bits (b : F64) (o : Options) (s : Bool) :
    exponentOf b { o with Bits := s } = exponentOf b o := by
  rw [exponentOf_eq, exponentOf_eq]

theorem digitChar_ne_space (d : Nat) (h : d < 10) : Nat.digitChar d ≠ ' ' := by
  interval_cases d <;> decide

theorem decDigitsAux_no_space (fuel n : Nat) (acc : List Char) (h : ' ' ∉ acc) :
    ' ' ∉ decDigitsAux fuel n acc := by
  induction fuel generalizing n acc with
  | zero => simpa [decDigitsAux] using h
  | succ k ih =>
    unfold decDigitsAux
    by_cases hn : n < 10
    · rw [if_pos hn]
      simp only [List.mem_cons, not_or]
      exact ⟨(digitChar_ne_space n hn).symm, h⟩
    · rw [if_neg hn]
      apply ih
      simp only [List.mem_cons, not_or]
      exact ⟨(digitChar_ne_space _ (Nat.mod_lt _ (by norm_num))).symm, h⟩

theorem padDigits_no_space (k r : Nat) (acc : List Char) (h : ' ' ∉ acc) :
    ' ' ∉ padDigits k r acc := by
  induction k generalizing r acc with
  | zero => simpa [padDigits] using h
  | succ k ih =>
    unfold padDigits
    apply ih
    simp only [List.mem_cons, not_or]
    exact ⟨(digitChar_ne_space _ (Nat.mod_lt _ (by norm_num))).symm, h⟩

theorem fmtFixed_no_space (c q : Nat) : ' ' ∉ fmtFixed c q := by
  unfold fmtFixed decDigits
  simp only [List.mem_append, not_or]
  refine ⟨decDigitsAux_no_space _ _ _ (by simp), ?_⟩
  split
  · simp
  · simp only [List.mem_cons, not_or]
    exact ⟨by decide, padDigits_no_space _ _ _ (by simp)⟩

/-- The text of a float has no space in it. -/
theorem FormatFloat_no_space (x : F64) : ' ' ∉ (FormatFloat x).toList := by
  unfold FormatFloat fmtChars
  show ' ' ∉ (if x.IsNaN = true then "NaN".toList
    else if (!x.finite) = true then (if x.sign = true then "-Inf".toList else "+Inf".toList)
    else _)
  split
  · decide
  · split
    · split <;> decide
    · simp only [List.mem_append, not_or]
      refine ⟨?_, fmtFixed_no_space _ _⟩
      split <;> decide

theorem unit_no_space (o : Options) (u : String) (h : u ∈ unitsOf o) : ' ' ∉ u.toList := by
  rcases o with ⟨bits, binary, _, _, _, _, _⟩
  unfold unitsOf at h
  cases bits <;> cases binary <;>
    simp only [Bool.false_eq_true, if_false, if_true, bibitUnits, bitUnits, bibyteUnits, byteUnits,
      List.mem_cons, List.mem_singleton, List.not_mem_nil, or_false] at h <;>
    rcases h with h | h | h | h | h | h | h | h | h <;> subst h <;> decide

theorem toList_append (a b : String) : (a ++ b).toList = a.toList ++ b.toList := rfl

theorem exponentOf_space (b : F64) (o : Options) (s : Bool) :
    exponentOf b { o with Space := s } = exponentOf b o := by
  rw [exponentOf_eq, exponentOf_eq]

theorem prefix_no_space (a b : Bool) :
    ' ' ∉ (if a then "-" else if b then "+" else "").toList := by
  cases a <;> cases b <;> decide

end Gotty

namespace Gotty

namespace F64

theorem pow_1000_0 : Pow (ofInt 1000) 0 = mk3 false 1023 0 := by decide!

theorem pow_1000_1 : Pow (ofInt 1000) 1 = mk3 false 1032 4292493394837504 := by decide!

theorem pow_1000_2 : Pow (ofInt 1000) 2 = mk3 false 1042 4086334964629504 := by decide!

theorem pow_1000_3 : Pow (ofInt 1000) 3 = mk3 false 1052 3885008372629504 := by decide!

theorem pow_1000_4 : Pow (ofInt 1000) 4 = mk3 false 1062 3688400372629504 := by decide!

theorem pow_1000_5 : Pow (ofInt 1000) 5 = mk3 false 1072 3496400372629504 := by decide!

theorem pow_1000_6 : Pow (ofInt 1000) 6 = mk3 false 1082 3308900372629504 := by decide!

theorem pow_1000_7 : Pow (ofInt 1000) 7 = mk3 false 1092 3125794903879504 := by decide!

theorem pow_1000_8 : Pow (ofInt 1000) 8 = mk3 false 1102 2946980969553332 := by decide!

theorem pow_1024_0 : Pow (ofInt 1024) 0 = mk3 false 1023 0 := by decide!

theorem pow_1024_1 : Pow (ofInt 1024) 1 = mk3 false 1033 0 := by decide!

theorem pow_1024_2 : Pow (ofInt 1024) 2 = mk3 false 1043 0 := by decide!

theorem pow_1024_3 : Pow (ofInt 1024) 3 = mk3 false 1053 0 := by decide!

theorem pow_1024_4 : Pow (ofInt 1024) 4 = mk3 false 1063 0 := by decide!

theorem pow_1024_5 : Pow (ofInt 1024) 5 = mk3 false 1073 0 := by decide!

theorem pow_1024_6 : Pow (ofInt 1024) 6 = mk3 false 1083 0 := by decide!

theorem pow_1024_7 : Pow (ofInt 1024) 7 = mk3 false 1093 0 := by decide!

theorem pow_1024_8 : Pow (ofInt 1024) 8 = mk3 false 1103 0 := by decide!

/-- The powers of the base that `Format` divides by: each is the float nearest to
the exact power, within a relative error of two to the minus 53. -/
theorem pow_base_val (bin : Bool) (e : Int) (h0 : 0 ≤ e) (h8 : e ≤ 8) :
    |(Pow (ofInt (if bin then 1024 else 1000)) e).val
        - ((if bin then 1024 else 1000 : ℚ)) ^ e.toNat|
      ≤ 2 ^ (-53 : Int) * ((if bin then 1024 else 1000 : ℚ)) ^ e.toNat := by
  cases bin
  · simp only [Bool.false_eq_true, if_false]
    interval_cases e
    · rw [pow_1000_0, val_mk3_normal _ _ (by norm_num) (by norm_num) (by norm_num [hidden])]
      rw [show (Int.toNat 0) = 0 from rfl]; norm_num [hidden, abs_le]
    · rw [pow_1000_1, val_mk3_normal _ _ (by norm_num) (by norm_num) (by norm_num [hidden])]
      rw [show (Int.toNat 1) = 1 from rfl]; norm_num [hidden, abs_le]
    · rw [pow_1000_2, val_mk3_normal _ _ (by norm_num) (by norm_num) (by norm_num [hidden])]
      rw [show (Int.toNat 2) = 2 from rfl]; norm_num [hidden, abs_le]
    · rw [pow_1000_3, val_mk3_normal _ _ (by norm_num) (by norm_num) (by norm_num [hidden])]
      rw [show (Int.toNat 3) = 3 from rfl]; norm_num [hidden, abs_le]
    · rw [pow_1000_4, val_mk3_normal _ _ (by norm_num) (by norm_num) (by norm_num [hidden])]
      rw [show (Int.toNat 4) = 4 from rfl]; norm_num [hidden, abs_le]
    · rw [pow_1000_5, val_mk3_normal _ _ (by norm_num) (by norm_num) (by norm_num [hidden])]
      rw [show (Int.toNat 5) = 5 from rfl]; norm_num [hidden, abs_le]
    · rw [pow_1000_6, val_mk3_normal _ _ (by norm_num) (by norm_num) (by norm_num [hidden])]
      rw [show (Int.toNat 6) = 6 from rfl]; norm_num [hidden, abs_le]
    · rw [pow_1000_7, val_mk3_normal _ _ (by norm_num) (by norm_num) (by norm_num [hidden])]
      rw [show (Int.toNat 7) = 7 from rfl]; norm_num [hidden, abs_le]
    · rw [pow_1000_8, val_mk3_normal _ _ (by norm_num) (by norm_num) (by norm_num [hidden])]
      rw [show (Int.toNat 8) = 8 from rfl]; norm_num [hidden, abs_le]
  · simp only [if_true]
    interval_cases e
    · rw [pow_1024_0, val_mk3_normal _ _ (by norm_num) (by norm_num) (by norm_num [hidden])]
      rw [show (Int.toNat 0) = 0 from rfl]; norm_num [hidden, abs_le]
    · rw [pow_1024_1, val_mk3_normal _ _ (by norm_num) (by norm_num) (by norm_num [hidden])]
      rw [show (Int.toNat 1) = 1 from rfl]; norm_num [hidden, abs_le]
    · rw [pow_1024_2, val_mk3_normal _ _ (by norm_num) (by norm_num) (by norm_num [hidden])]
      rw [show (Int.toNat 2) = 2 from rfl]; norm_num [hidden, abs_le]
    · rw [pow_1024_3, val_mk3_normal _ _ (by norm_num) (by norm_num) (by norm_num [hidden])]
      rw [show (Int.toNat 3) = 3 from rfl]; norm_num [hidden, abs_le]
    · rw [pow_1024_4, val_mk3_normal _ _ (by norm_num) (by norm_num) (by norm_num [hidden])]
      rw [show (Int.toNat 4) = 4 from rfl]; norm_num [hidden, abs_le]
    · rw [pow_1024_5, val_mk3_normal _ _ (by norm_num) (by norm_num) (by norm_num [hidden])]
      rw [show (Int.toNat 5) = 5 from rfl]; norm_num [hidden, abs_le]
    · rw [pow_1024_6, val_mk3_normal _ _ (by norm_num) (by norm_num) (by norm_num [hidden])]
      rw [show (Int.toNat 6) = 6 from rfl]; norm_num [hidden, abs_le]
    · rw [pow_1024_7, val_mk3_normal _ _ (by norm_num) (by norm_num) (by norm_num [hidden])]
      rw [show (Int.toNat 7) = 7 from rfl]; norm_num [hidden, abs_le]
    · rw [pow_1024_8, val_mk3_normal _ _ (by norm_num) (by norm_num) (by norm_num [hidden])]
      rw [show (Int.toNat 8) = 8 from rfl]; norm_num [hidden, abs_le]

theorem div_finite_left (a b : F64) (hb : b.finite = true) (h : (div a b).finite = true) :
    a.finite = true := by
  by_contra ha
  unfold div at h
  by_cases hn : (a.IsNaN || b.IsNaN) = true
  · rw [if_pos hn, nan_not_finite] at h; exact absurd h (by simp)
  · rw [if_neg hn] at h
    simp only [ha, hb, Bool.not_false, Bool.not_true, Bool.false_eq_true, if_true, if_false] at h
    rw [inf_not_finite] at h
    exact absurd h (by simp)

theorem Round_finite_inv (y : F64) (h : (Round y).finite = true) : y.finite = true := by
  by_contra hy
  have he : y.expo.val = 2047 := by
    by_contra hc
    exact hy ((finite_iff y).mpr hc)
  unfold Round at h
  simp only [he] at h
  norm_num at h
  exact hy h

/-- A rounding of an exact value that is not negative has a relative error of at
most two to the minus 53, when the value is zero or in the normal range. -/
theorem Rounds.rel_or_zero {r : F64} {v : ℚ} (hr : Rounds r v) (hfin : r.finite = true)
    (h0 : 0 ≤ v) (hn : v = 0 ∨ (2 : ℚ) ^ (-1022 : Int) ≤ v) :
    |r.val - v| ≤ 2 ^ (-53 : Int) * v := by
  rcases hn with hz | hn
  · subst hz
    have a := hr.val_nonneg le_rfl
    have b := hr.val_nonpos le_rfl
    have : r.val = 0 := le_antisymm b a
    rw [this]; simp
  · have := hr.rel hfin (by rw [abs_of_nonneg h0]; exact hn)
    rw [abs_of_nonneg h0] at this
    rw [mul_comm]; exact this

/-- The arithmetic of the round trip: with relative errors of two to the minus
53 in the power, the quotient, the product and the last quotient, and an
absolute error of one half in the rounding to an integer. -/
theorem round_trip_arith (M Rb Y S X b B : ℚ) (hB : 0 ≤ B) (hb : 0 ≤ b)
    (h1 : |X - b| ≤ 2 ^ (-53 : Int) * X) (h2 : |S - X| ≤ 2 ^ (-53 : Int) * X)
    (h3 : |Y - S| ≤ 2 ^ (-53 : Int) * S) (h4 : |Rb - Y| ≤ B / 2000)
    (h5 : |M - Rb| ≤ 2 ^ (-53 : Int) * Rb) :
    |M - b| ≤ 5 / 10000 * B + 2 ^ (-50 : Int) * (b + B) := by
  have e53 : (2 : ℚ) ^ (-53 : Int) = 1 / 9007199254740992 := by norm_num
  have e50 : (2 : ℚ) ^ (-50 : Int) = 1 / 1125899906842624 := by norm_num
  rw [e53] at h1 h2 h3 h5
  rw [e50]
  rw [abs_le] at h1 h2 h3 h4 h5 ⊢
  constructor <;> linarith [h1.1, h1.2, h2.1, h2.2, h3.1, h3.2, h4.1, h4.2, h5.1, h5.2]

theorem scale_abs (a c t B : ℚ) (hB : 0 ≤ B) (h : |a - c| ≤ t) : |a * B - c * B| ≤ t * B := by
  rw [← sub_mul, abs_mul, abs_of_nonneg hB]
  exact mul_le_mul_of_nonneg_right h hB

theorem floor_half_near (a : ℚ) : |((⌊a + 1 / 2⌋ : Int) : ℚ) - a| ≤ 1 / 2 := by
  have h1 := Int.floor_le (a + 1 / 2)
  have h2 := Int.lt_floor_add_one (a + 1 / 2)
  rw [abs_le]
  constructor <;> linarith

end F64

open F64

/-- The round trip of the number that `Format` prints with the default fraction
digits: multiplied by the exact power of the base it differs from the magnitude
by at most `0.0005 * base ^ e`, up to the relative error of the float
operations. -/
theorem round_trip (b : F64) (o : Options) (hb : b.finite = true)
    (h1 : (ofInt 1).key ≤ b.key) (e : Int) (he : exponentOf b o = some e) :
    |(roundToPrecision (F64.div b (Pow (ofInt (if o.Binary then 1024 else 1000)) e)) 3).val
        * ((if o.Binary then 1024 else 1000 : ℚ)) ^ e.toNat - b.val|
      ≤ 5 / 10000 * ((if o.Binary then 1024 else 1000 : ℚ)) ^ e.toNat
        + 2 ^ (-50 : Int) * (b.val + ((if o.Binary then 1024 else 1000 : ℚ)) ^ e.toNat) := by
  obtain ⟨p1, p2, p3, p4, p5, p6, p7, p8, p9⟩ := pow_consts
  obtain ⟨e', he', e0, e8⟩ := exponentOf_range b o hb h1
  have hee : e' = e := by rw [he] at he'; exact (Option.some.inj he').symm
  subst hee
  obtain ⟨Pf, Pk⟩ := pow_base_facts o.Binary e' e0 e8
  have hPv := pow_base_val o.Binary e' e0 e8
  obtain ⟨sf, ss, rf, rs⟩ := printed_finite b o hb h1 e' he
  set P := Pow (ofInt (if o.Binary then 1024 else 1000)) e' with hP
  set B : ℚ := ((if o.Binary then 1024 else 1000 : ℚ)) ^ e'.toNat with hB
  have e53 : (2 : ℚ) ^ (-53 : Int) = 1 / 9007199254740992 := by norm_num
  have hB1 : 1 ≤ B := by
    rw [hB]
    apply one_le_pow₀
    cases o.Binary <;> norm_num
  have hB80 : B ≤ 2 ^ (80 : Int) := by
    have ht : e'.toNat ≤ 8 := by omega
    have hbase : (if o.Binary then 1024 else 1000 : ℚ) ≤ 1024 := by cases o.Binary <;> norm_num
    have hbase1 : (1 : ℚ) ≤ (if o.Binary then 1024 else 1000 : ℚ) := by
      cases o.Binary <;> norm_num
    calc B ≤ (if o.Binary then 1024 else 1000 : ℚ) ^ 8 := pow_le_pow_right₀ hbase1 ht
      _ ≤ (1024 : ℚ) ^ 8 := pow_le_pow_left₀ (by linarith) hbase 8
      _ = 2 ^ (80 : Int) := by norm_num
  have vb1 : 1 ≤ b.val := by
    have := (key_le_iff _ _).mp h1
    rwa [val_ofInt_one] at this
  have vP1 : 1 ≤ P.val := by
    have := (key_le_iff _ _).mp Pk
    rwa [val_ofInt_one] at this
  have vP81 : P.val ≤ 2 ^ (81 : Int) := by
    rw [abs_le, e53] at hPv
    have : (2 : ℚ) ^ (81 : Int) = 2 * 2 ^ (80 : Int) := by norm_num
    rw [this]
    linarith [hPv.2]
  have hPm : P.mant ≠ 0 := mant_ne_zero_of_val_ne P (by linarith)
  -- the quotient
  have r1 := div_rounds b P hb Pf hPm
  have q0 : 0 < b.val / P.val := div_pos (by linarith) (by linarith)
  have q81 : (2 : ℚ) ^ (-81 : Int) ≤ b.val / P.val := by
    rw [le_div_iff₀ (by linarith)]
    have : (2 : ℚ) ^ (-81 : Int) * 2 ^ (81 : Int) = 1 := by norm_num
    have pp : (0 : ℚ) < 2 ^ (-81 : Int) := zpow_pos (by norm_num) _
    nlinarith
  have a1 := r1.rel_or_zero sf (le_of_lt q0)
    (Or.inr (le_trans (zpow_le_zpow_right₀ (by norm_num) (by norm_num)) q81))
  have s82 : (2 : ℚ) ^ (-82 : Int) ≤ (F64.div b P).val := by
    rw [abs_le, e53] at a1
    have : (2 : ℚ) ^ (-82 : Int) = 2 ^ (-81 : Int) / 2 := by norm_num
    rw [this]
    linarith [a1.1]
  have s0 : 0 < (F64.div b P).val := lt_of_lt_of_le (zpow_pos (by norm_num) _) s82
  -- the product with 1000 and its rounding to an integer
  unfold roundToPrecision at rf ⊢
  simp only at rf ⊢
  rw [p1] at rf ⊢
  have Rf := div_finite_left _ _ p2 rf
  have mf := Round_finite_inv _ Rf
  have r2 := mul_rounds (F64.div b P) (ofInt 1000) sf p2
  rw [p3] at r2
  have a2 := r2.rel_or_zero mf (by linarith) (Or.inr (by
    have : (2 : ℚ) ^ (-1022 : Int) ≤ 2 ^ (-82 : Int) := zpow_le_zpow_right₀ (by norm_num) (by norm_num)
    nlinarith))
  have ms : (F64.mul (F64.div b P) (ofInt 1000)).sign = false := by
    rw [mul_sign _ _ sf p2, ss, p9]; rfl
  obtain ⟨_, Rs, Rv⟩ := Round_spec _ mf ms
  have y0 : 0 ≤ (F64.mul (F64.div b P) (ofInt 1000)).val := r2.val_nonneg (by linarith)
  have a3 := floor_half_near (F64.mul (F64.div b P) (ofInt 1000)).val
  rw [← Rv] at a3
  have hfl : (0 : Int) ≤ ⌊(F64.mul (F64.div b P) (ofInt 1000)).val + 1 / 2⌋ :=
    Int.floor_nonneg.mpr (by linarith)
  have R0 : 0 ≤ (Round (F64.mul (F64.div b P) (ofInt 1000))).val := by
    rw [Rv]; exact_mod_cast hfl
  have R01 : (Round (F64.mul (F64.div b P) (ofInt 1000))).val = 0 ∨
      1 ≤ (Round (F64.mul (F64.div b P) (ofInt 1000))).val := by
    rw [Rv]
    rcases eq_or_lt_of_le hfl with h | h
    · left; rw [← h]; simp
    · right
      have : (1 : Int) ≤ ⌊(F64.mul (F64.div b P) (ofInt 1000)).val + 1 / 2⌋ := h
      exact_mod_cast this
  -- the quotient by 1000
  have hS0 : (ofInt 1000).mant ≠ 0 := mant_ne_zero_of_val_ne _ (by rw [p3]; norm_num)
  have r4 := div_rounds _ (ofInt 1000) Rf p2 hS0
  rw [p3] at r4
  have a4 := r4.rel_or_zero rf (div_nonneg R0 (by norm_num)) (by
    rcases R01 with h | h
    · left; rw [h]; simp
    · right
      have : (2 : ℚ) ^ (-1022 : Int) ≤ 2 ^ (-10 : Int) := zpow_le_zpow_right₀ (by norm_num) (by norm_num)
      have e10 : (2 : ℚ) ^ (-10 : Int) = 1 / 1024 := by norm_num
      rw [e10] at this
      have h2 : (1 : ℚ) / 1024 ≤ (Round (F64.mul (F64.div b P) (ofInt 1000))).val / 1000 := by
        rw [le_div_iff₀ (by norm_num)]
        linarith
      exact le_trans this h2)
  -- assembling
  have hB0 : (0 : ℚ) ≤ B := by linarith
  apply round_trip_arith _
    ((Round (F64.mul (F64.div b P) (ofInt 1000))).val / 1000 * B)
    ((F64.mul (F64.div b P) (ofInt 1000)).val / 1000 * B)
    ((F64.div b P).val * B) (b.val / P.val * B) b.val B hB0 (by linarith)
  · have hq : b.val / P.val * B - b.val = b.val / P.val * (B - P.val) := by
      have hne : P.val ≠ 0 := by linarith
      have : b.val / P.val * P.val = b.val := div_mul_cancel₀ _ hne
      rw [mul_sub, this]
    rw [hq, abs_mul, abs_of_nonneg (le_of_lt q0), abs_sub_comm]
    calc b.val / P.val * |P.val - B| ≤ b.val / P.val * (2 ^ (-53 : Int) * B) :=
          mul_le_mul_of_nonneg_left hPv (le_of_lt q0)
      _ = 2 ^ (-53 : Int) * (b.val / P.val * B) := by ring
  · have := scale_abs _ _ _ B hB0 a1
    rwa [mul_assoc] at this
  · have h := scale_abs _ _ _ (B / 1000) (by positivity) a2
    have e1 : (F64.mul (F64.div b P) (ofInt 1000)).val * (B / 1000)
        = (F64.mul (F64.div b P) (ofInt 1000)).val / 1000 * B := by ring
    have e2 : (F64.div b P).val * 1000 * (B / 1000) = (F64.div b P).val * B := by ring
    have e3 : 2 ^ (-53 : Int) * ((F64.div b P).val * 1000) * (B / 1000)
        = 2 ^ (-53 : Int) * ((F64.div b P).val * B) := by ring
    rwa [e1, e2, e3] at h
  · have h := scale_abs _ _ _ (B / 1000) (by positivity) a3
    have e1 : (Round (F64.mul (F64.div b P) (ofInt 1000))).val * (B / 1000)
        = (Round (F64.mul (F64.div b P) (ofInt 1000))).val / 1000 * B := by ring
    have e2 : (F64.mul (F64.div b P) (ofInt 1000)).val * (B / 1000)
        = (F64.mul (F64.div b P) (ofInt 1000)).val / 1000 * B := by ring
    have e3 : (1 : ℚ) / 2 * (B / 1000) = B / 2000 := by ring
    rwa [e1, e2, e3] at h
  · have h := scale_abs _ _ _ B hB0 a4
    rwa [mul_assoc] at h

end Gotty

namespace Gotty
namespace F64

/-- The error of a finite rounding: relative two to the minus 53, or absolute two
to the minus 1075 in the subnormal range. -/
theorem Rounds.abs_err {r : F64} {v : ℚ} (hr : Rounds r v) (hfin : r.finite = true) :
    |r.val - v| ≤ 2 ^ (-53 : Int) * |v| + 2 ^ (-1075 : Int) := by
  obtain ⟨s, n, d, hd, rfl, rfl⟩ := hr
  have hq : (0 : ℚ) ≤ (n : ℚ) / d := by positivity
  have habs : |(if s then -((n : ℚ) / d) else (n : ℚ) / d)| = (n : ℚ) / d := by
    cases s <;> simp [abs_of_nonneg hq]
  have hdiff : |(round s n d).val - (if s then -((n : ℚ) / d) else (n : ℚ) / d)|
      = |(round s n d).mag - (n : ℚ) / d| := by
    rw [val_round]
    cases s <;> simp only [Bool.false_eq_true, if_false, if_true]
    rw [← abs_neg]
    congr 1
    ring
  rw [habs, hdiff]
  have p1 : (0 : ℚ) < 2 ^ (-1075 : Int) := zpow_pos (by norm_num) _
  have p2 : (0 : ℚ) < 2 ^ (-53 : Int) := zpow_pos (by norm_num) _
  rcases Nat.eq_zero_or_pos n with h0 | hn
  · subst h0
    rw [round_zero]
    have : (zero s).mag = 0 := by simp [mag, mant, zero, mk3]
    rw [this]
    simp
    positivity
  · have h1 := round_near s n d hn hd hfin
    refine le_trans h1 ?_
    rcases le_or_lt (-1074) (ilog2 n d - 52) with hc | hc
    · have e : roundExp n d = ilog2 n d - 52 := by unfold roundExp; omega
      rw [e]
      have hs := (ilog2_spec n d hn hd).1
      have e2 : (2 : ℚ) ^ (ilog2 n d - 52 - 1) = 2 ^ (-53 : Int) * 2 ^ (ilog2 n d) := by
        rw [← zpow_add₀ (by norm_num : (2 : ℚ) ≠ 0)]
        congr 1; ring
      rw [e2]
      have : (2 : ℚ) ^ (-53 : Int) * 2 ^ (ilog2 n d) ≤ 2 ^ (-53 : Int) * ((n : ℚ) / d) :=
        mul_le_mul_of_nonneg_left hs (le_of_lt p2)
      linarith
    · have e : roundExp n d = -1074 := by unfold roundExp; omega
      rw [e]
      have e2 : (2 : ℚ) ^ ((-1074 : Int) - 1) = 2 ^ (-1075 : Int) := by norm_num
      rw [e2]
      have : (0 : ℚ) ≤ 2 ^ (-53 : Int) * ((n : ℚ) / d) := by positivity
      linarith

theorem big_float : (mk3 false 2023 0).finite = true ∧ (neg (mk3 false 2023 0)).finite = true :=
  ⟨by decide!, by decide!⟩

/-- A rounding of an exact value of magnitude at most two to the 1000 is finite. -/
theorem Rounds.finite_of_abs_le {r : F64} {v : ℚ} (hr : Rounds r v)
    (hv : |v| ≤ 2 ^ (1000 : Int)) : r.finite = true := by
  obtain ⟨g1, g2⟩ := big_float
  have hg : (mk3 false 2023 0).val = 2 ^ (1000 : Int) := by
    rw [val_pow2 _ (by norm_num) (by norm_num)]
    norm_num
  rw [abs_le] at hv
  have k1 := hr.le_float g1 (by rw [hg]; exact hv.2)
  have k2 := hr.float_le g2 (by rw [neg_val, hg]; exact hv.1)
  have hI : (Ivl.mk (neg (mk3 false 2023 0)) (mk3 false 2023 0)).fin = true := by
    unfold Ivl.fin
    rw [g1, g2]; rfl
  exact finite_of_mem r _ hI ⟨k2, k1⟩

theorem Near.fin {r : F64} {q B ε : ℚ} (h : Near r q B ε) : r.finite = true := h.1

theorem Near.val_abs {r : F64} {q B ε : ℚ} (h : Near r q B ε) : |r.val| ≤ B + ε := by
  have h1 := h.2.1
  have h2 := h.2.2
  have : |r.val| ≤ |r.val - q| + |q| := by
    have := abs_add (r.val - q) q
    simpa using this
  linarith

/-- A finite float approximates its own value with no error. -/
theorem Near.const (c : F64) (hc : c.finite = true) (B : ℚ) (hB : |c.val| ≤ B) :
    Near c c.val B 0 :=
  ⟨hc, hB, by simp⟩

/-- The error of a float product. -/
theorem Near.mul {a b : F64} {p q P Q εa εb : ℚ} (ha : Near a p P εa) (hb : Near b q Q εb)
    (B ε : ℚ) (hB : P * Q ≤ B) (hbig : (P + εa) * (Q + εb) ≤ 2 ^ (1000 : Int))
    (hε : P * εb + Q * εa + εa * εb + 2 ^ (-53 : Int) * ((P + εa) * (Q + εb))
      + 2 ^ (-1075 : Int) ≤ ε) :
    Near (mul a b) (p * q) B ε := by
  have r := mul_rounds a b ha.1 hb.1
  have va := ha.val_abs
  have vb := hb.val_abs
  have hP : 0 ≤ P := le_trans (abs_nonneg _) ha.2.1
  have hQ : 0 ≤ Q := le_trans (abs_nonneg _) hb.2.1
  have hεa : 0 ≤ εa := le_trans (abs_nonneg _) ha.2.2
  have hεb : 0 ≤ εb := le_trans (abs_nonneg _) hb.2.2
  have hab : |a.val * b.val| ≤ (P + εa) * (Q + εb) := by
    rw [abs_mul]
    exact mul_le_mul va vb (abs_nonneg _) (by linarith)
  have hfin := r.finite_of_abs_le (le_trans hab hbig)
  have e1 := r.abs_err hfin
  refine ⟨hfin, ?_, ?_⟩
  · rw [abs_mul]
    exact le_trans (mul_le_mul ha.2.1 hb.2.1 (abs_nonneg _) hP) hB
  · have e2 : |a.val * b.val - p * q| ≤ P * εb + Q * εa + εa * εb := by
      have : a.val * b.val - p * q = a.val * (b.val - q) + (a.val - p) * q := by ring
      rw [this]
      refine le_trans (abs_add _ _) ?_
      rw [abs_mul, abs_mul]
      have t1 : |a.val| * |b.val - q| ≤ (P + εa) * εb :=
        mul_le_mul va hb.2.2 (abs_nonneg _) (by linarith)
      have t2 : |a.val - p| * |q| ≤ εa * Q :=
        mul_le_mul ha.2.2 hb.2.1 (abs_nonneg _) hεa
      linarith
    have e3 : |(F64.mul a b).val - p * q| ≤ |(F64.mul a b).val - a.val * b.val|
        + |a.val * b.val - p * q| := by
      have := abs_add ((F64.mul a b).val - a.val * b.val) (a.val * b.val - p * q)
      simpa using this
    have p2 : (0 : ℚ) < 2 ^ (-53 : Int) := zpow_pos (by norm_num) _
    have e4 : 2 ^ (-53 : Int) * |a.val * b.val| ≤ 2 ^ (-53 : Int) * ((P + εa) * (Q + εb)) :=
      mul_le_mul_of_nonneg_left hab (le_of_lt p2)
    linarith

/-- The error of a float sum. -/
theorem Near.add {a b : F64} {p q P Q εa εb : ℚ} (ha : Near a p P εa) (hb : Near b q Q εb)
    (B ε : ℚ) (hB : P + Q ≤ B) (hbig : P + εa + (Q + εb) ≤ 2 ^ (1000 : Int))
    (hε : εa + εb + 2 ^ (-53 : Int) * (P + εa + (Q + εb)) + 2 ^ (-1075 : Int) ≤ ε) :
    Near (add a b) (p + q) B ε := by
  have r := add_rounds a b ha.1 hb.1
  have va := ha.val_abs
  have vb := hb.val_abs
  have hab : |a.val + b.val| ≤ P + εa + (Q + εb) := le_trans (abs_add _ _) (by linarith)
  have hfin := r.finite_of_abs_le (le_trans hab hbig)
  have e1 := r.abs_err hfin
  refine ⟨hfin, le_trans (abs_add _ _) (by linarith [ha.2.1, hb.2.1]), ?_⟩
  have e2 : |a.val + b.val - (p + q)| ≤ εa + εb := by
    have : a.val + b.val - (p + q) = (a.val - p) + (b.val - q) := by ring
    rw [this]
    exact le_trans (abs_add _ _) (by linarith [ha.2.2, hb.2.2])
  have e3 : |(F64.add a b).val - (p + q)| ≤ |(F64.add a b).val - (a.val + b.val)|
      + |a.val + b.val - (p + q)| := by
    have := abs_add ((F64.add a b).val - (a.val + b.val)) (a.val + b.val - (p + q))
    simpa using this
  have p2 : (0 : ℚ) < 2 ^ (-53 : Int) := zpow_pos (by norm_num) _
  have e4 : 2 ^ (-53 : Int) * |a.val + b.val| ≤ 2 ^ (-53 : Int) * (P + εa + (Q + εb)) :=
    mul_le_mul_of_nonneg_left hab (le_of_lt p2)
  linarith

/-- The error of a float difference. -/
theorem Near.sub {a b : F64} {p q P Q εa εb : ℚ} (ha : Near a p P εa) (hb : Near b q Q εb)
    (B ε : ℚ) (hB : P + Q ≤ B) (hbig : P + εa + (Q + εb) ≤ 2 ^ (1000 : Int))
    (hε : εa + εb + 2 ^ (-53 : Int) * (P + εa + (Q + εb)) + 2 ^ (-1075 : Int) ≤ ε) :
    Near (sub a b) (p - q) B ε := by
  have hb' : Near (neg b) (-q) Q εb := by
    refine ⟨by rw [neg_finite]; exact hb.1, by rw [abs_neg]; exact hb.2.1, ?_⟩
    rw [neg_val]
    have : -b.val - -q = -(b.val - q) := by ring
    rw [this, abs_neg]
    exact hb.2.2
  have := Near.add ha hb' B ε hB hbig hε
  rw [← sub_eq_add_neg] at this
  exact this

/-- The error of a float quotient by a divisor that stays above `D`. -/
theorem Near.div {a b : F64} {p q P Q εa εb : ℚ} (ha : Near a p P εa) (hb : Near b q Q εb)
    (D : ℚ) (hD : εb < D) (hq : D ≤ q) (B ε : ℚ) (hB : |p / q| ≤ B)
    (hbig : (P + εa) / (D - εb) ≤ 2 ^ (1000 : Int))
    (hε : εa / (D - εb) + P * εb / ((D - εb) * D) + 2 ^ (-53 : Int) * ((P + εa) / (D - εb))
      + 2 ^ (-1075 : Int) ≤ ε) :
    Near (div a b) (p / q) B ε := by
  have va := ha.val_abs
  have hP : 0 ≤ P := le_trans (abs_nonneg _) ha.2.1
  have hεa : 0 ≤ εa := le_trans (abs_nonneg _) ha.2.2
  have hεb : 0 ≤ εb := le_trans (abs_nonneg _) hb.2.2
  have hD0 : 0 < D := lt_of_le_of_lt hεb hD
  have hd1 : 0 < D - εb := by linarith
  have hb2 := hb.2.2
  rw [abs_le] at hb2
  have hbv : D - εb ≤ b.val := by linarith [hb2.1]
  have hbpos : 0 < b.val := lt_of_lt_of_le hd1 hbv
  have hqpos : 0 < q := lt_of_lt_of_le hD0 hq
  have hbm : b.mant ≠ 0 := mant_ne_zero_of_val_ne b (ne_of_gt hbpos)
  have r := div_rounds a b ha.1 hb.1 hbm
  have hab : |a.val / b.val| ≤ (P + εa) / (D - εb) := by
    rw [abs_div, abs_of_pos hbpos]
    exact div_le_div₀ (by linarith) va hd1 hbv
  have hfin := r.finite_of_abs_le (le_trans hab hbig)
  have e1 := r.abs_err hfin
  refine ⟨hfin, hB, ?_⟩
  have e2 : |a.val / b.val - p / q| ≤ εa / (D - εb) + P * εb / ((D - εb) * D) := by
    have : a.val / b.val - p / q = (a.val - p) / b.val + p * (q - b.val) / (b.val * q) := by
      field_simp
      ring
    rw [this]
    refine le_trans (abs_add _ _) ?_
    have t1 : |(a.val - p) / b.val| ≤ εa / (D - εb) := by
      rw [abs_div, abs_of_pos hbpos]
      exact div_le_div₀ hεa ha.2.2 hd1 hbv
    have t2 : |p * (q - b.val) / (b.val * q)| ≤ P * εb / ((D - εb) * D) := by
      rw [abs_div, abs_mul, abs_of_pos (mul_pos hbpos hqpos)]
      have hqb : |q - b.val| ≤ εb := by rw [abs_sub_comm]; exact hb.2.2
      exact div_le_div₀ (mul_nonneg hP hεb)
        (mul_le_mul ha.2.1 hqb (abs_nonneg _) hP) (mul_pos hd1 hD0)
        (mul_le_mul hbv hq (le_of_lt hD0) (le_of_lt hbpos))
    linarith
  have e3 : |(F64.div a b).val - p / q| ≤ |(F64.div a b).val - a.val / b.val|
      + |a.val / b.val - p / q| := by
    have := abs_add ((F64.div a b).val - a.val / b.val) (a.val / b.val - p / q)
    simpa using this
  have p2 : (0 : ℚ) < 2 ^ (-53 : Int) := zpow_pos (by norm_num) _
  have e4 : 2 ^ (-53 : Int) * |a.val / b.val| ≤ 2 ^ (-53 : Int) * ((P + εa) / (D - εb)) :=
    mul_le_mul_of_nonneg_left hab (le_of_lt p2)
  linarith

theorem logCore_eq (k f : F64) : logCore k f = sub (mul k Ln2Hi) (sub (logW k f) f) := rfl

end F64
end Gotty

namespace Gotty
namespace F64
theorem L1_eq : L1 = mk3 false 1022 1501199875790227 := by decide!

theorem L1_val : L1.val = 6004799503160723 / 9007199254740992 := by
  rw [L1_eq, val_mk3_normal _ _ (by norm_num) (by norm_num) (by norm_num [hidden])]
  norm_num [hidden]

theorem L1_near : Near L1 L1.val (683 / 1024) 0 := by
  refine Near.const _ (by decide!) _ ?_
  rw [L1_val]
  norm_num [abs_le]
theorem L2_eq : L2 = mk3 false 1021 2702159776315908 := by decide!

theorem L2_val : L2.val = 1801439850921601 / 4503599627370496 := by
  rw [L2_eq, val_mk3_normal _ _ (by norm_num) (by norm_num) (by norm_num [hidden])]
  norm_num [hidden]

theorem L2_near : Near L2 L2.val (205 / 512) 0 := by
  refine Near.const _ (by decide!) _ ?_
  rw [L2_val]
  norm_num [abs_le]
theorem L3_eq : L3 = mk3 false 1021 643371406365529 := by decide!

theorem L3_val : L3.val = 5146971033736025 / 18014398509481984 := by
  rw [L3_eq, val_mk3_normal _ _ (by norm_num) (by norm_num) (by norm_num [hidden])]
  norm_num [hidden]

theorem L3_near : Near L3 L3.val (293 / 1024) 0 := by
  refine Near.const _ (by decide!) _ ?_
  rw [L3_val]
  norm_num [abs_le]
theorem L4_eq : L4 = mk3 false 1020 3502791138900143 := by decide!

theorem L4_val : L4.val = 8006390766270639 / 36028797018963968 := by
  rw [L4_eq, val_mk3_normal _ _ (by norm_num) (by norm_num) (by norm_num [hidden])]
  norm_num [hidden]

theorem L4_near : Near L4 L4.val (57 / 256) 0 := by
  refine Near.const _ (by decide!) _ ?_
  rw [L4_val]
  norm_num [abs_le]
theorem L5_eq : L5 = mk3 false 1020 2047722677535710 := by decide!

theorem L5_val : L5.val = 3275661152453103 / 18014398509481984 := by
  rw [L5_eq, val_mk3_normal _ _ (by norm_num) (by norm_num) (by norm_num [hidden])]
  norm_num [hidden]

theorem L5_near : Near L5 L5.val (187 / 1024) 0 := by
  refine Near.const _ (by decide!) _ ?_
  rw [L5_val]
  norm_num [abs_le]
theorem L6_eq : L6 = mk3 false 1020 1013791873091231 := by decide!

theorem L6_val : L6.val = 5517391500461727 / 36028797018963968 := by
  rw [L6_eq, val_mk3_normal _ _ (by norm_num) (by norm_num) (by norm_num [hidden])]
  norm_num [hidden]

theorem L6_near : Near L6 L6.val (157 / 1024) 0 := by
  refine Near.const _ (by decide!) _ ?_
  rw [L6_val]
  norm_num [abs_le]
theorem L7_eq : L7 = mk3 false 1020 828013310530116 := by decide!

theorem L7_val : L7.val = 1332903234475153 / 9007199254740992 := by
  rw [L7_eq, val_mk3_normal _ _ (by norm_num) (by norm_num) (by norm_num [hidden])]
  norm_num [hidden]

theorem L7_near : Near L7 L7.val (19 / 128) 0 := by
  refine Near.const _ (by decide!) _ ?_
  rw [L7_val]
  norm_num [abs_le]

theorem c5_near : Near (ofDec 5 10) (1 / 2) (1 / 2) 0 := by
  have := Near.const (ofDec 5 10) finite_half (1 / 2) (by rw [val_half]; norm_num [abs_le])
  rwa [val_half] at this

theorem two_near : Near (ofInt 2) 2 2 0 := by
  have e : ofInt 2 = mk3 false 1024 0 := by decide!
  have v : (ofInt 2).val = 2 := by
    rw [e, val_pow2 _ (by norm_num) (by norm_num)]; norm_num
  have := Near.const (ofInt 2) (by decide!) 2 (by rw [v]; norm_num [abs_le])
  rwa [v] at this

theorem Ln2Lo_near : Near Ln2Lo Ln2Lo.val (1 / 4294967296) 0 := by
  refine Near.const _ (by decide!) _ ?_
  rw [val_Ln2Lo]
  norm_num [abs_le]

theorem sigma_bound (x : ℚ) (h1 : -(2929 / 10000) ≤ x) (h2 : x ≤ 4143 / 10000) :
    |x / (2 + x)| ≤ 43 / 250 := by
  have hp : (0 : ℚ) < 2 + x := by linarith
  rw [abs_le]
  constructor
  · rw [le_div_iff₀ hp]; linarith
  · rw [div_le_iff₀ hp]; linarith

/-- The error of the inner term of `logCore`: for `f` between -0.2929 and
0.4143 and `|k| ≤ 1025` the float `logW k f` is finite and within the stated bound of the
exact value of the same expression. -/
theorem logW_near (k f : F64) (hk : k.finite = true) (hkv : |k.val| ≤ 1025)
    (hf : f.finite = true) (h1 : -(2929 / 10000) ≤ f.val) (h2 : f.val ≤ 4143 / 10000) :
    Near (logW k f) (logWQ f.val (k.val * Ln2Lo.val)) (114392576961 / 1099511627776) (4044756905069 / 79228162514264337593543950336) := by
  have nf : Near f f.val (4143 / 10000) 0 := Near.const f hf _ (by rw [abs_le]; constructor <;> linarith)
  have nk : Near k k.val 1025 0 := Near.const k hk _ hkv
  have n1 := Near.mul c5_near nf (113881916847 / 549755813888) (29153770712807 / 1267650600228229401496703205376) (by norm_num) (by norm_num) (by norm_num)
  have n2 := Near.mul n1 nf (23590639075 / 274877906944) (24156814412643 / 1267650600228229401496703205376) (by norm_num) (by norm_num) (by norm_num)
  have n3 := Near.add two_near nf (663637730735 / 274877906944) (339782518136269 / 1267650600228229401496703205376) (by norm_num) (by norm_num) (by norm_num)
  have n4 := Near.div nf n3 (17071 / 10000) (by norm_num) (by linarith) (43 / 250) (82461564764919 / 1267650600228229401496703205376)
    (sigma_bound _ h1 h2) (by norm_num) (by norm_num)
  have n5 := Near.mul n4 n4 (32527951997 / 1099511627776) (32530356134637 / 1267650600228229401496703205376) (by norm_num) (by norm_num) (by norm_num)
  have n6 := Near.mul n5 n5 (240576733 / 274877906944) (1023965699555 / 633825300114114700748351602688) (by norm_num) (by norm_num) (by norm_num)
  have m7 := Near.mul n6 L7_near (35710609 / 274877906944) (80568412191 / 316912650057057350374175801344) (by norm_num) (by norm_num) (by norm_num)
  have a5 := Near.add L5_near m7 (50233140881 / 274877906944) (26041641779837 / 1267650600228229401496703205376) (by norm_num) (by norm_num) (by norm_num)
  have m5 := Near.mul n6 a5 (175858803 / 1099511627776) (209777719915 / 633825300114114700748351602688) (by norm_num) (by norm_num) (by norm_num)
  have a3 := Near.add L3_near m5 (314782213235 / 1099511627776) (40711678733911 / 1267650600228229401496703205376) (by norm_num) (by norm_num) (by norm_num)
  have m3 := Near.mul n6 a3 (275501503 / 1099511627776) (164300876935 / 316912650057057350374175801344) (by norm_num) (by norm_num) (by norm_num)
  have a1 := Near.add L1_near m3 (733641167295 / 1099511627776) (94563272921501 / 1267650600228229401496703205376) (by norm_num) (by norm_num) (by norm_num)
  have t1 := Near.mul n5 a1 (10852020147 / 549755813888) (27281321461055 / 1267650600228229401496703205376) (by norm_num) (by norm_num) (by norm_num)
  have m6 := Near.mul n6 L6_near (9221325 / 68719476736) (332874755631 / 1267650600228229401496703205376) (by norm_num) (by norm_num) (by norm_num)
  have a4 := Near.add L4_near m6 (15310042317 / 68719476736) (1980490088803 / 79228162514264337593543950336) (by norm_num) (by norm_num) (by norm_num)
  have m4 := Near.mul n6 a4 (214392783 / 1099511627776) (511435422011 / 1267650600228229401496703205376) (by norm_num) (by norm_num) (by norm_num)
  have a2 := Near.add L2_near m4 (440448540623 / 1099511627776) (14222212155439 / 316912650057057350374175801344) (by norm_num) (by norm_num) (by norm_num)
  have t2 := Near.mul n6 a2 (192743157 / 549755813888) (459751984157 / 633825300114114700748351602688) (by norm_num) (by norm_num) (by norm_num)
  have nR := Near.add t1 t2 (1380595413 / 68719476736) (15514142417597 / 633825300114114700748351602688) (by norm_num) (by norm_num) (by norm_num)
  have nA := Near.add n2 nR (29113020727 / 274877906944) (35045482930031 / 633825300114114700748351602688) (by norm_num) (by norm_num) (by norm_num)
  have nB := Near.mul n4 nA (20029758261 / 1099511627776) (11676584992821 / 633825300114114700748351602688) (by norm_num) (by norm_num) (by norm_num)
  have nkL := Near.mul nk Ln2Lo_near (1025 / 4294967296) (33587201 / 1267650600228229401496703205376) (by norm_num) (by norm_num) (by norm_num)
  have nZ := Near.add nB nkL (20030020661 / 1099511627776) (6479261554363 / 316912650057057350374175801344) (by norm_num) (by norm_num) (by norm_num)
  have nW := Near.sub n2 nZ (114392576961 / 1099511627776) (4044756905069 / 79228162514264337593543950336) (by norm_num) (by norm_num) (by norm_num)
  have e : logWQ f.val (k.val * Ln2Lo.val) = 1 / 2 * f.val * f.val -
      (f.val / (2 + f.val) * (1 / 2 * f.val * f.val +
        (f.val / (2 + f.val) * (f.val / (2 + f.val)) *
          (L1.val + f.val / (2 + f.val) * (f.val / (2 + f.val)) *
            (f.val / (2 + f.val) * (f.val / (2 + f.val))) *
            (L3.val + f.val / (2 + f.val) * (f.val / (2 + f.val)) *
              (f.val / (2 + f.val) * (f.val / (2 + f.val))) *
              (L5.val + f.val / (2 + f.val) * (f.val / (2 + f.val)) *
                (f.val / (2 + f.val) * (f.val / (2 + f.val))) * L7.val))) +
        f.val / (2 + f.val) * (f.val / (2 + f.val)) *
          (f.val / (2 + f.val) * (f.val / (2 + f.val))) *
          (L2.val + f.val / (2 + f.val) * (f.val / (2 + f.val)) *
            (f.val / (2 + f.val) * (f.val / (2 + f.val))) *
            (L4.val + f.val / (2 + f.val) * (f.val / (2 + f.val)) *
              (f.val / (2 + f.val) * (f.val / (2 + f.val))) * L6.val)))) +
        k.val * Ln2Lo.val) := by
    unfold logWQ logRQ
    ring
  rw [e]
  exact nW

end F64
end Gotty

namespace Gotty
namespace F64

/-- The exact inner term and the exact logarithm: `W - x = -(G + c)`. -/
theorem logWQ_sub (x c : ℚ) (hx : 0 < 2 + x) : logWQ x c - x = -logGQ x - c := by
  unfold logWQ logGQ
  have h : (2 + x) ≠ 0 := ne_of_gt hx
  field_simp
  ring

theorem sigma_mono (x y : ℚ) (hx : 0 < 2 + x) (hxy : x ≤ y) : x / (2 + x) ≤ y / (2 + y) := by
  have hy : 0 < 2 + y := by linarith
  rw [div_le_div_iff₀ hx hy]
  nlinarith

theorem odd_pow_mono (n : Nat) (hn : Odd n) (a b : ℚ) (h : a ≤ b) : a ^ n ≤ b ^ n :=
  hn.strictMono_pow.monotone h

theorem Lvals_pos : 0 ≤ L1.val ∧ 0 ≤ L2.val ∧ 0 ≤ L3.val ∧ 0 ≤ L4.val ∧ 0 ≤ L5.val ∧ 0 ≤ L6.val
    ∧ 0 ≤ L7.val := by
  rw [L1_val, L2_val, L3_val, L4_val, L5_val, L6_val, L7_val]
  norm_num

/-- The series `2 s + s R(s)` has odd powers and coefficients that are not
negative: it is monotone. -/
theorem series_mono (s t : ℚ) (h : s ≤ t) : 2 * s + s * logRQ s ≤ 2 * t + t * logRQ t := by
  obtain ⟨p1, p2, p3, p4, p5, p6, p7⟩ := Lvals_pos
  have e : ∀ z : ℚ, 2 * z + z * logRQ z = 2 * z ^ 1 + L1.val * z ^ 3 + L2.val * z ^ 5
      + L3.val * z ^ 7 + L4.val * z ^ 9 + L5.val * z ^ 11 + L6.val * z ^ 13
      + L7.val * z ^ 15 := by
    intro z
    unfold logRQ
    ring
  rw [e s, e t]
  have m1 := odd_pow_mono 1 (by decide) s t h
  have m3 := odd_pow_mono 3 (by decide) s t h
  have m5 := odd_pow_mono 5 (by decide) s t h
  have m7 := odd_pow_mono 7 (by decide) s t h
  have m9 := odd_pow_mono 9 (by decide) s t h
  have m11 := odd_pow_mono 11 (by decide) s t h
  have m13 := odd_pow_mono 13 (by decide) s t h
  have m15 := odd_pow_mono 15 (by decide) s t h
  have q3 := mul_le_mul_of_nonneg_left m3 p1
  have q5 := mul_le_mul_of_nonneg_left m5 p2
  have q7 := mul_le_mul_of_nonneg_left m7 p3
  have q9 := mul_le_mul_of_nonneg_left m9 p4
  have q11 := mul_le_mul_of_nonneg_left m11 p5
  have q13 := mul_le_mul_of_nonneg_left m13 p6
  have q15 := mul_le_mul_of_nonneg_left m15 p7
  linarith

/-- The exact logarithm of `log.go` is monotone. -/
theorem logGQ_mono (x y : ℚ) (hx : 0 < 2 + x) (hxy : x ≤ y) : logGQ x ≤ logGQ y := by
  unfold logGQ
  exact series_mono _ _ (sigma_mono x y hx hxy)

end F64
end Gotty

namespace Gotty
namespace F64

/-- An integer below two to the 53 in magnitude is a float. -/
theorem ofInt_val (i : Int) (h : i.natAbs < 2 * hidden) :
    (ofInt i).val = (i : ℚ) ∧ (ofInt i).finite = true := by
  obtain ⟨h1, h2⟩ := round_nat_exact (decide (i < 0)) i.natAbs h
  refine ⟨?_, h2⟩
  unfold ofInt
  rw [val_round, h1]
  have hcast : ((i.natAbs : Nat) : ℚ) = |(i : ℚ)| := by
    rw [Nat.cast_natAbs]; push_cast; rfl
  rw [hcast]
  by_cases hneg : i < 0
  · have : (i : ℚ) < 0 := by exact_mod_cast hneg
    simp [hneg, abs_of_neg this]
  · have : (0 : ℚ) ≤ (i : ℚ) := by exact_mod_cast (not_lt.mp hneg)
    simp [hneg, abs_of_nonneg this]

theorem ofInt_val_small (i : Int) (h1 : -1 ≤ i) (h2 : i ≤ 1025) :
    (ofInt i).val = (i : ℚ) ∧ (ofInt i).finite = true ∧ |(ofInt i).val| ≤ 1025 := by
  have hh : hidden = 4503599627370496 := rfl
  obtain ⟨a, b⟩ := ofInt_val i (by rw [hh]; omega)
  refine ⟨a, b, ?_⟩
  rw [a, abs_le]
  constructor
  · have : (-1 : ℚ) ≤ (i : ℚ) := by exact_mod_cast h1
    linarith
  · exact_mod_cast h2

theorem FAB_ends : FAB.lo = neg (mk3 false 1021 772695537059942)
    ∧ FAB.hi = mk3 false 1021 2958208553250612 ∧ FAB.fin = true := by decide!

/-- The reduced argument of `Log` lies between -0.2929 and 0.4143. -/
theorem FAB_val (f : F64) (hf : FAB.mem f) :
    f.finite = true ∧ -(2929 / 10000) ≤ f.val ∧ f.val ≤ 4143 / 10000 := by
  obtain ⟨e1, e2, e3⟩ := FAB_ends
  obtain ⟨v1, v2⟩ := mem_val f FAB hf
  rw [e1, neg_val, val_mk3_normal _ _ (by norm_num) (by norm_num) (by norm_num [hidden])] at v1
  rw [e2, val_mk3_normal _ _ (by norm_num) (by norm_num) (by norm_num [hidden])] at v2
  refine ⟨finite_of_mem f FAB e3 hf, ?_, ?_⟩
  · refine le_trans ?_ v1
    norm_num [hidden]
  · refine le_trans v2 ?_
    norm_num [hidden]

/-- The error of the inner term of `logCore` on the range of `Log`. -/
theorem logW_err (ki : Int) (hk1 : -1 ≤ ki) (hk2 : ki ≤ 1025) (f : F64) (hf : FAB.mem f) :
    (logW (ofInt ki) f).finite = true ∧
    |(logW (ofInt ki) f).val - logWQ f.val ((ki : ℚ) * Ln2Lo.val)| ≤ logWEps ∧
    |logWQ f.val ((ki : ℚ) * Ln2Lo.val)| ≤ 114392576961 / 1099511627776 := by
  obtain ⟨kv, kf, kb⟩ := ofInt_val_small ki hk1 hk2
  obtain ⟨ff, f1, f2⟩ := FAB_val f hf
  have h := logW_near (ofInt ki) f kf kb ff f1 f2
  rw [kv] at h
  exact ⟨h.1, h.2.2, h.2.1⟩

theorem Ln2Hi_facts : Ln2Hi.finite = true ∧ 0 < Ln2Hi.val ∧ Ln2Hi.val ≤ 7 / 10 := by
  refine ⟨by decide!, ?_, ?_⟩
  · rw [val_Ln2Hi]; norm_num
  · rw [val_Ln2Hi]; norm_num

/-- The product `k * Ln2Hi` of `logCore`. -/
theorem kHi_facts (ki : Int) (hk1 : -1 ≤ ki) (hk2 : ki ≤ 1025) :
    (mul (ofInt ki) Ln2Hi).finite = true ∧
    |(mul (ofInt ki) Ln2Hi).val - (ki : ℚ) * Ln2Hi.val| ≤ 1 / 1000000 := by
  obtain ⟨kv, kf, kb⟩ := ofInt_val_small ki hk1 hk2
  obtain ⟨hf, h0, h1⟩ := Ln2Hi_facts
  have nk : Near (ofInt ki) (ofInt ki).val 1025 0 := Near.const _ kf _ kb
  have nh : Near Ln2Hi Ln2Hi.val (7 / 10) 0 :=
    Near.const _ hf _ (by rw [abs_of_pos h0]; exact h1)
  have := Near.mul nk nh 1000 (1 / 1000000) (by norm_num) (by norm_num) (by norm_num)
  rw [kv] at this
  exact ⟨this.1, this.2.2⟩

theorem logWEps_pos : 0 < logWEps ∧ logWEps ≤ 1 / 1000000 := by
  unfold logWEps; constructor <;> norm_num

theorem kLo_small (ki : Int) (hk1 : -1 ≤ ki) (hk2 : ki ≤ 1025) :
    |(ki : ℚ) * Ln2Lo.val| ≤ 1 / 1000000 := by
  have h1 : (-1 : ℚ) ≤ (ki : ℚ) := by exact_mod_cast hk1
  have h2 : (ki : ℚ) ≤ 1025 := by exact_mod_cast hk2
  rw [val_Ln2Lo, abs_le]
  have e : (7382048951581814 : ℚ) * 2 ^ (-85 : Int) = 7382048951581814 / 38685626227668133590597632 := by
    norm_num
  rw [e]
  constructor <;> nlinarith

/-- The value from which the inner difference `W - f` of `logCore` is rounded,
against the exact logarithm. -/
theorem logV_exact (ki : Int) (hk1 : -1 ≤ ki) (hk2 : ki ≤ 1025) (f : F64) (hf : FAB.mem f) :
    Rounds (sub (logW (ofInt ki) f) f) ((logW (ofInt ki) f).val - f.val) ∧
    (sub (logW (ofInt ki) f) f).finite = true ∧
    |(logW (ofInt ki) f).val - f.val - (-logGQ f.val - (ki : ℚ) * Ln2Lo.val)| ≤ logWEps := by
  obtain ⟨Wf, We, Wb⟩ := logW_err ki hk1 hk2 f hf
  obtain ⟨ff, f1, f2⟩ := FAB_val f hf
  have hr := sub_rounds _ _ Wf ff
  have hid := logWQ_sub f.val ((ki : ℚ) * Ln2Lo.val) (by linarith)
  obtain ⟨ep, es⟩ := logWEps_pos
  have hWv : |(logW (ofInt ki) f).val| ≤ 1 / 5 := by
    have := abs_add ((logW (ofInt ki) f).val - logWQ f.val ((ki : ℚ) * Ln2Lo.val))
      (logWQ f.val ((ki : ℚ) * Ln2Lo.val))
    simp only [sub_add_cancel] at this
    have c : (114392576961 : ℚ) / 1099511627776 + 1 / 1000000 ≤ 1 / 5 := by norm_num
    linarith
  have hfin := hr.finite_of_abs_le (by
    have a1 := abs_sub ((logW (ofInt ki) f).val) f.val
    have a2 : |f.val| ≤ 1 / 2 := by rw [abs_le]; constructor <;> linarith
    have : (1 : ℚ) ≤ 2 ^ (1000 : Int) := one_le_zpow₀ (by norm_num) (by norm_num)
    linarith)
  refine ⟨hr, hfin, ?_⟩
  have : (logW (ofInt ki) f).val - f.val - (-logGQ f.val - (ki : ℚ) * Ln2Lo.val)
      = (logW (ofInt ki) f).val - logWQ f.val ((ki : ℚ) * Ln2Lo.val) := by
    linarith
  rw [this]
  exact We

/-- Lower bound for `logCore`: when the exact logarithm at a point `x0` below
`f` clears the threshold `Vs`, the float result is not below `k*Ln2Hi - Vs`. -/
theorem core_U (ki : Int) (hk1 : -1 ≤ ki) (hk2 : ki ≤ 1025) (f : F64) (hf : FAB.mem f)
    (x0 : ℚ) (hx0 : x0 ≤ f.val) (hx1 : 0 < 2 + x0) (Vs : F64) (hVs : Vs.finite = true)
    (hG : -Vs.val - (ki : ℚ) * Ln2Lo.val + logWEps ≤ logGQ x0) :
    (sub (mul (ofInt ki) Ln2Hi) Vs).key ≤ (logCore (ofInt ki) f).key := by
  obtain ⟨hr, hfin, he⟩ := logV_exact ki hk1 hk2 f hf
  obtain ⟨kf, _⟩ := kHi_facts ki hk1 hk2
  have hm := logGQ_mono x0 f.val hx1 hx0
  rw [abs_le] at he
  have hk : (sub (logW (ofInt ki) f) f).key ≤ Vs.key := hr.le_float hVs (by linarith [he.2])
  have hv := (key_le_iff _ _).mp hk
  rw [logCore_eq]
  exact (sub_rounds _ _ kf hVs).mono (sub_rounds _ _ kf hfin) (by linarith)

/-- Upper bound for `logCore`: when the exact logarithm at a point `x0` above
`f` stays under the threshold `Vp`, the float result is not above
`k*Ln2Hi - Vp`. -/
theorem core_L (ki : Int) (hk1 : -1 ≤ ki) (hk2 : ki ≤ 1025) (f : F64) (hf : FAB.mem f)
    (x0 : ℚ) (hx0 : f.val ≤ x0) (Vp : F64) (hVp : Vp.finite = true)
    (hG : logGQ x0 ≤ -Vp.val - (ki : ℚ) * Ln2Lo.val - logWEps) :
    (logCore (ofInt ki) f).key ≤ (sub (mul (ofInt ki) Ln2Hi) Vp).key := by
  obtain ⟨hr, hfin, he⟩ := logV_exact ki hk1 hk2 f hf
  obtain ⟨kf, _⟩ := kHi_facts ki hk1 hk2
  obtain ⟨ff, f1, f2⟩ := FAB_val f hf
  have hm := logGQ_mono f.val x0 (by linarith) hx0
  rw [abs_le] at he
  have hk : Vp.key ≤ (sub (logW (ofInt ki) f) f).key := hr.float_le hVp (by linarith [he.1])
  have hv := (key_le_iff _ _).mp hk
  rw [logCore_eq]
  exact (sub_rounds _ _ kf hfin).mono (sub_rounds _ _ kf hVp) (by linarith)

theorem logGQ_ends : -(35 / 100) ≤ logGQ (-(2929 / 10000)) ∧ logGQ (4143 / 10000) ≤ 35 / 100 := by
  unfold logGQ logRQ
  rw [L1_val, L2_val, L3_val, L4_val, L5_val, L6_val, L7_val]
  constructor <;> norm_num

/-- A coarse value of `logCore`: within 0.4 of `k * Ln2Hi`. -/
theorem logCore_coarse (ki : Int) (hk1 : -1 ≤ ki) (hk2 : ki ≤ 1025) (f : F64) (hf : FAB.mem f) :
    (logCore (ofInt ki) f).finite = true ∧
    |(logCore (ofInt ki) f).val - (ki : ℚ) * Ln2Hi.val| ≤ 2 / 5 := by
  obtain ⟨hr, hfin, he⟩ := logV_exact ki hk1 hk2 f hf
  obtain ⟨kf, ke⟩ := kHi_facts ki hk1 hk2
  obtain ⟨ff, f1, f2⟩ := FAB_val f hf
  obtain ⟨g1, g2⟩ := logGQ_ends
  obtain ⟨ep, es⟩ := logWEps_pos
  have m1 := logGQ_mono (-(2929 / 10000)) f.val (by norm_num) f1
  have m2 := logGQ_mono f.val (4143 / 10000) (by linarith) f2
  have kl := kLo_small ki hk1 hk2
  rw [abs_le] at he kl ke
  have e53 : (2 : ℚ) ^ (-53 : Int) = 1 / 9007199254740992 := by norm_num
  have p1075 : (2 : ℚ) ^ (-1075 : Int) ≤ 1 / 1000000 := by
    calc (2 : ℚ) ^ (-1075 : Int) ≤ 2 ^ (-20 : Int) := zpow_le_zpow_right₀ (by norm_num) (by norm_num)
      _ ≤ 1 / 1000000 := by norm_num
  -- the inner difference
  have hx : |(logW (ofInt ki) f).val - f.val| ≤ 36 / 100 := by
    rw [abs_le]; constructor <;> linarith [he.1, he.2, kl.1, kl.2]
  have hV := hr.abs_err hfin
  rw [e53] at hV
  have hVv : |(sub (logW (ofInt ki) f) f).val| ≤ 37 / 100 := by
    have := abs_add ((sub (logW (ofInt ki) f) f).val - ((logW (ofInt ki) f).val - f.val))
      ((logW (ofInt ki) f).val - f.val)
    simp only [sub_add_cancel] at this
    linarith
  -- the result
  have hk1' : (-1 : ℚ) ≤ (ki : ℚ) := by exact_mod_cast hk1
  have hk2' : (ki : ℚ) ≤ 1025 := by exact_mod_cast hk2
  obtain ⟨_, h0, h1⟩ := Ln2Hi_facts
  have hkh : |(ki : ℚ) * Ln2Hi.val| ≤ 720 := by
    rw [abs_le]; constructor <;> nlinarith
  have hkH : |(mul (ofInt ki) Ln2Hi).val| ≤ 721 := by
    rw [abs_le] at hkh ⊢
    constructor <;> linarith [ke.1, ke.2, hkh.1, hkh.2]
  have hr2 := sub_rounds _ _ kf hfin
  have hsum : |(mul (ofInt ki) Ln2Hi).val - (sub (logW (ofInt ki) f) f).val| ≤ 722 :=
    le_trans (abs_sub _ _) (by linarith)
  have hfin2 := hr2.finite_of_abs_le (by
    have : (722 : ℚ) ≤ 2 ^ (1000 : Int) := by
      calc (722 : ℚ) ≤ 2 ^ (10 : Int) := by norm_num
        _ ≤ 2 ^ (1000 : Int) := zpow_le_zpow_right₀ (by norm_num) (by norm_num)
    linarith)
  have hL := hr2.abs_err hfin2
  rw [e53] at hL
  rw [logCore_eq]
  refine ⟨hfin2, ?_⟩
  rw [abs_le] at hL hVv ⊢
  constructor <;> linarith [hL.1, hL.2, hVv.1, hVv.2, ke.1, ke.2]

end F64
end Gotty

namespace Gotty
namespace F64

/-- Finite positive floats are ordered as their `Frexp` pairs are,
exponent first. -/
theorem Frexp_order (x y : F64) (hx : x.finite = true) (hy : y.finite = true)
    (hpos : 0 < x.key) (hxy : x.key ≤ y.key) :
    (Frexp x).2 < (Frexp y).2 ∨
      ((Frexp x).2 = (Frexp y).2 ∧ (Frexp x).1.key ≤ (Frexp y).1.key) := by
  have hposy : 0 < y.key := lt_of_lt_of_le hpos hxy
  obtain ⟨_, xh, xo, xv⟩ := Frexp_pos x hx hpos
  obtain ⟨_, yh, yo, yv⟩ := Frexp_pos y hy hposy
  have hv := (key_le_iff _ _).mp hxy
  have a1 : 1 / 2 ≤ (Frexp x).1.val := by
    have := (key_le_iff _ _).mp xh
    rwa [val_half] at this
  have b2 : (Frexp y).1.val < 1 := by
    have := (key_lt_iff _ _).mp yo
    rwa [val_ofInt_one] at this
  rcases lt_trichotomy (Frexp x).2 (Frexp y).2 with h | h | h
  · exact Or.inl h
  · right
    refine ⟨h, ?_⟩
    rw [key_le_iff]
    rw [xv, yv, h] at hv
    exact le_of_mul_le_mul_right hv (zpow_pos (by norm_num) _)
  · exfalso
    have p1 : (0 : ℚ) < 2 ^ (Frexp y).2 := zpow_pos (by norm_num) _
    have p2 : (2 : ℚ) ^ ((Frexp y).2 + 1) ≤ 2 ^ (Frexp x).2 :=
      zpow_le_zpow_right₀ (by norm_num) (by omega)
    rw [zpow_add₀ (by norm_num : (2 : ℚ) ≠ 0), zpow_one] at p2
    have p3 : (Frexp y).1.val * 2 ^ (Frexp y).2 < 2 ^ (Frexp y).2 := by nlinarith
    have p4 : 2 ^ (Frexp x).2 / 2 ≤ (Frexp x).1.val * 2 ^ (Frexp x).2 := by
      have : (0 : ℚ) < 2 ^ (Frexp x).2 := zpow_pos (by norm_num) _
      nlinarith
    rw [xv, yv] at hv
    linarith

theorem FB_lo : FB.lo = zero false := by decide!

theorem Ln2Hi_lower : 69 / 100 ≤ Ln2Hi.val := by
  rw [val_Ln2Hi]; norm_num

/-- A lower bound for `math.Log` on the floats from a threshold on: the
threshold has `Frexp` pair `(frt, E)` with `frt` at least `Sqrt2/2`, and the
exact logarithm at `frt - 1` clears the float `Vs`. -/
theorem Log_lower (x : F64) (hx : x.finite = true) (hpos : 0 < x.key)
    (he0 : 0 ≤ (Frexp x).2) (he1 : (Frexp x).2 ≤ 1024)
    (E : Int) (hE : 0 ≤ E) (frt Vs : F64)
    (hfrt : frt.finite = true) (hfr0 : Sqrt2Half.key ≤ frt.key)
    (hVs : Vs.finite = true) (hV0 : -(1 / 4) ≤ Vs.val)
    (x0 : ℚ) (hx0 : x0 ≤ (sub frt (ofInt 1)).val) (hxn : x0 ≤ 0) (hx1 : 0 < 2 + x0)
    (hG : -Vs.val - (E : ℚ) * Ln2Lo.val + logWEps ≤ logGQ x0)
    (hord : E < (Frexp x).2 ∨ (E = (Frexp x).2 ∧ frt.key ≤ (Frexp x).1.key)) :
    (sub (mul (ofInt E) Ln2Hi) Vs).key ≤ (Log x).key := by
  obtain ⟨ffin, fh, fo, _⟩ := Frexp_pos x hx hpos
  obtain ⟨mA, mB⟩ := log_f_mem (Frexp x).1 ffin fh (le_of_lt fo)
  rw [Log_pos x hx hpos]
  have coarse : ∀ (k : Int) (f : F64), E + 1 ≤ k → k ≤ 1025 → FAB.mem f →
      (sub (mul (ofInt E) Ln2Hi) Vs).key ≤ (logCore (ofInt k) f).key := by
    intro k f hk1 hk2 hf
    obtain ⟨cf, ce⟩ := logCore_coarse k (by omega) hk2 f hf
    obtain ⟨kf, ke⟩ := kHi_facts E (by omega) (by omega)
    apply (sub_rounds _ _ kf hVs).le_float cf
    rw [abs_le] at ce ke
    obtain ⟨_, h0, _⟩ := Ln2Hi_facts
    have hlo := Ln2Hi_lower
    have hk : (E : ℚ) + 1 ≤ k := by exact_mod_cast hk1
    nlinarith [mul_nonneg (sub_nonneg.2 hk) (le_of_lt h0), ce.1, ke.2]
  cases hs : (Frexp x).1.lt Sqrt2Half
  · simp only [Bool.false_eq_true, if_false]
    have hf := mem_FAB_of_FA _ (mA hs)
    rcases hord with h | ⟨h, hk⟩
    · exact coarse _ _ (by omega) (by omega) hf
    · rw [← h]
      refine core_U E (by omega) (by omega) _ hf x0 ?_ hx1 Vs hVs hG
      have := (sub_rounds _ _ hfrt finite_ofInt_one).mono
        (sub_rounds _ _ ffin finite_ofInt_one) (by linarith [(key_le_iff _ _).mp hk])
      exact le_trans hx0 ((key_le_iff _ _).mp this)
  · simp only [if_true]
    have hf := mem_FAB_of_FB _ (mB hs)
    rcases hord with h | ⟨h, hk⟩
    · by_cases h2 : E + 1 = (Frexp x).2
      · have e : (Frexp x).2 - 1 = E := by omega
        rw [e]
        refine core_U E (by omega) (by omega) _ hf x0 ?_ hx1 Vs hVs hG
        have := (mem_val _ _ (mB hs)).1
        rw [FB_lo, val_zero] at this
        linarith
      · exact coarse _ _ (by omega) (by omega) hf
    · exfalso
      have := (lt_iff _ _ (finite_not_nan _ ffin) (finite_not_nan _ Sqrt2Half_finite)).mp hs
      omega

/-- An upper bound for `math.Log` on the floats up to a threshold: the
threshold has `Frexp` pair `(frl, E)`, and the exact logarithm at `frl - 1`
stays under the float `Vp`. -/
theorem Log_upper (x : F64) (hx : x.finite = true) (hpos : 0 < x.key)
    (he0 : 0 ≤ (Frexp x).2)
    (E : Int) (hE1 : E ≤ 1024) (frl Vp : F64)
    (hfrl : frl.finite = true)
    (hVp : Vp.finite = true) (hV0 : Vp.val ≤ 1 / 4)
    (x0 : ℚ) (hx0 : (sub frl (ofInt 1)).val ≤ x0)
    (hG : logGQ x0 ≤ -Vp.val - (E : ℚ) * Ln2Lo.val - logWEps)
    (hord : (Frexp x).2 < E ∨ ((Frexp x).2 = E ∧ (Frexp x).1.key ≤ frl.key)) :
    (Log x).key ≤ (sub (mul (ofInt E) Ln2Hi) Vp).key := by
  obtain ⟨ffin, fh, fo, _⟩ := Frexp_pos x hx hpos
  obtain ⟨mA, mB⟩ := log_f_mem (Frexp x).1 ffin fh (le_of_lt fo)
  have hE0 : 0 ≤ E := by rcases hord with h | ⟨h, _⟩ <;> omega
  rw [Log_pos x hx hpos]
  have coarse : ∀ (k : Int) (f : F64), -1 ≤ k → k + 1 ≤ E → FAB.mem f →
      (logCore (ofInt k) f).key ≤ (sub (mul (ofInt E) Ln2Hi) Vp).key := by
    intro k f hk1 hk2 hf
    obtain ⟨cf, ce⟩ := logCore_coarse k hk1 (by omega) f hf
    obtain ⟨kf, ke⟩ := kHi_facts E (by omega) (by omega)
    apply (sub_rounds _ _ kf hVp).float_le cf
    rw [abs_le] at ce ke
    obtain ⟨_, h0, _⟩ := Ln2Hi_facts
    have hlo := Ln2Hi_lower
    have hk : (k : ℚ) + 1 ≤ E := by exact_mod_cast hk2
    nlinarith [mul_nonneg (sub_nonneg.2 hk) (le_of_lt h0), ce.2, ke.1]
  cases hs : (Frexp x).1.lt Sqrt2Half
  · simp only [Bool.false_eq_true, if_false]
    have hf := mem_FAB_of_FA _ (mA hs)
    rcases hord with h | ⟨h, hk⟩
    · exact coarse _ _ (by omega) (by omega) hf
    · rw [h]
      refine core_L E (by omega) (by omega) _ hf x0 ?_ Vp hVp hG
      have := (sub_rounds _ _ ffin finite_ofInt_one).mono
        (sub_rounds _ _ hfrl finite_ofInt_one) (by linarith [(key_le_iff _ _).mp hk])
      exact le_trans ((key_le_iff _ _).mp this) hx0
  · simp only [if_true]
    have hf := mem_FAB_of_FB _ (mB hs)
    rcases hord with h | ⟨h, _⟩
    · exact coarse _ _ (by omega) (by omega) hf
    · exact coarse _ _ (by omega) (by omega) hf

end F64
end Gotty

namespace Gotty
namespace F64

theorem log10QuotI_sound (l : F64) (L : Ivl) (E : Int) (hfin : (log10QuotI L E).fin = true)
    (hl : L.mem l) :
    (log10QuotI L E).mem (div (mul (add (mul l InvLn2) (ofInt E)) Ln2OverLn10) (ofInt 3)) := by
  unfold log10QuotI at hfin ⊢
  obtain ⟨f1, _, _⟩ := idiv_fin_inv _ _ hfin
  obtain ⟨f2, _⟩ := imul_fin_inv _ _ f1
  obtain ⟨f3, _⟩ := iadd_fin_inv _ _ f2
  exact idiv_sound _ _ _ _ hfin
    (imul_sound _ _ _ _ f1
      (iadd_sound2 _ _ _ _ f2 (imul_sound _ _ _ _ f3 hl (mem_pt _)) (mem_pt _)) (mem_pt _))
    (mem_pt _)

theorem log2QuotI_sound (l : F64) (K : Ivl) (hfin : (log2QuotI K).fin = true) (hl : K.mem l) :
    (log2QuotI K).mem (div (mul l Ln2OverLn10) (ofInt 3)) := by
  unfold log2QuotI at hfin ⊢
  obtain ⟨f1, _, _⟩ := idiv_fin_inv _ _ hfin
  exact idiv_sound _ _ _ _ hfin (imul_sound _ _ _ _ f1 hl (mem_pt _)) (mem_pt _)

theorem log2_mul_consts :
    (ofInt (-1)).key ≤ (imul ⟨neg Ln2F, zero false⟩ (Ivl.pt InvLn2)).lo.key
    ∧ (imul ⟨neg Ln2F, zero false⟩ (Ivl.pt InvLn2)).hi.key ≤ 0
    ∧ (ofDec 5 10).key < Sqrt2Half.key
    ∧ (idiv (logCoreI ⟨ofInt 0, ofInt 1025⟩ FAB) (Ivl.pt (Log (ofInt 1024)))).fin = true
    ∧ (log2QuotI ⟨ofInt 0, ofInt 1024⟩).fin = true
    ∧ (ofInt (-1)).val = -1 := by
  refine ⟨by decide!, by decide!, by decide!, by decide!, by decide!, ?_⟩
  exact (ofInt_val_small (-1) (by norm_num) (by norm_num)).1

/-- `math.Log2` of a float that is at least one lies between the exponent of
`Frexp` minus one and that exponent. -/
theorem Log2_bounds (x : F64) (hx : x.finite = true) (h1 : (ofInt 1).key ≤ x.key) :
    (ofInt ((Frexp x).2 - 1)).key ≤ (Log2 x).key ∧ (Log2 x).key ≤ (ofInt (Frexp x).2).key := by
  obtain ⟨c1, _, _, _, _, _, _, _⟩ := log2_consts
  obtain ⟨d1, d2, _, _, _, d6⟩ := log2_mul_consts
  have hpos : 0 < x.key := lt_of_lt_of_le key_one_pos h1
  obtain ⟨ffin, fh, fo, _⟩ := Frexp_pos x hx hpos
  obtain ⟨e1, e2⟩ := Frexp_exp_ge_one x hx h1
  unfold Log2
  simp only
  have hn := finite_not_nan _ ffin
  have hhn := finite_not_nan _ finite_half
  cases hs : (Frexp x).1.eq (ofDec 5 10)
  · simp only [Bool.false_eq_true, if_false]
    have hne : (Frexp x).1.key ≠ (ofDec 5 10).key := by
      intro hc
      have := (eq_iff _ _ hn hhn).mpr hc
      rw [hs] at this
      exact absurd this (by simp)
    have hL := Log_frac (Frexp x).1 ffin (lt_of_le_of_ne fh (Ne.symm hne)) fo
    have mL : (Ivl.mk (neg Ln2F) (zero false)).mem (Log (Frexp x).1) :=
      ⟨hL.2.1, by rw [key_zero]; exact hL.2.2⟩
    have mM := imul_sound _ _ _ _ c1 mL (mem_pt InvLn2)
    have mf := finite_of_mem _ _ c1 mM
    have v1 : (-1 : ℚ) ≤ (mul (Log (Frexp x).1) InvLn2).val := by
      have := (key_le_iff _ _).mp (le_trans d1 mM.1)
      rwa [d6] at this
    have v2 : (mul (Log (Frexp x).1) InvLn2).val ≤ 0 := by
      have : (mul (Log (Frexp x).1) InvLn2).key ≤ (zero false).key := by
        rw [key_zero]; exact le_trans mM.2 d2
      have := (key_le_iff _ _).mp this
      rwa [val_zero] at this
    obtain ⟨a1, a2, _⟩ := ofInt_val_small (Frexp x).2 (by omega) (by omega)
    obtain ⟨b1, b2, _⟩ := ofInt_val_small ((Frexp x).2 - 1) (by omega) (by omega)
    have r := add_rounds _ _ mf a2
    constructor
    · apply r.float_le b2
      rw [b1, a1]; push_cast; linarith
    · apply r.le_float a2
      linarith
  · simp only [if_true]
    exact ⟨le_rfl, ofInt_mono _ _ (by omega)⟩

end F64

open F64

/-- A finite quotient that is at least `j` gives an exponent of at least `j`. -/
theorem stage_ge (d : F64) (hfin : d.finite = true) (j : Int) (hj0 : 0 ≤ j) (hj : j ≤ 8)
    (h : (ofInt j).key ≤ d.key) :
    ∃ e : Int, F64.toInt (F64.Min (F64.Floor d) (ofInt 8)) = some e ∧ j ≤ e ∧ e ≤ 8 := by
  obtain ⟨_, _, k0⟩ := ofInt_zero_nan
  have d0 : 0 ≤ d.key := by
    have := ofInt_mono 0 j hj0
    rw [k0] at this
    exact le_trans this h
  obtain ⟨e, he, e0, e8, hv⟩ := exponent_spec d (finite_not_nan d hfin) d0
  obtain ⟨a1, _, _⟩ := ofInt_val_small j (by omega) (by omega)
  have hval : (j : ℚ) ≤ d.val := by
    have := (key_le_iff _ _).mp h
    rwa [a1] at this
  have : j ≤ ⌊d.val⌋ := Int.le_floor.mpr hval
  have := hv hfin
  exact ⟨e, he, by omega, e8⟩

/-- A finite quotient below `j` gives an exponent below `j`. -/
theorem stage_lt (d : F64) (hfin : d.finite = true) (d0 : 0 ≤ d.key) (j : Int) (hj0 : 0 ≤ j)
    (hj : j ≤ 8) (h : d.key < (ofInt j).key) :
    ∃ e : Int, F64.toInt (F64.Min (F64.Floor d) (ofInt 8)) = some e ∧ 0 ≤ e ∧ e < j := by
  obtain ⟨e, he, e0, e8, hv⟩ := exponent_spec d (finite_not_nan d hfin) d0
  obtain ⟨a1, _, _⟩ := ofInt_val_small j (by omega) (by omega)
  have hval : d.val < (j : ℚ) := by
    have := (key_lt_iff _ _).mp h
    rwa [a1] at this
  have : ⌊d.val⌋ < j := Int.floor_lt.mpr hval
  have := hv hfin
  exact ⟨e, he, e0, by omega⟩

/-- The quotient that `Format` floors is finite and not negative for a finite
magnitude of at least one. -/
theorem quot_facts (b : F64) (hb : b.finite = true) (h1 : (ofInt 1).key ≤ b.key) :
    ((F64.div (Log b) (Log (ofInt 1024))).finite = true
      ∧ 0 ≤ (F64.div (Log b) (Log (ofInt 1024))).key)
    ∧ ((F64.div (Log10 b) (ofInt 3)).finite = true
      ∧ 0 ≤ (F64.div (Log10 b) (ofInt 3)).key) := by
  obtain ⟨_, _, _, d4, d5, _⟩ := log2_mul_consts
  obtain ⟨c1, c2, c3, c4⟩ := log1024_facts
  obtain ⟨e1, e2⟩ := Frexp_exp_ge_one b hb h1
  constructor
  · obtain ⟨f1, _, _⟩ := idiv_fin_inv _ _ d4
    have m1 := Log_piece b hb h1 0 1025 (by omega) (by omega) f1
    have m3 := idiv_sound _ _ _ _ d4 m1 (mem_pt (Log (ofInt 1024)))
    obtain ⟨l1, l2⟩ := Log_ge_one b hb h1
    exact ⟨finite_of_mem _ _ d4 m3, (div_nonneg_key _ _ l1 l2 c1 c2).2⟩
  · have m := log2QuotI_sound _ _ d5 (Log2_ge_one b hb h1)
    obtain ⟨l1, l2⟩ := Log10_ge_one b hb h1
    exact ⟨finite_of_mem _ _ d5 m, (div_nonneg_key _ _ l1 l2 c3 c4).2⟩

/-- Binary mode, from a threshold on: the exponent is at least `j`. -/
theorem bin_ge (b : F64) (o : Options) (hb : b.finite = true) (hbin : o.Binary = true)
    (j E : Int) (hj0 : 0 ≤ j) (hj : j ≤ 8) (u fru Vs : F64) (v x0 : ℚ)
    (hC : u.finite = true ∧ (ofInt 1).key ≤ u.key ∧ Frexp u = (fru, E) ∧ fru.finite = true
        ∧ Sqrt2Half.key ≤ fru.key ∧ Vs.finite = true
        ∧ (sub (mul (ofInt E) Ln2Hi) Vs).finite = true
        ∧ (ofInt j).key ≤ (F64.div (sub (mul (ofInt E) Ln2Hi) Vs) (Log (ofInt 1024))).key)
    (hv : Vs.val = v) (hx : (sub fru (ofInt 1)).val = x0)
    (hV0 : -(1 / 4) ≤ v) (hxn : x0 ≤ 0) (hx1 : 0 < 2 + x0)
    (hG : -v - (E : ℚ) * Ln2Lo.val + logWEps ≤ logGQ x0)
    (hub : u.key ≤ b.key) :
    ∃ e : Int, exponentOf b o = some e ∧ j ≤ e ∧ e ≤ 8 := by
  obtain ⟨u1, u2, u3, u4, u5, u6, u7, u8⟩ := hC
  obtain ⟨c1, c2, c3, c4⟩ := log1024_facts
  have h1 : (ofInt 1).key ≤ b.key := le_trans u2 hub
  have hpos : 0 < b.key := lt_of_lt_of_le key_one_pos h1
  have hupos : 0 < u.key := lt_of_lt_of_le key_one_pos u2
  obtain ⟨e1, e2⟩ := Frexp_exp_ge_one b hb h1
  have eu := Frexp_exp_ge_one u u1 u2
  have ho := Frexp_order u b u1 hb hupos hub
  rw [u3] at ho eu
  simp only at ho eu
  have hL := Log_lower b hb hpos (by omega) e2 E (by omega) fru Vs u4 u5 u6 (by rw [hv]; exact hV0)
    x0 (le_of_eq hx.symm) hxn hx1 (by rw [hv]; exact hG) ho
  obtain ⟨⟨q1, q2⟩, _⟩ := quot_facts b hb h1
  obtain ⟨l1, _⟩ := Log_ge_one b hb h1
  have hm : (Log (ofInt 1024)).mant ≠ 0 := by
    have := mant_pos_of_key_pos _ c2
    omega
  have hcv := val_pos_of_key_pos _ c2
  have hd := (div_rounds _ _ u7 c1 hm).mono (div_rounds _ _ l1 c1 hm)
    (div_le_div_of_nonneg_right ((key_le_iff _ _).mp hL) (le_of_lt hcv))
  rw [exponentOf_eq, hbin]
  simp only [if_true]
  exact stage_ge _ q1 j hj0 hj (le_trans u8 hd)

/-- Binary mode, up to a threshold: the exponent is below `j`. -/
theorem bin_lt (b : F64) (o : Options) (hb : b.finite = true) (hbin : o.Binary = true)
    (h1 : (ofInt 1).key ≤ b.key)
    (j E : Int) (hj0 : 0 ≤ j) (hj : j ≤ 8) (l frl Vp : F64) (v x0 : ℚ)
    (hC : l.finite = true ∧ (ofInt 1).key ≤ l.key ∧ Frexp l = (frl, E) ∧ frl.finite = true
        ∧ Vp.finite = true
        ∧ (sub (mul (ofInt E) Ln2Hi) Vp).finite = true
        ∧ (F64.div (sub (mul (ofInt E) Ln2Hi) Vp) (Log (ofInt 1024))).key < (ofInt j).key)
    (hv : Vp.val = v) (hx : (sub frl (ofInt 1)).val = x0)
    (hV0 : v ≤ 1 / 4)
    (hG : logGQ x0 ≤ -v - (E : ℚ) * Ln2Lo.val - logWEps)
    (hbl : b.key ≤ l.key) :
    ∃ e : Int, exponentOf b o = some e ∧ 0 ≤ e ∧ e < j := by
  obtain ⟨u1, u2, u3, u4, u6, u7, u8⟩ := hC
  obtain ⟨c1, c2, c3, c4⟩ := log1024_facts
  have hpos : 0 < b.key := lt_of_lt_of_le key_one_pos h1
  obtain ⟨e1, e2⟩ := Frexp_exp_ge_one b hb h1
  have eu := Frexp_exp_ge_one l u1 u2
  have ho := Frexp_order b l hb u1 hpos hbl
  rw [u3] at ho eu
  simp only at ho eu
  have hL := Log_upper b hb hpos (by omega) E (by omega) frl Vp u4 u6 (by rw [hv]; exact hV0)
    x0 (le_of_eq hx) (by rw [hv]; exact hG) ho
  obtain ⟨⟨q1, q2⟩, _⟩ := quot_facts b hb h1
  obtain ⟨l1, _⟩ := Log_ge_one b hb h1
  have hm : (Log (ofInt 1024)).mant ≠ 0 := by
    have := mant_pos_of_key_pos _ c2
    omega
  have hcv := val_pos_of_key_pos _ c2
  have hd := (div_rounds _ _ l1 c1 hm).mono (div_rounds _ _ u7 c1 hm)
    (div_le_div_of_nonneg_right ((key_le_iff _ _).mp hL) (le_of_lt hcv))
  rw [exponentOf_eq, hbin]
  simp only [if_true]
  exact stage_lt _ q1 q2 j hj0 hj (lt_of_le_of_lt hd u8)

/-- Decimal mode, from a threshold on: the exponent is at least `j`. -/
theorem dec_ge (b : F64) (o : Options) (hb : b.finite = true) (hdec : o.Binary = false)
    (j E : Int) (hj0 : 0 ≤ j) (hj : j ≤ 8) (u fru Vs : F64) (v x0 : ℚ)
    (hC : u.finite = true ∧ (ofInt 1).key ≤ u.key ∧ Frexp u = (fru, E) ∧ fru.finite = true
        ∧ Sqrt2Half.key ≤ fru.key ∧ Vs.finite = true
        ∧ (log10QuotI ⟨sub (mul (ofInt 0) Ln2Hi) Vs, zero false⟩ E).fin = true
        ∧ (ofInt j).key ≤ (log10QuotI ⟨sub (mul (ofInt 0) Ln2Hi) Vs, zero false⟩ E).lo.key
        ∧ (log2QuotI ⟨ofInt E, ofInt 1024⟩).fin = true
        ∧ (ofInt j).key ≤ (log2QuotI ⟨ofInt E, ofInt 1024⟩).lo.key)
    (hv : Vs.val = v) (hx : (sub fru (ofInt 1)).val = x0)
    (hV0 : -(1 / 4) ≤ v) (hxn : x0 ≤ 0) (hx1 : 0 < 2 + x0)
    (hG : -v + logWEps ≤ logGQ x0)
    (hub : u.key ≤ b.key) :
    ∃ e : Int, exponentOf b o = some e ∧ j ≤ e ∧ e ≤ 8 := by
  obtain ⟨u1, u2, u3, u4, u5, u6, u7, u8, u9, u10⟩ := hC
  obtain ⟨_, _, d3, _, _, _⟩ := log2_mul_consts
  have h1 : (ofInt 1).key ≤ b.key := le_trans u2 hub
  have hpos : 0 < b.key := lt_of_lt_of_le key_one_pos h1
  have hupos : 0 < u.key := lt_of_lt_of_le key_one_pos u2
  obtain ⟨e1, e2⟩ := Frexp_exp_ge_one b hb h1
  have eu := Frexp_exp_ge_one u u1 u2
  have ho := Frexp_order u b u1 hb hupos hub
  rw [u3] at ho eu
  simp only at ho eu
  obtain ⟨ffin, fh, fo, _⟩ := Frexp_pos b hb hpos
  obtain ⟨_, ⟨q1, q2⟩⟩ := quot_facts b hb h1
  rw [exponentOf_eq, hdec]
  simp only [Bool.false_eq_true, if_false]
  refine stage_ge _ q1 j hj0 hj ?_
  rcases ho with h | ⟨h, hk⟩
  · have l2 := Log2_bounds b hb h1
    have m : (Ivl.mk (ofInt E) (ofInt 1024)).mem (Log2 b) :=
      ⟨le_trans (ofInt_mono _ _ (by omega)) l2.1, (Log2_ge_one b hb h1).2⟩
    have := log2QuotI_sound _ _ u9 m
    exact le_trans u10 this.1
  · have hlt : (ofDec 5 10).key < (Frexp b).1.key := lt_of_lt_of_le d3 (le_trans u5 hk)
    have hne : (Frexp b).1.eq (ofDec 5 10) = false := by
      rw [Bool.eq_false_iff, Ne, eq_iff _ _ (finite_not_nan _ ffin) (finite_not_nan _ finite_half)]
      omega
    have hF := Frexp_frac (Frexp b).1 ffin fh fo
    have hfpos : 0 < (Frexp b).1.key := lt_trans key_half_pos hlt
    have hL := Log_lower (Frexp b).1 ffin hfpos (by rw [hF]) (by rw [hF]; norm_num) 0 le_rfl
      fru Vs u4 u5 u6 (by rw [hv]; exact hV0) x0 (le_of_eq hx.symm) hxn hx1
      (by rw [hv]; push_cast; linarith) (Or.inr ⟨by rw [hF], by rw [hF]; exact hk⟩)
    have hL0 := (Log_frac (Frexp b).1 ffin hlt fo).2.2
    have m : (Ivl.mk (sub (mul (ofInt 0) Ln2Hi) Vs) (zero false)).mem (Log (Frexp b).1) :=
      ⟨hL, by rw [key_zero]; exact hL0⟩
    have := log10QuotI_sound _ _ E u7 m
    have hq : F64.div (Log10 b) (ofInt 3)
        = F64.div (mul (add (mul (Log (Frexp b).1) InvLn2) (ofInt E)) Ln2OverLn10) (ofInt 3) := by
      unfold Log10 Log2
      simp only [hne, Bool.false_eq_true, if_false, h]
    rw [hq]
    exact le_trans u8 this.1

/-- Decimal mode, up to a threshold: the exponent is below `j`. -/
theorem dec_lt (b : F64) (o : Options) (hb : b.finite = true) (hdec : o.Binary = false)
    (h1 : (ofInt 1).key ≤ b.key)
    (j E : Int) (hj0 : 0 ≤ j) (hj : j ≤ 8) (l frl Vp : F64) (v x0 : ℚ)
    (hC : l.finite = true ∧ (ofInt 1).key ≤ l.key ∧ Frexp l = (frl, E) ∧ frl.finite = true
        ∧ Vp.finite = true
        ∧ (log10QuotI ⟨neg Ln2F, sub (mul (ofInt 0) Ln2Hi) Vp⟩ E).fin = true
        ∧ (log10QuotI ⟨neg Ln2F, sub (mul (ofInt 0) Ln2Hi) Vp⟩ E).hi.key < (ofInt j).key
        ∧ (log2QuotI ⟨ofInt 0, ofInt (E - 1)⟩).fin = true
        ∧ (log2QuotI ⟨ofInt 0, ofInt (E - 1)⟩).hi.key < (ofInt j).key)
    (hv : Vp.val = v) (hx : (sub frl (ofInt 1)).val = x0)
    (hV0 : v ≤ 1 / 4)
    (hG : logGQ x0 ≤ -v - logWEps)
    (hbl : b.key ≤ l.key) :
    ∃ e : Int, exponentOf b o = some e ∧ 0 ≤ e ∧ e < j := by
  obtain ⟨u1, u2, u3, u4, u6, u7, u8, u9, u10⟩ := hC
  have hpos : 0 < b.key := lt_of_lt_of_le key_one_pos h1
  obtain ⟨e1, e2⟩ := Frexp_exp_ge_one b hb h1
  have eu := Frexp_exp_ge_one l u1 u2
  have ho := Frexp_order b l hb u1 hpos hbl
  rw [u3] at ho eu
  simp only at ho eu
  obtain ⟨ffin, fh, fo, _⟩ := Frexp_pos b hb hpos
  obtain ⟨_, ⟨q1, q2⟩⟩ := quot_facts b hb h1
  rw [exponentOf_eq, hdec]
  simp only [Bool.false_eq_true, if_false]
  refine stage_lt _ q1 q2 j hj0 hj ?_
  have l2 := Log2_bounds b hb h1
  have low : (Frexp b).2 ≤ E - 1 ∨ (Frexp b).1.eq (ofDec 5 10) = true →
      (F64.div (Log10 b) (ofInt 3)).key < (ofInt j).key := by
    intro hc
    have m : (Ivl.mk (ofInt 0) (ofInt (E - 1))).mem (Log2 b) := by
      refine ⟨(Log2_ge_one b hb h1).1, ?_⟩
      rcases hc with hc | hc
      · exact le_trans l2.2 (ofInt_mono _ _ hc)
      · have : Log2 b = ofInt ((Frexp b).2 - 1) := by
          unfold Log2
          simp only [hc, if_true]
        rw [this]
        rcases ho with h | ⟨h, _⟩
        · exact ofInt_mono _ _ (by omega)
        · exact ofInt_mono _ _ (by omega)
    have := log2QuotI_sound _ _ u9 m
    unfold Log10
    exact lt_of_le_of_lt this.2 u10
  rcases ho with h | ⟨h, hk⟩
  · exact low (Or.inl (by omega))
  · cases hs : (Frexp b).1.eq (ofDec 5 10)
    · have hne : (Frexp b).1.key ≠ (ofDec 5 10).key := by
        intro hc
        have := (eq_iff _ _ (finite_not_nan _ ffin) (finite_not_nan _ finite_half)).mpr hc
        rw [hs] at this
        exact absurd this (by simp)
      have hlt : (ofDec 5 10).key < (Frexp b).1.key := lt_of_le_of_ne fh (Ne.symm hne)
      have hF := Frexp_frac (Frexp b).1 ffin fh fo
      have hfpos : 0 < (Frexp b).1.key := lt_trans key_half_pos hlt
      have hL := Log_upper (Frexp b).1 ffin hfpos (by rw [hF]) 0 (by norm_num)
        frl Vp u4 u6 (by rw [hv]; exact hV0) x0 (le_of_eq hx)
        (by rw [hv]; push_cast; linarith) (Or.inr ⟨by rw [hF], by rw [hF]; exact hk⟩)
      have hL0 := (Log_frac (Frexp b).1 ffin hlt fo).2.1
      have m : (Ivl.mk (neg Ln2F) (sub (mul (ofInt 0) Ln2Hi) Vp)).mem (Log (Frexp b).1) :=
        ⟨hL0, hL⟩
      have := log10QuotI_sound _ _ E u7 m
      have hq : F64.div (Log10 b) (ofInt 3)
          = F64.div (mul (add (mul (Log (Frexp b).1) InvLn2) (ofInt E)) Ln2OverLn10) (ofInt 3) := by
        unfold Log10 Log2
        simp only [hs, Bool.false_eq_true, if_false, h]
      rw [hq]
      exact lt_of_le_of_lt this.2 u8
    · exact low (Or.inr hs)

end Gotty

namespace Gotty
open F64

/-- The exponent around a cut: three consecutive floats `l`, `g`, `u`, the
bounds of the analysis below `l` and from `u` on, and the float `g` evaluated. -/

theorem cut_spec (b : F64) (o : Options) (hb : b.finite = true) (j : Int)
    (l g u t : F64) (eg : Int)
    (hk : l.key + 1 = g.key ∧ g.key + 1 = u.key ∧ 0 < g.key
      ∧ (t = g ∧ j ≤ eg ∨ t = u ∧ eg < j) ∧ 0 ≤ eg ∧ eg ≤ 8)
    (hg : exponentOf g o = some eg)
    (hge : u.key ≤ b.key → ∃ e : Int, exponentOf b o = some e ∧ j ≤ e ∧ e ≤ 8)
    (hlt : b.key ≤ l.key → ∃ e : Int, exponentOf b o = some e ∧ 0 ≤ e ∧ e < j)
    (hj0 : 0 ≤ j) (hj : j ≤ 8) :
    ∃ e : Int, exponentOf b o = some e ∧ 0 ≤ e ∧ e ≤ 8 ∧ (j ≤ e ↔ t.key ≤ b.key) := by
  obtain ⟨k1, k2, k3, k4, k5, k6⟩ := hk
  rcases lt_trichotomy b.key g.key with h | h | h
  · obtain ⟨e, he, e0, e1⟩ := hlt (by omega)
    refine ⟨e, he, e0, by omega, ?_⟩
    rcases k4 with ⟨rfl, _⟩ | ⟨rfl, _⟩
    · constructor <;> intro <;> omega
    · constructor <;> intro <;> omega
  · have hbg : b = g := by
      have s1 := sign_of_key_pos b (by omega)
      have s2 := sign_of_key_pos g k3
      have m1 := mkey_eq_natAbs b
      have m2 := mkey_eq_natAbs g
      have m3 : (b.mkey : Int) = g.mkey := by rw [m1, m2, h]
      exact ext_of_key b g (by rw [s1, s2]) (by exact_mod_cast m3)
    subst hbg
    refine ⟨eg, hg, k5, k6, ?_⟩
    rcases k4 with ⟨rfl, h4⟩ | ⟨rfl, h4⟩
    · constructor <;> intro <;> omega
    · constructor <;> intro <;> omega
  · obtain ⟨e, he, e0, e1⟩ := hge (by omega)
    refine ⟨e, he, by omega, e1, ?_⟩
    rcases k4 with ⟨rfl, _⟩ | ⟨rfl, _⟩
    · constructor <;> intro <;> omega
    · constructor <;> intro <;> omega

/-- The binary cuts: for each `j` from 1 to 8 the exponent is at least `j`
exactly from the float `cut true j` on. -/
theorem cut_bin (b : F64) (o : Options) (hb : b.finite = true) (h1 : (ofInt 1).key ≤ b.key)
    (hbin : o.Binary = true) :
    (∃ e : Int, exponentOf b o = some e ∧ 0 ≤ e ∧ e ≤ 8 ∧
       (1 ≤ e ↔ (mk3 false 1032 4503599627370492).key ≤ b.key)) ∧
    (∃ e : Int, exponentOf b o = some e ∧ 0 ≤ e ∧ e ≤ 8 ∧
       (2 ≤ e ↔ (mk3 false 1042 4503599627370488).key ≤ b.key)) ∧
    (∃ e : Int, exponentOf b o = some e ∧ 0 ≤ e ∧ e ≤ 8 ∧
       (3 ≤ e ↔ (mk3 false 1052 4503599627370472).key ≤ b.key)) ∧
    (∃ e : Int, exponentOf b o = some e ∧ 0 ≤ e ∧ e ≤ 8 ∧
       (4 ≤ e ↔ (mk3 false 1062 4503599627370480).key ≤ b.key)) ∧
    (∃ e : Int, exponentOf b o = some e ∧ 0 ≤ e ∧ e ≤ 8 ∧
       (5 ≤ e ↔ (mk3 false 1072 4503599627370472).key ≤ b.key)) ∧
    (∃ e : Int, exponentOf b o = some e ∧ 0 ≤ e ∧ e ≤ 8 ∧
       (6 ≤ e ↔ (mk3 false 1082 4503599627370448).key ≤ b.key)) ∧
    (∃ e : Int, exponentOf b o = some e ∧ 0 ≤ e ∧ e ≤ 8 ∧
       (7 ≤ e ↔ (mk3 false 1092 4503599627370488).key ≤ b.key)) ∧
    (∃ e : Int, exponentOf b o = some e ∧ 0 ≤ e ∧ e ≤ 8 ∧
       (8 ≤ e ↔ (mk3 false 1102 4503599627370464).key ≤ b.key)) := by
  refine ⟨?_, ?_, ?_, ?_, ?_, ?_, ?_, ?_⟩
  · have vs : (neg (mk3 false 994 110179869786113)).val = (-(4613779497156609 / 2417851639229258349412352) : ℚ) := by
      rw [neg_val, val_mk3_normal _ _ (by norm_num) (by norm_num) (by norm_num [F64.hidden])]
      norm_num [F64.hidden]
    have vp : (neg (mk3 false 994 110179869786112)).val = (-(4296917 / 2251799813685248) : ℚ) := by
      rw [neg_val, val_mk3_normal _ _ (by norm_num) (by norm_num) (by norm_num [F64.hidden])]
      norm_num [F64.hidden]
    have xu : (sub (mk3 false 1022 4503599627370493) (ofInt 1)).val = (-(3 / 9007199254740992) : ℚ) := by
      rw [show sub (mk3 false 1022 4503599627370493) (ofInt 1) = neg (mk3 false 971 2251799813685248) from by decide!, neg_val,
        val_mk3_normal _ _ (by norm_num) (by norm_num) (by norm_num [F64.hidden])]
      norm_num [F64.hidden]
    have xl : (sub (mk3 false 1022 4503599627370491) (ofInt 1)).val = (-(5 / 9007199254740992) : ℚ) := by
      rw [show sub (mk3 false 1022 4503599627370491) (ofInt 1) = neg (mk3 false 972 1125899906842624) from by decide!, neg_val,
        val_mk3_normal _ _ (by norm_num) (by norm_num) (by norm_num [F64.hidden])]
      norm_num [F64.hidden]
    have gu : -(-(4613779497156609 / 2417851639229258349412352) : ℚ) - ((10 : Int) : ℚ) * Ln2Lo.val + logWEps ≤ logGQ (-(3 / 9007199254740992) : ℚ) := by
      unfold logGQ logRQ logWEps
      rw [L1_val, L2_val, L3_val, L4_val, L5_val, L6_val, L7_val, val_Ln2Lo]
      norm_num
    have gl : logGQ (-(5 / 9007199254740992) : ℚ) ≤ -(-(4296917 / 2251799813685248) : ℚ) - ((10 : Int) : ℚ) * Ln2Lo.val - logWEps := by
      unfold logGQ logRQ logWEps
      rw [L1_val, L2_val, L3_val, L4_val, L5_val, L6_val, L7_val, val_Ln2Lo]
      norm_num
    refine cut_spec b o hb 1 (mk3 false 1032 4503599627370491) (mk3 false 1032 4503599627370492) (mk3 false 1032 4503599627370493) (mk3 false 1032 4503599627370492) 1 (by decide!) ?_ ?_ ?_ (by norm_num) (by norm_num)
    · rw [exponentOf_eq, hbin]
      simp only [if_true]
      decide!
    · intro h
      exact bin_ge b o hb hbin 1 10 (by norm_num) (by norm_num) (mk3 false 1032 4503599627370493) (mk3 false 1022 4503599627370493) (neg (mk3 false 994 110179869786113)) _ _ (by decide!) vs xu
        (by norm_num) (by norm_num) (by norm_num) gu h
    · intro h
      exact bin_lt b o hb hbin h1 1 10 (by norm_num) (by norm_num) (mk3 false 1032 4503599627370491) (mk3 false 1022 4503599627370491) (neg (mk3 false 994 110179869786112)) _ _ (by decide!) vp xl
        (by norm_num) gl h
  · have vs : (neg (mk3 false 995 110179869786113)).val = (-(4613779497156609 / 1208925819614629174706176) : ℚ) := by
      rw [neg_val, val_mk3_normal _ _ (by norm_num) (by norm_num) (by norm_num [F64.hidden])]
      norm_num [F64.hidden]
    have vp : (neg (mk3 false 995 110179869786112)).val = (-(4296917 / 1125899906842624) : ℚ) := by
      rw [neg_val, val_mk3_normal _ _ (by norm_num) (by norm_num) (by norm_num [F64.hidden])]
      norm_num [F64.hidden]
    have xu : (sub (mk3 false 1022 4503599627370489) (ofInt 1)).val = (-(7 / 9007199254740992) : ℚ) := by
      rw [show sub (mk3 false 1022 4503599627370489) (ofInt 1) = neg (mk3 false 972 3377699720527872) from by decide!, neg_val,
        val_mk3_normal _ _ (by norm_num) (by norm_num) (by norm_num [F64.hidden])]
      norm_num [F64.hidden]
    have xl : (sub (mk3 false 1022 4503599627370487) (ofInt 1)).val = (-(9 / 9007199254740992) : ℚ) := by
      rw [show sub (mk3 false 1022 4503599627370487) (ofInt 1) = neg (mk3 false 973 562949953421312) from by decide!, neg_val,
        val_mk3_normal _ _ (by norm_num) (by norm_num) (by norm_num [F64.hidden])]
      norm_num [F64.hidden]
    have gu : -(-(4613779497156609 / 1208925819614629174706176) : ℚ) - ((20 : Int) : ℚ) * Ln2Lo.val + logWEps ≤ logGQ (-(7 / 9007199254740992) : ℚ) := by
      unfold logGQ logRQ logWEps
      rw [L1_val, L2_val, L3_val, L4_val, L5_val, L6_val, L7_val, val_Ln2Lo]
      norm_num
    have gl : logGQ (-(9 / 9007199254740992) : ℚ) ≤ -(-(4296917 / 1125899906842624) : ℚ) - ((20 : Int) : ℚ) * Ln2Lo.val - logWEps := by
      unfold logGQ logRQ logWEps
      rw [L1_val, L2_val, L3_val, L4_val, L5_val, L6_val, L7_val, val_Ln2Lo]
      norm_num
    refine cut_spec b o hb 2 (mk3 false 1042 4503599627370487) (mk3 false 1042 4503599627370488) (mk3 false 1042 4503599627370489) (mk3 false 1042 4503599627370488) 2 (by decide!) ?_ ?_ ?_ (by norm_num) (by norm_num)
    · rw [exponentOf_eq, hbin]
      simp only [if_true]
      decide!
    · intro h
      exact bin_ge b o hb hbin 2 20 (by norm_num) (by norm_num) (mk3 false 1042 4503599627370489) (mk3 false 1022 4503599627370489) (neg (mk3 false 995 110179869786113)) _ _ (by decide!) vs xu
        (by norm_num) (by norm_num) (by norm_num) gu h
    · intro h
      exact bin_lt b o hb hbin h1 2 20 (by norm_num) (by norm_num) (mk3 false 1042 4503599627370487) (mk3 false 1022 4503599627370487) (neg (mk3 false 995 110179869786112)) _ _ (by decide!) vp xl
        (by norm_num) gl h
  · have vs : (neg (mk3 false 995 2417068007751680)).val = (-(3222687 / 562949953421312) : ℚ) := by
      rw [neg_val, val_mk3_normal _ _ (by norm_num) (by norm_num) (by norm_num [F64.hidden])]
      norm_num [F64.hidden]
    have vp : (neg (mk3 false 995 2417068007751679)).val = (-(6920667635122175 / 1208925819614629174706176) : ℚ) := by
      rw [neg_val, val_mk3_normal _ _ (by norm_num) (by norm_num) (by norm_num [F64.hidden])]
      norm_num [F64.hidden]
    have xu : (sub (mk3 false 1022 4503599627370473) (ofInt 1)).val = (-(23 / 9007199254740992) : ℚ) := by
      rw [show sub (mk3 false 1022 4503599627370473) (ofInt 1) = neg (mk3 false 974 1970324836974592) from by decide!, neg_val,
        val_mk3_normal _ _ (by norm_num) (by norm_num) (by norm_num [F64.hidden])]
      norm_num [F64.hidden]
    have xl : (sub (mk3 false 1022 4503599627370471) (ofInt 1)).val = (-(25 / 9007199254740992) : ℚ) := by
      rw [show sub (mk3 false 1022 4503599627370471) (ofInt 1) = neg (mk3 false 974 2533274790395904) from by decide!, neg_val,
        val_mk3_normal _ _ (by norm_num) (by norm_num) (by norm_num [F64.hidden])]
      norm_num [F64.hidden]
    have gu : -(-(3222687 / 562949953421312) : ℚ) - ((30 : Int) : ℚ) * Ln2Lo.val + logWEps ≤ logGQ (-(23 / 9007199254740992) : ℚ) := by
      unfold logGQ logRQ logWEps
      rw [L1_val, L2_val, L3_val, L4_val, L5_val, L6_val, L7_val, val_Ln2Lo]
      norm_num
    have gl : logGQ (-(25 / 9007199254740992) : ℚ) ≤ -(-(6920667635122175 / 1208925819614629174706176) : ℚ) - ((30 : Int) : ℚ) * Ln2Lo.val - logWEps := by
      unfold logGQ logRQ logWEps
      rw [L1_val, L2_val, L3_val, L4_val, L5_val, L6_val, L7_val, val_Ln2Lo]
      norm_num
    refine cut_spec b o hb 3 (mk3 false 1052 4503599627370471) (mk3 false 1052 4503599627370472) (mk3 false 1052 4503599627370473) (mk3 false 1052 4503599627370472) 3 (by decide!) ?_ ?_ ?_ (by norm_num) (by norm_num)
    · rw [exponentOf_eq, hbin]
      simp only [if_true]
      decide!
    · intro h
      exact bin_ge b o hb hbin 3 30 (by norm_num) (by norm_num) (mk3 false 1052 4503599627370473) (mk3 false 1022 4503599627370473) (neg (mk3 false 995 2417068007751680)) _ _ (by decide!) vs xu
        (by norm_num) (by norm_num) (by norm_num) gu h
    · intro h
      exact bin_lt b o hb hbin h1 3 30 (by norm_num) (by norm_num) (mk3 false 1052 4503599627370471) (mk3 false 1022 4503599627370471) (neg (mk3 false 995 2417068007751679)) _ _ (by decide!) vp xl
        (by norm_num) gl h
  · have vs : (neg (mk3 false 996 110179869786113)).val = (-(4613779497156609 / 604462909807314587353088) : ℚ) := by
      rw [neg_val, val_mk3_normal _ _ (by norm_num) (by norm_num) (by norm_num [F64.hidden])]
      norm_num [F64.hidden]
    have vp : (neg (mk3 false 996 110179869786112)).val = (-(4296917 / 562949953421312) : ℚ) := by
      rw [neg_val, val_mk3_normal _ _ (by norm_num) (by norm_num) (by norm_num [F64.hidden])]
      norm_num [F64.hidden]
    have xu : (sub (mk3 false 1022 4503599627370481) (ofInt 1)).val = (-(15 / 9007199254740992) : ℚ) := by
      rw [show sub (mk3 false 1022 4503599627370481) (ofInt 1) = neg (mk3 false 973 3940649673949184) from by decide!, neg_val,
        val_mk3_normal _ _ (by norm_num) (by norm_num) (by norm_num [F64.hidden])]
      norm_num [F64.hidden]
    have xl : (sub (mk3 false 1022 4503599627370479) (ofInt 1)).val = (-(17 / 9007199254740992) : ℚ) := by
      rw [show sub (mk3 false 1022 4503599627370479) (ofInt 1) = neg (mk3 false 974 281474976710656) from by decide!, neg_val,
        val_mk3_normal _ _ (by norm_num) (by norm_num) (by norm_num [F64.hidden])]
      norm_num [F64.hidden]
    have gu : -(-(4613779497156609 / 604462909807314587353088) : ℚ) - ((40 : Int) : ℚ) * Ln2Lo.val + logWEps ≤ logGQ (-(15 / 9007199254740992) : ℚ) := by
      unfold logGQ logRQ logWEps
      rw [L1_val, L2_val, L3_val, L4_val, L5_val, L6_val, L7_val, val_Ln2Lo]
      norm_num
    have gl : logGQ (-(17 / 9007199254740992) : ℚ) ≤ -(-(4296917 / 562949953421312) : ℚ) - ((40 : Int) : ℚ) * Ln2Lo.val - logWEps := by
      unfold logGQ logRQ logWEps
      rw [L1_val, L2_val, L3_val, L4_val, L5_val, L6_val, L7_val, val_Ln2Lo]
      norm_num
    refine cut_spec b o hb 4 (mk3 false 1062 4503599627370479) (mk3 false 1062 4503599627370480) (mk3 false 1062 4503599627370481) (mk3 false 1062 4503599627370480) 4 (by decide!) ?_ ?_ ?_ (by norm_num) (by norm_num)
    · rw [exponentOf_eq, hbin]
      simp only [if_true]
      decide!
    · intro h
      exact bin_ge b o hb hbin 4 40 (by norm_num) (by norm_num) (mk3 false 1062 4503599627370481) (mk3 false 1022 4503599627370481) (neg (mk3 false 996 110179869786113)) _ _ (by decide!) vs xu
        (by norm_num) (by norm_num) (by norm_num) gu h
    · intro h
      exact bin_lt b o hb hbin h1 4 40 (by norm_num) (by norm_num) (mk3 false 1062 4503599627370479) (mk3 false 1022 4503599627370479) (neg (mk3 false 996 110179869786112)) _ _ (by decide!) vp xl
        (by norm_num) gl h
  · have vs : (neg (mk3 false 996 1263624475639809)).val = (-(5767224103010305 / 604462909807314587353088) : ℚ) := by
      rw [neg_val, val_mk3_normal _ _ (by norm_num) (by norm_num) (by norm_num [F64.hidden])]
      norm_num [F64.hidden]
    have vp : (neg (mk3 false 996 1263624475639808)).val = (-(2685573 / 281474976710656) : ℚ) := by
      rw [neg_val, val_mk3_normal _ _ (by norm_num) (by norm_num) (by norm_num [F64.hidden])]
      norm_num [F64.hidden]
    have xu : (sub (mk3 false 1022 4503599627370473) (ofInt 1)).val = (-(23 / 9007199254740992) : ℚ) := by
      rw [show sub (mk3 false 1022 4503599627370473) (ofInt 1) = neg (mk3 false 974 1970324836974592) from by decide!, neg_val,
        val_mk3_normal _ _ (by norm_num) (by norm_num) (by norm_num [F64.hidden])]
      norm_num [F64.hidden]
    have xl : (sub (mk3 false 1022 4503599627370471) (ofInt 1)).val = (-(25 / 9007199254740992) : ℚ) := by
      rw [show sub (mk3 false 1022 4503599627370471) (ofInt 1) = neg (mk3 false 974 2533274790395904) from by decide!, neg_val,
        val_mk3_normal _ _ (by norm_num) (by norm_num) (by norm_num [F64.hidden])]
      norm_num [F64.hidden]
    have gu : -(-(5767224103010305 / 604462909807314587353088) : ℚ) - ((50 : Int) : ℚ) * Ln2Lo.val + logWEps ≤ logGQ (-(23 / 9007199254740992) : ℚ) := by
      unfold logGQ logRQ logWEps
      rw [L1_val, L2_val, L3_val, L4_val, L5_val, L6_val, L7_val, val_Ln2Lo]
      norm_num
    have gl : logGQ (-(25 / 9007199254740992) : ℚ) ≤ -(-(2685573 / 281474976710656) : ℚ) - ((50 : Int) : ℚ) * Ln2Lo.val - logWEps := by
      unfold logGQ logRQ logWEps
      rw [L1_val, L2_val, L3_val, L4_val, L5_val, L6_val, L7_val, val_Ln2Lo]
      norm_num
    refine cut_spec b o hb 5 (mk3 false 1072 4503599627370471) (mk3 false 1072 4503599627370472) (mk3 false 1072 4503599627370473) (mk3 false 1072 4503599627370472) 5 (by decide!) ?_ ?_ ?_ (by norm_num) (by norm_num)
    · rw [exponentOf_eq, hbin]
      simp only [if_true]
      decide!
    · intro h
      exact bin_ge b o hb hbin 5 50 (by norm_num) (by norm_num) (mk3 false 1072 4503599627370473) (mk3 false 1022 4503599627370473) (neg (mk3 false 996 1263624475639809)) _ _ (by decide!) vs xu
        (by norm_num) (by norm_num) (by norm_num) gu h
    · intro h
      exact bin_lt b o hb hbin h1 5 50 (by norm_num) (by norm_num) (mk3 false 1072 4503599627370471) (mk3 false 1022 4503599627370471) (neg (mk3 false 996 1263624475639808)) _ _ (by decide!) vp xl
        (by norm_num) gl h
  · have vs : (neg (mk3 false 996 2417068007751680)).val = (-(3222687 / 281474976710656) : ℚ) := by
      rw [neg_val, val_mk3_normal _ _ (by norm_num) (by norm_num) (by norm_num [F64.hidden])]
      norm_num [F64.hidden]
    have vp : (neg (mk3 false 996 2417068007751679)).val = (-(6920667635122175 / 604462909807314587353088) : ℚ) := by
      rw [neg_val, val_mk3_normal _ _ (by norm_num) (by norm_num) (by norm_num [F64.hidden])]
      norm_num [F64.hidden]
    have xu : (sub (mk3 false 1022 4503599627370449) (ofInt 1)).val = (-(47 / 9007199254740992) : ℚ) := by
      rw [show sub (mk3 false 1022 4503599627370449) (ofInt 1) = neg (mk3 false 975 2111062325329920) from by decide!, neg_val,
        val_mk3_normal _ _ (by norm_num) (by norm_num) (by norm_num [F64.hidden])]
      norm_num [F64.hidden]
    have xl : (sub (mk3 false 1022 4503599627370447) (ofInt 1)).val = (-(49 / 9007199254740992) : ℚ) := by
      rw [show sub (mk3 false 1022 4503599627370447) (ofInt 1) = neg (mk3 false 975 2392537302040576) from by decide!, neg_val,
        val_mk3_normal _ _ (by norm_num) (by norm_num) (by norm_num [F64.hidden])]
      norm_num [F64.hidden]
    have gu : -(-(3222687 / 281474976710656) : ℚ) - ((60 : Int) : ℚ) * Ln2Lo.val + logWEps ≤ logGQ (-(47 / 9007199254740992) : ℚ) := by
      unfold logGQ logRQ logWEps
      rw [L1_val, L2_val, L3_val, L4_val, L5_val, L6_val, L7_val, val_Ln2Lo]
      norm_num
    have gl : logGQ (-(49 / 9007199254740992) : ℚ) ≤ -(-(6920667635122175 / 604462909807314587353088) : ℚ) - ((60 : Int) : ℚ) * Ln2Lo.val - logWEps := by
      unfold logGQ logRQ logWEps
      rw [L1_val, L2_val, L3_val, L4_val, L5_val, L6_val, L7_val, val_Ln2Lo]
      norm_num
    refine cut_spec b o hb 6 (mk3 false 1082 4503599627370447) (mk3 false 1082 4503599627370448) (mk3 false 1082 4503599627370449) (mk3 false 1082 4503599627370448) 6 (by decide!) ?_ ?_ ?_ (by norm_num) (by norm_num)
    · rw [exponentOf_eq, hbin]
      simp only [if_true]
      decide!
    · intro h
      exact bin_ge b o hb hbin 6 60 (by norm_num) (by norm_num) (mk3 false 1082 4503599627370449) (mk3 false 1022 4503599627370449) (neg (mk3 false 996 2417068007751680)) _ _ (by decide!) vs xu
        (by norm_num) (by norm_num) (by norm_num) gu h
    · intro h
      exact bin_lt b o hb hbin h1 6 60 (by norm_num) (by norm_num) (mk3 false 1082 4503599627370447) (mk3 false 1022 4503599627370447) (neg (mk3 false 996 2417068007751679)) _ _ (by decide!) vp xl
        (by norm_num) gl h
  · have vs : (neg (mk3 false 996 3570515834830848)).val = (-(3759803 / 281474976710656) : ℚ) := by
      rw [neg_val, val_mk3_normal _ _ (by norm_num) (by norm_num) (by norm_num [F64.hidden])]
      norm_num [F64.hidden]
    have vp : (neg (mk3 false 996 3570515834830847)).val = (-(8074115462201343 / 604462909807314587353088) : ℚ) := by
      rw [neg_val, val_mk3_normal _ _ (by norm_num) (by norm_num) (by norm_num [F64.hidden])]
      norm_num [F64.hidden]
    have xu : (sub (mk3 false 1022 4503599627370488) (ofInt 1)).val = (-(1 / 1125899906842624) : ℚ) := by
      rw [show sub (mk3 false 1022 4503599627370488) (ofInt 1) = neg (mk3 false 973 0) from by decide!, neg_val,
        val_mk3_normal _ _ (by norm_num) (by norm_num) (by norm_num [F64.hidden])]
      norm_num [F64.hidden]
    have xl : (sub (mk3 false 1022 4503599627370486) (ofInt 1)).val = (-(5 / 4503599627370496) : ℚ) := by
      rw [show sub (mk3 false 1022 4503599627370486) (ofInt 1) = neg (mk3 false 973 1125899906842624) from by decide!, neg_val,
        val_mk3_normal _ _ (by norm_num) (by norm_num) (by norm_num [F64.hidden])]
      norm_num [F64.hidden]
    have gu : -(-(3759803 / 281474976710656) : ℚ) - ((70 : Int) : ℚ) * Ln2Lo.val + logWEps ≤ logGQ (-(1 / 1125899906842624) : ℚ) := by
      unfold logGQ logRQ logWEps
      rw [L1_val, L2_val, L3_val, L4_val, L5_val, L6_val, L7_val, val_Ln2Lo]
      norm_num
    have gl : logGQ (-(5 / 4503599627370496) : ℚ) ≤ -(-(8074115462201343 / 604462909807314587353088) : ℚ) - ((70 : Int) : ℚ) * Ln2Lo.val - logWEps := by
      unfold logGQ logRQ logWEps
      rw [L1_val, L2_val, L3_val, L4_val, L5_val, L6_val, L7_val, val_Ln2Lo]
      norm_num
    refine cut_spec b o hb 7 (mk3 false 1092 4503599627370486) (mk3 false 1092 4503599627370487) (mk3 false 1092 4503599627370488) (mk3 false 1092 4503599627370488) 6 (by decide!) ?_ ?_ ?_ (by norm_num) (by norm_num)
    · rw [exponentOf_eq, hbin]
      simp only [if_true]
      decide!
    · intro h
      exact bin_ge b o hb hbin 7 70 (by norm_num) (by norm_num) (mk3 false 1092 4503599627370488) (mk3 false 1022 4503599627370488) (neg (mk3 false 996 3570515834830848)) _ _ (by decide!) vs xu
        (by norm_num) (by norm_num) (by norm_num) gu h
    · intro h
      exact bin_lt b o hb hbin h1 7 70 (by norm_num) (by norm_num) (mk3 false 1092 4503599627370486) (mk3 false 1022 4503599627370486) (neg (mk3 false 996 3570515834830847)) _ _ (by decide!) vp xl
        (by norm_num) gl h
  · have vs : (neg (mk3 false 997 110179869786113)).val = (-(4613779497156609 / 302231454903657293676544) : ℚ) := by
      rw [neg_val, val_mk3_normal _ _ (by norm_num) (by norm_num) (by norm_num [F64.hidden])]
      norm_num [F64.hidden]
    have vp : (neg (mk3 false 997 110179869786112)).val = (-(4296917 / 281474976710656) : ℚ) := by
      rw [neg_val, val_mk3_normal _ _ (by norm_num) (by norm_num) (by norm_num [F64.hidden])]
      norm_num [F64.hidden]
    have xu : (sub (mk3 false 1022 4503599627370464) (ofInt 1)).val = (-(1 / 281474976710656) : ℚ) := by
      rw [show sub (mk3 false 1022 4503599627370464) (ofInt 1) = neg (mk3 false 975 0) from by decide!, neg_val,
        val_mk3_normal _ _ (by norm_num) (by norm_num) (by norm_num [F64.hidden])]
      norm_num [F64.hidden]
    have xl : (sub (mk3 false 1022 4503599627370462) (ofInt 1)).val = (-(17 / 4503599627370496) : ℚ) := by
      rw [show sub (mk3 false 1022 4503599627370462) (ofInt 1) = neg (mk3 false 975 281474976710656) from by decide!, neg_val,
        val_mk3_normal _ _ (by norm_num) (by norm_num) (by norm_num [F64.hidden])]
      norm_num [F64.hidden]
    have gu : -(-(4613779497156609 / 302231454903657293676544) : ℚ) - ((80 : Int) : ℚ) * Ln2Lo.val + logWEps ≤ logGQ (-(1 / 281474976710656) : ℚ) := by
      unfold logGQ logRQ logWEps
      rw [L1_val, L2_val, L3_val, L4_val, L5_val, L6_val, L7_val, val_Ln2Lo]
      norm_num
    have gl : logGQ (-(17 / 4503599627370496) : ℚ) ≤ -(-(4296917 / 281474976710656) : ℚ) - ((80 : Int) : ℚ) * Ln2Lo.val - logWEps := by
      unfold logGQ logRQ logWEps
      rw [L1_val, L2_val, L3_val, L4_val, L5_val, L6_val, L7_val, val_Ln2Lo]
      norm_num
    refine cut_spec b o hb 8 (mk3 false 1102 4503599627370462) (mk3 false 1102 4503599627370463) (mk3 false 1102 4503599627370464) (mk3 false 1102 4503599627370464) 7 (by decide!) ?_ ?_ ?_ (by norm_num) (by norm_num)
    · rw [exponentOf_eq, hbin]
      simp only [if_true]
      decide!
    · intro h
      exact bin_ge b o hb hbin 8 80 (by norm_num) (by norm_num) (mk3 false 1102 4503599627370464) (mk3 false 1022 4503599627370464) (neg (mk3 false 997 110179869786113)) _ _ (by decide!) vs xu
        (by norm_num) (by norm_num) (by norm_num) gu h
    · intro h
      exact bin_lt b o hb hbin h1 8 80 (by norm_num) (by norm_num) (mk3 false 1102 4503599627370462) (mk3 false 1022 4503599627370462) (neg (mk3 false 997 110179869786112)) _ _ (by decide!) vp xl
        (by norm_num) gl h

/-- The decimal cuts: for each `j` from 1 to 8 the exponent is at least `j`
exactly from the float `cut false j` on. -/
theorem cut_dec (b : F64) (o : Options) (hb : b.finite = true) (h1 : (ofInt 1).key ≤ b.key)
    (hdec : o.Binary = false) :
    (∃ e : Int, exponentOf b o = some e ∧ 0 ≤ e ∧ e ≤ 8 ∧
       (1 ≤ e ↔ (mk3 false 1032 4292493394837499).key ≤ b.key)) ∧
    (∃ e : Int, exponentOf b o = some e ∧ 0 ≤ e ∧ e ≤ 8 ∧
       (2 ≤ e ↔ (mk3 false 1042 4086334964629493).key ≤ b.key)) ∧
    (∃ e : Int, exponentOf b o = some e ∧ 0 ≤ e ∧ e ≤ 8 ∧
       (3 ≤ e ↔ (mk3 false 1052 3885008372629483).key ≤ b.key)) ∧
    (∃ e : Int, exponentOf b o = some e ∧ 0 ≤ e ∧ e ≤ 8 ∧
       (4 ≤ e ↔ (mk3 false 1062 3688400372629483).key ≤ b.key)) ∧
    (∃ e : Int, exponentOf b o = some e ∧ 0 ≤ e ∧ e ≤ 8 ∧
       (5 ≤ e ↔ (mk3 false 1072 3496400372629473).key ≤ b.key)) ∧
    (∃ e : Int, exponentOf b o = some e ∧ 0 ≤ e ∧ e ≤ 8 ∧
       (6 ≤ e ↔ (mk3 false 1082 3308900372629464).key ≤ b.key)) ∧
    (∃ e : Int, exponentOf b o = some e ∧ 0 ≤ e ∧ e ≤ 8 ∧
       (7 ≤ e ↔ (mk3 false 1092 3125794903879437).key ≤ b.key)) ∧
    (∃ e : Int, exponentOf b o = some e ∧ 0 ≤ e ∧ e ≤ 8 ∧
       (8 ≤ e ↔ (mk3 false 1102 2946980969553294).key ≤ b.key)) := by
  refine ⟨?_, ?_, ?_, ?_, ?_, ?_, ?_, ?_⟩
  · have vs : (mk3 false 1017 2332223760550778).val = ((3417911693960637 : ℚ) / 144115188075855872) := by
      rw [val_mk3_normal _ _ (by norm_num) (by norm_num) (by norm_num [F64.hidden])]
      norm_num [F64.hidden]
    have vp : (mk3 false 1017 2332223760550779).val = ((6835823387921275 : ℚ) / 288230376151711744) := by
      rw [val_mk3_normal _ _ (by norm_num) (by norm_num) (by norm_num [F64.hidden])]
      norm_num [F64.hidden]
    have xu : (sub (mk3 false 1022 4292493394837499) (ofInt 1)).val = (-(211106232532997 / 9007199254740992) : ℚ) := by
      rw [show sub (mk3 false 1022 4292493394837499) (ofInt 1) = neg (mk3 false 1017 2251799813685408) from by decide!, neg_val,
        val_mk3_normal _ _ (by norm_num) (by norm_num) (by norm_num [F64.hidden])]
      norm_num [F64.hidden]
    have xl : (sub (mk3 false 1022 4292493394837497) (ofInt 1)).val = (-(211106232532999 / 9007199254740992) : ℚ) := by
      rw [show sub (mk3 false 1022 4292493394837497) (ofInt 1) = neg (mk3 false 1017 2251799813685472) from by decide!, neg_val,
        val_mk3_normal _ _ (by norm_num) (by norm_num) (by norm_num [F64.hidden])]
      norm_num [F64.hidden]
    have gu : -((3417911693960637 : ℚ) / 144115188075855872) + logWEps ≤ logGQ (-(211106232532997 / 9007199254740992) : ℚ) := by
      unfold logGQ logRQ logWEps
      rw [L1_val, L2_val, L3_val, L4_val, L5_val, L6_val, L7_val]
      norm_num
    have gl : logGQ (-(211106232532999 / 9007199254740992) : ℚ) ≤ -((6835823387921275 : ℚ) / 288230376151711744) - logWEps := by
      unfold logGQ logRQ logWEps
      rw [L1_val, L2_val, L3_val, L4_val, L5_val, L6_val, L7_val]
      norm_num
    refine cut_spec b o hb 1 (mk3 false 1032 4292493394837497) (mk3 false 1032 4292493394837498) (mk3 false 1032 4292493394837499) (mk3 false 1032 4292493394837499) 0 (by decide!) ?_ ?_ ?_ (by norm_num) (by norm_num)
    · rw [exponentOf_eq, hdec]
      simp only [Bool.false_eq_true, if_false]
      decide!
    · intro h
      exact dec_ge b o hb hdec 1 10 (by norm_num) (by norm_num) (mk3 false 1032 4292493394837499) (mk3 false 1022 4292493394837499) (mk3 false 1017 2332223760550778) _ _ (by decide!) vs xu
        (by norm_num) (by norm_num) (by norm_num) gu h
    · intro h
      exact dec_lt b o hb hdec h1 1 10 (by norm_num) (by norm_num) (mk3 false 1032 4292493394837497) (mk3 false 1022 4292493394837497) (mk3 false 1017 2332223760550779) _ _ (by decide!) vp xl
        (by norm_num) gl h
  · have vs : (mk3 false 1018 2332223760550778).val = ((3417911693960637 : ℚ) / 72057594037927936) := by
      rw [val_mk3_normal _ _ (by norm_num) (by norm_num) (by norm_num [F64.hidden])]
      norm_num [F64.hidden]
    have vp : (mk3 false 1018 2332223760550779).val = ((6835823387921275 : ℚ) / 144115188075855872) := by
      rw [val_mk3_normal _ _ (by norm_num) (by norm_num) (by norm_num [F64.hidden])]
      norm_num [F64.hidden]
    have xu : (sub (mk3 false 1022 4086334964629494) (ofInt 1)).val = (-(208632331370501 / 4503599627370496) : ℚ) := by
      rw [show sub (mk3 false 1022 4086334964629494) (ofInt 1) = neg (mk3 false 1018 2172634976485536) from by decide!, neg_val,
        val_mk3_normal _ _ (by norm_num) (by norm_num) (by norm_num [F64.hidden])]
      norm_num [F64.hidden]
    have xl : (sub (mk3 false 1022 4086334964629492) (ofInt 1)).val = (-(104316165685251 / 2251799813685248) : ℚ) := by
      rw [show sub (mk3 false 1022 4086334964629492) (ofInt 1) = neg (mk3 false 1018 2172634976485568) from by decide!, neg_val,
        val_mk3_normal _ _ (by norm_num) (by norm_num) (by norm_num [F64.hidden])]
      norm_num [F64.hidden]
    have gu : -((3417911693960637 : ℚ) / 72057594037927936) + logWEps ≤ logGQ (-(208632331370501 / 4503599627370496) : ℚ) := by
      unfold logGQ logRQ logWEps
      rw [L1_val, L2_val, L3_val, L4_val, L5_val, L6_val, L7_val]
      norm_num
    have gl : logGQ (-(104316165685251 / 2251799813685248) : ℚ) ≤ -((6835823387921275 : ℚ) / 144115188075855872) - logWEps := by
      unfold logGQ logRQ logWEps
      rw [L1_val, L2_val, L3_val, L4_val, L5_val, L6_val, L7_val]
      norm_num
    refine cut_spec b o hb 2 (mk3 false 1042 4086334964629492) (mk3 false 1042 4086334964629493) (mk3 false 1042 4086334964629494) (mk3 false 1042 4086334964629493) 2 (by decide!) ?_ ?_ ?_ (by norm_num) (by norm_num)
    · rw [exponentOf_eq, hdec]
      simp only [Bool.false_eq_true, if_false]
      decide!
    · intro h
      exact dec_ge b o hb hdec 2 20 (by norm_num) (by norm_num) (mk3 false 1042 4086334964629494) (mk3 false 1022 4086334964629494) (mk3 false 1018 2332223760550778) _ _ (by decide!) vs xu
        (by norm_num) (by norm_num) (by norm_num) gu h
    · intro h
      exact dec_lt b o hb hdec h1 2 20 (by norm_num) (by norm_num) (mk3 false 1042 4086334964629492) (mk3 false 1022 4086334964629492) (mk3 false 1018 2332223760550779) _ _ (by decide!) vp xl
        (by norm_num) gl h
  · have vs : (mk3 false 1019 623267913570504).val = ((640858442617625 : ℚ) / 9007199254740992) := by
      rw [val_mk3_normal _ _ (by norm_num) (by norm_num) (by norm_num [F64.hidden])]
      norm_num [F64.hidden]
    have vp : (mk3 false 1019 623267913570505).val = ((5126867540941001 : ℚ) / 72057594037927936) := by
      rw [val_mk3_normal _ _ (by norm_num) (by norm_num) (by norm_num [F64.hidden])]
      norm_num [F64.hidden]
    have xu : (sub (mk3 false 1022 3885008372629483) (ofInt 1)).val = (-(618591254741013 / 9007199254740992) : ℚ) := by
      rw [show sub (mk3 false 1022 3885008372629483) (ofInt 1) = neg (mk3 false 1019 445130410557608) from by decide!, neg_val,
        val_mk3_normal _ _ (by norm_num) (by norm_num) (by norm_num [F64.hidden])]
      norm_num [F64.hidden]
    have xl : (sub (mk3 false 1022 3885008372629481) (ofInt 1)).val = (-(618591254741015 / 9007199254740992) : ℚ) := by
      rw [show sub (mk3 false 1022 3885008372629481) (ofInt 1) = neg (mk3 false 1019 445130410557624) from by decide!, neg_val,
        val_mk3_normal _ _ (by norm_num) (by norm_num) (by norm_num [F64.hidden])]
      norm_num [F64.hidden]
    have gu : -((640858442617625 : ℚ) / 9007199254740992) + logWEps ≤ logGQ (-(618591254741013 / 9007199254740992) : ℚ) := by
      unfold logGQ logRQ logWEps
      rw [L1_val, L2_val, L3_val, L4_val, L5_val, L6_val, L7_val]
      norm_num
    have gl : logGQ (-(618591254741015 / 9007199254740992) : ℚ) ≤ -((5126867540941001 : ℚ) / 72057594037927936) - logWEps := by
      unfold logGQ logRQ logWEps
      rw [L1_val, L2_val, L3_val, L4_val, L5_val, L6_val, L7_val]
      norm_num
    refine cut_spec b o hb 3 (mk3 false 1052 3885008372629481) (mk3 false 1052 3885008372629482) (mk3 false 1052 3885008372629483) (mk3 false 1052 3885008372629483) 2 (by decide!) ?_ ?_ ?_ (by norm_num) (by norm_num)
    · rw [exponentOf_eq, hdec]
      simp only [Bool.false_eq_true, if_false]
      decide!
    · intro h
      exact dec_ge b o hb hdec 3 30 (by norm_num) (by norm_num) (mk3 false 1052 3885008372629483) (mk3 false 1022 3885008372629483) (mk3 false 1019 623267913570504) _ _ (by decide!) vs xu
        (by norm_num) (by norm_num) (by norm_num) gu h
    · intro h
      exact dec_lt b o hb hdec h1 3 30 (by norm_num) (by norm_num) (mk3 false 1052 3885008372629481) (mk3 false 1022 3885008372629481) (mk3 false 1019 623267913570505) _ _ (by decide!) vp xl
        (by norm_num) gl h
  · have vs : (mk3 false 1019 2332223760550778).val = ((3417911693960637 : ℚ) / 36028797018963968) := by
      rw [val_mk3_normal _ _ (by norm_num) (by norm_num) (by norm_num [F64.hidden])]
      norm_num [F64.hidden]
    have vp : (mk3 false 1019 2332223760550779).val = ((6835823387921275 : ℚ) / 72057594037927936) := by
      rw [val_mk3_normal _ _ (by norm_num) (by norm_num) (by norm_num [F64.hidden])]
      norm_num [F64.hidden]
    have xu : (sub (mk3 false 1022 3688400372629484) (ofInt 1)).val = (-(203799813685253 / 2251799813685248) : ℚ) := by
      rw [show sub (mk3 false 1022 3688400372629484) (ofInt 1) = neg (mk3 false 1019 2017994410557600) from by decide!, neg_val,
        val_mk3_normal _ _ (by norm_num) (by norm_num) (by norm_num [F64.hidden])]
      norm_num [F64.hidden]
    have xl : (sub (mk3 false 1022 3688400372629482) (ofInt 1)).val = (-(407599627370507 / 4503599627370496) : ℚ) := by
      rw [show sub (mk3 false 1022 3688400372629482) (ofInt 1) = neg (mk3 false 1019 2017994410557616) from by decide!, neg_val,
        val_mk3_normal _ _ (by norm_num) (by norm_num) (by norm_num [F64.hidden])]
      norm_num [F64.hidden]
    have gu : -((3417911693960637 : ℚ) / 36028797018963968) + logWEps ≤ logGQ (-(203799813685253 / 2251799813685248) : ℚ) := by
      unfold logGQ logRQ logWEps
      rw [L1_val, L2_val, L3_val, L4_val, L5_val, L6_val, L7_val]
      norm_num
    have gl : logGQ (-(407599627370507 / 4503599627370496) : ℚ) ≤ -((6835823387921275 : ℚ) / 72057594037927936) - logWEps := by
      unfold logGQ logRQ logWEps
      rw [L1_val, L2_val, L3_val, L4_val, L5_val, L6_val, L7_val]
      norm_num
    refine cut_spec b o hb 4 (mk3 false 1062 3688400372629482) (mk3 false 1062 3688400372629483) (mk3 false 1062 3688400372629484) (mk3 false 1062 3688400372629483) 4 (by decide!) ?_ ?_ ?_ (by norm_num) (by norm_num)
    · rw [exponentOf_eq, hdec]
      simp only [Bool.false_eq_true, if_false]
      decide!
    · intro h
      exact dec_ge b o hb hdec 4 40 (by norm_num) (by norm_num) (mk3 false 1062 3688400372629484) (mk3 false 1022 3688400372629484) (mk3 false 1019 2332223760550778) _ _ (by decide!) vs xu
        (by norm_num) (by norm_num) (by norm_num) gu h
    · intro h
      exact dec_lt b o hb hdec h1 4 40 (by norm_num) (by norm_num) (mk3 false 1062 3688400372629482) (mk3 false 1022 3688400372629482) (mk3 false 1019 2332223760550779) _ _ (by decide!) vp xl
        (by norm_num) gl h
  · have vs : (mk3 false 1019 4041179607531142).val = ((4272389617450819 : ℚ) / 36028797018963968) := by
      rw [val_mk3_normal _ _ (by norm_num) (by norm_num) (by norm_num [F64.hidden])]
      norm_num [F64.hidden]
    have vp : (mk3 false 1019 4041179607531143).val = ((8544779234901639 : ℚ) / 72057594037927936) := by
      rw [val_mk3_normal _ _ (by norm_num) (by norm_num) (by norm_num [F64.hidden])]
      norm_num [F64.hidden]
    have xu : (sub (mk3 false 1022 3496400372629474) (ofInt 1)).val = (-(503599627370511 / 4503599627370496) : ℚ) := by
      rw [show sub (mk3 false 1022 3496400372629474) (ofInt 1) = neg (mk3 false 1019 3553994410557680) from by decide!, neg_val,
        val_mk3_normal _ _ (by norm_num) (by norm_num) (by norm_num [F64.hidden])]
      norm_num [F64.hidden]
    have xl : (sub (mk3 false 1022 3496400372629472) (ofInt 1)).val = (-(31474976710657 / 281474976710656) : ℚ) := by
      rw [show sub (mk3 false 1022 3496400372629472) (ofInt 1) = neg (mk3 false 1019 3553994410557696) from by decide!, neg_val,
        val_mk3_normal _ _ (by norm_num) (by norm_num) (by norm_num [F64.hidden])]
      norm_num [F64.hidden]
    have gu : -((4272389617450819 : ℚ) / 36028797018963968) + logWEps ≤ logGQ (-(503599627370511 / 4503599627370496) : ℚ) := by
      unfold logGQ logRQ logWEps
      rw [L1_val, L2_val, L3_val, L4_val, L5_val, L6_val, L7_val]
      norm_num
    have gl : logGQ (-(31474976710657 / 281474976710656) : ℚ) ≤ -((8544779234901639 : ℚ) / 72057594037927936) - logWEps := by
      unfold logGQ logRQ logWEps
      rw [L1_val, L2_val, L3_val, L4_val, L5_val, L6_val, L7_val]
      norm_num
    refine cut_spec b o hb 5 (mk3 false 1072 3496400372629472) (mk3 false 1072 3496400372629473) (mk3 false 1072 3496400372629474) (mk3 false 1072 3496400372629473) 5 (by decide!) ?_ ?_ ?_ (by norm_num) (by norm_num)
    · rw [exponentOf_eq, hdec]
      simp only [Bool.false_eq_true, if_false]
      decide!
    · intro h
      exact dec_ge b o hb hdec 5 50 (by norm_num) (by norm_num) (mk3 false 1072 3496400372629474) (mk3 false 1022 3496400372629474) (mk3 false 1019 4041179607531142) _ _ (by decide!) vs xu
        (by norm_num) (by norm_num) (by norm_num) gu h
    · intro h
      exact dec_lt b o hb hdec h1 5 50 (by norm_num) (by norm_num) (mk3 false 1072 3496400372629472) (mk3 false 1022 3496400372629472) (mk3 false 1019 4041179607531143) _ _ (by decide!) vp xl
        (by norm_num) gl h
  · have vs : (mk3 false 1020 623267913570504).val = ((640858442617625 : ℚ) / 4503599627370496) := by
      rw [val_mk3_normal _ _ (by norm_num) (by norm_num) (by norm_num [F64.hidden])]
      norm_num [F64.hidden]
    have vp : (mk3 false 1020 623267913570505).val = ((5126867540941001 : ℚ) / 36028797018963968) := by
      rw [val_mk3_normal _ _ (by norm_num) (by norm_num) (by norm_num [F64.hidden])]
      norm_num [F64.hidden]
    have xu : (sub (mk3 false 1022 3308900372629465) (ofInt 1)).val = (-(1194699254741031 / 9007199254740992) : ℚ) := by
      rw [show sub (mk3 false 1022 3308900372629465) (ofInt 1) = neg (mk3 false 1020 275197391593628) from by decide!, neg_val,
        val_mk3_normal _ _ (by norm_num) (by norm_num) (by norm_num [F64.hidden])]
      norm_num [F64.hidden]
    have xl : (sub (mk3 false 1022 3308900372629463) (ofInt 1)).val = (-(1194699254741033 / 9007199254740992) : ℚ) := by
      rw [show sub (mk3 false 1022 3308900372629463) (ofInt 1) = neg (mk3 false 1020 275197391593636) from by decide!, neg_val,
        val_mk3_normal _ _ (by norm_num) (by norm_num) (by norm_num [F64.hidden])]
      norm_num [F64.hidden]
    have gu : -((640858442617625 : ℚ) / 4503599627370496) + logWEps ≤ logGQ (-(1194699254741031 / 9007199254740992) : ℚ) := by
      unfold logGQ logRQ logWEps
      rw [L1_val, L2_val, L3_val, L4_val, L5_val, L6_val, L7_val]
      norm_num
    have gl : logGQ (-(1194699254741033 / 9007199254740992) : ℚ) ≤ -((5126867540941001 : ℚ) / 36028797018963968) - logWEps := by
      unfold logGQ logRQ logWEps
      rw [L1_val, L2_val, L3_val, L4_val, L5_val, L6_val, L7_val]
      norm_num
    refine cut_spec b o hb 6 (mk3 false 1082 3308900372629463) (mk3 false 1082 3308900372629464) (mk3 false 1082 3308900372629465) (mk3 false 1082 3308900372629464) 6 (by decide!) ?_ ?_ ?_ (by norm_num) (by norm_num)
    · rw [exponentOf_eq, hdec]
      simp only [Bool.false_eq_true, if_false]
      decide!
    · intro h
      exact dec_ge b o hb hdec 6 60 (by norm_num) (by norm_num) (mk3 false 1082 3308900372629465) (mk3 false 1022 3308900372629465) (mk3 false 1020 623267913570504) _ _ (by decide!) vs xu
        (by norm_num) (by norm_num) (by norm_num) gu h
    · intro h
      exact dec_lt b o hb hdec h1 6 60 (by norm_num) (by norm_num) (mk3 false 1082 3308900372629463) (mk3 false 1022 3308900372629463) (mk3 false 1020 623267913570505) _ _ (by decide!) vp xl
        (by norm_num) gl h
  · have vs : (mk3 false 1020 1477745837060775).val = ((5981345464431271 : ℚ) / 36028797018963968) := by
      rw [val_mk3_normal _ _ (by norm_num) (by norm_num) (by norm_num [F64.hidden])]
      norm_num [F64.hidden]
    have vp : (mk3 false 1020 1477745837060776).val = ((747668183053909 : ℚ) / 4503599627370496) := by
      rw [val_mk3_normal _ _ (by norm_num) (by norm_num) (by norm_num [F64.hidden])]
      norm_num [F64.hidden]
    have xu : (sub (mk3 false 1022 3125794903879437) (ofInt 1)).val = (-(1377804723491059 / 9007199254740992) : ℚ) := by
      rw [show sub (mk3 false 1022 3125794903879437) (ofInt 1) = neg (mk3 false 1020 1007619266593740) from by decide!, neg_val,
        val_mk3_normal _ _ (by norm_num) (by norm_num) (by norm_num [F64.hidden])]
      norm_num [F64.hidden]
    have xl : (sub (mk3 false 1022 3125794903879435) (ofInt 1)).val = (-(1377804723491061 / 9007199254740992) : ℚ) := by
      rw [show sub (mk3 false 1022 3125794903879435) (ofInt 1) = neg (mk3 false 1020 1007619266593748) from by decide!, neg_val,
        val_mk3_normal _ _ (by norm_num) (by norm_num) (by norm_num [F64.hidden])]
      norm_num [F64.hidden]
    have gu : -((5981345464431271 : ℚ) / 36028797018963968) + logWEps ≤ logGQ (-(1377804723491059 / 9007199254740992) : ℚ) := by
      unfold logGQ logRQ logWEps
      rw [L1_val, L2_val, L3_val, L4_val, L5_val, L6_val, L7_val]
      norm_num
    have gl : logGQ (-(1377804723491061 / 9007199254740992) : ℚ) ≤ -((747668183053909 : ℚ) / 4503599627370496) - logWEps := by
      unfold logGQ logRQ logWEps
      rw [L1_val, L2_val, L3_val, L4_val, L5_val, L6_val, L7_val]
      norm_num
    refine cut_spec b o hb 7 (mk3 false 1092 3125794903879435) (mk3 false 1092 3125794903879436) (mk3 false 1092 3125794903879437) (mk3 false 1092 3125794903879437) 6 (by decide!) ?_ ?_ ?_ (by norm_num) (by norm_num)
    · rw [exponentOf_eq, hdec]
      simp only [Bool.false_eq_true, if_false]
      decide!
    · intro h
      exact dec_ge b o hb hdec 7 70 (by norm_num) (by norm_num) (mk3 false 1092 3125794903879437) (mk3 false 1022 3125794903879437) (mk3 false 1020 1477745837060775) _ _ (by decide!) vs xu
        (by norm_num) (by norm_num) (by norm_num) gu h
    · intro h
      exact dec_lt b o hb hdec h1 7 70 (by norm_num) (by norm_num) (mk3 false 1092 3125794903879435) (mk3 false 1022 3125794903879435) (mk3 false 1020 1477745837060776) _ _ (by decide!) vp xl
        (by norm_num) gl h
  · have vs : (mk3 false 1020 2332223760550778).val = ((3417911693960637 : ℚ) / 18014398509481984) := by
      rw [val_mk3_normal _ _ (by norm_num) (by norm_num) (by norm_num [F64.hidden])]
      norm_num [F64.hidden]
    have vp : (mk3 false 1020 2332223760550779).val = ((6835823387921275 : ℚ) / 36028797018963968) := by
      rw [val_mk3_normal _ _ (by norm_num) (by norm_num) (by norm_num [F64.hidden])]
      norm_num [F64.hidden]
    have xu : (sub (mk3 false 1022 2946980969553294) (ofInt 1)).val = (-(778309328908601 / 4503599627370496) : ℚ) := by
      rw [show sub (mk3 false 1022 2946980969553294) (ofInt 1) = neg (mk3 false 1020 1722875003898312) from by decide!, neg_val,
        val_mk3_normal _ _ (by norm_num) (by norm_num) (by norm_num [F64.hidden])]
      norm_num [F64.hidden]
    have xl : (sub (mk3 false 1022 2946980969553292) (ofInt 1)).val = (-(389154664454301 / 2251799813685248) : ℚ) := by
      rw [show sub (mk3 false 1022 2946980969553292) (ofInt 1) = neg (mk3 false 1020 1722875003898320) from by decide!, neg_val,
        val_mk3_normal _ _ (by norm_num) (by norm_num) (by norm_num [F64.hidden])]
      norm_num [F64.hidden]
    have gu : -((3417911693960637 : ℚ) / 18014398509481984) + logWEps ≤ logGQ (-(778309328908601 / 4503599627370496) : ℚ) := by
      unfold logGQ logRQ logWEps
      rw [L1_val, L2_val, L3_val, L4_val, L5_val, L6_val, L7_val]
      norm_num
    have gl : logGQ (-(389154664454301 / 2251799813685248) : ℚ) ≤ -((6835823387921275 : ℚ) / 36028797018963968) - logWEps := by
      unfold logGQ logRQ logWEps
      rw [L1_val, L2_val, L3_val, L4_val, L5_val, L6_val, L7_val]
      norm_num
    refine cut_spec b o hb 8 (mk3 false 1102 2946980969553292) (mk3 false 1102 2946980969553293) (mk3 false 1102 2946980969553294) (mk3 false 1102 2946980969553294) 7 (by decide!) ?_ ?_ ?_ (by norm_num) (by norm_num)
    · rw [exponentOf_eq, hdec]
      simp only [Bool.false_eq_true, if_false]
      decide!
    · intro h
      exact dec_ge b o hb hdec 8 80 (by norm_num) (by norm_num) (mk3 false 1102 2946980969553294) (mk3 false 1022 2946980969553294) (mk3 false 1020 2332223760550778) _ _ (by decide!) vs xu
        (by norm_num) (by norm_num) (by norm_num) gu h
    · intro h
      exact dec_lt b o hb hdec h1 8 80 (by norm_num) (by norm_num) (mk3 false 1102 2946980969553292) (mk3 false 1022 2946980969553292) (mk3 false 1020 2332223760550779) _ _ (by decide!) vp xl
        (by norm_num) gl h

end Gotty

namespace Gotty
open F64

/-- The exponent by comparison with the cuts: for `j` from 1 to 8 the exponent
that `Format` computes for a finite magnitude of at least one is at least `j`
exactly when the magnitude is at least `cut j`. -/
theorem exponent_cut (b : F64) (o : Options) (hb : b.finite = true)
    (h1 : (ofInt 1).key ≤ b.key) (j : Int) (hj1 : 1 ≤ j) (hj8 : j ≤ 8) :
    ∃ e : Int, exponentOf b o = some e ∧ 0 ≤ e ∧ e ≤ 8 ∧
      (j ≤ e ↔ (cut o.Binary j).key ≤ b.key) := by
  cases hbin : o.Binary
  · interval_cases j
    · exact (cut_dec b o hb h1 hbin).1
    · exact (cut_dec b o hb h1 hbin).2.1
    · exact (cut_dec b o hb h1 hbin).2.2.1
    · exact (cut_dec b o hb h1 hbin).2.2.2.1
    · exact (cut_dec b o hb h1 hbin).2.2.2.2.1
    · exact (cut_dec b o hb h1 hbin).2.2.2.2.2.1
    · exact (cut_dec b o hb h1 hbin).2.2.2.2.2.2.1
    · exact (cut_dec b o hb h1 hbin).2.2.2.2.2.2.2
  · interval_cases j
    · exact (cut_bin b o hb h1 hbin).1
    · exact (cut_bin b o hb h1 hbin).2.1
    · exact (cut_bin b o hb h1 hbin).2.2.1
    · exact (cut_bin b o hb h1 hbin).2.2.2.1
    · exact (cut_bin b o hb h1 hbin).2.2.2.2.1
    · exact (cut_bin b o hb h1 hbin).2.2.2.2.2.1
    · exact (cut_bin b o hb h1 hbin).2.2.2.2.2.2.1
    · exact (cut_bin b o hb h1 hbin).2.2.2.2.2.2.2

/-- The exponent that `Format` computes does not decrease with the magnitude. -/
theorem exponent_mono (x y : F64) (o : Options) (hx : x.finite = true) (hy : y.finite = true)
    (h1 : (ofInt 1).key ≤ x.key) (hxy : x.key ≤ y.key) (ex ey : Int)
    (hex : exponentOf x o = some ex) (hey : exponentOf y o = some ey) : ex ≤ ey := by
  by_contra hc
  obtain ⟨e0, he0, a0, a8⟩ := exponentOf_range x o hx h1
  obtain ⟨e0', he0', b0, b8⟩ := exponentOf_range y o hy (le_trans h1 hxy)
  rw [hex] at he0
  rw [hey] at he0'
  have q1 : ex = e0 := Option.some.inj he0
  have q2 : ey = e0' := Option.some.inj he0'
  subst q1 q2
  obtain ⟨e, he, _, _, hi⟩ := exponent_cut x o hx h1 ex (by omega) a8
  obtain ⟨e', he', _, _, hi'⟩ := exponent_cut y o hy (le_trans h1 hxy) ex (by omega) a8
  rw [hex] at he
  rw [hey] at he'
  have q3 : ex = e := Option.some.inj he
  have q4 : ey = e' := Option.some.inj he'
  subst q3 q4
  have := hi'.mpr (le_trans (hi.mp le_rfl) hxy)
  omega

/-- The eighth cut is not above the eighth power of the base. -/
theorem cut_eight_le : (cut true 8).val ≤ 1024 ^ 8 ∧ (cut false 8).val ≤ 1000 ^ 8 := by
  constructor
  · show (mk3 false 1102 4503599627370464).val ≤ _
    rw [val_mk3_normal _ _ (by norm_num) (by norm_num) (by norm_num [F64.hidden])]
    norm_num [F64.hidden]
  · show (mk3 false 1102 2946980969553294).val ≤ _
    rw [val_mk3_normal _ _ (by norm_num) (by norm_num) (by norm_num [F64.hidden])]
    norm_num [F64.hidden]

/-- From the eighth power of the base on the exponent is 8. -/
theorem exponentOf_last (b : F64) (o : Options) (hb : b.finite = true)
    (h8 : ((if o.Binary then 1024 else 1000 : ℚ)) ^ 8 ≤ b.val) : exponentOf b o = some 8 := by
  have hc : (cut o.Binary 8).key ≤ b.key := by
    rw [key_le_iff]
    revert h8
    cases o.Binary
    · intro h8; exact le_trans cut_eight_le.2 (by simpa using h8)
    · intro h8; exact le_trans cut_eight_le.1 (by simpa using h8)
  have h1 : (ofInt 1).key ≤ b.key := by
    rw [key_le_iff, val_ofInt_one]
    revert h8
    cases o.Binary
    · intro h8; exact le_trans (by norm_num) h8
    · intro h8; exact le_trans (by norm_num) h8
  obtain ⟨e, he, e0, e8, hi⟩ := exponent_cut b o hb h1 8 (by norm_num) (by norm_num)
  have := hi.mpr hc
  rw [he]
  congr 1
  omega

end Gotty

namespace Gotty
open F64

end Gotty

namespace Gotty

open F64

/-- The label at index 8 is the last of the selected table. -/
theorem index_last (o : Options) (u : String) (h : index (unitsOf o) 8 = some u) :
    (unitsOf o).getLast? = some u := by
  revert h
  unfold unitsOf index
  cases o.Bits <;> cases o.Binary <;>
    simp [bibitUnits, bitUnits, bibyteUnits, byteUnits]

/-- A finite float of positive value compares above zero. -/
theorem pos_facts (x : F64) (hx : x.finite = true) (hpos : 0 < x.val) :
    0 < x.key ∧ x.lt (ofInt 0) = false ∧ x.eq (ofInt 0) = false := by
  obtain ⟨z0, _, k0⟩ := ofInt_zero_nan
  have hn := finite_not_nan x hx
  have hk : 0 < x.key := by
    have := (key_lt_iff (zero false) x).mpr (by rw [val_zero]; exact hpos)
    rwa [key_zero] at this
  refine ⟨hk, ?_, ?_⟩
  · rw [Bool.eq_false_iff, Ne, lt_iff _ _ hn z0, k0]; omega
  · rw [Bool.eq_false_iff, Ne, eq_iff _ _ hn z0, k0]; omega

end Gotty

namespace Gotty
open F64

/-- C1: `Format` returns an error exactly when `byteSize` is `+Inf`, `-Inf` or a
NaN, whatever the options (`none` is the nil pointer); on every other input,
that is on every finite float, it returns a string and no error. -/
theorem C1_error_iff_not_finite (byteSize : F64) (options : Option Options) :
    ((byteSize.IsInf 1 = true ∨ byteSize.IsInf (-1) = true ∨ byteSize.IsNaN = true) ∧
      ∃ msg, Format byteSize options = Result.error msg) ∨
    ((byteSize.IsInf 1 = false ∧ byteSize.IsInf (-1) = false ∧ byteSize.IsNaN = false) ∧
      ∃ s, Format byteSize options = Result.ok s) := by
  cases hf : byteSize.finite
  · left
    refine ⟨(not_finite_iff byteSize).mp hf, ?_⟩
    unfold Format
    simp only [isFinite_eq, hf, Bool.not_false, if_true]
    exact ⟨_, rfl⟩
  · right
    constructor
    · have h := (not_finite_iff byteSize).not.mp (by rw [hf]; simp)
      simp only [not_or, Bool.not_eq_true] at h
      exact h
    · obtain ⟨num, unit, _, h⟩ := Format_finite byteSize options hf
      exact ⟨_, h⟩

/-- C2, as stated, fails: `Format(1337, nil)` is not `"1.34kB"`. -/
theorem C2_counterexample : Format (ofInt 1337) none ≠ Result.ok "1.34kB" := by decide!

/-- C2, amended: `Format` rounds the scaled value to three decimal places, so
`Format(1337, nil)` is `"1.337kB"`, and correspondingly `"1.337 kB"` with
Space, `"+1.337kB"` with Signed, `"-1.337kB"` for -1337 and `"1.337kbit"` with
Bits. -/
theorem C2_format_1337 :
    Format (ofInt 1337) none = Result.ok "1.337kB" ∧
    Format (ofInt 1337) (some { Space := true }) = Result.ok "1.337 kB" ∧
    Format (ofInt 1337) (some { Signed := true }) = Result.ok "+1.337kB" ∧
    Format (ofInt (-1337)) none = Result.ok "-1.337kB" ∧
    Format (ofInt 1337) (some { Bits := true }) = Result.ok "1.337kbit" := by decide!

/-- C3, as stated, fails: `Format(1337, &Options{Binary: true})` is not `"1.31KiB"`. -/
theorem C3_counterexample :
    Format (ofInt 1337) (some { Binary := true }) ≠ Result.ok "1.31KiB" := by decide!

/-- C3, amended: `Format(1337, &Options{Binary: true})` is `"1.306KiB"`: 1337 / 1024
rounded to three decimal places. -/
theorem C3_format_1337_binary :
    Format (ofInt 1337) (some { Binary := true }) = Result.ok "1.306KiB" := by decide!

/-- C5: for every finite non-zero `byteSize` and every options: when
`byteSize < 0` the output is `"-"` followed by the text that `Format` gives for
the absolute value without `Signed` (whatever `Signed` is); when `byteSize > 0`
the output is that text, preceded by `"+"` exactly when `Signed` is set. The
text itself starts with a digit of the number. -/
theorem C5_prefix_by_sign (byteSize : F64) (options : Option Options)
    (hfin : byteSize.finite = true) (hnz : byteSize.eq (ofInt 0) = false) :
    (byteSize.lt (ofInt 0) = true →
      ∃ body : String, startsWithDigit body = true ∧
        Format (F64.neg byteSize) (some { (options.getD {}) with Signed := false })
          = Result.ok body ∧
        Format byteSize options = Result.ok ("-" ++ body)) ∧
    (byteSize.lt (ofInt 0) = false →
      ∃ body : String, startsWithDigit body = true ∧
        Format byteSize (some { (options.getD {}) with Signed := false }) = Result.ok body ∧
        Format byteSize options
          = Result.ok ((if (options.getD {}).Signed then "+" else "") ++ body)) := by
  have hoo : Format byteSize options
      = Format byteSize (some { (options.getD {}) with Signed := (options.getD {}).Signed }) := by
    rw [with_signed_self]; rfl
  obtain ⟨bf, b0⟩ := abs_facts byteSize hfin
  obtain ⟨z0, _, k0⟩ := ofInt_zero_nan
  have hn := finite_not_nan byteSize hfin
  have hk : byteSize.key ≠ 0 := by
    intro hc
    have := (eq_iff byteSize _ hn z0).mpr (by rw [hc, k0])
    rw [hnz] at this
    exact absurd this (by simp)
  constructor
  · intro hlt
    obtain ⟨n1, n2, n3⟩ := neg_neg_lt byteSize hfin hlt
    obtain ⟨body, hd, hF⟩ := Format_magnitude (F64.neg byteSize) (options.getD {})
      (by rw [neg_finite]; exact hfin) n3
    refine ⟨body, hd, ?_, ?_⟩
    · have := hF (F64.neg byteSize) false (by rw [neg_finite]; exact hfin) n2 (by rw [n1]; rfl)
      rw [this, n1]
      simp
    · have := hF byteSize (options.getD {}).Signed hfin hnz (by rw [hlt]; rfl)
      rw [hoo, this, hlt]
      rfl
  · intro hge
    have hpos : 0 < byteSize.key := by
      have := (lt_iff byteSize _ hn z0).not.mp (by rw [hge]; simp)
      omega
    obtain ⟨body, hd, hF⟩ := Format_magnitude byteSize (options.getD {}) hfin hpos
    refine ⟨body, hd, ?_, ?_⟩
    · have := hF byteSize false hfin hnz (by rw [hge]; rfl)
      rw [this, hge]
      simp
    · have := hF byteSize (options.getD {}).Signed hfin hnz (by rw [hge]; rfl)
      rw [hoo, this, hge]
      rfl

/-- C5, witness: the negative branch at -1337 with `Signed` set. -/
theorem C5_prefix_by_sign_witness :
    (ofInt (-1337)).lt (ofInt 0) = true ∧
    ∃ body : String, startsWithDigit body = true ∧
      Format (F64.neg (ofInt (-1337))) (some { ((some { Signed := true } : Option Options).getD {})
        with Signed := false }) = Result.ok body ∧
      Format (ofInt (-1337)) (some { Signed := true }) = Result.ok ("-" ++ body) :=
  ⟨by decide!, (C5_prefix_by_sign (ofInt (-1337)) (some { Signed := true }) (by decide!)
    (by decide!)).1 (by decide!)⟩

/-- C6: with `Signed` set, a `byteSize` that compares equal to zero gives exactly
`"0" + separator + units[0]`, without sign: the separator is a space when
`Space` is set and the unit is `"b"` for bits and `"B"` for bytes. -/
theorem C6_signed_zero (byteSize : F64) (o : Options) (hs : o.Signed = true)
    (hz : byteSize.eq (ofInt 0) = true) :
    Format byteSize (some o) = Result.ok
      ("0" ++ (if o.Space then " " else "") ++ (if o.Bits then "b" else "B")) := by
  have hf : byteSize.finite = true := by
    simp only [F64.eq, Bool.and_eq_true, decide_eq_true_eq, ofInt_zero_nan.2.2] at hz
    apply finite_of_mkey_lt
    have := mkey_eq_natAbs byteSize
    rw [hz.2] at this
    have h0 : byteSize.mkey = 0 := by simpa using this
    rw [h0]
    norm_num [F64.hidden]
  unfold Format
  simp only [Option.getD_some, isFinite_eq, hf, Bool.not_true, Bool.false_eq_true, if_false,
    index_zero, hs, hz, Bool.and_self, if_true]

/-- C6, witness: negative zero with `Signed` and `Space` gives `"0 B"`. -/
theorem C6_signed_zero_witness :
    Format (F64.zero true) (some { Signed := true, Space := true }) = Result.ok "0 B" :=
  C6_signed_zero (F64.zero true) { Signed := true, Space := true } rfl (by decide!)

/-- C7, the code at negative zero: without `Signed` the number is printed by
`strconv.FormatFloat`, which keeps the sign of zero, so the result is `"-0B"`;
with `Signed` the special case returns `"0B"`. For positive zero both are `"0B"`. -/
theorem C7_negative_zero :
    Format (F64.zero true) (some { Signed := false }) = Result.ok "-0B" ∧
    Format (F64.zero true) (some { Signed := true }) = Result.ok "0B" ∧
    Format (F64.zero false) (some { Signed := false }) = Result.ok "0B" ∧
    Format (F64.zero false) (some { Signed := true }) = Result.ok "0B" := by decide!

/-- C12: the result of `Format` does not depend on `Locale`: two options values
that differ only in `Locale` give the same result, string or error, on every
input. -/
theorem C12_locale_independent (byteSize : F64) (o : Options) (l1 l2 : String) :
    Format byteSize (some { o with Locale := l1 })
      = Format byteSize (some { o with Locale := l2 }) := by
  unfold Format
  simp only [Option.getD_some, formatNumber]
  rfl

/-- C16: for a finite non-zero `byteSize` of magnitude below one `Format`
returns prefix, `formatNumber` of the magnitude, separator and `units[0]`: the
number is the magnitude itself, printed by `strconv.FormatFloat` with neither
scaling nor rounding, and the unit is the unscaled one. -/
theorem C16_sub_unit (byteSize : F64) (options : Option Options)
    (hfin : byteSize.finite = true) (hnz : byteSize.eq (ofInt 0) = false)
    (hlt : (if byteSize.lt (ofInt 0) then F64.neg byteSize else byteSize).lt (ofInt 1) = true) :
    index (unitsOf (options.getD {})) 0 = some (if (options.getD {}).Bits then "b" else "B") ∧
    formatNumber (if byteSize.lt (ofInt 0) then F64.neg byteSize else byteSize)
        (options.getD {}).Locale (localeOptionsOf (options.getD {}))
      = FormatFloat (if byteSize.lt (ofInt 0) then F64.neg byteSize else byteSize) ∧
    Format byteSize options = Result.ok
      ((if byteSize.lt (ofInt 0) then "-" else if (options.getD {}).Signed then "+" else "")
        ++ formatNumber (if byteSize.lt (ofInt 0) then F64.neg byteSize else byteSize)
            (options.getD {}).Locale (localeOptionsOf (options.getD {}))
        ++ (if (options.getD {}).Space then " " else "")
        ++ (if (options.getD {}).Bits then "b" else "B")) := by
  refine ⟨index_zero _, rfl, ?_⟩
  rw [Format_getD, Format_small_case byteSize _ hfin (by rw [hnz]; simp) hlt]
  rfl

/-- C16, witness: one half with `Signed` and `Space` gives `"+0.5 B"`. -/
theorem C16_sub_unit_witness :
    Format (ofDec 5 10) (some { Signed := true, Space := true }) = Result.ok "+0.5 B" := by
  have h := (C16_sub_unit (ofDec 5 10) (some { Signed := true, Space := true }) (by decide!)
    (by decide!) (by decide!)).2.2
  rw [h]
  decide!

/-- C17: for a finite `byteSize` of magnitude at least one, when
`MinimumFractionDigits` or `MaximumFractionDigits` is non-zero the number that
is printed is the scaled value `|byteSize| / base ^ exponent` itself, not
rounded to three decimals, and the result is the same for every other pair of
fraction-digit values that are not both zero. -/
theorem C17_digits_skip_rounding (byteSize : F64) (o : Options)
    (hfin : byteSize.finite = true)
    (h1 : (if byteSize.lt (ofInt 0) then F64.neg byteSize else byteSize).lt (ofInt 1) = false)
    (hne : o.MinimumFractionDigits ≠ 0 ∨ o.MaximumFractionDigits ≠ 0) :
    (∃ (e : Int) (u : String),
      exponentOf (if byteSize.lt (ofInt 0) then F64.neg byteSize else byteSize) o = some e ∧
      index (unitsOf o) e = some u ∧
      Format byteSize (some o) = Result.ok
        ((if byteSize.lt (ofInt 0) then "-" else if o.Signed then "+" else "")
          ++ FormatFloat (F64.div (if byteSize.lt (ofInt 0) then F64.neg byteSize else byteSize)
                (Pow (ofInt (if o.Binary then 1024 else 1000)) e))
          ++ (if o.Space then " " else "") ++ u)) ∧
    (∀ a c : Int, (a ≠ 0 ∨ c ≠ 0) →
      Format byteSize (some { o with MinimumFractionDigits := a, MaximumFractionDigits := c })
        = Format byteSize (some o)) := by
  have hz : ∀ s : Bool, (s && byteSize.eq (ofInt 0)) = false := by
    intro s; rw [not_zero_of_abs_ge_one byteSize hfin h1]; simp
  constructor
  · obtain ⟨e, u, he, _, _, hu, _, hF⟩ := Format_scaled_case byteSize o hfin (hz _) h1
    refine ⟨e, u, he, hu, ?_⟩
    rw [hF, if_neg (localeOptions_ne o hne)]
  · intro a c hac
    have h2 := localeOptions_ne { o with MinimumFractionDigits := a, MaximumFractionDigits := c }
      hac
    have h3 := localeOptions_ne o hne
    unfold Format
    simp only [Option.getD_some, formatNumber, h2, h3, if_false, exponentOf_eq, unitsOf]

/-- C17, witness: 1337 with `MaximumFractionDigits = 1`, compared with the
fraction digits (2, 5). -/
theorem C17_digits_skip_rounding_witness :
    (ofInt 1337).finite = true ∧
    Format (ofInt 1337)
        (some { ({ MaximumFractionDigits := 1 } : Options) with
          MinimumFractionDigits := 2, MaximumFractionDigits := 5 })
      = Format (ofInt 1337) (some { MaximumFractionDigits := 1 }) :=
  ⟨by decide!, (C17_digits_skip_rounding (ofInt 1337) { MaximumFractionDigits := 1 } (by decide!)
    (by decide!) (Or.inr (by decide))).2 2 5 (Or.inl (by decide))⟩

/-- C19: negation symmetry. For a finite `x > 0`: without `Signed` the result
for `-x` is `"-"` followed by the result for `x`; with `Signed` the results for
`x` and `-x` are `"+"` and `"-"` followed by the same text. -/
theorem C19_negation_symmetry (x : F64) (o : Options) (hfin : x.finite = true)
    (hpos : (ofInt 0).lt x = true) :
    (o.Signed = false →
      ∃ s : String, Format x (some o) = Result.ok s ∧
        Format (F64.neg x) (some o) = Result.ok ("-" ++ s)) ∧
    (o.Signed = true →
      ∃ body : String, Format x (some o) = Result.ok ("+" ++ body) ∧
        Format (F64.neg x) (some o) = Result.ok ("-" ++ body)) := by
  obtain ⟨z0, _, k0⟩ := ofInt_zero_nan
  have hn := finite_not_nan x hfin
  have hk : 0 < x.key := by
    have := (lt_iff _ x z0 hn).mp hpos
    omega
  have hnf : (F64.neg x).finite = true := by rw [neg_finite]; exact hfin
  have hnn := finite_not_nan _ hnf
  have hnk := neg_key x
  have hlt : x.lt (ofInt 0) = false := by
    rw [Bool.eq_false_iff, Ne, lt_iff x _ hn z0, k0]; omega
  have hnz : x.eq (ofInt 0) = false := by
    rw [Bool.eq_false_iff, Ne, eq_iff x _ hn z0, k0]; omega
  have hnlt : (F64.neg x).lt (ofInt 0) = true := by
    rw [lt_iff _ _ hnn z0, k0]; omega
  have hnnz : (F64.neg x).eq (ofInt 0) = false := by
    rw [Bool.eq_false_iff, Ne, eq_iff _ _ hnn z0, k0]; omega
  obtain ⟨body, _, hF⟩ := Format_magnitude x o hfin hk
  have e1 := hF x o.Signed hfin hnz (by rw [hlt]; rfl)
  have e2 := hF (F64.neg x) o.Signed hnf hnnz (by rw [hnlt]; simp [neg_neg_eq])
  rw [with_signed_self, hlt] at e1
  rw [with_signed_self, hnlt] at e2
  simp only [Bool.false_eq_true, if_false, if_true] at e1 e2
  constructor
  · intro hs
    rw [hs] at e1
    simp only [Bool.false_eq_true, if_false] at e1
    exact ⟨"" ++ body, e1, by rw [e2]; simp⟩
  · intro hs
    rw [hs] at e1
    simp only [if_true] at e1
    exact ⟨body, e1, e2⟩

/-- C19, witness: 1337 and -1337 with `Signed`. -/
theorem C19_negation_symmetry_witness :
    ∃ body : String, Format (ofInt 1337) (some { Signed := true }) = Result.ok ("+" ++ body) ∧
      Format (F64.neg (ofInt 1337)) (some { Signed := true }) = Result.ok ("-" ++ body) :=
  (C19_negation_symmetry (ofInt 1337) { Signed := true } (by decide!) (by decide!)).2 rfl

/-- C20: `Bits` changes only the unit label. For a finite `byteSize` the results
with `Bits = false` and `Bits = true` have the same sign prefix, the same
number text, the same separator and the same unit index `i`; the label is
`units[i]` of the byte table in the first case and of the bit table in the
second. -/
theorem C20_bits_label_only (byteSize : F64) (o : Options) (hfin : byteSize.finite = true) :
    ∃ (num : String) (i : Int) (u1 u2 : String),
      index (if o.Binary then bibyteUnits else byteUnits) i = some u1 ∧
      index (if o.Binary then bibitUnits else bitUnits) i = some u2 ∧
      Format byteSize (some { o with Bits := false }) = Result.ok
        ((if o.Signed && byteSize.eq (ofInt 0) then ""
          else if byteSize.lt (ofInt 0) then "-" else if o.Signed then "+" else "")
          ++ num ++ (if o.Space then " " else "") ++ u1) ∧
      Format byteSize (some { o with Bits := true }) = Result.ok
        ((if o.Signed && byteSize.eq (ofInt 0) then ""
          else if byteSize.lt (ofInt 0) then "-" else if o.Signed then "+" else "")
          ++ num ++ (if o.Space then " " else "") ++ u2) := by
  have t1 : unitsOf { o with Bits := false } = (if o.Binary then bibyteUnits else byteUnits) := rfl
  have t2 : unitsOf { o with Bits := true } = (if o.Binary then bibitUnits else bitUnits) := rfl
  have i1 := index_zero { o with Bits := false }
  have i2 := index_zero { o with Bits := true }
  rw [t1] at i1
  rw [t2] at i2
  by_cases hz : (o.Signed && byteSize.eq (ofInt 0)) = true
  · refine ⟨"0", 0, _, _, i1, i2, ?_, ?_⟩
    · rw [Format_zero_case byteSize { o with Bits := false } hfin hz, if_pos hz]; simp
    · rw [Format_zero_case byteSize { o with Bits := true } hfin hz, if_pos hz]; simp
  · have hz' : (o.Signed && byteSize.eq (ofInt 0)) = false := by simpa using hz
    rw [if_neg hz]
    by_cases h1 : (if byteSize.lt (ofInt 0) then F64.neg byteSize else byteSize).lt (ofInt 1) = true
    · refine ⟨FormatFloat (if byteSize.lt (ofInt 0) then F64.neg byteSize else byteSize),
        0, _, _, i1, i2, ?_, ?_⟩
      · rw [Format_small_case byteSize { o with Bits := false } hfin hz' h1]
      · rw [Format_small_case byteSize { o with Bits := true } hfin hz' h1]
    · have h1' : (if byteSize.lt (ofInt 0) then F64.neg byteSize else byteSize).lt (ofInt 1)
          = false := by simpa using h1
      obtain ⟨e, u, he, _, _, hu, _, hF⟩ :=
        Format_scaled_case byteSize { o with Bits := false } hfin hz' h1'
      obtain ⟨e2, u2, he2, _, _, hu2, _, hF2⟩ :=
        Format_scaled_case byteSize { o with Bits := true } hfin hz' h1'
      rw [exponentOf_bits] at he he2
      have hee : e2 = e := by rw [he] at he2; exact (Option.some.inj he2).symm
      subst hee
      rw [t1] at hu
      rw [t2] at hu2
      exact ⟨_, e2, u, u2, hu, hu2, hF, hF2⟩

/-- C20, witness: the statement at 1337 with the default options. -/
theorem C20_bits_label_only_witness :
    (ofInt 1337).finite = true ∧
    ∃ (num : String) (i : Int) (u1 u2 : String),
      index (if ({} : Options).Binary then bibyteUnits else byteUnits) i = some u1 ∧
      index (if ({} : Options).Binary then bibitUnits else bitUnits) i = some u2 ∧
      Format (ofInt 1337) (some { ({} : Options) with Bits := false }) = Result.ok
        ((if ({} : Options).Signed && (ofInt 1337).eq (ofInt 0) then ""
          else if (ofInt 1337).lt (ofInt 0) then "-"
          else if ({} : Options).Signed then "+" else "")
          ++ num ++ (if ({} : Options).Space then " " else "") ++ u1) ∧
      Format (ofInt 1337) (some { ({} : Options) with Bits := true }) = Result.ok
        ((if ({} : Options).Signed && (ofInt 1337).eq (ofInt 0) then ""
          else if (ofInt 1337).lt (ofInt 0) then "-"
          else if ({} : Options).Signed then "+" else "")
          ++ num ++ (if ({} : Options).Space then " " else "") ++ u2) :=
  ⟨by decide!, C20_bits_label_only (ofInt 1337) {} (by decide!)⟩

/-- C18: `Space` affects only the separator. For a finite `byteSize` the result
with `Space = false` is a text followed by the unit label, the result with
`Space = true` is the same text, one space, and the same label; the result with
`Space = false` contains no space. -/
theorem C18_space_only_separator (byteSize : F64) (o : Options)
    (hfin : byteSize.finite = true) :
    ∃ (front unit : String), unit ∈ unitsOf o ∧
      Format byteSize (some { o with Space := false }) = Result.ok (front ++ unit) ∧
      Format byteSize (some { o with Space := true }) = Result.ok (front ++ " " ++ unit) ∧
      ' ' ∉ (front ++ unit).toList := by
  have hu0 : (if o.Bits then "b" else "B") ∈ unitsOf o := by
    unfold unitsOf
    cases o.Bits <;> cases o.Binary <;> simp [bibitUnits, bitUnits, bibyteUnits, byteUnits]
  by_cases hz : (o.Signed && byteSize.eq (ofInt 0)) = true
  · refine ⟨"0", _, hu0, ?_, ?_, ?_⟩
    · rw [Format_zero_case byteSize { o with Space := false } hfin hz]; simp
    · rw [Format_zero_case byteSize { o with Space := true } hfin hz]; rfl
    · rw [toList_append]
      simp only [List.mem_append, not_or]
      exact ⟨by decide, unit_no_space o _ hu0⟩
  · have hz' : (o.Signed && byteSize.eq (ofInt 0)) = false := by simpa using hz
    by_cases h1 : (if byteSize.lt (ofInt 0) then F64.neg byteSize else byteSize).lt (ofInt 1) = true
    · refine ⟨(if byteSize.lt (ofInt 0) then "-" else if o.Signed then "+" else "")
          ++ FormatFloat (if byteSize.lt (ofInt 0) then F64.neg byteSize else byteSize),
        _, hu0, ?_, ?_, ?_⟩
      · rw [Format_small_case byteSize { o with Space := false } hfin hz' h1]; simp
      · rw [Format_small_case byteSize { o with Space := true } hfin hz' h1]; rfl
      · rw [toList_append, toList_append]
        simp only [List.mem_append, not_or]
        exact ⟨⟨prefix_no_space _ _, FormatFloat_no_space _⟩, unit_no_space o _ hu0⟩
    · have h1' : (if byteSize.lt (ofInt 0) then F64.neg byteSize else byteSize).lt (ofInt 1)
          = false := by simpa using h1
      obtain ⟨e, u, he, _, _, hu, hmem, hF⟩ :=
        Format_scaled_case byteSize { o with Space := false } hfin hz' h1'
      obtain ⟨e2, u2, he2, _, _, hu2, _, hF2⟩ :=
        Format_scaled_case byteSize { o with Space := true } hfin hz' h1'
      rw [exponentOf_space] at he he2
      have hee : e2 = e := by rw [he] at he2; exact (Option.some.inj he2).symm
      subst hee
      have huu : u2 = u := by
        have t : unitsOf { o with Space := true } = unitsOf { o with Space := false } := rfl
        rw [t, hu] at hu2
        exact (Option.some.inj hu2).symm
      subst huu
      refine ⟨(if byteSize.lt (ofInt 0) then "-" else if o.Signed then "+" else "")
          ++ FormatFloat
            (if (localeOptionsOf o).length = 0 then
              roundToPrecision (F64.div (if byteSize.lt (ofInt 0) then F64.neg byteSize else byteSize)
                (Pow (ofInt (if o.Binary then 1024 else 1000)) e2)) 3
             else F64.div (if byteSize.lt (ofInt 0) then F64.neg byteSize else byteSize)
                (Pow (ofInt (if o.Binary then 1024 else 1000)) e2)), u2, hmem, ?_, ?_, ?_⟩
      · rw [hF]
        have t : localeOptionsOf { o with Space := false } = localeOptionsOf o := rfl
        rw [t]
        simp
      · rw [hF2]
        rfl
      · rw [toList_append, toList_append]
        simp only [List.mem_append, not_or]
        exact ⟨⟨prefix_no_space _ _, FormatFloat_no_space _⟩, unit_no_space o _ hmem⟩

/-- C18, witness: the statement at 1337 with the default options. -/
theorem C18_space_only_separator_witness :
    (ofInt 1337).finite = true ∧
    ∃ (front unit : String), unit ∈ unitsOf {} ∧
      Format (ofInt 1337) (some { ({} : Options) with Space := false })
        = Result.ok (front ++ unit) ∧
      Format (ofInt 1337) (some { ({} : Options) with Space := true })
        = Result.ok (front ++ " " ++ unit) ∧
      ' ' ∉ (front ++ unit).toList :=
  ⟨by decide!, C18_space_only_separator (ofInt 1337) {} (by decide!)⟩

/-- C15, the code at 1000.4999999999999: the exponent is 1 and the scaled value,
both the exact quotient and the float quotient, is below 1.0005 and so nearer
to 1.000 than to 1.001; `roundToPrecision` returns 1.001 all the same, because
the product with 1000 is first rounded to the float 1000.5, and the result is
`"1.001kB"`. -/
theorem C15_round_near_tie :
    exponentOf (ofDec 10004999999999999 (10 ^ 13)) {} = some 1 ∧
    (ofDec 10004999999999999 (10 ^ 13)).val / 1000 < 10005 / 10000 ∧
    10000 / 10000 ≤ (ofDec 10004999999999999 (10 ^ 13)).val / 1000 ∧
    (F64.div (ofDec 10004999999999999 (10 ^ 13)) (Pow (ofInt 1000) 1)).val < 10005 / 10000 ∧
    F64.mul (F64.div (ofDec 10004999999999999 (10 ^ 13)) (Pow (ofInt 1000) 1))
        (Pow (ofInt 10) 3) = ofDec 10005 10 ∧
    roundToPrecision (F64.div (ofDec 10004999999999999 (10 ^ 13)) (Pow (ofInt 1000) 1)) 3
      = ofDec 1001 1000 ∧
    Format (ofDec 10004999999999999 (10 ^ 13)) none = Result.ok "1.001kB" := by
  have hb : ofDec 10004999999999999 (10 ^ 13) = mk3 false 1032 4296891441348607 := by decide!
  have hs : F64.div (ofDec 10004999999999999 (10 ^ 13)) (Pow (ofInt 1000) 1)
      = mk3 false 1023 2251799813685 := by decide!
  refine ⟨by decide!, ?_, ?_, ?_, by decide!, by decide!, by decide!⟩
  · rw [hb, val_mk3_normal _ _ (by norm_num) (by norm_num) (by norm_num [F64.hidden])]
    norm_num [F64.hidden]
  · rw [hb, val_mk3_normal _ _ (by norm_num) (by norm_num) (by norm_num [F64.hidden])]
    norm_num [F64.hidden]
  · rw [hs, val_mk3_normal _ _ (by norm_num) (by norm_num) (by norm_num [F64.hidden])]
    norm_num [F64.hidden]

/-- C11, as stated, fails: for the float nearest to ten to the 40 the exponent is
8 and the number printed is ten to the 16 (the result is
`"10000000000000000YB"`), but `10 ^ 16 * 1000 ^ 8` differs from the input by
more than `0.0005 * 1000 ^ 8`: a float cannot hold the three decimals of a
number of that size. -/
theorem C11_counterexample :
    (ofInt 1).key ≤ (ofDec (10 ^ 40) 1).key ∧
    exponentOf (ofDec (10 ^ 40) 1) {} = some 8 ∧
    roundToPrecision (F64.div (ofDec (10 ^ 40) 1) (Pow (ofInt 1000) 8)) 3 = ofInt (10 ^ 16) ∧
    Format (ofDec (10 ^ 40) 1) none = Result.ok (FormatFloat (ofInt (10 ^ 16)) ++ "YB") ∧
    Format (ofDec (10 ^ 40) 1) none = Result.ok "10000000000000000YB" ∧
    ¬ (|(ofInt (10 ^ 16)).val * 1000 ^ 8 - (ofDec (10 ^ 40) 1).val| ≤ 5 / 10000 * 1000 ^ 8) := by
  have hb : ofDec (10 ^ 40) 1 = mk3 false 1155 3768206498159781 := by decide!
  have hm : ofInt (10 ^ 16) = mk3 false 1076 496400372629504 := by decide!
  refine ⟨by decide!, by decide!, by decide!, by decide!, by decide!, ?_⟩
  rw [hb, hm, val_mk3_normal _ _ (by norm_num) (by norm_num) (by norm_num [F64.hidden]),
    val_mk3_normal _ _ (by norm_num) (by norm_num) (by norm_num [F64.hidden])]
  norm_num [F64.hidden]

/-- C11, amended: for a finite `byteSize` of magnitude at least one and the
default fraction digits, the number `m` that `Format` prints and the index `e`
of the printed unit satisfy: `m * base ^ e` differs from `|byteSize|` by at most
the rounding tolerance `0.0005 * base ^ e` plus the relative error of float64
arithmetic, `2 ^ -50 * (|byteSize| + base ^ e)`. -/
theorem C11_round_trip_tolerance (byteSize : F64) (o : Options)
    (hfin : byteSize.finite = true)
    (h1 : (if byteSize.lt (ofInt 0) then F64.neg byteSize else byteSize).lt (ofInt 1) = false)
    (hmin : o.MinimumFractionDigits = 0) (hmax : o.MaximumFractionDigits = 0) :
    ∃ (e : Int) (u : String) (m : F64), 0 ≤ e ∧ e ≤ 8 ∧ index (unitsOf o) e = some u ∧
      Format byteSize (some o) = Result.ok
        ((if byteSize.lt (ofInt 0) then "-" else if o.Signed then "+" else "")
          ++ FormatFloat m ++ (if o.Space then " " else "") ++ u) ∧
      |m.val * ((if o.Binary then 1024 else 1000 : ℚ)) ^ e.toNat
          - (if byteSize.lt (ofInt 0) then F64.neg byteSize else byteSize).val|
        ≤ 5 / 10000 * ((if o.Binary then 1024 else 1000 : ℚ)) ^ e.toNat
          + 2 ^ (-50 : Int) *
            ((if byteSize.lt (ofInt 0) then F64.neg byteSize else byteSize).val
              + ((if o.Binary then 1024 else 1000 : ℚ)) ^ e.toNat) := by
  have hz : (o.Signed && byteSize.eq (ofInt 0)) = false := by
    rw [not_zero_of_abs_ge_one byteSize hfin h1]; simp
  obtain ⟨bf, _⟩ := abs_facts byteSize hfin
  have hk := (abs_ge_one_iff byteSize hfin).mp h1
  have hl : (localeOptionsOf o).length = 0 := by
    unfold localeOptionsOf
    simp [hmin, hmax]
  obtain ⟨e, u, he, e0, e8, hu, _, hF⟩ := Format_scaled_case byteSize o hfin hz h1
  rw [if_pos hl] at hF
  exact ⟨e, u, _, e0, e8, hu, hF, round_trip _ o bf hk e he⟩

/-- C11, witness: the amended statement at 1337 with the default options. -/
theorem C11_round_trip_tolerance_witness :
    ∃ (e : Int) (u : String) (m : F64), 0 ≤ e ∧ e ≤ 8 ∧ index (unitsOf {}) e = some u ∧
      Format (ofInt 1337) (some {}) = Result.ok
        ((if (ofInt 1337).lt (ofInt 0) then "-" else if ({} : Options).Signed then "+" else "")
          ++ FormatFloat m ++ (if ({} : Options).Space then " " else "") ++ u) ∧
      |m.val * ((if ({} : Options).Binary then 1024 else 1000 : ℚ)) ^ e.toNat
          - (if (ofInt 1337).lt (ofInt 0) then F64.neg (ofInt 1337) else ofInt 1337).val|
        ≤ 5 / 10000 * ((if ({} : Options).Binary then 1024 else 1000 : ℚ)) ^ e.toNat
          + 2 ^ (-50 : Int) *
            ((if (ofInt 1337).lt (ofInt 0) then F64.neg (ofInt 1337) else ofInt 1337).val
              + ((if ({} : Options).Binary then 1024 else 1000 : ℚ)) ^ e.toNat) :=
  C11_round_trip_tolerance (ofInt 1337) {} (by decide!) (by decide!) rfl rfl

/-- C13: for every finite `byteSize` and every options `Format` does not panic.
For a magnitude of at least one the exponent that it computes is an integer
between 0 and `len(units) - 1`, which is 8, the label at that index exists and
ends the output; from the eighth power of the base on (`1000 ^ 8`, or `1024 ^ 8`
with `Binary`) the exponent is 8 and the label is the last one of the table. -/
theorem C13_exponent_in_range (byteSize : F64) (options : Option Options)
    (hfin : byteSize.finite = true) :
    Format byteSize options ≠ Result.panic ∧
    ((if byteSize.lt (ofInt 0) then F64.neg byteSize else byteSize).lt (ofInt 1) = false →
      ∃ (e : Int) (u body : String),
        exponentOf (if byteSize.lt (ofInt 0) then F64.neg byteSize else byteSize)
          (options.getD {}) = some e ∧
        0 ≤ e ∧ e ≤ ((unitsOf (options.getD {})).length : Int) - 1 ∧
        ((unitsOf (options.getD {})).length : Int) - 1 = 8 ∧
        index (unitsOf (options.getD {})) e = some u ∧
        Format byteSize options = Result.ok (body ++ u) ∧
        (((if (options.getD {}).Binary then 1024 else 1000 : ℚ)) ^ 8
            ≤ (if byteSize.lt (ofInt 0) then F64.neg byteSize else byteSize).val →
          e = 8 ∧ (unitsOf (options.getD {})).getLast? = some u)) := by
  constructor
  · obtain ⟨num, unit, _, hF⟩ := Format_finite byteSize options hfin
    rw [hF]
    intro hc
    cases hc
  · intro h1
    have hz : ((options.getD {}).Signed && byteSize.eq (ofInt 0)) = false := by
      rw [not_zero_of_abs_ge_one byteSize hfin h1]; simp
    obtain ⟨bf, _⟩ := abs_facts byteSize hfin
    obtain ⟨e, u, he, e0, e8, hu, _, hF⟩ :=
      Format_scaled_case byteSize (options.getD {}) hfin hz h1
    rw [← Format_getD] at hF
    have e8' : e ≤ ((unitsOf (options.getD {})).length : Int) - 1 := by
      rw [unitsOf_length]; exact e8
    refine ⟨e, u, _, he, e0, e8', unitsOf_length _, hu, hF, ?_⟩
    · intro h8
      have h := exponentOf_last _ (options.getD {}) bf h8
      rw [he] at h
      have e9 : e = 8 := Option.some.inj h
      rw [e9] at hu
      exact ⟨e9, index_last _ u hu⟩

/-- C13, witness: the float nearest to ten to the 25, above `1000 ^ 8`, with the
default options: the exponent is 8 and the label is the last of the table. -/
theorem C13_exponent_in_range_witness :
    (ofDec (10 ^ 25) 1).finite = true ∧
    Format (ofDec (10 ^ 25) 1) none ≠ Result.panic ∧
    ∃ (e : Int) (u body : String),
      exponentOf (if (ofDec (10 ^ 25) 1).lt (ofInt 0) then F64.neg (ofDec (10 ^ 25) 1)
          else ofDec (10 ^ 25) 1) ((none : Option Options).getD {}) = some e ∧
      0 ≤ e ∧ e ≤ ((unitsOf ((none : Option Options).getD {})).length : Int) - 1 ∧
      ((unitsOf ((none : Option Options).getD {})).length : Int) - 1 = 8 ∧
      index (unitsOf ((none : Option Options).getD {})) e = some u ∧
      Format (ofDec (10 ^ 25) 1) none = Result.ok (body ++ u) ∧
      e = 8 ∧ (unitsOf ((none : Option Options).getD {})).getLast? = some u := by
  have hb : ofDec (10 ^ 25) 1 = mk3 false 1106 153013245706897 := by decide!
  have hl : (ofDec (10 ^ 25) 1).lt (ofInt 0) = false := by decide!
  obtain ⟨h1, h2⟩ := C13_exponent_in_range (ofDec (10 ^ 25) 1) none (by decide!)
  obtain ⟨e, u, body, a1, a2, a3, a4, a5, a6, a7⟩ := h2 (by decide!)
  refine ⟨by decide!, h1, e, u, body, a1, a2, a3, a4, a5, a6, a7 ?_⟩
  rw [hl]
  simp only [Bool.false_eq_true, if_false]
  rw [hb, val_mk3_normal _ _ (by norm_num) (by norm_num) (by norm_num [F64.hidden])]
  norm_num [F64.hidden]

/-- C10: for fixed options and finite positive values `x ≤ y` the index of the
unit that `Format` prints for `x` is at most the index of the unit that it
prints for `y`. The index is 0 for a value below one and the exponent that
`Format` computes otherwise. -/
theorem C10_unit_index_monotone (x y : F64) (o : Options) (hx : x.finite = true)
    (hy : y.finite = true) (hpos : 0 < x.val) (hxy : x.val ≤ y.val) :
    ∃ (i j : Int) (ux uy : String) (mx my : F64),
      (x.lt (ofInt 1) = true ∧ i = 0 ∨ x.lt (ofInt 1) = false ∧ exponentOf x o = some i) ∧
      (y.lt (ofInt 1) = true ∧ j = 0 ∨ y.lt (ofInt 1) = false ∧ exponentOf y o = some j) ∧
      index (unitsOf o) i = some ux ∧ index (unitsOf o) j = some uy ∧
      Format x (some o) = Result.ok ((if o.Signed then "+" else "") ++ FormatFloat mx
        ++ (if o.Space then " " else "") ++ ux) ∧
      Format y (some o) = Result.ok ((if o.Signed then "+" else "") ++ FormatFloat my
        ++ (if o.Space then " " else "") ++ uy) ∧
      i ≤ j := by
  obtain ⟨xk, xl, xe⟩ := pos_facts x hx hpos
  obtain ⟨yk, yl, ye⟩ := pos_facts y hy (lt_of_lt_of_le hpos hxy)
  have hkxy : x.key ≤ y.key := (key_le_iff _ _).mpr hxy
  have hzx : (o.Signed && x.eq (ofInt 0)) = false := by rw [xe]; simp
  have hzy : (o.Signed && y.eq (ofInt 0)) = false := by rw [ye]; simp
  -- the result for one value
  have one : ∀ z : F64, z.finite = true → z.lt (ofInt 0) = false →
      (o.Signed && z.eq (ofInt 0)) = false →
      ∃ (i : Int) (u : String) (m : F64),
        (z.lt (ofInt 1) = true ∧ i = 0 ∨ z.lt (ofInt 1) = false ∧ exponentOf z o = some i) ∧
        index (unitsOf o) i = some u ∧ 0 ≤ i ∧
        Format z (some o) = Result.ok ((if o.Signed then "+" else "") ++ FormatFloat m
          ++ (if o.Space then " " else "") ++ u) := by
    intro z hz zl zz
    cases h1 : z.lt (ofInt 1)
    · have h1' : (if z.lt (ofInt 0) then F64.neg z else z).lt (ofInt 1) = false := by
        rw [zl]; exact h1
      obtain ⟨e, u, he, e0, e8, hu, _, hF⟩ := Format_scaled_case z o hz zz h1'
      rw [zl] at he hF
      simp only [Bool.false_eq_true, if_false] at he hF
      exact ⟨e, u, _, Or.inr ⟨rfl, he⟩, hu, e0, hF⟩
    · have h1' : (if z.lt (ofInt 0) then F64.neg z else z).lt (ofInt 1) = true := by
        rw [zl]; exact h1
      have hF := Format_small_case z o hz zz h1'
      rw [zl] at hF
      simp only [Bool.false_eq_true, if_false] at hF
      exact ⟨0, _, z, Or.inl ⟨rfl, rfl⟩, index_zero o, le_rfl, hF⟩
  obtain ⟨i, ux, mx, ci, hui, i0, hFx⟩ := one x hx xl hzx
  obtain ⟨j, uy, my, cj, huj, j0, hFy⟩ := one y hy yl hzy
  refine ⟨i, j, ux, uy, mx, my, ci, cj, hui, huj, hFx, hFy, ?_⟩
  rcases ci with ⟨_, rfl⟩ | ⟨hx1, hex⟩
  · exact j0
  · have kx1 : (ofInt 1).key ≤ x.key := by
      have := (abs_ge_one_iff x hx).mp (by rw [xl]; exact hx1)
      rwa [xl] at this
    rcases cj with ⟨hy1, _⟩ | ⟨_, hey⟩
    · exfalso
      obtain ⟨_, z1, _⟩ := ofInt_zero_nan
      have := (lt_iff y _ (finite_not_nan y hy) z1).mp hy1
      omega
    · exact exponent_mono x y o hx hy kx1 hkxy i j hex hey

/-- C10, witness: 999 and 1337 with the default options. -/
theorem C10_unit_index_monotone_witness :
    ∃ (i j : Int) (ux uy : String) (mx my : F64),
      ((ofInt 999).lt (ofInt 1) = true ∧ i = 0 ∨
        (ofInt 999).lt (ofInt 1) = false ∧ exponentOf (ofInt 999) {} = some i) ∧
      ((ofInt 1337).lt (ofInt 1) = true ∧ j = 0 ∨
        (ofInt 1337).lt (ofInt 1) = false ∧ exponentOf (ofInt 1337) {} = some j) ∧
      index (unitsOf {}) i = some ux ∧ index (unitsOf {}) j = some uy ∧
      Format (ofInt 999) (some {}) = Result.ok ((if ({} : Options).Signed then "+" else "")
        ++ FormatFloat mx ++ (if ({} : Options).Space then " " else "") ++ ux) ∧
      Format (ofInt 1337) (some {}) = Result.ok ((if ({} : Options).Signed then "+" else "")
        ++ FormatFloat my ++ (if ({} : Options).Space then " " else "") ++ uy) ∧
      i ≤ j := by
  have v1 : (ofInt 999).val = 999 := (ofInt_val_small 999 (by norm_num) (by norm_num)).1
  have v2 : (ofInt 1337).val = 1337 := by
    have := (ofInt_val 1337 (by norm_num [F64.hidden])).1
    exact_mod_cast this
  exact C10_unit_index_monotone (ofInt 999) (ofInt 1337) {} (by decide!) (by decide!)
    (by rw [v1]; norm_num) (by rw [v1, v2]; norm_num)

end Gotty
